import Mathlib

/-!
# A verification development for `comp.c`

`comp.c` is a single-pass front end for a small C-like language: a lexer
(`get_next_token`), a recursive-descent parser (`parse_program` and the
procedures below it) and a scoped symbol table (`add_symbol`, `find_symbol`,
`enter_scope`, `exit_scope`).

The C program keeps its whole state in global variables.  The embedding
gathers these globals in one record, `State`, and every C procedure becomes a
function on `State`; the procedures of the lexer touch the input file and
the two position counters only, which form the record `Source`.  A call of `exit(EXIT_FAILURE)` becomes an error value
that is propagated to the caller.  Text written to `stdout`/`stderr` is not
modelled; only the category and the location of a diagnostic are kept.

Conventions of the embedding:

* the input file is the list of characters that remain to be read; `EOF` is
  the empty list (`fgetc` keeps returning `EOF` there);
* C strings are lists of characters (`strcmp(a, b) == 0` is `a = b`);
* `int` counters are unbounded integers: the line, the column and the scope
  level change by one per character or per brace read, so they stay far from
  the limits of a machine `int` on any input that fits in memory;
* `symbol_table[0 .. symbol_count-1]` is a list, `symbol_count` its length.
-/

namespace Comp

/-! ## Data model -/

/-- The enumeration `TokenType` of `comp.c`. -/
inductive TokenType where
  | TOKEN_KEYWORD
  | TOKEN_IDENTIFIER
  | TOKEN_NUMBER
  | TOKEN_OPERATOR
  | TOKEN_DELIMITER
  | TOKEN_EOF
  | TOKEN_ERROR
  deriving DecidableEq

/-- The struct `Token`: kind, lexeme and the location recorded for it. -/
structure Token where
  type : TokenType
  value : List Char
  line : Int
  column : Int
  deriving DecidableEq

/-- The struct `Symbol`: a declared name, its type and its scope level. -/
structure Symbol where
  name : List Char
  type : List Char
  scope_level : Int
  deriving DecidableEq

/-- The constant `MAX_TOKEN_LENGTH`. -/
def MAX_TOKEN_LENGTH : Nat := 100

/-- The constant `MAX_SYMBOLS`. -/
def MAX_SYMBOLS : Nat := 100

/-- The input: the characters of `input_file` that remain to be read, with
the globals `current_line` and `current_column` of the position tracker. -/
structure Source where
  input_file : List Char
  current_line : Int
  current_column : Int
  deriving DecidableEq

/-- The global variables of `comp.c`: the input with its position counters,
the current token, the symbol table and the scope level. -/
structure State where
  source : Source
  current_token : Token
  symbol_table : List Symbol
  current_scope_level : Int
  deriving DecidableEq

/-- The conditions on which `comp.c` stops with `exit(EXIT_FAILURE)`.
`syntax_error` prints the current token, the two semantic errors print the
name and the location of the current token, the capacity error prints no
location. -/
inductive Err where
  | syntax_error (near : Token)
  | redeclaration (name : List Char) (line column : Int)
  | undeclared (name : List Char) (line column : Int)
  | table_full
  deriving DecidableEq

/-! ## Symbol table -/

/-- The test of the `for` loop of `add_symbol`: some symbol of the table has
this name and this scope level. -/
def redeclared (table : List Symbol) (name : List Char) (level : Int) : Bool :=
  table.any fun y => decide (y.name = name) && decide (y.scope_level = level)

/-- `add_symbol(name, type)`. -/
def add_symbol (s : State) (name type : List Char) : Except Err State :=
  if redeclared s.symbol_table name s.current_scope_level then
    .error (.redeclaration name s.current_token.line s.current_token.column)
  else if s.symbol_table.length ≥ MAX_SYMBOLS then
    .error .table_full
  else
    .ok { s with symbol_table :=
            s.symbol_table ++ [⟨name, type, s.current_scope_level⟩] }

/-- The loop of `find_symbol`, entered with `i + 1` in the first argument:
it scans `symbol_table[i]`, `symbol_table[i-1]`, ... and answers the first
index whose symbol has the name and a scope level not above the current one. -/
def find_symbol_loop (table : List Symbol) (level : Int) (name : List Char) :
    Nat → Option Nat
  | 0 => none
  | i + 1 =>
    match table[i]? with
    | some y =>
      if y.name = name ∧ y.scope_level ≤ level then some i
      else find_symbol_loop table level name i
    | none => find_symbol_loop table level name i

/-- `find_symbol(name)`: the index of the symbol the returned pointer refers
to, `none` for `NULL`. -/
def find_symbol (s : State) (name : List Char) : Option Nat :=
  find_symbol_loop s.symbol_table s.current_scope_level name s.symbol_table.length

/-- `check_symbol_declared(name)`. -/
def check_symbol_declared (s : State) (name : List Char) : Except Err State :=
  match find_symbol s name with
  | none => .error (.undeclared name s.current_token.line s.current_token.column)
  | some _ => .ok s

/-- `enter_scope()`. -/
def enter_scope (s : State) : State :=
  { s with current_scope_level := s.current_scope_level + 1 }

/-- The loop of `exit_scope`, entered with `i + 1` in the last argument; it
answers the value of `symbol_count` when the loop ends (`symbol_count` is
`i + 1` throughout). -/
def exit_scope_loop (table : List Symbol) (level : Int) : Nat → Nat
  | 0 => 0
  | i + 1 =>
    match table[i]? with
    | some y =>
      if y.scope_level = level then exit_scope_loop table level i else i + 1
    | none => i + 1

/-- `exit_scope()`. -/
def exit_scope (s : State) : State :=
  { s with
    symbol_table :=
      s.symbol_table.take
        (exit_scope_loop s.symbol_table s.current_scope_level s.symbol_table.length)
    current_scope_level := s.current_scope_level - 1 }

/-! ## Position tracker and lexer -/

/-- `getch(file)`: reads one character (`none` is `EOF`) and advances the
line and column counters. -/
def getch (s : Source) : Option Char × Source :=
  match s.input_file with
  | [] => (none, s)
  | c :: rest =>
    if c = '\n' then
      (some c, { s with input_file := rest
                        current_line := s.current_line + 1
                        current_column := 0 })
    else
      (some c, { s with input_file := rest
                        current_column := s.current_column + 1 })

/-- `ungetch_adjust(file, c)`: pushes `c` back and steps the counters back. -/
def ungetch_adjust (s : Source) (c : Option Char) : Source :=
  match c with
  | none => s
  | some c =>
    if c = '\n' then
      { s with input_file := c :: s.input_file
               current_line := if s.current_line > 1 then s.current_line - 1 else 1 }
    else
      { s with input_file := c :: s.input_file
               current_column := if s.current_column > 0 then s.current_column - 1 else 0 }

/-- `isspace` in the "C" locale: space, `\t`, `\n`, `\v`, `\f`, `\r`. -/
def isspace (c : Char) : Bool :=
  c.toNat = 32 || (9 ≤ c.toNat && c.toNat ≤ 13)

/-- `isalpha` in the "C" locale. -/
def isalpha (c : Char) : Bool :=
  (65 ≤ c.toNat && c.toNat ≤ 90) || (97 ≤ c.toNat && c.toNat ≤ 122)

/-- `isdigit`. -/
def isdigit (c : Char) : Bool :=
  48 ≤ c.toNat && c.toNat ≤ 57

/-- `isalnum` in the "C" locale. -/
def isalnum (c : Char) : Bool :=
  isalpha c || isdigit c

/-- The array `keywords`. -/
def keywords : List (List Char) :=
  ["if".toList, "else".toList, "while".toList, "for".toList, "return".toList,
   "int".toList]

/-- The array `operators`. -/
def operators : List Char :=
  ['+', '-', '*', '/', '=', '<', '>', '!', '&', '|']

/-- The array `delimiters`. -/
def delimiters : List Char :=
  ['{', '}', '(', ')', ';', ',', ':']

/-- `is_keyword(str)`. -/
def is_keyword (str : List Char) : Bool :=
  keywords.any fun k => decide (str = k)

/-- `is_operator(c)`. -/
def is_operator (c : Char) : Bool :=
  operators.any fun o => decide (c = o)

/-- `is_delimiter(c)`. -/
def is_delimiter (c : Char) : Bool :=
  delimiters.any fun d => decide (c = d)

/-- The loop `while (isspace(c)) c = getch(file);`.  The first argument
bounds the number of iterations; `get_next_token` passes a bound that the
loop cannot reach, because every iteration but the last reads a character. -/
def skip_space_loop : Nat → Option Char → Source → Option Char × Source
  | 0, c, s => (c, s)
  | n + 1, c, s =>
    match c with
    | some d =>
      if isspace d then skip_space_loop n (getch s).1 (getch s).2 else (c, s)
    | none => (c, s)

/-- The loop `do { token.value[i++] = c; c = getch(file); }
while (p(c) && i < MAX_TOKEN_LENGTH - 1);` with `p` one of `isalnum`,
`isdigit`.  `value` holds `token.value[0 .. i-1]`; the answer is the final
`token.value`, the character read last and the state.  The first argument
bounds the number of further iterations; at `0` the body runs once more and
the loop ends (`get_next_token` passes the number of characters left, so at
`0` the character read is `EOF`). -/
def run_loop (p : Char → Bool) :
    Nat → List Char → Char → Source → List Char × Option Char × Source
  | 0, value, c, s => (value ++ [c], (getch s).1, (getch s).2)
  | n + 1, value, c, s =>
    match (getch s).1 with
    | some d =>
      if p d && decide ((value ++ [c]).length < MAX_TOKEN_LENGTH - 1) then
        run_loop p n (value ++ [c]) d (getch s).2
      else (value ++ [c], some d, (getch s).2)
    | none => (value ++ [c], none, (getch s).2)

/-- The test that joins two operator characters into one operator. -/
def combinable (c : Char) (next_c : Option Char) : Bool :=
  (c = '=' && next_c = some '=') || (c = '!' && next_c = some '=') ||
  (c = '<' && next_c = some '=') || (c = '>' && next_c = some '=') ||
  (c = '&' && next_c = some '&') || (c = '|' && next_c = some '|')

/-- The C string stored by `token.value[0] = c; token.value[1] = 0`: one
character, or the empty string when `c` is the NUL character. -/
def one_char (c : Char) : List Char :=
  if c.toNat = 0 then [] else [c]

/-- `get_next_token(file)`: the token and the state after reading it. -/
def get_next_token (s : Source) : Token × Source :=
  let r := skip_space_loop (s.input_file.length + 1) (getch s).1 (getch s).2
  let s1 := r.2
  match r.1 with
  | none => (⟨.TOKEN_EOF, [], s1.current_line, s1.current_column⟩, s1)
  | some c =>
    if isalpha c then
      let w := run_loop isalnum s1.input_file.length [] c s1
      (⟨if is_keyword w.1 then .TOKEN_KEYWORD else .TOKEN_IDENTIFIER, w.1,
          s1.current_line, s1.current_column⟩,
        ungetch_adjust w.2.2 w.2.1)
    else if isdigit c then
      let w := run_loop isdigit s1.input_file.length [] c s1
      (⟨.TOKEN_NUMBER, w.1, s1.current_line, s1.current_column⟩,
        ungetch_adjust w.2.2 w.2.1)
    else if is_operator c then
      let next_c := (getch s1).1
      let s2 := (getch s1).2
      if combinable c next_c then
        (⟨.TOKEN_OPERATOR, c :: next_c.toList, s1.current_line, s1.current_column⟩, s2)
      else
        (⟨.TOKEN_OPERATOR, [c], s1.current_line, s1.current_column⟩,
          ungetch_adjust s2 next_c)
    else if is_delimiter c then
      (⟨.TOKEN_DELIMITER, [c], s1.current_line, s1.current_column⟩, s1)
    else
      (⟨.TOKEN_ERROR, one_char c, s1.current_line, s1.current_column⟩, s1)

/-! ## Parser utilities -/

/-- The result of a parsing procedure: it returns in a new state, it stops
the program with a condition, or the recursion budget of the embedding is
used up before it does either. -/
inductive Outcome where
  | ok (s : State)
  | error (e : Err)
  | out_of_fuel
  deriving DecidableEq

/-- Sequencing of two procedures: the second runs when the first returns. -/
def Outcome.andThen (r : Outcome) (k : State → Outcome) : Outcome :=
  match r with
  | .ok s => k s
  | .error e => .error e
  | .out_of_fuel => .out_of_fuel

/-- A procedure without recursion never uses up the budget. -/
def Outcome.of (r : Except Err State) : Outcome :=
  match r with
  | .ok s => .ok s
  | .error e => .error e

/-- `next_token()`. -/
def next_token (s : State) : State :=
  { s with source := (get_next_token s.source).2
           current_token := (get_next_token s.source).1 }

/-- `syntax_error(message)`: the condition raised at the current token. -/
def syntax_error (s : State) : Err :=
  .syntax_error s.current_token

/-- `current_token.value[0]` of a C string: NUL for the empty string. -/
def first_char (value : List Char) : Char :=
  value.headD (Char.ofNat 0)

/-- `match_delimiter(expected)`. -/
def match_delimiter (s : State) (expected : Char) : Bool :=
  decide (s.current_token.type = .TOKEN_DELIMITER) &&
    decide (first_char s.current_token.value = expected)

/-- `match_operator(op)`. -/
def match_operator (s : State) (op : List Char) : Bool :=
  decide (s.current_token.type = .TOKEN_OPERATOR) && decide (s.current_token.value = op)

/-- The test `current_token.type == TOKEN_KEYWORD &&
strcmp(current_token.value, kw) == 0`. -/
def match_keyword (s : State) (kw : List Char) : Bool :=
  decide (s.current_token.type = .TOKEN_KEYWORD) && decide (s.current_token.value = kw)

/-- `consume_delimiter(expected)`. -/
def consume_delimiter (s : State) (expected : Char) : Except Err State :=
  if match_delimiter s expected then .ok (next_token s) else .error (syntax_error s)

/-- `consume_operator(op)`. -/
def consume_operator (s : State) (op : List Char) : Except Err State :=
  if match_operator s op then .ok (next_token s) else .error (syntax_error s)

/-- `consume_keyword(kw)`. -/
def consume_keyword (s : State) (kw : List Char) : Except Err State :=
  if match_keyword s kw then .ok (next_token s) else .error (syntax_error s)

/-! ## Parsing procedures

Every procedure takes the recursion budget first: a call of a procedure and
an iteration of a `while` loop each use one unit.  The `while` loops of the
binary operator levels are the `_loop` functions. -/

mutual

/-- `parse_statement_list()`. -/
def parse_statement_list : Nat → State → Outcome
  | 0, _ => .out_of_fuel
  | fuel + 1, s =>
    if s.current_token.type ≠ .TOKEN_EOF ∧ ¬ match_delimiter s '}' then
      (parse_statement fuel s).andThen fun s => parse_statement_list fuel s
    else .ok s

/-- `parse_statement()`. -/
def parse_statement : Nat → State → Outcome
  | 0, _ => .out_of_fuel
  | fuel + 1, s =>
    if match_keyword s "int".toList then parse_declaration fuel s
    else if match_delimiter s '{' then parse_compound_statement fuel s
    else if match_keyword s "if".toList then parse_if_statement fuel s
    else if match_keyword s "while".toList then parse_while_statement fuel s
    else if match_keyword s "for".toList then parse_for_statement fuel s
    else if match_keyword s "return".toList then parse_return_statement fuel s
    else parse_expression_statement fuel s

/-- `parse_declaration()`. -/
def parse_declaration : Nat → State → Outcome
  | 0, _ => .out_of_fuel
  | fuel + 1, s =>
    (Outcome.of (consume_keyword s "int".toList)).andThen fun s =>
    if s.current_token.type ≠ .TOKEN_IDENTIFIER then .error (syntax_error s)
    else
      (Outcome.of (add_symbol s s.current_token.value "int".toList)).andThen fun s =>
      (if match_operator (next_token s) "=".toList then
        parse_expression fuel (next_token (next_token s))
       else .ok (next_token s)).andThen fun s =>
      Outcome.of (consume_delimiter s ';')

/-- `parse_expression_statement()`. -/
def parse_expression_statement : Nat → State → Outcome
  | 0, _ => .out_of_fuel
  | fuel + 1, s =>
    if match_delimiter s ';' then .ok (next_token s)
    else
      (parse_expression fuel s).andThen fun s =>
      Outcome.of (consume_delimiter s ';')

/-- `parse_compound_statement()`. -/
def parse_compound_statement : Nat → State → Outcome
  | 0, _ => .out_of_fuel
  | fuel + 1, s =>
    (Outcome.of (consume_delimiter s '{')).andThen fun s =>
    (parse_statement_list fuel (enter_scope s)).andThen fun s =>
    Outcome.of (consume_delimiter (exit_scope s) '}')

/-- `parse_if_statement()`. -/
def parse_if_statement : Nat → State → Outcome
  | 0, _ => .out_of_fuel
  | fuel + 1, s =>
    (Outcome.of (consume_keyword s "if".toList)).andThen fun s =>
    (Outcome.of (consume_delimiter s '(')).andThen fun s =>
    (parse_expression fuel s).andThen fun s =>
    (Outcome.of (consume_delimiter s ')')).andThen fun s =>
    (parse_statement fuel s).andThen fun s =>
    if match_keyword s "else".toList then
      (Outcome.of (consume_keyword s "else".toList)).andThen fun s =>
      parse_statement fuel s
    else .ok s

/-- `parse_while_statement()`. -/
def parse_while_statement : Nat → State → Outcome
  | 0, _ => .out_of_fuel
  | fuel + 1, s =>
    (Outcome.of (consume_keyword s "while".toList)).andThen fun s =>
    (Outcome.of (consume_delimiter s '(')).andThen fun s =>
    (parse_expression fuel s).andThen fun s =>
    (Outcome.of (consume_delimiter s ')')).andThen fun s =>
    parse_statement fuel s

/-- `parse_for_statement()`. -/
def parse_for_statement : Nat → State → Outcome
  | 0, _ => .out_of_fuel
  | fuel + 1, s =>
    (Outcome.of (consume_keyword s "for".toList)).andThen fun s =>
    (Outcome.of (consume_delimiter s '(')).andThen fun s =>
    (if ¬ match_delimiter s ';' then parse_expression fuel s else .ok s).andThen fun s =>
    (Outcome.of (consume_delimiter s ';')).andThen fun s =>
    (if ¬ match_delimiter s ';' then parse_expression fuel s else .ok s).andThen fun s =>
    (Outcome.of (consume_delimiter s ';')).andThen fun s =>
    (if ¬ match_delimiter s ')' then parse_expression fuel s else .ok s).andThen fun s =>
    (Outcome.of (consume_delimiter s ')')).andThen fun s =>
    parse_statement fuel s

/-- `parse_return_statement()`. -/
def parse_return_statement : Nat → State → Outcome
  | 0, _ => .out_of_fuel
  | fuel + 1, s =>
    (Outcome.of (consume_keyword s "return".toList)).andThen fun s =>
    (if ¬ match_delimiter s ';' then parse_expression fuel s else .ok s).andThen fun s =>
    Outcome.of (consume_delimiter s ';')

/-- `parse_expression()`. -/
def parse_expression : Nat → State → Outcome
  | 0, _ => .out_of_fuel
  | fuel + 1, s => parse_assignment fuel s

/-- `parse_assignment()`. -/
def parse_assignment : Nat → State → Outcome
  | 0, _ => .out_of_fuel
  | fuel + 1, s =>
    (parse_logical_or fuel s).andThen fun s =>
    if match_operator s "=".toList then
      (Outcome.of (consume_operator s "=".toList)).andThen fun s =>
      parse_assignment fuel s
    else .ok s

/-- `parse_logical_or()`. -/
def parse_logical_or : Nat → State → Outcome
  | 0, _ => .out_of_fuel
  | fuel + 1, s =>
    (parse_logical_and fuel s).andThen fun s => parse_logical_or_loop fuel s

/-- The `while` loop of `parse_logical_or`. -/
def parse_logical_or_loop : Nat → State → Outcome
  | 0, _ => .out_of_fuel
  | fuel + 1, s =>
    if match_operator s "||".toList then
      (Outcome.of (consume_operator s "||".toList)).andThen fun s =>
      (parse_logical_and fuel s).andThen fun s => parse_logical_or_loop fuel s
    else .ok s

/-- `parse_logical_and()`. -/
def parse_logical_and : Nat → State → Outcome
  | 0, _ => .out_of_fuel
  | fuel + 1, s =>
    (parse_equality fuel s).andThen fun s => parse_logical_and_loop fuel s

/-- The `while` loop of `parse_logical_and`. -/
def parse_logical_and_loop : Nat → State → Outcome
  | 0, _ => .out_of_fuel
  | fuel + 1, s =>
    if match_operator s "&&".toList then
      (Outcome.of (consume_operator s "&&".toList)).andThen fun s =>
      (parse_equality fuel s).andThen fun s => parse_logical_and_loop fuel s
    else .ok s

/-- `parse_equality()`. -/
def parse_equality : Nat → State → Outcome
  | 0, _ => .out_of_fuel
  | fuel + 1, s =>
    (parse_relational fuel s).andThen fun s => parse_equality_loop fuel s

/-- The `while` loop of `parse_equality`. -/
def parse_equality_loop : Nat → State → Outcome
  | 0, _ => .out_of_fuel
  | fuel + 1, s =>
    if match_operator s "==".toList ∨ match_operator s "!=".toList then
      (Outcome.of
        (if match_operator s "==".toList then consume_operator s "==".toList
         else consume_operator s "!=".toList)).andThen fun s =>
      (parse_relational fuel s).andThen fun s => parse_equality_loop fuel s
    else .ok s

/-- `parse_relational()`. -/
def parse_relational : Nat → State → Outcome
  | 0, _ => .out_of_fuel
  | fuel + 1, s =>
    (parse_additive fuel s).andThen fun s => parse_relational_loop fuel s

/-- The `while` loop of `parse_relational`. -/
def parse_relational_loop : Nat → State → Outcome
  | 0, _ => .out_of_fuel
  | fuel + 1, s =>
    if match_operator s "<".toList ∨ match_operator s "<=".toList ∨
        match_operator s ">".toList ∨ match_operator s ">=".toList then
      (Outcome.of
        (if match_operator s "<=".toList then consume_operator s "<=".toList
         else if match_operator s ">=".toList then consume_operator s ">=".toList
         else if match_operator s "<".toList then consume_operator s "<".toList
         else consume_operator s ">".toList)).andThen fun s =>
      (parse_additive fuel s).andThen fun s => parse_relational_loop fuel s
    else .ok s

/-- `parse_additive()`. -/
def parse_additive : Nat → State → Outcome
  | 0, _ => .out_of_fuel
  | fuel + 1, s =>
    (parse_multiplicative fuel s).andThen fun s => parse_additive_loop fuel s

/-- The `while` loop of `parse_additive`. -/
def parse_additive_loop : Nat → State → Outcome
  | 0, _ => .out_of_fuel
  | fuel + 1, s =>
    if match_operator s "+".toList ∨ match_operator s "-".toList then
      (Outcome.of
        (if match_operator s "+".toList then consume_operator s "+".toList
         else consume_operator s "-".toList)).andThen fun s =>
      (parse_multiplicative fuel s).andThen fun s => parse_additive_loop fuel s
    else .ok s

/-- `parse_multiplicative()`. -/
def parse_multiplicative : Nat → State → Outcome
  | 0, _ => .out_of_fuel
  | fuel + 1, s =>
    (parse_unary fuel s).andThen fun s => parse_multiplicative_loop fuel s

/-- The `while` loop of `parse_multiplicative`. -/
def parse_multiplicative_loop : Nat → State → Outcome
  | 0, _ => .out_of_fuel
  | fuel + 1, s =>
    if match_operator s "*".toList ∨ match_operator s "/".toList then
      (Outcome.of
        (if match_operator s "*".toList then consume_operator s "*".toList
         else consume_operator s "/".toList)).andThen fun s =>
      (parse_unary fuel s).andThen fun s => parse_multiplicative_loop fuel s
    else .ok s

/-- `parse_unary()`. -/
def parse_unary : Nat → State → Outcome
  | 0, _ => .out_of_fuel
  | fuel + 1, s =>
    if match_operator s "+".toList ∨ match_operator s "-".toList ∨
        match_operator s "!".toList then
      (Outcome.of
        (if match_operator s "+".toList then consume_operator s "+".toList
         else if match_operator s "-".toList then consume_operator s "-".toList
         else consume_operator s "!".toList)).andThen fun s =>
      parse_unary fuel s
    else parse_primary fuel s

/-- `parse_primary()`. -/
def parse_primary : Nat → State → Outcome
  | 0, _ => .out_of_fuel
  | fuel + 1, s =>
    if s.current_token.type = .TOKEN_IDENTIFIER then
      (Outcome.of (check_symbol_declared s s.current_token.value)).andThen fun s =>
      .ok (next_token s)
    else if s.current_token.type = .TOKEN_NUMBER then .ok (next_token s)
    else if match_delimiter s '(' then
      (Outcome.of (consume_delimiter s '(')).andThen fun s =>
      (parse_expression fuel s).andThen fun s =>
      Outcome.of (consume_delimiter s ')')
    else .error (syntax_error s)

end

/-- `parse_program()`. -/
def parse_program (fuel : Nat) (s : State) : Outcome :=
  (parse_statement_list fuel s).andThen fun s =>
  if s.current_token.type ≠ .TOKEN_EOF then .error (syntax_error s) else .ok s

/-- The globals as `comp.c` initialises them, on a given input file.
`current_token` is zero-initialised: its type is the first enumerator. -/
def initial_state (input : List Char) : State :=
  { source := ⟨input, 1, 0⟩
    current_token := ⟨.TOKEN_KEYWORD, [], 0, 0⟩
    symbol_table := []
    current_scope_level := 0 }

/-- A recursion budget that no run on this input uses up: every procedure
call chain between two reads of a token is shorter than 32. -/
def budget (input : List Char) : Nat :=
  32 * (input.length + 2)

/-- The analysis of `main`: `next_token(); parse_program();` on the input. -/
def analyse (input : List Char) : Outcome :=
  parse_program (budget input) (next_token (initial_state input))

/-! ## Specification-side definitions -/

/-- The scope states that the scope operations can produce: start from an
empty table at level 0, enter a scope, declare with success, leave a scope
that was entered before (the level is positive), or change the globals of the
lexer only. -/
inductive Reachable : State → Prop where
  | init (s : State) (htable : s.symbol_table = [])
      (hlevel : s.current_scope_level = 0) : Reachable s
  | enter (s : State) (h : Reachable s) : Reachable (enter_scope s)
  | declare (s s' : State) (name type : List Char) (h : Reachable s)
      (hadd : add_symbol s name type = .ok s') : Reachable s'
  | exit (s : State) (h : Reachable s) (hlevel : 0 < s.current_scope_level) :
      Reachable (exit_scope s)
  | read (s s' : State) (h : Reachable s) (htable : s'.symbol_table = s.symbol_table)
      (hlevel : s'.current_scope_level = s.current_scope_level) : Reachable s'

/-- A sequence of declarations `(name, type)`, each of which must succeed. -/
def declare_all : State → List (List Char × List Char) → Except Err State
  | s, [] => .ok s
  | s, d :: ds =>
    match add_symbol s d.1 d.2 with
    | .ok s' => declare_all s' ds
    | .error e => .error e

/-- Symbol `y` is a candidate of `find_symbol` for `name` in state `s`. -/
def Visible (s : State) (name : List Char) (y : Symbol) : Prop :=
  y.name = name ∧ y.scope_level ≤ s.current_scope_level

/-- A table of 100 symbols as 100 nested blocks that each declare `a`
produce it, at the level of the innermost block. -/
def full_state : State :=
  { source := ⟨[], 1, 0⟩
    current_token := ⟨.TOKEN_IDENTIFIER, ['b'], 1, 0⟩
    symbol_table := (List.range 100).map fun i => ⟨['a'], "int".toList, (i : Int)⟩
    current_scope_level := 99 }

/-- The level discipline of the table: levels are not negative, do not exceed
the current level, do not decrease along the table, and no two symbols share
both name and level. -/
def WellFormed (s : State) : Prop :=
  0 ≤ s.current_scope_level ∧
  (∀ y ∈ s.symbol_table, 0 ≤ y.scope_level ∧ y.scope_level ≤ s.current_scope_level) ∧
  s.symbol_table.Pairwise (fun a b => a.scope_level ≤ b.scope_level) ∧
  s.symbol_table.Pairwise (fun a b => ¬ (a.name = b.name ∧ a.scope_level = b.scope_level))

/-- The state with an empty table at level 0, nothing to read. -/
def empty_state : State :=
  initial_state []

/-- The state after `x` was declared at level 0. -/
def outer_state : State :=
  { empty_state with symbol_table := [⟨['x'], "int".toList, 0⟩] }

/-- The state after `x` was declared at level 0, a block was entered and `x`
and `y` were declared in it. -/
def inner_state : State :=
  { empty_state with
    symbol_table := [⟨['x'], "int".toList, 0⟩, ⟨['x'], "int".toList, 1⟩,
                     ⟨['y'], "int".toList, 1⟩]
    current_scope_level := 1 }

/-- The state after `getch` was called once for every character of `cs`. -/
def advance (s : Source) (cs : List Char) : Source :=
  cs.foldl (fun s _ => (getch s).2) s

/-- The combinable pairs of the specification: `==, !=, <=, >=, &&, ||`. -/
def two_char_operators : List (List Char) :=
  ["==".toList, "!=".toList, "<=".toList, ">=".toList, "&&".toList, "||".toList]

/-! ## The token sequence of an input -/

/-- The tokens that successive calls of `get_next_token` return, up to and
including the first `TOKEN_EOF`.  The first argument bounds the number of
calls; every call that returns another token reads a character, so the number
of characters left, plus one, is enough. -/
def lex_all : Nat → Source → List Token
  | 0, _ => []
  | n + 1, s =>
    if (get_next_token s).1.type = .TOKEN_EOF then [(get_next_token s).1]
    else (get_next_token s).1 :: lex_all n (get_next_token s).2

/-- The token sequence of an input file. -/
def token_sequence (input : List Char) : List Token :=
  lex_all (input.length + 1) ⟨input, 1, 0⟩

/-- The tokens the parser still has before it in state `s`: the current token
and, unless that is `TOKEN_EOF`, the tokens of the rest of the input. -/
def pending (s : State) : List Token :=
  if s.current_token.type = .TOKEN_EOF then [s.current_token]
  else s.current_token :: lex_all (s.source.input_file.length + 1) s.source

/-! ## The grammar of the specification -/

/-- The terminal `'kw'` of the grammar: a keyword token with this lexeme. -/
def is_kw (t : Token) (kw : List Char) : Prop :=
  t.type = .TOKEN_KEYWORD ∧ t.value = kw

/-- An operator terminal of the grammar: an operator token with this lexeme. -/
def is_op (t : Token) (op : List Char) : Prop :=
  t.type = .TOKEN_OPERATOR ∧ t.value = op

/-- A delimiter terminal of the grammar: a delimiter token with this lexeme. -/
def is_delim (t : Token) (c : Char) : Prop :=
  t.type = .TOKEN_DELIMITER ∧ t.value = [c]

instance (t : Token) (kw : List Char) : Decidable (is_kw t kw) :=
  inferInstanceAs (Decidable (_ ∧ _))

instance (t : Token) (op : List Char) : Decidable (is_op t op) :=
  inferInstanceAs (Decidable (_ ∧ _))

instance (t : Token) (c : Char) : Decidable (is_delim t c) :=
  inferInstanceAs (Decidable (_ ∧ _))

/-- The six levels of left-associative binary operators of the grammar. -/
inductive Level where
  | logicalOr
  | logicalAnd
  | equality
  | relational
  | additive
  | multiplicative
  deriving DecidableEq

/-- The operators of a level. -/
def Level.ops : Level → List (List Char)
  | .logicalOr => ["||".toList]
  | .logicalAnd => ["&&".toList]
  | .equality => ["==".toList, "!=".toList]
  | .relational => ["<".toList, "<=".toList, ">".toList, ">=".toList]
  | .additive => ["+".toList, "-".toList]
  | .multiplicative => ["*".toList, "/".toList]

/-- The nonterminals of the grammar.  `optExpr` is `[expression]`, `binary l`
is the rule of level `l` and `rest l` is its repetition `{ op operand }`. -/
inductive NT where
  | program
  | stmtList
  | statement
  | decl
  | block
  | ifStmt
  | whileStmt
  | forStmt
  | returnStmt
  | exprStmt
  | optExpr
  | expression
  | assignment
  | binary (l : Level)
  | rest (l : Level)
  | unary
  | primary
  deriving DecidableEq

/-- The operand of a level: the next tighter rule. -/
def Level.operand : Level → NT
  | .logicalOr => .binary .logicalAnd
  | .logicalAnd => .binary .equality
  | .equality => .binary .relational
  | .relational => .binary .additive
  | .additive => .binary .multiplicative
  | .multiplicative => .unary

/-- The operators of the rule `unary`. -/
def unary_ops : List (List Char) :=
  ["+".toList, "-".toList, "!".toList]

/-- Derivability: `Derives X ts` says that the token sequence `ts` is derived
from the nonterminal `X` by the EBNF of the specification. -/
inductive Derives : NT → List Token → Prop where
  | program {ts : List Token} {eof : Token} :
      Derives .stmtList ts → eof.type = .TOKEN_EOF → Derives .program (ts ++ [eof])
  | stmtList_nil : Derives .stmtList []
  | stmtList_cons {a b : List Token} :
      Derives .statement a → Derives .stmtList b → Derives .stmtList (a ++ b)
  | statement_decl {a : List Token} : Derives .decl a → Derives .statement a
  | statement_block {a : List Token} : Derives .block a → Derives .statement a
  | statement_if {a : List Token} : Derives .ifStmt a → Derives .statement a
  | statement_while {a : List Token} : Derives .whileStmt a → Derives .statement a
  | statement_for {a : List Token} : Derives .forStmt a → Derives .statement a
  | statement_return {a : List Token} : Derives .returnStmt a → Derives .statement a
  | statement_expr {a : List Token} : Derives .exprStmt a → Derives .statement a
  | decl {kw id semi : Token} :
      is_kw kw "int".toList → id.type = .TOKEN_IDENTIFIER → is_delim semi ';' →
      Derives .decl [kw, id, semi]
  | decl_init {kw id eq semi : Token} {e : List Token} :
      is_kw kw "int".toList → id.type = .TOKEN_IDENTIFIER → is_op eq "=".toList →
      Derives .expression e → is_delim semi ';' →
      Derives .decl (kw :: id :: eq :: e ++ [semi])
  | block {lb rb : Token} {b : List Token} :
      is_delim lb '{' → Derives .stmtList b → is_delim rb '}' →
      Derives .block (lb :: b ++ [rb])
  | ifStmt {kw lp rp : Token} {e a : List Token} :
      is_kw kw "if".toList → is_delim lp '(' → Derives .expression e → is_delim rp ')' →
      Derives .statement a → Derives .ifStmt (kw :: lp :: e ++ rp :: a)
  | ifElse {kw lp rp el : Token} {e a b : List Token} :
      is_kw kw "if".toList → is_delim lp '(' → Derives .expression e → is_delim rp ')' →
      Derives .statement a → is_kw el "else".toList → Derives .statement b →
      Derives .ifStmt (kw :: lp :: e ++ rp :: a ++ el :: b)
  | whileStmt {kw lp rp : Token} {e a : List Token} :
      is_kw kw "while".toList → is_delim lp '(' → Derives .expression e →
      is_delim rp ')' → Derives .statement a →
      Derives .whileStmt (kw :: lp :: e ++ rp :: a)
  | forStmt {kw lp s1 s2 rp : Token} {e1 e2 e3 a : List Token} :
      is_kw kw "for".toList → is_delim lp '(' → Derives .optExpr e1 → is_delim s1 ';' →
      Derives .optExpr e2 → is_delim s2 ';' → Derives .optExpr e3 → is_delim rp ')' →
      Derives .statement a →
      Derives .forStmt (kw :: lp :: e1 ++ s1 :: e2 ++ s2 :: e3 ++ rp :: a)
  | returnStmt {kw semi : Token} {e : List Token} :
      is_kw kw "return".toList → Derives .optExpr e → is_delim semi ';' →
      Derives .returnStmt (kw :: e ++ [semi])
  | exprStmt {semi : Token} {e : List Token} :
      Derives .optExpr e → is_delim semi ';' → Derives .exprStmt (e ++ [semi])
  | optExpr_none : Derives .optExpr []
  | optExpr_some {e : List Token} : Derives .expression e → Derives .optExpr e
  | expression {a : List Token} : Derives .assignment a → Derives .expression a
  | assignment {a : List Token} :
      Derives (.binary .logicalOr) a → Derives .assignment a
  | assign {eq : Token} {a b : List Token} :
      Derives (.binary .logicalOr) a → is_op eq "=".toList → Derives .assignment b →
      Derives .assignment (a ++ eq :: b)
  | binary {l : Level} {a r : List Token} :
      Derives l.operand a → Derives (.rest l) r → Derives (.binary l) (a ++ r)
  | rest_nil {l : Level} : Derives (.rest l) []
  | rest_cons {l : Level} {op : Token} {a r : List Token} :
      op.type = .TOKEN_OPERATOR → op.value ∈ l.ops → Derives l.operand a →
      Derives (.rest l) r → Derives (.rest l) (op :: a ++ r)
  | unary_op {op : Token} {a : List Token} :
      op.type = .TOKEN_OPERATOR → op.value ∈ unary_ops → Derives .unary a →
      Derives .unary (op :: a)
  | unary_primary {a : List Token} : Derives .primary a → Derives .unary a
  | primary_identifier {t : Token} : t.type = .TOKEN_IDENTIFIER → Derives .primary [t]
  | primary_number {t : Token} : t.type = .TOKEN_NUMBER → Derives .primary [t]
  | primary_paren {lp rp : Token} {e : List Token} :
      is_delim lp '(' → Derives .expression e → is_delim rp ')' →
      Derives .primary (lp :: e ++ [rp])

/-! ## The scoping rule of the specification

The rule is stated on the token sequence, with a stack of scopes: `{` opens a
scope and `}` closes the innermost one; an identifier that follows the keyword
`int` is a declaration in the innermost scope; every other identifier is a
use. -/

/-- The open scopes, innermost first; a scope is the list of the names
declared in it, in the order of declaration. -/
abbrev Scopes := List (List (List Char))

/-- What can be wrong with a token sequence under the scoping rule. -/
inductive ScopeFault where
  | undeclared (name : List Char)
  | redeclared (name : List Char)
  | overflow
  | unbalanced
  deriving DecidableEq

/-- Some open scope declares the name. -/
def declared (scopes : Scopes) (name : List Char) : Bool :=
  scopes.any fun scope => decide (name ∈ scope)

/-- The number of declarations in the open scopes. -/
def live (scopes : Scopes) : Nat :=
  (scopes.map List.length).sum

/-- One token under the scoping rule.  The flag says that the token before
was the keyword `int`. -/
def scan_step (st : Scopes × Bool) (t : Token) : Except ScopeFault (Scopes × Bool) :=
  if t.type = .TOKEN_IDENTIFIER then
    if st.2 then
      match st.1 with
      | [] => .error .unbalanced
      | top :: outer =>
        if t.value ∈ top then .error (.redeclared t.value)
        else if MAX_SYMBOLS ≤ live st.1 then .error .overflow
        else .ok ((top ++ [t.value]) :: outer, false)
    else if declared st.1 t.value then .ok (st.1, false)
    else .error (.undeclared t.value)
  else if is_delim t '{' then .ok ([] :: st.1, false)
  else if is_delim t '}' then
    match st.1 with
    | _ :: top :: outer => .ok (top :: outer, false)
    | _ => .error .unbalanced
  else .ok (st.1, decide (is_kw t "int".toList))

/-- The scoping rule on a token sequence. -/
def scan : List Token → Scopes × Bool → Except ScopeFault (Scopes × Bool)
  | [], st => .ok st
  | t :: ts, st =>
    match scan_step st t with
    | .ok st' => scan ts st'
    | .error e => .error e

/-- The symbol table that holds the declarations of the open scopes. -/
def table_of : Scopes → List Symbol
  | [] => []
  | top :: outer =>
    table_of outer ++ top.map fun name => ⟨name, "int".toList, (outer.length : Int)⟩

/-- The scope globals of state `s` hold the open scopes `scopes`. -/
def Refines (scopes : Scopes) (s : State) : Prop :=
  scopes ≠ [] ∧ s.symbol_table = table_of scopes ∧
    s.current_scope_level = (scopes.length : Int) - 1

/-- Every delimiter token before the parser has a lexeme of one character. -/
def DelimOK (s : State) : Prop :=
  ∀ t ∈ pending s, t.type = .TOKEN_DELIMITER → ∃ c, t.value = [c]

/-! ## The procedures of the parser, as one family -/

/-- The parsing procedure of a level of binary operators. -/
def Level.parse : Level → Nat → State → Outcome
  | .logicalOr => parse_logical_or
  | .logicalAnd => parse_logical_and
  | .equality => parse_equality
  | .relational => parse_relational
  | .additive => parse_additive
  | .multiplicative => parse_multiplicative

/-- The `while` loop of the parsing procedure of a level. -/
def Level.loop : Level → Nat → State → Outcome
  | .logicalOr => parse_logical_or_loop
  | .logicalAnd => parse_logical_and_loop
  | .equality => parse_equality_loop
  | .relational => parse_relational_loop
  | .additive => parse_additive_loop
  | .multiplicative => parse_multiplicative_loop

/-- The parsing procedure that a level calls for its operands. -/
def Level.sub : Level → Nat → State → Outcome
  | .logicalOr => parse_logical_and
  | .logicalAnd => parse_equality
  | .equality => parse_relational
  | .relational => parse_additive
  | .additive => parse_multiplicative
  | .multiplicative => parse_unary

/-- The current token is an operator of the level. -/
def Level.at_op (l : Level) (s : State) : Bool :=
  l.ops.any fun op => match_operator s op

/-- The current token is an operator of the rule `unary`. -/
def at_unary_op (s : State) : Bool :=
  unary_ops.any fun op => match_operator s op

/-- The recursive procedures of the parser. -/
inductive Proc where
  | statement_list
  | statement
  | declaration
  | expression_statement
  | compound_statement
  | if_statement
  | while_statement
  | for_statement
  | return_statement
  | expression
  | assignment
  | binary (l : Level)
  | binary_loop (l : Level)
  | unary
  | primary

/-- The function of a procedure. -/
def Proc.run : Proc → Nat → State → Outcome
  | .statement_list => parse_statement_list
  | .statement => parse_statement
  | .declaration => parse_declaration
  | .expression_statement => parse_expression_statement
  | .compound_statement => parse_compound_statement
  | .if_statement => parse_if_statement
  | .while_statement => parse_while_statement
  | .for_statement => parse_for_statement
  | .return_statement => parse_return_statement
  | .expression => parse_expression
  | .assignment => parse_assignment
  | .binary l => l.parse
  | .binary_loop l => l.loop
  | .unary => parse_unary
  | .primary => parse_primary

/-- The nonterminal that a procedure recognises. -/
def Proc.nt : Proc → NT
  | .statement_list => .stmtList
  | .statement => .statement
  | .declaration => .decl
  | .expression_statement => .exprStmt
  | .compound_statement => .block
  | .if_statement => .ifStmt
  | .while_statement => .whileStmt
  | .for_statement => .forStmt
  | .return_statement => .returnStmt
  | .expression => .expression
  | .assignment => .assignment
  | .binary l => .binary l
  | .binary_loop l => .rest l
  | .unary => .unary
  | .primary => .primary

/-- Between the states `s` and `s'` the parser has read the tokens `ts`, which
take the open scopes from `scopes` to `scopes'` under the scoping rule. -/
def Consumes (s : State) (scopes : Scopes) (ts : List Token) (s' : State)
    (scopes' : Scopes) : Prop :=
  pending s = ts ++ pending s' ∧ scan ts (scopes, false) = .ok (scopes', false) ∧
    Refines scopes' s'

/-- Soundness of a procedure with budget `n`: when it returns, the tokens it
has read are derived from its nonterminal and obey the scoping rule. -/
def Sound (p : Proc) (n : Nat) : Prop :=
  ∀ s s' scopes, Refines scopes s → DelimOK s → p.run n s = .ok s' →
    ∃ ts scopes', Consumes s scopes ts s' scopes' ∧ Derives p.nt ts ∧
      scopes'.length = scopes.length

/-- The nonterminals that derive no empty sequence. -/
def NT.nonempty : NT → Bool
  | .stmtList => false
  | .optExpr => false
  | .rest _ => false
  | _ => true

/-- The longest chain of calls from a procedure to another one before a token
is read, plus one. -/
def Proc.rank : Proc → Nat
  | .primary => 1
  | .unary => 2
  | .binary .multiplicative => 3
  | .binary .additive => 4
  | .binary .relational => 5
  | .binary .equality => 6
  | .binary .logicalAnd => 7
  | .binary .logicalOr => 8
  | .assignment => 9
  | .expression => 10
  | .expression_statement => 11
  | .statement => 12
  | .statement_list => 13
  | _ => 1

/-- State `s` holds the open scopes `scopes`, its delimiter tokens are well
formed and at most `m` tokens are pending. -/
def Ready (scopes : Scopes) (s : State) (m : Nat) : Prop :=
  Refines scopes s ∧ DelimOK s ∧ (pending s).length ≤ m

/-- With budget `n`, procedure `p` does not run out of budget on a state with
at most `m` pending tokens when `16 * m + rank p ≤ n`. -/
def Terminates (p : Proc) (n : Nat) : Prop :=
  ∀ s scopes m, Ready scopes s m → 16 * m + p.rank ≤ n → p.run n s ≠ .out_of_fuel

/-- With budget `n + 1`, procedure `p` gives what it gives with budget `n`,
unless that budget was used up. -/
def Stable (p : Proc) (n : Nat) : Prop :=
  ∀ s, p.run n s ≠ .out_of_fuel → p.run (n + 1) s = p.run n s

/-! ## Positions in the token sequence -/

/-- The state in which the parser has read `k` tokens of those pending in
`s0` and the open scopes are `scopes`. -/
def after (s0 : State) (k : Nat) (scopes : Scopes) : State :=
  { source := (next_token^[k] s0).source
    current_token := (next_token^[k] s0).current_token
    symbol_table := table_of scopes
    current_scope_level := (scopes.length : Int) - 1 }

/-- After `k` of the tokens pending in `s0`, the tokens `ts` are pending. -/
def At (s0 : State) (k : Nat) (ts : List Token) : Prop :=
  ∃ pre, pending s0 = pre ++ ts ∧ pre.length = k

/-- The result `r` is not an error: the budget was used up, or the procedure
returned in a state that satisfies `P`. -/
def Returns (r : Outcome) (P : State → Prop) : Prop :=
  r = .out_of_fuel ∨ ∃ s', r = .ok s' ∧ P s'

/-- The states that `else` branches lead to: from a state whose current token
is `else`, read it and parse a statement, and so on. -/
inductive Chain : State → State → Prop where
  | refl (s : State) : Chain s s
  | step (s s1 s2 : State) (n : Nat) (helse : match_keyword s "else".toList = true)
      (hrun : parse_statement n (next_token s) = .ok s1) (h : Chain s1 s2) : Chain s s2

/-- A condition raised in an `else` branch that follows state `s`: the
branches before it are parsed, and the parsing of this one raises `e`. -/
inductive ChainErr : State → Err → Prop where
  | here (s : State) (e : Err) (n : Nat) (helse : match_keyword s "else".toList = true)
      (hrun : parse_statement n (next_token s) = .error e) : ChainErr s e
  | step (s s1 : State) (e : Err) (n : Nat)
      (helse : match_keyword s "else".toList = true)
      (hrun : parse_statement n (next_token s) = .ok s1) (h : ChainErr s1 e) : ChainErr s e

/-- The result `r` of a procedure that ends with a statement, whose sequence
ends in state `sEnd`: the budget was used up, or the procedure returned in a
state that `else` branches lead to from `sEnd`, or one of these branches
raised a condition. -/
def Branches (r : Outcome) (sEnd : State) : Prop :=
  r = .out_of_fuel ∨ (∃ s', r = .ok s' ∧ Chain sEnd s') ∨
    ∃ e, r = .error e ∧ ChainErr sEnd e

/-- The operators of a level and of all tighter levels. -/
def Level.tight : Level → List (List Char)
  | .multiplicative => Level.multiplicative.ops
  | .additive => Level.additive.ops ++ Level.multiplicative.ops
  | .relational => Level.relational.ops ++ Level.additive.ops ++ Level.multiplicative.ops
  | .equality =>
    Level.equality.ops ++ Level.relational.ops ++ Level.additive.ops ++
      Level.multiplicative.ops
  | .logicalAnd =>
    Level.logicalAnd.ops ++ Level.equality.ops ++ Level.relational.ops ++
      Level.additive.ops ++ Level.multiplicative.ops
  | .logicalOr =>
    Level.logicalOr.ops ++ Level.logicalAnd.ops ++ Level.equality.ops ++
      Level.relational.ops ++ Level.additive.ops ++ Level.multiplicative.ops

/-- What the token after a sequence derived from a nonterminal must be, for
the parser to stop where the sequence ends. -/
def NT.follow : NT → Token → Prop
  | .stmtList, t => t.type = .TOKEN_EOF ∨ is_delim t '}'
  | .expression, t => t.type = .TOKEN_DELIMITER
  | .assignment, t => t.type = .TOKEN_DELIMITER
  | .binary l, t => ¬ (t.type = .TOKEN_OPERATOR ∧ t.value ∈ l.tight)
  | .rest l, t => ¬ (t.type = .TOKEN_OPERATOR ∧ t.value ∈ l.tight)
  | _, _ => True

/-- The parsing procedure of a nonterminal (`program` and `optExpr` have
none among the recursive procedures). -/
def NT.run : NT → Nat → State → Outcome
  | .program => parse_program
  | .stmtList => parse_statement_list
  | .statement => parse_statement
  | .decl => parse_declaration
  | .block => parse_compound_statement
  | .ifStmt => parse_if_statement
  | .whileStmt => parse_while_statement
  | .forStmt => parse_for_statement
  | .returnStmt => parse_return_statement
  | .exprStmt => parse_expression_statement
  | .optExpr => fun _ s => .ok s
  | .expression => parse_expression
  | .assignment => parse_assignment
  | .binary l => l.parse
  | .rest l => l.loop
  | .unary => parse_unary
  | .primary => parse_primary

/-- The nonterminals after which an `else` may be read by the procedure. -/
def NT.chained : NT → Bool
  | .statement => true
  | .ifStmt => true
  | .whileStmt => true
  | .forStmt => true
  | _ => false

/-- What completeness promises for a nonterminal: from state `s`, with the
next token `t` after the derived sequence, the procedure returns in the state
`sEnd` at the end of the sequence (or, after a statement, in a state that
`else` branches lead to from there). -/
def Post (X : NT) (n : Nat) (s sEnd : State) (t : Token) : Prop :=
  match X with
  | .program => True
  | .optExpr =>
    ∀ c, c ≠ '(' → is_delim t c →
      Returns (if ¬ match_delimiter s c = true then parse_expression n s else .ok s)
        (fun s' => s' = sEnd)
  | _ =>
    if X.chained then Branches (X.run n s) sEnd
    else Returns (X.run n s) (fun s' => s' = sEnd)

/-- Completeness of the parser for the sequence `ts` derived from `X`,
wherever `ts` stands among the tokens pending in `s0`. -/
def Complete (s0 : State) (X : NT) (ts : List Token) : Prop :=
  ∀ n k t rest scopes scopes', At s0 k (ts ++ t :: rest) → scopes ≠ [] →
    scan ts (scopes, false) = .ok (scopes', false) → X.follow t →
    Post X n (after s0 k scopes) (after s0 (k + ts.length) scopes') t

/-- The first tokens of an expression. -/
def ExprFirst (t : Token) : Prop :=
  t.type = .TOKEN_IDENTIFIER ∨ t.type = .TOKEN_NUMBER ∨ is_delim t '(' ∨
    (t.type = .TOKEN_OPERATOR ∧ t.value ∈ unary_ops)

/-- The first tokens of a statement. -/
def StmtFirst (t : Token) : Prop :=
  t.type = .TOKEN_KEYWORD ∧
      (t.value = "int".toList ∨ t.value = "if".toList ∨ t.value = "while".toList ∨
        t.value = "for".toList ∨ t.value = "return".toList) ∨
    is_delim t '{' ∨ is_delim t ';' ∨ ExprFirst t

/-- The first token of a nonempty sequence derived from a nonterminal. -/
def NT.first : NT → Token → Prop
  | .program, _ => True
  | .stmtList, t => StmtFirst t
  | .statement, t => StmtFirst t
  | .decl, t => is_kw t "int".toList
  | .block, t => is_delim t '{'
  | .ifStmt, t => is_kw t "if".toList
  | .whileStmt, t => is_kw t "while".toList
  | .forStmt, t => is_kw t "for".toList
  | .returnStmt, t => is_kw t "return".toList
  | .exprStmt, t => is_delim t ';' ∨ ExprFirst t
  | .optExpr, t => ExprFirst t
  | .expression, t => ExprFirst t
  | .assignment, t => ExprFirst t
  | .binary _, t => ExprFirst t
  | .rest l, t => t.type = .TOKEN_OPERATOR ∧ t.value ∈ l.ops
  | .unary, t => ExprFirst t
  | .primary, t =>
    t.type = .TOKEN_IDENTIFIER ∨ t.type = .TOKEN_NUMBER ∨ is_delim t '('

/-! ## The first fault of the scoping rule -/

/-- The condition that the parser raises for a fault of the scoping rule at
the identifier `id`. -/
def fault_error (f : ScopeFault) (id : Token) : Err :=
  match f with
  | .undeclared _ => .undeclared id.value id.line id.column
  | .redeclared _ => .redeclaration id.value id.line id.column
  | _ => .table_full

/-- The result `r` is not a success and is no other condition than `e`: the
budget was used up, or the procedure raised `e`. -/
def Stops (r : Outcome) (e : Err) : Prop :=
  r = .out_of_fuel ∨ r = .error e

/-- After `k` of the tokens pending in `s0`, with the open scopes `scopes`,
the tokens `a` obey the scoping rule and the identifier `id` that follows
them does not: the rule stops there, and `e` is the condition for it. -/
def Faulty (s0 : State) (k : Nat) (scopes : Scopes) (a : List Token) (id : Token)
    (rest : List Token) (e : Err) : Prop :=
  At s0 k (a ++ id :: rest) ∧ scopes ≠ [] ∧ id.type = .TOKEN_IDENTIFIER ∧
    ∃ st f, scan a (scopes, false) = .ok st ∧ scan_step st id = .error f ∧
      e = fault_error f id

/-- What the fault promises for a nonterminal: from state `s` the procedure
raises the condition of the fault. -/
def FailPost (X : NT) (n : Nat) (s : State) (e : Err) : Prop :=
  match X with
  | .optExpr =>
    ∀ c, c ≠ '(' →
      Stops (if ¬ match_delimiter s c = true then parse_expression n s else .ok s) e
  | _ => Stops (X.run n s) e

/-- The parser stops at the first fault of the scoping rule inside the
sequence `ts` derived from `X`, wherever the part of `ts` up to the fault
stands among the tokens pending in `s0`. -/
def Fails (s0 : State) (X : NT) (ts : List Token) : Prop :=
  ∀ a id b n k scopes rest e, ts = a ++ id :: b → Faulty s0 k scopes a id rest e →
    FailPost X n (after s0 k scopes) e

/-! ## Declaration before use, alone

The part of the scoping rule that asks only that every identifier used is
declared in an open scope: declarations themselves are never refused. -/

/-- One token under the rule of declaration before use: `none` when the
token is an identifier that is used and that no open scope declares. -/
def use_step (st : Scopes × Bool) (t : Token) : Option (Scopes × Bool) :=
  if t.type = .TOKEN_IDENTIFIER then
    if st.2 then
      match st.1 with
      | [] => some ([[t.value]], false)
      | top :: outer => some ((top ++ [t.value]) :: outer, false)
    else if declared st.1 t.value then some (st.1, false)
    else none
  else if is_delim t '{' then some ([] :: st.1, false)
  else if is_delim t '}' then some (st.1.tail, false)
  else some (st.1, decide (is_kw t "int".toList))

/-- Every identifier used in the token sequence is declared before, in the
same or in an enclosing scope. -/
def declared_before_use : List Token → Scopes × Bool → Bool
  | [], _ => true
  | t :: ts, st =>
    match use_step st t with
    | some st' => declared_before_use ts st'
    | none => false

/-- An identifier of the language: a letter followed by letters and digits,
at most 99 characters, not a reserved word. -/
def is_identifier (name : List Char) : Bool :=
  match name with
  | [] => false
  | c :: cs =>
    isalpha c && cs.all isalnum && decide (name.length ≤ MAX_TOKEN_LENGTH - 1) &&
      !is_keyword name

/-! ## Capacity of the symbol table -/

/-- The globals at the moment `add_symbol(name, type)` ends, by `return` or by
`exit`: both tests come before the first write, so the table is written only
when neither condition is raised. -/
def add_symbol_globals (s : State) (name type : List Char) : State :=
  if redeclared s.symbol_table name s.current_scope_level then s
  else if s.symbol_table.length ≥ MAX_SYMBOLS then s
  else { s with symbol_table :=
           s.symbol_table ++ [⟨name, type, s.current_scope_level⟩] }

/-- The program text that declares the names in a row, `int n; ` for each. -/
def declarations (names : List (List Char)) : List Char :=
  names.flatMap fun n => "int ".toList ++ n ++ "; ".toList

/-- The tokens of `declarations names` when `col` characters of the line come
before it. -/
def declaration_tokens : Int → List (List Char) → List Token
  | _, [] => []
  | col, n :: ns =>
    ⟨.TOKEN_KEYWORD, "int".toList, 1, col + 1⟩ :: ⟨.TOKEN_IDENTIFIER, n, 1, col + 5⟩ ::
      ⟨.TOKEN_DELIMITER, [';'], 1, col + 5 + (n.length : Int)⟩ ::
      declaration_tokens (col + 6 + (n.length : Int)) ns

/-- The names `v0`, `v1`, ..., `v(k-1)`. -/
def numbered_names (k : Nat) : List (List Char) :=
  (List.range k).map fun i => 'v' :: Nat.toDigits 10 i

/-! ## Locations of tokens -/

/-- The line of a character that has the characters `before` before it in the
input: one more than the number of newline characters among them. -/
def line_of (before : List Char) : Int :=
  1 + (before.count '\n' : Nat)

/-- The number of characters of `before` that come after its last newline
character (all of them when there is none). -/
def since_newline (before : List Char) : Nat :=
  (before.reverse.takeWhile fun c => c ≠ '\n').length

/-- The column of a character that has the characters `before` before it in
the input: its offset within its line, counted from 1. -/
def column_of (before : List Char) : Int :=
  1 + (since_newline before : Nat)

/-- The source after `k` calls of `get_next_token` on an input file. -/
def source_after (input : List Char) (k : Nat) : Source :=
  (fun s => (get_next_token s).2)^[k] ⟨input, 1, 0⟩

/-- The counters are those that `getch` reaches by reading `consumed` from
the start of a file. -/
def ExactAt (consumed : List Char) (s : Source) : Prop :=
  s.current_line = 1 + (consumed.count '\n' : Nat) ∧
    s.current_column = (since_newline consumed : Nat)

/-- The counters after `consumed` was read and characters were pushed back:
the line is exact, and the column is exact unless a newline is the next
character to read. -/
def SyncedAt (consumed : List Char) (s : Source) : Prop :=
  s.current_line = 1 + (consumed.count '\n' : Nat) ∧
    (s.current_column = (since_newline consumed : Nat) ∨ ∃ r, s.input_file = '\n' :: r)



/-! ## The first token of kind `TOKEN_ERROR` -/

/-- The result `r` of a procedure that meets the token `bad`, which no rule
of the grammar accepts: the budget was used up, or the procedure raised the
syntax condition at `bad`, or it returned with `bad` as the current token. -/
def Halts (r : Outcome) (bad : Token) : Prop :=
  r = .out_of_fuel ∨ r = .error (.syntax_error bad) ∨
    ∃ s', r = .ok s' ∧ s'.current_token = bad

/-- After `k` of the tokens pending in `s0`, with the open scopes `scopes`,
the tokens `a` obey the scoping rule and the token `bad` of type
`TOKEN_ERROR` follows them. -/
def Invalid (s0 : State) (k : Nat) (scopes : Scopes) (a : List Token) (bad : Token)
    (rest : List Token) : Prop :=
  At s0 k (a ++ bad :: rest) ∧ scopes ≠ [] ∧ bad.type = .TOKEN_ERROR ∧
    ∃ st, scan a (scopes, false) = .ok st

/-- What the token `bad` promises for the procedure of a nonterminal. -/
def HaltPost (X : NT) (n : Nat) (s : State) (bad : Token) : Prop :=
  match X with
  | .optExpr =>
    ∀ c, c ≠ '(' →
      Halts (if ¬ match_delimiter s c = true then parse_expression n s else .ok s) bad
  | _ => Halts (X.run n s) bad

/-- The parser does not get past a token of type `TOKEN_ERROR` that stands
where the sequence `ts` derived from `X` would go on: wherever a part `a` of
`ts` stands among the tokens pending in `s0`, followed by such a token, the
procedure of `X` raises the syntax condition at that token or returns with it
as the current token. -/
def Halting (s0 : State) (X : NT) (ts : List Token) : Prop :=
  ∀ a b n k scopes rest bad, ts = a ++ b → Invalid s0 k scopes a bad rest →
    HaltPost X n (after s0 k scopes) bad

/-! # Theorems -/

/-! ## Symbol table -/

theorem redeclared_iff (table : List Symbol) (name : List Char) (level : Int) :
    redeclared table name level = true ↔
      ∃ y ∈ table, y.name = name ∧ y.scope_level = level := by
  simp [redeclared, List.any_eq_true]

/-- Characterisation of the backward scan of `find_symbol`. -/
theorem find_symbol_loop_some (table : List Symbol) (level : Int) (name : List Char)
    (n i : Nat) :
    find_symbol_loop table level name n = some i ↔
      i < n ∧ (∃ y, table[i]? = some y ∧ y.name = name ∧ y.scope_level ≤ level) ∧
        ∀ j y, i < j → j < n → table[j]? = some y →
          ¬ (y.name = name ∧ y.scope_level ≤ level) := by
  induction n with
  | zero => simp [find_symbol_loop]
  | succ n ih =>
    rw [find_symbol_loop]
    cases hget : table[n]? with
    | none =>
      simp only []
      rw [ih]
      constructor
      · rintro ⟨hin, hy, hj⟩
        refine ⟨by omega, hy, ?_⟩
        intro j y hij hjn hjy
        by_cases hjn' : j = n
        · subst hjn'; rw [hget] at hjy; cases hjy
        · exact hj j y hij (by omega) hjy
      · rintro ⟨hin, ⟨y, hy, hm⟩, hj⟩
        have hne : i ≠ n := by
          rintro rfl; rw [hget] at hy; cases hy
        exact ⟨by omega, ⟨y, hy, hm⟩, fun j y hij hjn => hj j y hij (by omega)⟩
    | some z =>
      simp only []
      by_cases hz : z.name = name ∧ z.scope_level ≤ level
      · rw [if_pos hz]
        constructor
        · intro h
          have : n = i := by simpa using h
          subst this
          exact ⟨by omega, ⟨z, hget, hz⟩, fun j y hij hjn => by omega⟩
        · rintro ⟨hin, _, hj⟩
          by_cases hne : i = n
          · rw [hne]
          · exact absurd hz (hj n z (by omega) (by omega) hget)
      · rw [if_neg hz, ih]
        constructor
        · rintro ⟨hin, hy, hj⟩
          refine ⟨by omega, hy, ?_⟩
          intro j y hij hjn hjy
          by_cases hjn' : j = n
          · subst hjn'; rw [hget] at hjy; cases hjy; exact hz
          · exact hj j y hij (by omega) hjy
        · rintro ⟨hin, ⟨y, hy, hm⟩, hj⟩
          have hne : i ≠ n := by
            rintro rfl; rw [hget] at hy; cases hy; exact hz hm
          exact ⟨by omega, ⟨y, hy, hm⟩, fun j y hij hjn => hj j y hij (by omega)⟩

theorem find_symbol_loop_none (table : List Symbol) (level : Int) (name : List Char)
    (n : Nat) :
    find_symbol_loop table level name n = none ↔
      ∀ j y, j < n → table[j]? = some y → ¬ (y.name = name ∧ y.scope_level ≤ level) := by
  induction n with
  | zero => simp [find_symbol_loop]
  | succ n ih =>
    rw [find_symbol_loop]
    cases hget : table[n]? with
    | none =>
      simp only []
      rw [ih]
      constructor
      · intro h j y hjn hjy
        by_cases hjn' : j = n
        · subst hjn'; rw [hget] at hjy; cases hjy
        · exact h j y (by omega) hjy
      · intro h j y hjn hjy
        exact h j y (by omega) hjy
    | some z =>
      simp only []
      by_cases hz : z.name = name ∧ z.scope_level ≤ level
      · rw [if_pos hz]
        constructor
        · intro h; cases h
        · intro h; exact absurd hz (h n z (by omega) hget)
      · rw [if_neg hz, ih]
        constructor
        · intro h j y hjn hjy
          by_cases hjn' : j = n
          · subst hjn'; rw [hget] at hjy; cases hjy; exact hz
          · exact h j y (by omega) hjy
        · intro h j y hjn hjy
          exact h j y (by omega) hjy

/-- Characterisation of the loop of `exit_scope`. -/
theorem exit_scope_loop_spec (table : List Symbol) (level : Int) (n : Nat) :
    exit_scope_loop table level n ≤ n ∧
      (∀ j y, exit_scope_loop table level n ≤ j → j < n → table[j]? = some y →
        y.scope_level = level) ∧
      (∀ k y, exit_scope_loop table level n = k + 1 → table[k]? = some y →
        y.scope_level ≠ level) := by
  induction n with
  | zero => simp [exit_scope_loop]
  | succ n ih =>
    rw [exit_scope_loop]
    cases hget : table[n]? with
    | none =>
      simp only []
      refine ⟨le_refl _, fun j y h1 h2 => by omega, ?_⟩
      intro k y hk hy
      have : k = n := by omega
      subst this; rw [hget] at hy; cases hy
    | some z =>
      simp only []
      by_cases hz : z.scope_level = level
      · rw [if_pos hz]
        obtain ⟨h1, h2, h3⟩ := ih
        refine ⟨by omega, ?_, h3⟩
        intro j y hj hjn hjy
        by_cases hjn' : j = n
        · subst hjn'; rw [hget] at hjy; cases hjy; exact hz
        · exact h2 j y hj (by omega) hjy
      · rw [if_neg hz]
        refine ⟨le_refl _, fun j y h1 h2 => by omega, ?_⟩
        intro k y hk hy
        have : k = n := by omega
        subst this; rw [hget] at hy; cases hy; exact hz

theorem exit_scope_loop_append (pre suf : List Symbol) (level : Int)
    (hsuf : ∀ y ∈ suf, y.scope_level = level)
    (hpre : ∀ y, pre.getLast? = some y → y.scope_level ≠ level) :
    exit_scope_loop (pre ++ suf) level (pre ++ suf).length = pre.length := by
  obtain ⟨h1, h2, h3⟩ := exit_scope_loop_spec (pre ++ suf) level (pre ++ suf).length
  rcases Nat.lt_trichotomy (exit_scope_loop (pre ++ suf) level (pre ++ suf).length)
    pre.length with hlt | heq | hgt
  · exfalso
    have hne : pre ≠ [] := by
      intro h; rw [h] at hlt; simp at hlt
    have hlast : pre.getLast? = some (pre.getLast hne) := List.getLast?_eq_getLast _ hne
    have hidx : (pre ++ suf)[pre.length - 1]? = some (pre.getLast hne) := by
      have hp : 0 < pre.length := List.length_pos.mpr hne
      rw [List.getElem?_append_left (by omega), List.getLast_eq_getElem]
      exact List.getElem?_eq_getElem (by omega)
    have hp : 0 < pre.length := List.length_pos.mpr hne
    exact hpre _ hlast
      (h2 (pre.length - 1) _ (by omega) (by simp; omega) hidx)
  · exact heq
  · exfalso
    obtain ⟨k, hk⟩ : ∃ k, exit_scope_loop (pre ++ suf) level (pre ++ suf).length = k + 1 :=
      ⟨exit_scope_loop (pre ++ suf) level (pre ++ suf).length - 1, by omega⟩
    have hkl : k < (pre ++ suf).length := by omega
    have hget : (pre ++ suf)[k]? = some ((pre ++ suf)[k]) := List.getElem?_eq_getElem hkl
    have hmem : (pre ++ suf)[k] ∈ suf := by
      rw [List.getElem_append_right (by omega)]
      exact List.getElem_mem _
    exact h3 k _ hk hget (hsuf _ hmem)

theorem outer_state_reachable : Reachable outer_state :=
  Reachable.declare empty_state outer_state ['x'] "int".toList
    (Reachable.init empty_state rfl rfl) rfl

theorem inner_state_reachable : Reachable inner_state :=
  Reachable.declare
    { empty_state with
      symbol_table := [⟨['x'], "int".toList, 0⟩, ⟨['x'], "int".toList, 1⟩]
      current_scope_level := 1 }
    inner_state ['y'] "int".toList
    (Reachable.declare (enter_scope outer_state) _ ['x'] "int".toList
      (Reachable.enter outer_state outer_state_reachable) rfl)
    rfl

/-- C3 (as stated, refuted): on a table that holds 100 symbols, none of them
named `b`, declaring `b` is not a redeclaration and yet nothing is appended:
`add_symbol` stops with the capacity condition. -/
theorem add_symbol_full_table :
    (¬ ∃ y ∈ full_state.symbol_table,
        y.name = ['b'] ∧ y.scope_level = full_state.current_scope_level) ∧
      add_symbol full_state ['b'] "int".toList = .error .table_full :=
  ⟨by decide, rfl⟩

/-- C3 (amended): `add_symbol` stops with the redeclaration condition exactly
when the table holds a symbol of this name at the current level; otherwise,
when the table holds fewer than `MAX_SYMBOLS` symbols, it returns the state in
which one symbol `{name, type, current level}` is appended and nothing else is
changed; otherwise it stops with the capacity condition. -/
theorem add_symbol_spec (s : State) (name type : List Char) :
    ((∃ line column, add_symbol s name type = .error (.redeclaration name line column)) ↔
      ∃ y ∈ s.symbol_table, y.name = name ∧ y.scope_level = s.current_scope_level) ∧
    ((¬ ∃ y ∈ s.symbol_table, y.name = name ∧ y.scope_level = s.current_scope_level) →
      s.symbol_table.length < MAX_SYMBOLS →
      add_symbol s name type =
        .ok { s with symbol_table :=
                s.symbol_table ++ [⟨name, type, s.current_scope_level⟩] }) ∧
    ((¬ ∃ y ∈ s.symbol_table, y.name = name ∧ y.scope_level = s.current_scope_level) →
      MAX_SYMBOLS ≤ s.symbol_table.length →
      add_symbol s name type = .error .table_full) := by
  have hiff := redeclared_iff s.symbol_table name s.current_scope_level
  refine ⟨?_, ?_, ?_⟩
  · constructor
    · rintro ⟨line, column, h⟩
      by_contra hno
      have hr : redeclared s.symbol_table name s.current_scope_level = false := by
        cases hb : redeclared s.symbol_table name s.current_scope_level
        · rfl
        · exact absurd (hiff.mp hb) hno
      unfold add_symbol at h
      rw [hr] at h
      simp only [Bool.false_eq_true, if_false] at h
      split at h <;> cases h
    · intro h
      refine ⟨s.current_token.line, s.current_token.column, ?_⟩
      unfold add_symbol
      rw [hiff.mpr h]
      rfl
  · intro hno hlen
    have hr : redeclared s.symbol_table name s.current_scope_level = false := by
      cases hb : redeclared s.symbol_table name s.current_scope_level
      · rfl
      · exact absurd (hiff.mp hb) hno
    unfold add_symbol
    rw [hr]
    simp only [Bool.false_eq_true, if_false]
    rw [if_neg (by omega)]
  · intro hno hlen
    have hr : redeclared s.symbol_table name s.current_scope_level = false := by
      cases hb : redeclared s.symbol_table name s.current_scope_level
      · rfl
      · exact absurd (hiff.mp hb) hno
    unfold add_symbol
    rw [hr]
    simp only [Bool.false_eq_true, if_false]
    rw [if_pos hlen]

/-- Witness of C3 (amended): declaring `y` in the state that holds `x`. -/
theorem add_symbol_spec_witness :
    add_symbol outer_state ['y'] "int".toList =
      .ok { outer_state with symbol_table :=
              outer_state.symbol_table ++ [⟨['y'], "int".toList, outer_state.current_scope_level⟩] } :=
  (add_symbol_spec outer_state ['y'] "int".toList).2.1 (by decide) (by decide)

/-- C4: `find_symbol` answers index `i` exactly when the symbol at `i` has the
name and a level not above the current one and no symbol at a greater index
has; it answers `NULL` exactly when no symbol of the table has.  (The function
reads the state and returns no state: table and level are not modified.) -/
theorem find_symbol_spec (s : State) (name : List Char) :
    (∀ i, find_symbol s name = some i ↔
      (∃ y, s.symbol_table[i]? = some y ∧ Visible s name y) ∧
        ∀ j z, i < j → s.symbol_table[j]? = some z → ¬ Visible s name z) ∧
    (find_symbol s name = none ↔ ∀ y ∈ s.symbol_table, ¬ Visible s name y) := by
  refine ⟨fun i => ?_, ?_⟩
  · unfold find_symbol Visible
    rw [find_symbol_loop_some]
    constructor
    · rintro ⟨_, hy, hj⟩
      refine ⟨hy, fun j z hij hjz => hj j z hij ?_ hjz⟩
      by_contra hge
      rw [List.getElem?_eq_none (by omega)] at hjz
      cases hjz
    · rintro ⟨⟨y, hy, hv⟩, hj⟩
      refine ⟨?_, ⟨y, hy, hv⟩, fun j z hij _ hjz => hj j z hij hjz⟩
      by_contra hge
      rw [List.getElem?_eq_none (by omega)] at hy
      cases hy
  · unfold find_symbol Visible
    rw [find_symbol_loop_none]
    constructor
    · intro h y hy
      obtain ⟨j, hj, rfl⟩ := List.getElem_of_mem hy
      exact h j _ hj (List.getElem?_eq_getElem hj)
    · intro h j y _ hjy
      exact h y (List.getElem?_mem hjy)

/-- The table before `exit_scope` is the table after it followed by symbols of
the current level, and the last symbol kept is not of this level. -/
theorem exit_scope_split (s : State) :
    ∃ removed,
      s.symbol_table = (exit_scope s).symbol_table ++ removed ∧
      (∀ y ∈ removed, y.scope_level = s.current_scope_level) ∧
      (∀ y, (exit_scope s).symbol_table.getLast? = some y →
        y.scope_level ≠ s.current_scope_level) ∧
      (exit_scope s).current_scope_level = s.current_scope_level - 1 ∧
      exit_scope s =
        { s with symbol_table := (exit_scope s).symbol_table
                 current_scope_level := s.current_scope_level - 1 } := by
  obtain ⟨h1, h2, h3⟩ :=
    exit_scope_loop_spec s.symbol_table s.current_scope_level s.symbol_table.length
  refine ⟨s.symbol_table.drop
    (exit_scope_loop s.symbol_table s.current_scope_level s.symbol_table.length),
    ?_, ?_, ?_, rfl, rfl⟩
  · simp [exit_scope]
  · intro y hy
    obtain ⟨j, hj, rfl⟩ := List.getElem_of_mem hy
    rw [List.getElem_drop]
    rw [List.length_drop] at hj
    exact h2 _ _ (Nat.le_add_right _ _) (by omega) (List.getElem?_eq_getElem (by omega))
  · intro y hy
    simp only [exit_scope] at hy
    rw [List.getLast?_take] at hy
    split at hy
    · cases hy
    · rename_i hk
      obtain ⟨k, hk'⟩ : ∃ k, exit_scope_loop s.symbol_table s.current_scope_level
          s.symbol_table.length = k + 1 := ⟨_, (Nat.succ_pred_eq_of_ne_zero hk).symm⟩
      rw [hk'] at hy
      simp only [Nat.add_sub_cancel] at hy
      have hkl : k < s.symbol_table.length := by omega
      rw [List.getElem?_eq_getElem hkl] at hy
      have hy' : s.symbol_table[k] = y := by simpa [Option.or] using hy
      exact h3 k y hk' (by rw [List.getElem?_eq_getElem hkl, hy'])

/-- C5: `exit_scope` at level `k` splits the table into the table it keeps and
a removed suffix: every removed symbol has level `k`, the last kept symbol
(if any) has not, so the removed suffix is the longest one of level `k`; the
level becomes `k - 1` and the other globals are unchanged. -/
theorem exit_scope_spec (s : State) :
    ∃ removed,
      s.symbol_table = (exit_scope s).symbol_table ++ removed ∧
      (∀ y ∈ removed, y.scope_level = s.current_scope_level) ∧
      (∀ y, (exit_scope s).symbol_table.getLast? = some y →
        y.scope_level ≠ s.current_scope_level) ∧
      (exit_scope s).current_scope_level = s.current_scope_level - 1 ∧
      exit_scope s =
        { s with symbol_table := (exit_scope s).symbol_table
                 current_scope_level := s.current_scope_level - 1 } :=
  exit_scope_split s

/-! ## The level discipline -/

theorem add_symbol_ok (s s' : State) (name type : List Char)
    (h : add_symbol s name type = .ok s') :
    (¬ ∃ y ∈ s.symbol_table, y.name = name ∧ y.scope_level = s.current_scope_level) ∧
      s.symbol_table.length < MAX_SYMBOLS ∧
      s' = { s with symbol_table :=
               s.symbol_table ++ [⟨name, type, s.current_scope_level⟩] } := by
  unfold add_symbol at h
  split at h
  · cases h
  · rename_i hr
    split at h
    · cases h
    · rename_i hlen
      refine ⟨fun hex => hr ((redeclared_iff _ _ _).mpr hex), by omega, ?_⟩
      cases h
      rfl

theorem wellFormed_enter (s : State) (h : WellFormed s) : WellFormed (enter_scope s) := by
  obtain ⟨h0, hle, hs, hd⟩ := h
  refine ⟨?_, ?_, hs, hd⟩
  · show 0 ≤ s.current_scope_level + 1
    omega
  · intro y hy
    have := hle y hy
    show 0 ≤ y.scope_level ∧ y.scope_level ≤ s.current_scope_level + 1
    omega

theorem wellFormed_add (s s' : State) (name type : List Char) (h : WellFormed s)
    (hadd : add_symbol s name type = .ok s') : WellFormed s' := by
  obtain ⟨h0, hle, hs, hd⟩ := h
  obtain ⟨hno, _, rfl⟩ := add_symbol_ok s s' name type hadd
  refine ⟨h0, ?_, ?_, ?_⟩
  · intro y hy
    simp only [List.mem_append, List.mem_singleton] at hy
    rcases hy with hy | rfl
    · exact hle y hy
    · exact ⟨h0, le_refl _⟩
  · show (s.symbol_table ++ [_]).Pairwise _
    rw [List.pairwise_append]
    refine ⟨hs, List.pairwise_singleton _ _, ?_⟩
    intro a ha b hb
    simp only [List.mem_singleton] at hb
    subst hb
    exact (hle a ha).2
  · show (s.symbol_table ++ [_]).Pairwise _
    rw [List.pairwise_append]
    refine ⟨hd, List.pairwise_singleton _ _, ?_⟩
    intro a ha b hb
    simp only [List.mem_singleton] at hb
    subst hb
    exact fun hab => hno ⟨a, ha, hab⟩

theorem wellFormed_exit (s : State) (h : WellFormed s) (hlevel : 0 < s.current_scope_level) :
    WellFormed (exit_scope s) := by
  obtain ⟨h0, hle, hs, hd⟩ := h
  obtain ⟨removed, hsplit, _, hlast, hlev, _⟩ := exit_scope_split s
  have hsub : (exit_scope s).symbol_table.Sublist s.symbol_table := by
    rw [hsplit]; exact List.sublist_append_left _ _
  refine ⟨by rw [hlev]; omega, ?_, hs.sublist hsub, hd.sublist hsub⟩
  intro y hy
  rw [hlev]
  have hymem : y ∈ s.symbol_table := hsub.subset hy
  refine ⟨(hle y hymem).1, ?_⟩
  have hne : (exit_scope s).symbol_table ≠ [] := List.ne_nil_of_mem hy
  have hl := hlast _ (List.getLast?_eq_getLast _ hne)
  have hlmem : (exit_scope s).symbol_table.getLast hne ∈ s.symbol_table :=
    hsub.subset (List.getLast_mem hne)
  have hyl : y.scope_level ≤ ((exit_scope s).symbol_table.getLast hne).scope_level := by
    have hs' := hs.sublist hsub
    obtain ⟨init, hinit⟩ : ∃ init, (exit_scope s).symbol_table =
        init ++ [(exit_scope s).symbol_table.getLast hne] :=
      ⟨_, (List.dropLast_append_getLast hne).symm⟩
    rw [hinit] at hy hs'
    rw [List.pairwise_append] at hs'
    simp only [List.mem_append, List.mem_singleton] at hy
    rcases hy with hy | hy
    · exact hs'.2.2 y hy _ (List.mem_singleton.mpr rfl)
    · rw [← hy]
  have := (hle _ hlmem).2
  omega

/-- Every reachable scope state obeys the level discipline. -/
theorem reachable_wellFormed (s : State) (h : Reachable s) : WellFormed s := by
  induction h with
  | init s htable hlevel =>
    refine ⟨by omega, ?_, ?_, ?_⟩ <;> simp [htable]
  | enter s _ ih => exact wellFormed_enter s ih
  | declare s s' name type _ hadd ih => exact wellFormed_add s s' name type ih hadd
  | exit s _ hlevel ih => exact wellFormed_exit s ih hlevel
  | read s s' _ htable hlevel ih =>
    unfold WellFormed at ih ⊢
    rw [htable, hlevel]
    exact ih

/-- C6: in a reachable scope state no two symbols of the table (at two
different indices) have both the same name and the same scope level. -/
theorem reachable_no_duplicate (s : State) (h : Reachable s) :
    ∀ (i j : Nat) (a b : Symbol), i < j →
      s.symbol_table[i]? = some a → s.symbol_table[j]? = some b →
      ¬ (a.name = b.name ∧ a.scope_level = b.scope_level) := by
  intro i j a b hij ha hb
  have hd := (reachable_wellFormed s h).2.2.2
  have hj : j < s.symbol_table.length := by
    by_contra hge
    rw [List.getElem?_eq_none (by omega)] at hb
    cases hb
  have hi : i < s.symbol_table.length := by omega
  rw [List.getElem?_eq_getElem hi] at ha
  rw [List.getElem?_eq_getElem hj] at hb
  cases ha; cases hb
  exact List.pairwise_iff_getElem.mp hd i j hi hj hij

/-- Witness of C6: in the state reached by declaring `x`, entering a block and
declaring `x` and `y` there, the two symbols named `x` differ in their level. -/
theorem reachable_no_duplicate_witness :
    ¬ ((⟨['x'], "int".toList, 0⟩ : Symbol).name = (⟨['x'], "int".toList, 1⟩ : Symbol).name ∧
      (⟨['x'], "int".toList, 0⟩ : Symbol).scope_level =
        (⟨['x'], "int".toList, 1⟩ : Symbol).scope_level) :=
  reachable_no_duplicate inner_state inner_state_reachable 0 1 _ _ (by decide) rfl rfl

theorem declare_all_ok (ds : List (List Char × List Char)) (s s' : State)
    (h : declare_all s ds = .ok s') :
    s' = { s with symbol_table :=
             s.symbol_table ++ ds.map fun d => ⟨d.1, d.2, s.current_scope_level⟩ } := by
  induction ds generalizing s with
  | nil =>
    simp only [declare_all] at h
    cases h
    simp
  | cons d ds ih =>
    simp only [declare_all] at h
    cases hadd : add_symbol s d.1 d.2 with
    | error e => rw [hadd] at h; cases h
    | ok s1 =>
      rw [hadd] at h
      obtain ⟨_, _, rfl⟩ := add_symbol_ok s s1 d.1 d.2 hadd
      rw [ih _ h]
      simp

/-- C9: from a reachable state `s`, entering a scope, making any sequence of
successful declarations and leaving the scope gives `s` back (the same table
in the same order, the same level), so `find_symbol` answers for every name
what it answered in `s`. -/
theorem exit_scope_restores (s s' : State) (ds : List (List Char × List Char))
    (h : Reachable s) (hd : declare_all (enter_scope s) ds = .ok s') :
    exit_scope s' = s ∧ ∀ name, find_symbol (exit_scope s') name = find_symbol s name := by
  have hw := reachable_wellFormed s h
  have heq : exit_scope s' = s := by
    rw [declare_all_ok ds _ _ hd]
    unfold exit_scope
    simp only [enter_scope]
    rw [exit_scope_loop_append]
    · simp
    · intro y hy
      simp only [List.mem_map] at hy
      obtain ⟨d, _, rfl⟩ := hy
      rfl
    · intro y hy
      have := (hw.2.1 y (List.mem_of_mem_getLast? hy)).2
      omega
  exact ⟨heq, fun name => by rw [heq]⟩

/-- Witness of C9: a block that declares `x` and `y` on top of an outer `x`. -/
theorem exit_scope_restores_witness :
    exit_scope inner_state = outer_state ∧
      ∀ name, find_symbol (exit_scope inner_state) name = find_symbol outer_state name :=
  exit_scope_restores outer_state inner_state
    [(['x'], "int".toList), (['y'], "int".toList)] outer_state_reachable rfl

/-! ## Lexer -/

theorem getch_cons (s : Source) (c : Char) (rest : List Char)
    (h : s.input_file = c :: rest) :
    (getch s).1 = some c ∧ (getch s).2.input_file = rest := by
  unfold getch
  rw [h]
  by_cases hc : c = '\n' <;> simp [hc]

theorem getch_nil (s : Source) (h : s.input_file = []) : getch s = (none, s) := by
  unfold getch
  rw [h]

theorem advance_cons (s : Source) (c : Char) (cs : List Char) :
    advance s (c :: cs) = advance (getch s).2 cs := rfl

theorem advance_input (cs : List Char) (s : Source) (rest : List Char)
    (h : s.input_file = cs ++ rest) : (advance s cs).input_file = rest := by
  induction cs generalizing s with
  | nil => simpa [advance] using h
  | cons c cs ih =>
    rw [advance_cons]
    exact ih _ (getch_cons s c (cs ++ rest) h).2

/-- The whitespace loop stops at the first character that is not white. -/
theorem skip_space_loop_char (ws : List Char) (s : Source) (n : Nat) (c : Char)
    (rest : List Char) (hin : s.input_file = ws ++ c :: rest)
    (hws : ∀ w ∈ ws, isspace w = true) (hc : isspace c = false) (hn : ws.length < n) :
    skip_space_loop n (getch s).1 (getch s).2 = (some c, advance s (ws ++ [c])) := by
  induction ws generalizing s n with
  | nil =>
    obtain ⟨m, rfl⟩ : ∃ m, n = m + 1 := ⟨n - 1, by omega⟩
    have hg := getch_cons s c rest hin
    rw [hg.1]
    simp [skip_space_loop, hc, advance]
  | cons w ws ih =>
    obtain ⟨m, rfl⟩ : ∃ m, n = m + 1 := ⟨n - 1, by omega⟩
    have hg := getch_cons s w (ws ++ c :: rest) hin
    rw [hg.1]
    simp only [skip_space_loop, hws w (List.mem_cons_self _ _), if_true]
    rw [ih (getch s).2 m hg.2 (fun x hx => hws x (List.mem_cons_of_mem _ hx))
      (by simpa using hn)]
    rfl

/-- The whitespace loop on an input of white characters only ends at `EOF`. -/
theorem skip_space_loop_eof (ws : List Char) (s : Source) (n : Nat)
    (hin : s.input_file = ws) (hws : ∀ w ∈ ws, isspace w = true) (hn : ws.length < n) :
    skip_space_loop n (getch s).1 (getch s).2 = (none, advance s ws) := by
  induction ws generalizing s n with
  | nil =>
    obtain ⟨m, rfl⟩ : ∃ m, n = m + 1 := ⟨n - 1, by omega⟩
    rw [getch_nil s hin]
    simp [skip_space_loop, advance]
  | cons w ws ih =>
    obtain ⟨m, rfl⟩ : ∃ m, n = m + 1 := ⟨n - 1, by omega⟩
    have hg := getch_cons s w ws hin
    rw [hg.1]
    simp only [skip_space_loop, hws w (List.mem_cons_self _ _), if_true]
    rw [ih (getch s).2 m hg.2 (fun x hx => hws x (List.mem_cons_of_mem _ hx))
      (by simpa using hn)]
    rfl

theorem ungetch_adjust_input (s : Source) (c : Char) :
    (ungetch_adjust s (some c)).input_file = c :: s.input_file := by
  unfold ungetch_adjust
  by_cases hc : c = '\n' <;> simp [hc]

theorem combinable_iff (c1 c2 : Char) :
    combinable c1 (some c2) = true ↔ [c1, c2] ∈ two_char_operators := by
  simp only [combinable, two_char_operators, String.toList, Bool.or_eq_true, Bool.and_eq_true,
    decide_eq_true_eq, Option.some.injEq, List.mem_cons, List.cons.injEq, and_true,
    List.mem_singleton, List.not_mem_nil, or_false]
  tauto

theorem is_operator_not_word (c : Char) (h : is_operator c = true) :
    isspace c = false ∧ isalpha c = false ∧ isdigit c = false := by
  simp only [is_operator, operators, List.any_cons, List.any_nil, Bool.or_false,
    Bool.or_eq_true, decide_eq_true_eq] at h
  rcases h with h | h | h | h | h | h | h | h | h | h <;> subst h <;> decide

theorem two_char_first (c1 c2 : Char) (h : [c1, c2] ∈ two_char_operators) :
    is_operator c1 = true := by
  simp only [two_char_operators, String.toList, List.mem_cons, List.cons.injEq, and_true,
    List.mem_singleton, List.not_mem_nil, or_false] at h
  rcases h with ⟨h, _⟩ | ⟨h, _⟩ | ⟨h, _⟩ | ⟨h, _⟩ | ⟨h, _⟩ | ⟨h, _⟩ <;> subst h <;> decide

/-- The operator branch of `get_next_token`, after leading white space. -/
theorem get_next_token_operator (s : Source) (ws rest : List Char) (c : Char)
    (hws : ∀ w ∈ ws, isspace w = true) (hop : is_operator c = true)
    (hin : s.input_file = ws ++ c :: rest) :
    get_next_token s =
      if combinable c (getch (advance s (ws ++ [c]))).1 then
        (⟨.TOKEN_OPERATOR, c :: (getch (advance s (ws ++ [c]))).1.toList,
            (advance s (ws ++ [c])).current_line, (advance s (ws ++ [c])).current_column⟩,
          (getch (advance s (ws ++ [c]))).2)
      else
        (⟨.TOKEN_OPERATOR, [c],
            (advance s (ws ++ [c])).current_line, (advance s (ws ++ [c])).current_column⟩,
          ungetch_adjust (getch (advance s (ws ++ [c]))).2 (getch (advance s (ws ++ [c]))).1) := by
  obtain ⟨hsp, hal, hdi⟩ := is_operator_not_word c hop
  unfold get_next_token
  simp only []
  rw [skip_space_loop_char ws s _ c rest hin hws hsp (by rw [hin]; simp; omega)]
  simp only [hal, hdi, hop, Bool.false_eq_true, if_false, if_true]

/-- C10: after leading white space, when the next two characters are one of
the pairs `==`, `!=`, `<=`, `>=`, `&&`, `||`, `get_next_token` returns one
operator token whose lexeme is the pair and both characters are consumed; when
the first is an operator character and the two do not form such a pair, or
the input ends after the first, the token is the single-character operator
and what follows it is left in the input. -/
theorem operator_greedy (s : Source) (ws rest : List Char) (c1 c2 : Char)
    (hws : ∀ w ∈ ws, isspace w = true) :
    ([c1, c2] ∈ two_char_operators → s.input_file = ws ++ c1 :: c2 :: rest →
      (get_next_token s).1.type = .TOKEN_OPERATOR ∧
      (get_next_token s).1.value = [c1, c2] ∧
      (get_next_token s).2.input_file = rest) ∧
    (is_operator c1 = true → [c1, c2] ∉ two_char_operators →
      s.input_file = ws ++ c1 :: c2 :: rest →
      (get_next_token s).1.type = .TOKEN_OPERATOR ∧
      (get_next_token s).1.value = [c1] ∧
      (get_next_token s).2.input_file = c2 :: rest) ∧
    (is_operator c1 = true → s.input_file = ws ++ [c1] →
      (get_next_token s).1.type = .TOKEN_OPERATOR ∧
      (get_next_token s).1.value = [c1] ∧
      (get_next_token s).2.input_file = []) := by
  refine ⟨?_, ?_, ?_⟩
  · intro hpair hin
    have hop := two_char_first c1 c2 hpair
    have hs1 : (advance s (ws ++ [c1])).input_file = c2 :: rest :=
      advance_input (ws ++ [c1]) s (c2 :: rest) (by rw [hin]; simp)
    have hg := getch_cons _ c2 rest hs1
    rw [get_next_token_operator s ws (c2 :: rest) c1 hws hop hin, hg.1,
      if_pos ((combinable_iff c1 c2).mpr hpair)]
    exact ⟨rfl, rfl, hg.2⟩
  · intro hop hpair hin
    have hs1 : (advance s (ws ++ [c1])).input_file = c2 :: rest :=
      advance_input (ws ++ [c1]) s (c2 :: rest) (by rw [hin]; simp)
    have hg := getch_cons _ c2 rest hs1
    rw [get_next_token_operator s ws (c2 :: rest) c1 hws hop hin, hg.1,
      if_neg (fun h => hpair ((combinable_iff c1 c2).mp h))]
    refine ⟨rfl, rfl, ?_⟩
    show (ungetch_adjust _ (some c2)).input_file = c2 :: rest
    rw [ungetch_adjust_input, hg.2]
  · intro hop hin
    have hs1 : (advance s (ws ++ [c1])).input_file = [] :=
      advance_input (ws ++ [c1]) s [] (by rw [hin]; simp)
    rw [get_next_token_operator s ws [] c1 hws hop hin, getch_nil _ hs1,
      if_neg (by simp [combinable])]
    exact ⟨rfl, rfl, hs1⟩

/-- Witness of C10: `<=` after two blanks is one token, and `3` is left. -/
theorem operator_greedy_witness :
    (get_next_token ⟨"  <= 3".toList, 1, 0⟩).1.type = .TOKEN_OPERATOR ∧
      (get_next_token ⟨"  <= 3".toList, 1, 0⟩).1.value = ['<', '='] ∧
      (get_next_token ⟨"  <= 3".toList, 1, 0⟩).2.input_file = [' ', '3'] :=
  (operator_greedy ⟨"  <= 3".toList, 1, 0⟩ [' ', ' '] [' ', '3'] '<' '='
    (by decide)).1 (by decide) rfl

/-! ## Progress of the lexer -/

theorem getch_some (s : Source) (c : Char) (h : (getch s).1 = some c) :
    (getch s).2.input_file.length + 1 = s.input_file.length ∧
      (ungetch_adjust (getch s).2 (some c)).input_file = s.input_file := by
  cases hin : s.input_file with
  | nil => rw [getch_nil s hin] at h; cases h
  | cons d rest =>
    have hg := getch_cons s d rest hin
    rw [hg.1] at h
    cases h
    rw [ungetch_adjust_input, hg.2]
    simp

theorem getch_none (s : Source) (h : (getch s).1 = none) : (getch s).2 = s := by
  cases hin : s.input_file with
  | nil => rw [getch_nil s hin]
  | cons d rest => rw [(getch_cons s d rest hin).1] at h; cases h

theorem getch_le (s : Source) : (getch s).2.input_file.length ≤ s.input_file.length := by
  cases h : (getch s).1 with
  | none => rw [getch_none s h]
  | some c => have := (getch_some s c h).1; omega

theorem skip_space_loop_le (n : Nat) (c : Option Char) (s : Source) :
    (skip_space_loop n c s).2.input_file.length ≤ s.input_file.length := by
  induction n generalizing c s with
  | zero => simp [skip_space_loop]
  | succ n ih =>
    cases c with
    | none => simp [skip_space_loop]
    | some d =>
      simp only [skip_space_loop]
      split
      · exact le_trans (ih _ _) (getch_le s)
      · exact le_refl _

theorem skip_space_loop_none (n : Nat) (s : Source) :
    skip_space_loop n none s = (none, s) := by
  cases n <;> rfl

theorem run_loop_le (p : Char → Bool) (n : Nat) (value : List Char) (c : Char) (s : Source) :
    (ungetch_adjust (run_loop p n value c s).2.2 (run_loop p n value c s).2.1).input_file.length
      ≤ s.input_file.length := by
  induction n generalizing value c s with
  | zero =>
    simp only [run_loop]
    cases h : (getch s).1 with
    | none => rw [getch_none s h]; exact le_refl _
    | some d => rw [(getch_some s d h).2]
  | succ n ih =>
    simp only [run_loop]
    cases h : (getch s).1 with
    | none => simp only []; rw [getch_none s h]; exact le_refl _
    | some d =>
      simp only []
      split
      · exact le_trans (ih _ _ _) (getch_le s)
      · simp only []; rw [(getch_some s d h).2]

/-- The source after `get_next_token` is never longer than before. -/
theorem get_next_token_le (s : Source) :
    (get_next_token s).2.input_file.length ≤ s.input_file.length := by
  have hskip : (skip_space_loop (s.input_file.length + 1) (getch s).1
      (getch s).2).2.input_file.length ≤ s.input_file.length :=
    le_trans (skip_space_loop_le _ _ _) (getch_le s)
  unfold get_next_token
  simp only []
  split
  · exact hskip
  · split
    · exact le_trans (run_loop_le _ _ _ _ _) hskip
    · split
      · exact le_trans (run_loop_le _ _ _ _ _) hskip
      · split
        · split
          · exact le_trans (getch_le _) hskip
          · refine le_trans ?_ hskip
            cases h : (getch (skip_space_loop (s.input_file.length + 1) (getch s).1
                (getch s).2).2).1 with
            | none => rw [getch_none _ h]; exact le_refl _
            | some d => rw [(getch_some _ d h).2]
        · split
          · exact hskip
          · exact hskip

/-- A call of `get_next_token` that returns a token other than `TOKEN_EOF`
reads at least one character. -/
theorem get_next_token_lt (s : Source) (h : (get_next_token s).1.type ≠ .TOKEN_EOF) :
    (get_next_token s).2.input_file.length < s.input_file.length := by
  cases hin : s.input_file with
  | nil =>
    exfalso
    apply h
    unfold get_next_token
    simp only []
    rw [getch_nil s hin, skip_space_loop_none]
  | cons d rest =>
    have hg := getch_cons s d rest hin
    have hskip : (skip_space_loop (s.input_file.length + 1) (getch s).1
        (getch s).2).2.input_file.length ≤ rest.length := by
      have := skip_space_loop_le (s.input_file.length + 1) (getch s).1 (getch s).2
      rw [hg.2] at this
      exact this
    rw [← hin]
    have hlen : s.input_file.length = rest.length + 1 := by rw [hin]; rfl
    revert h
    unfold get_next_token
    simp only []
    split
    · intro h; exact absurd rfl h
    · intro _
      split
      · exact Nat.lt_of_le_of_lt (le_trans (run_loop_le _ _ _ _ _) hskip) (by omega)
      · split
        · exact Nat.lt_of_le_of_lt (le_trans (run_loop_le _ _ _ _ _) hskip) (by omega)
        · split
          · split
            · exact Nat.lt_of_le_of_lt (le_trans (getch_le _) hskip) (by omega)
            · refine Nat.lt_of_le_of_lt (le_trans ?_ hskip) (by omega)
              cases h : (getch (skip_space_loop (s.input_file.length + 1) (getch s).1
                  (getch s).2).2).1 with
              | none => rw [getch_none _ h]; exact le_refl _
              | some d => rw [(getch_some _ d h).2]
          · split
            · exact Nat.lt_of_le_of_lt hskip (by omega)
            · exact Nat.lt_of_le_of_lt hskip (by omega)

/-- A delimiter token has a lexeme of one character. -/
theorem get_next_token_delimiter (s : Source)
    (h : (get_next_token s).1.type = .TOKEN_DELIMITER) :
    ∃ c, (get_next_token s).1.value = [c] := by
  revert h
  unfold get_next_token
  simp only []
  split
  · intro h; cases h
  · split
    · intro h; simp only [] at h; split at h <;> cases h
    · split
      · intro h; cases h
      · split
        · split <;> (intro h; cases h)
        · split
          · intro _; exact ⟨_, rfl⟩
          · intro h; cases h

/-! ## The token sequence -/

theorem lex_all_fuel (n m : Nat) (s : Source) (hn : s.input_file.length < n)
    (hm : s.input_file.length < m) : lex_all n s = lex_all m s := by
  induction n generalizing m s with
  | zero => omega
  | succ n ih =>
    obtain ⟨m, rfl⟩ : ∃ k, m = k + 1 := ⟨m - 1, by omega⟩
    simp only [lex_all]
    split
    · rfl
    · rename_i h
      have := get_next_token_lt s h
      rw [ih m _ (by omega) (by omega)]

theorem lex_all_succ (n : Nat) (s : Source) :
    lex_all (n + 1) s =
      if (get_next_token s).1.type = .TOKEN_EOF then [(get_next_token s).1]
      else (get_next_token s).1 :: lex_all n (get_next_token s).2 := rfl

theorem pending_of_eof (s : State) (h : s.current_token.type = .TOKEN_EOF) :
    pending s = [s.current_token] := by
  unfold pending
  rw [if_pos h]

theorem pending_of_ne (s : State) (h : s.current_token.type ≠ .TOKEN_EOF) :
    pending s = s.current_token :: lex_all (s.source.input_file.length + 1) s.source := by
  unfold pending
  rw [if_neg h]

/-- Reading the next token takes the current token off the pending tokens. -/
theorem pending_next_token (s : State) (h : s.current_token.type ≠ .TOKEN_EOF) :
    pending s = s.current_token :: pending (next_token s) := by
  rw [pending_of_ne s h, lex_all_succ]
  by_cases h2 : (get_next_token s.source).1.type = .TOKEN_EOF
  · rw [if_pos h2, pending_of_eof (next_token s) h2]
    rfl
  · rw [if_neg h2, pending_of_ne (next_token s) h2]
    have := get_next_token_lt s.source h2
    rw [lex_all_fuel _ ((get_next_token s.source).2.input_file.length + 1) _ (by omega)
      (by omega)]
    rfl

theorem pending_ne_nil (s : State) : pending s ≠ [] := by
  unfold pending
  split <;> simp

theorem pending_head (s : State) : (pending s).head? = some s.current_token := by
  unfold pending
  split <;> rfl

theorem lex_all_delimiter (n : Nat) (s : Source) :
    ∀ t ∈ lex_all n s, t.type = .TOKEN_DELIMITER → ∃ c, t.value = [c] := by
  induction n generalizing s with
  | zero => simp [lex_all]
  | succ n ih =>
    intro t ht
    simp only [lex_all] at ht
    split at ht
    · rw [List.mem_singleton.mp ht]; exact get_next_token_delimiter s
    · rcases List.mem_cons.mp ht with rfl | ht
      · exact get_next_token_delimiter s
      · exact ih _ t ht

theorem lex_all_eof (n : Nat) (s : Source) (hn : s.input_file.length < n) :
    ∃ ts eof, lex_all n s = ts ++ [eof] ∧ eof.type = .TOKEN_EOF ∧
      ∀ t ∈ ts, t.type ≠ .TOKEN_EOF := by
  induction n generalizing s with
  | zero => omega
  | succ n ih =>
    simp only [lex_all]
    split
    · rename_i h
      exact ⟨[], _, rfl, h, by simp⟩
    · rename_i h
      have := get_next_token_lt s h
      obtain ⟨ts, eof, heq, heof, hts⟩ := ih (get_next_token s).2 (by omega)
      refine ⟨(get_next_token s).1 :: ts, eof, by rw [heq]; rfl, heof, ?_⟩
      intro t ht
      rcases List.mem_cons.mp ht with rfl | ht
      · exact h
      · exact hts t ht

/-- The pending tokens end with the first `TOKEN_EOF` token. -/
theorem pending_split (s : State) :
    ∃ ts eof, pending s = ts ++ [eof] ∧ eof.type = .TOKEN_EOF ∧
      ∀ t ∈ ts, t.type ≠ .TOKEN_EOF := by
  unfold pending
  split
  · rename_i h
    exact ⟨[], _, rfl, h, by simp⟩
  · rename_i h
    obtain ⟨ts, eof, heq, heof, hts⟩ :=
      lex_all_eof (s.source.input_file.length + 1) s.source (by omega)
    refine ⟨s.current_token :: ts, eof, by rw [heq]; rfl, heof, ?_⟩
    intro t ht
    rcases List.mem_cons.mp ht with rfl | ht
    · exact h
    · exact hts t ht

/-- The state in which `main` calls `parse_program` has the token sequence of
the input before it. -/
theorem pending_initial (input : List Char) :
    pending (next_token (initial_state input)) = token_sequence input := by
  unfold token_sequence
  rw [lex_all_succ]
  by_cases h2 : (get_next_token ⟨input, 1, 0⟩).1.type = .TOKEN_EOF
  · rw [if_pos h2, pending_of_eof _ h2]
    rfl
  · rw [if_neg h2, pending_of_ne (next_token (initial_state input)) h2]
    have := get_next_token_lt ⟨input, 1, 0⟩ h2
    simp only [] at this
    rw [lex_all_fuel _ input.length _ (by simp only [next_token, initial_state]; omega)
      (by simp only [next_token, initial_state]; omega)]
    rfl

theorem delimOK_initial (input : List Char) : DelimOK (next_token (initial_state input)) := by
  unfold DelimOK
  rw [pending_initial]
  exact lex_all_delimiter _ _

/-! ## The symbol table and the stack of scopes -/

theorem table_of_level (scopes : Scopes) :
    ∀ y ∈ table_of scopes, 0 ≤ y.scope_level ∧ y.scope_level < (scopes.length : Int) := by
  induction scopes with
  | nil => simp [table_of]
  | cons top outer ih =>
    intro y hy
    simp only [table_of, List.mem_append, List.mem_map] at hy
    rcases hy with hy | ⟨n, _, rfl⟩
    · have := ih y hy
      simp only [List.length_cons, Nat.cast_add, Nat.cast_one]
      omega
    · simp only [List.length_cons, Nat.cast_add, Nat.cast_one]
      omega

theorem table_of_length (scopes : Scopes) : (table_of scopes).length = live scopes := by
  induction scopes with
  | nil => rfl
  | cons top outer ih =>
    simp only [table_of, List.length_append, List.length_map, ih, live, List.map_cons,
      List.sum_cons]
    omega

theorem table_of_name (scopes : Scopes) (name : List Char) :
    (∃ y ∈ table_of scopes, y.name = name) ↔ declared scopes name = true := by
  induction scopes with
  | nil => simp [table_of, declared]
  | cons top outer ih =>
    simp only [declared, List.any_cons, Bool.or_eq_true, decide_eq_true_eq] at ih ⊢
    rw [← ih]
    simp only [table_of, List.mem_append, List.mem_map]
    constructor
    · rintro ⟨y, hy | ⟨n, hn, rfl⟩, rfl⟩
      · exact Or.inr ⟨y, hy, rfl⟩
      · exact Or.inl hn
    · rintro (h | ⟨y, hy, rfl⟩)
      · exact ⟨_, Or.inr ⟨name, h, rfl⟩, rfl⟩
      · exact ⟨y, Or.inl hy, rfl⟩

theorem table_of_cons (top : List (List Char)) (outer : Scopes) :
    table_of (top :: outer) =
      table_of outer ++ top.map fun name => ⟨name, "int".toList, (outer.length : Int)⟩ := rfl

theorem refines_next_token (scopes : Scopes) (s : State) (h : Refines scopes s) :
    Refines scopes (next_token s) := h

theorem refines_enter (scopes : Scopes) (s : State) (h : Refines scopes s) :
    Refines ([] :: scopes) (enter_scope s) := by
  obtain ⟨hne, ht, hl⟩ := h
  refine ⟨by simp, ?_, ?_⟩
  · show s.symbol_table = table_of ([] :: scopes)
    simp [table_of, ht]
  · show s.current_scope_level + 1 = _
    rw [hl]
    simp

theorem refines_exit (top next : List (List Char)) (outer : Scopes) (s : State)
    (h : Refines (top :: next :: outer) s) : Refines (next :: outer) (exit_scope s) := by
  obtain ⟨_, ht, hl⟩ := h
  refine ⟨by simp, ?_, ?_⟩
  · show s.symbol_table.take _ = _
    rw [ht, hl, table_of_cons top]
    rw [exit_scope_loop_append]
    · simp
    · intro y hy
      simp only [List.mem_map] at hy
      obtain ⟨n, _, rfl⟩ := hy
      simp
    · intro y hy
      have := (table_of_level (next :: outer) y (List.mem_of_mem_getLast? hy)).2
      simp only [List.length_cons, Nat.cast_add, Nat.cast_one] at this ⊢
      omega
  · show s.current_scope_level - 1 = _
    rw [hl]
    simp

/-- Under the refinement, `add_symbol` follows the scoping rule. -/
theorem refines_add_symbol (top : List (List Char)) (outer : Scopes) (s : State)
    (name : List Char) (h : Refines (top :: outer) s) :
    add_symbol s name "int".toList =
      if name ∈ top then
        .error (.redeclaration name s.current_token.line s.current_token.column)
      else if MAX_SYMBOLS ≤ live (top :: outer) then .error .table_full
      else .ok { s with symbol_table := table_of ((top ++ [name]) :: outer) } := by
  obtain ⟨_, ht, hl⟩ := h
  have hred : redeclared s.symbol_table name s.current_scope_level = decide (name ∈ top) := by
    rw [Bool.eq_iff_iff, redeclared_iff, decide_eq_true_eq, ht, hl]
    simp only [table_of, List.mem_append, List.mem_map]
    constructor
    · rintro ⟨y, hy | ⟨n, hn, rfl⟩, hname, hlevel⟩
      · have := (table_of_level outer y hy).2
        simp only [List.length_cons, Nat.cast_add, Nat.cast_one] at hlevel
        omega
      · exact hname ▸ hn
    · intro hn
      exact ⟨_, Or.inr ⟨name, hn, rfl⟩, rfl, by simp⟩
  unfold add_symbol
  rw [hred]
  by_cases hn : name ∈ top
  · simp [hn]
  · simp only [hn, decide_False, Bool.false_eq_true, if_false]
    rw [ht, table_of_length]
    by_cases hfull : MAX_SYMBOLS ≤ live (top :: outer)
    · simp [hfull]
    · simp only [hfull, if_false, ge_iff_le]
      rw [hl]
      simp [table_of]

theorem refines_add_symbol_ok (top : List (List Char)) (outer : Scopes) (s s' : State)
    (name : List Char) (h : Refines (top :: outer) s)
    (hadd : add_symbol s name "int".toList = .ok s') :
    name ∉ top ∧ ¬ MAX_SYMBOLS ≤ live (top :: outer) ∧
      s' = { s with symbol_table := table_of ((top ++ [name]) :: outer) } ∧
      Refines ((top ++ [name]) :: outer) s' := by
  rw [refines_add_symbol top outer s name h] at hadd
  split at hadd
  · cases hadd
  · rename_i hn
    split at hadd
    · cases hadd
    · rename_i hfull
      cases hadd
      refine ⟨hn, hfull, rfl, by simp, rfl, ?_⟩
      show s.current_scope_level = _
      rw [h.2.2]
      simp

/-- Under the refinement, `find_symbol` fails exactly on the names that no
open scope declares. -/
theorem refines_find_symbol (scopes : Scopes) (s : State) (name : List Char)
    (h : Refines scopes s) :
    find_symbol s name = none ↔ declared scopes name = false := by
  obtain ⟨_, ht, hl⟩ := h
  unfold find_symbol
  rw [find_symbol_loop_none, ← Bool.not_eq_true, ← table_of_name, ht, hl]
  constructor
  · rintro h ⟨y, hy, hname⟩
    obtain ⟨j, hj, rfl⟩ := List.getElem_of_mem hy
    refine h j _ hj (List.getElem?_eq_getElem hj) ⟨hname, ?_⟩
    have := (table_of_level scopes _ hy).2
    omega
  · intro h j y _ hjy hv
    exact h ⟨y, List.getElem?_mem hjy, hv.1⟩

theorem refines_check (scopes : Scopes) (s : State) (name : List Char)
    (h : Refines scopes s) :
    check_symbol_declared s name =
      if declared scopes name then .ok s
      else .error (.undeclared name s.current_token.line s.current_token.column) := by
  unfold check_symbol_declared
  cases hd : declared scopes name
  · rw [(refines_find_symbol scopes s name h).mpr hd]
    rfl
  · cases hf : find_symbol s name with
    | none =>
      rw [(refines_find_symbol scopes s name h).mp hf] at hd
      cases hd
    | some i => rfl

/-! ## Steps of the parser -/

theorem andThen_ok (r : Outcome) (k : State → Outcome) (s' : State) :
    r.andThen k = .ok s' ↔ ∃ s1, r = .ok s1 ∧ k s1 = .ok s' := by
  cases r <;> simp [Outcome.andThen]

theorem of_ok (r : Except Err State) (s' : State) :
    Outcome.of r = .ok s' ↔ r = .ok s' := by
  cases r <;> simp [Outcome.of]

theorem match_keyword_iff (s : State) (kw : List Char) :
    match_keyword s kw = true ↔ is_kw s.current_token kw := by
  simp [match_keyword, is_kw]

theorem match_operator_iff (s : State) (op : List Char) :
    match_operator s op = true ↔ is_op s.current_token op := by
  simp [match_operator, is_op]

theorem match_delimiter_iff (s : State) (c : Char) (h : DelimOK s) :
    match_delimiter s c = true ↔ is_delim s.current_token c := by
  simp only [match_delimiter, is_delim, Bool.and_eq_true, decide_eq_true_eq]
  constructor
  · rintro ⟨ht, hc⟩
    obtain ⟨d, hd⟩ := h s.current_token
      (List.mem_of_mem_head? (by rw [pending_head]; rfl)) ht
    rw [hd] at hc ⊢
    simp only [first_char, List.headD_cons] at hc
    exact ⟨ht, by rw [hc]⟩
  · rintro ⟨ht, hv⟩
    exact ⟨ht, by rw [hv]; rfl⟩


theorem consume_operator_match (s : State) (op : List Char)
    (h : match_operator s op = true) : consume_operator s op = .ok (next_token s) := by
  simp [consume_operator, h]

theorem level_parse_zero (l : Level) (s : State) : l.parse 0 s = .out_of_fuel := by
  cases l <;> rfl

theorem level_loop_zero (l : Level) (s : State) : l.loop 0 s = .out_of_fuel := by
  cases l <;> rfl

theorem level_parse_succ (l : Level) (n : Nat) (s : State) :
    l.parse (n + 1) s = (l.sub n s).andThen (l.loop n) := by
  cases l <;> rfl

theorem level_loop_succ (l : Level) (n : Nat) (s : State) :
    l.loop (n + 1) s =
      if l.at_op s then (l.sub n (next_token s)).andThen (l.loop n) else .ok s := by
  cases l
  · simp only [Level.loop, Level.at_op, Level.ops, Level.sub, parse_logical_or_loop,
      consume_operator, List.any_cons, List.any_nil, Bool.or_false]
    generalize match_operator s "||".toList = b1
    cases b1 <;> simp [Outcome.of, Outcome.andThen]
  · simp only [Level.loop, Level.at_op, Level.ops, Level.sub, parse_logical_and_loop,
      consume_operator, List.any_cons, List.any_nil, Bool.or_false]
    generalize match_operator s "&&".toList = b1
    cases b1 <;> simp [Outcome.of, Outcome.andThen]
  · simp only [Level.loop, Level.at_op, Level.ops, Level.sub, parse_equality_loop,
      consume_operator, List.any_cons, List.any_nil, Bool.or_false]
    generalize match_operator s "==".toList = b1
    generalize match_operator s "!=".toList = b2
    cases b1 <;> cases b2 <;> simp [Outcome.of, Outcome.andThen]
  · simp only [Level.loop, Level.at_op, Level.ops, Level.sub, parse_relational_loop,
      consume_operator, List.any_cons, List.any_nil, Bool.or_false]
    generalize match_operator s "<".toList = b1
    generalize match_operator s "<=".toList = b2
    generalize match_operator s ">".toList = b3
    generalize match_operator s ">=".toList = b4
    cases b1 <;> cases b2 <;> cases b3 <;> cases b4 <;> simp [Outcome.of, Outcome.andThen]
  · simp only [Level.loop, Level.at_op, Level.ops, Level.sub, parse_additive_loop,
      consume_operator, List.any_cons, List.any_nil, Bool.or_false]
    generalize match_operator s "+".toList = b1
    generalize match_operator s "-".toList = b2
    cases b1 <;> cases b2 <;> simp [Outcome.of, Outcome.andThen]
  · simp only [Level.loop, Level.at_op, Level.ops, Level.sub, parse_multiplicative_loop,
      consume_operator, List.any_cons, List.any_nil, Bool.or_false]
    generalize match_operator s "*".toList = b1
    generalize match_operator s "/".toList = b2
    cases b1 <;> cases b2 <;> simp [Outcome.of, Outcome.andThen]

theorem level_sub_proc (l : Level) : ∃ p : Proc, p.run = l.sub ∧ p.nt = l.operand := by
  cases l
  · exact ⟨.binary .logicalAnd, rfl, rfl⟩
  · exact ⟨.binary .equality, rfl, rfl⟩
  · exact ⟨.binary .relational, rfl, rfl⟩
  · exact ⟨.binary .additive, rfl, rfl⟩
  · exact ⟨.binary .multiplicative, rfl, rfl⟩
  · exact ⟨.unary, rfl, rfl⟩

theorem level_at_op_iff (l : Level) (s : State) :
    l.at_op s = true ↔
      s.current_token.type = .TOKEN_OPERATOR ∧ s.current_token.value ∈ l.ops := by
  simp only [Level.at_op, List.any_eq_true, match_operator, Bool.and_eq_true,
    decide_eq_true_eq]
  constructor
  · rintro ⟨op, hop, ht, hv⟩
    exact ⟨ht, hv ▸ hop⟩
  · rintro ⟨ht, hv⟩
    exact ⟨_, hv, ht, rfl⟩

/-- The unary test of `parse_unary`, with the operator consumed. -/
theorem parse_unary_succ (n : Nat) (s : State) :
    parse_unary (n + 1) s =
      if at_unary_op s then parse_unary n (next_token s) else parse_primary n s := by
  simp only [parse_unary, at_unary_op, unary_ops, consume_operator, List.any_cons,
    List.any_nil, Bool.or_false]
  generalize match_operator s "+".toList = b1
  generalize match_operator s "-".toList = b2
  generalize match_operator s "!".toList = b3
  cases b1 <;> cases b2 <;> cases b3 <;> simp [Outcome.of, Outcome.andThen]

theorem at_unary_op_iff (s : State) :
    at_unary_op s = true ↔
      s.current_token.type = .TOKEN_OPERATOR ∧ s.current_token.value ∈ unary_ops := by
  simp only [at_unary_op, List.any_eq_true, match_operator, Bool.and_eq_true,
    decide_eq_true_eq]
  constructor
  · rintro ⟨op, hop, ht, hv⟩
    exact ⟨ht, hv ▸ hop⟩
  · rintro ⟨ht, hv⟩
    exact ⟨_, hv, ht, rfl⟩

/-! ## The scoping rule on sequences -/

theorem scan_append (a b : List Token) (st : Scopes × Bool) :
    scan (a ++ b) st =
      match scan a st with
      | .ok st' => scan b st'
      | .error e => .error e := by
  induction a generalizing st with
  | nil => rfl
  | cons t a ih =>
    simp only [List.cons_append, scan]
    cases scan_step st t with
    | ok st' => exact ih st'
    | error e => rfl

theorem scan_append_ok (a b : List Token) (st st' : Scopes × Bool)
    (h : scan a st = .ok st') : scan (a ++ b) st = scan b st' := by
  rw [scan_append, h]

theorem scan_single (t : Token) (st : Scopes × Bool) : scan [t] st = scan_step st t := by
  simp only [scan]
  cases scan_step st t <;> rfl

/-- A token that is no identifier, no brace and not the keyword `int` leaves
the scopes as they are. -/
theorem scan_step_neutral (scopes : Scopes) (b : Bool) (t : Token)
    (h1 : t.type ≠ .TOKEN_IDENTIFIER) (h2 : ¬ is_delim t '{') (h3 : ¬ is_delim t '}')
    (h4 : ¬ is_kw t "int".toList) : scan_step (scopes, b) t = .ok (scopes, false) := by
  unfold scan_step
  rw [if_neg h1, if_neg h2, if_neg h3, decide_eq_false h4]

theorem not_delim_of_type (t : Token) (c : Char) (h : t.type ≠ .TOKEN_DELIMITER) :
    ¬ is_delim t c := fun h' => h h'.1

theorem not_kw_of_type (t : Token) (kw : List Char) (h : t.type ≠ .TOKEN_KEYWORD) :
    ¬ is_kw t kw := fun h' => h h'.1

theorem is_delim_unique (t : Token) (c d : Char) (h : is_delim t c) (h' : is_delim t d) :
    c = d := by
  have := h.2.symm.trans h'.2
  simpa using this

theorem scan_step_delim (scopes : Scopes) (b : Bool) (t : Token) (c : Char)
    (h : is_delim t c) (h2 : c ≠ '{') (h3 : c ≠ '}') :
    scan_step (scopes, b) t = .ok (scopes, false) := by
  apply scan_step_neutral
  · rw [h.1]; simp
  · exact fun h' => h2 (is_delim_unique t _ _ h h')
  · exact fun h' => h3 (is_delim_unique t _ _ h h')
  · exact not_kw_of_type _ _ (by rw [h.1]; simp)

theorem scan_step_operator (scopes : Scopes) (b : Bool) (t : Token)
    (h : t.type = .TOKEN_OPERATOR) : scan_step (scopes, b) t = .ok (scopes, false) := by
  apply scan_step_neutral
  · rw [h]; simp
  · exact not_delim_of_type _ _ (by rw [h]; simp)
  · exact not_delim_of_type _ _ (by rw [h]; simp)
  · exact not_kw_of_type _ _ (by rw [h]; simp)

theorem scan_step_number (scopes : Scopes) (b : Bool) (t : Token)
    (h : t.type = .TOKEN_NUMBER) : scan_step (scopes, b) t = .ok (scopes, false) := by
  apply scan_step_neutral
  · rw [h]; simp
  · exact not_delim_of_type _ _ (by rw [h]; simp)
  · exact not_delim_of_type _ _ (by rw [h]; simp)
  · exact not_kw_of_type _ _ (by rw [h]; simp)

theorem scan_step_keyword (scopes : Scopes) (b : Bool) (t : Token) (kw : List Char)
    (h : is_kw t kw) (hkw : kw ≠ "int".toList) :
    scan_step (scopes, b) t = .ok (scopes, false) := by
  apply scan_step_neutral
  · rw [h.1]; simp
  · exact not_delim_of_type _ _ (by rw [h.1]; simp)
  · exact not_delim_of_type _ _ (by rw [h.1]; simp)
  · exact fun h' => hkw (h.2.symm.trans h'.2)

theorem scan_step_int (scopes : Scopes) (b : Bool) (t : Token)
    (h : is_kw t "int".toList) : scan_step (scopes, b) t = .ok (scopes, true) := by
  have h1 : t.type ≠ .TOKEN_IDENTIFIER := by rw [h.1]; simp
  have h2 : ¬ is_delim t '{' := not_delim_of_type _ _ (by rw [h.1]; simp)
  have h3 : ¬ is_delim t '}' := not_delim_of_type _ _ (by rw [h.1]; simp)
  unfold scan_step
  rw [if_neg h1, if_neg h2, if_neg h3, decide_eq_true h]

theorem scan_step_use (scopes : Scopes) (t : Token) (h : t.type = .TOKEN_IDENTIFIER) :
    scan_step (scopes, false) t =
      if declared scopes t.value then .ok (scopes, false)
      else .error (.undeclared t.value) := by
  unfold scan_step
  rw [if_pos h]
  simp

theorem scan_step_declare (top : List (List Char)) (outer : Scopes) (t : Token)
    (h : t.type = .TOKEN_IDENTIFIER) :
    scan_step (top :: outer, true) t =
      if t.value ∈ top then .error (.redeclared t.value)
      else if MAX_SYMBOLS ≤ live (top :: outer) then .error .overflow
      else .ok ((top ++ [t.value]) :: outer, false) := by
  unfold scan_step
  rw [if_pos h]
  simp

theorem scan_step_open (scopes : Scopes) (b : Bool) (t : Token) (h : is_delim t '{') :
    scan_step (scopes, b) t = .ok ([] :: scopes, false) := by
  have h1 : t.type ≠ .TOKEN_IDENTIFIER := by rw [h.1]; simp
  unfold scan_step
  rw [if_neg h1, if_pos h]

theorem scan_step_close (inner top : List (List Char)) (outer : Scopes) (b : Bool)
    (t : Token) (h : is_delim t '}') :
    scan_step (inner :: top :: outer, b) t = .ok (top :: outer, false) := by
  have h1 : t.type ≠ .TOKEN_IDENTIFIER := by rw [h.1]; simp
  have h2 : ¬ is_delim t '{' := fun h' => by
    have := is_delim_unique t _ _ h h'
    simp at this
  unfold scan_step
  rw [if_neg h1, if_neg h2, if_pos h]

/-! ## Reading tokens -/

theorem pending_congr (s s' : State) (h1 : s'.source = s.source)
    (h2 : s'.current_token = s.current_token) : pending s' = pending s := by
  unfold pending
  rw [h1, h2]

theorem delimOK_of_append (s s' : State) (ts : List Token) (h : DelimOK s)
    (hp : pending s = ts ++ pending s') : DelimOK s' := by
  intro t ht
  exact h t (by rw [hp]; exact List.mem_append_right _ ht)

theorem Consumes.refl (s : State) (scopes : Scopes) (h : Refines scopes s) :
    Consumes s scopes [] s scopes :=
  ⟨rfl, rfl, h⟩

theorem Consumes.trans {s s1 s2 : State} {a b : List Token} {x y z : Scopes}
    (h1 : Consumes s x a s1 y) (h2 : Consumes s1 y b s2 z) :
    Consumes s x (a ++ b) s2 z := by
  refine ⟨?_, ?_, h2.2.2⟩
  · rw [h1.1, h2.1, List.append_assoc]
  · rw [scan_append_ok a b _ _ h1.2.1]
    exact h2.2.1

theorem Consumes.delimOK {s s' : State} {ts : List Token} {x y : Scopes}
    (h : Consumes s x ts s' y) (hd : DelimOK s) : DelimOK s' :=
  delimOK_of_append s s' ts hd h.1

/-- Reading the current token, with whatever the procedure then does to the
scope globals. -/
theorem consumes_token (s s' : State) (x y : Scopes)
    (hne : s.current_token.type ≠ .TOKEN_EOF)
    (hsrc : s'.source = (next_token s).source)
    (htok : s'.current_token = (next_token s).current_token)
    (hscan : scan_step (x, false) s.current_token = .ok (y, false))
    (hR : Refines y s') : Consumes s x [s.current_token] s' y := by
  refine ⟨?_, ?_, hR⟩
  · rw [pending_next_token s hne, pending_congr (next_token s) s' hsrc htok]
    rfl
  · rw [scan_single]
    exact hscan

theorem consume_delimiter_ok (s s1 : State) (scopes : Scopes) (c : Char)
    (hR : Refines scopes s) (hD : DelimOK s) (h2 : c ≠ '{') (h3 : c ≠ '}')
    (h : Outcome.of (consume_delimiter s c) = .ok s1) :
    is_delim s.current_token c ∧ s1 = next_token s ∧
      Consumes s scopes [s.current_token] s1 scopes := by
  rw [of_ok] at h
  unfold consume_delimiter at h
  split at h
  · rename_i hm
    cases h
    have hdel := (match_delimiter_iff s c hD).mp hm
    refine ⟨hdel, rfl, consumes_token s _ _ _ ?_ rfl rfl
      (scan_step_delim _ _ _ c hdel h2 h3) hR⟩
    rw [hdel.1]
    simp
  · cases h

theorem consume_keyword_ok (s s1 : State) (scopes : Scopes) (kw : List Char)
    (hR : Refines scopes s) (hkw : kw ≠ "int".toList)
    (h : Outcome.of (consume_keyword s kw) = .ok s1) :
    is_kw s.current_token kw ∧ s1 = next_token s ∧
      Consumes s scopes [s.current_token] s1 scopes := by
  rw [of_ok] at h
  unfold consume_keyword at h
  split at h
  · rename_i hm
    cases h
    have hk := (match_keyword_iff s kw).mp hm
    refine ⟨hk, rfl, consumes_token s _ _ _ ?_ rfl rfl
      (scan_step_keyword _ _ _ kw hk hkw) hR⟩
    rw [hk.1]
    simp
  · cases h

theorem consume_operator_ok (s s1 : State) (scopes : Scopes) (op : List Char)
    (hR : Refines scopes s) (h : Outcome.of (consume_operator s op) = .ok s1) :
    is_op s.current_token op ∧ s1 = next_token s ∧
      Consumes s scopes [s.current_token] s1 scopes := by
  rw [of_ok] at h
  unfold consume_operator at h
  split at h
  · rename_i hm
    cases h
    have hk := (match_operator_iff s op).mp hm
    refine ⟨hk, rfl, consumes_token s _ _ _ ?_ rfl rfl
      (scan_step_operator _ _ _ hk.1) hR⟩
    rw [hk.1]
    simp
  · cases h

theorem consumes_operator (s : State) (scopes : Scopes) (hR : Refines scopes s)
    (h : s.current_token.type = .TOKEN_OPERATOR) :
    Consumes s scopes [s.current_token] (next_token s) scopes :=
  consumes_token s _ _ _ (by rw [h]; simp) rfl rfl (scan_step_operator _ _ _ h) hR

/-! ## Soundness of the parser -/

theorem consume_delimiter_eq (s s1 : State) (c : Char) (hD : DelimOK s)
    (h : Outcome.of (consume_delimiter s c) = .ok s1) :
    is_delim s.current_token c ∧ s1 = next_token s := by
  rw [of_ok] at h
  unfold consume_delimiter at h
  split at h
  · rename_i hm
    cases h
    exact ⟨(match_delimiter_iff s c hD).mp hm, rfl⟩
  · cases h

theorem consume_keyword_eq (s s1 : State) (kw : List Char)
    (h : Outcome.of (consume_keyword s kw) = .ok s1) :
    is_kw s.current_token kw ∧ s1 = next_token s := by
  rw [of_ok] at h
  unfold consume_keyword at h
  split at h
  · rename_i hm
    cases h
    exact ⟨(match_keyword_iff s kw).mp hm, rfl⟩
  · cases h

theorem delimOK_congr (s s' : State) (h : pending s' = pending s) (hD : DelimOK s) :
    DelimOK s' := by
  unfold DelimOK
  rw [h]
  exact hD

theorem Derives.cast {X : NT} {ts ts' : List Token} (h : Derives X ts) (e : ts = ts') :
    Derives X ts' := e ▸ h

theorem sound_zero (p : Proc) : Sound p 0 := by
  intro s s' scopes _ _ h
  cases p with
  | binary l => rw [Proc.run, level_parse_zero] at h; cases h
  | binary_loop l => rw [Proc.run, level_loop_zero] at h; cases h
  | _ => cases h

theorem sound_primary (n : Nat) (ih : ∀ p, Sound p n) : Sound .primary (n + 1) := by
  intro s s' scopes hR hD h
  simp only [Proc.run] at h
  rw [parse_primary] at h
  split at h
  · rename_i hid
    rw [refines_check scopes s _ hR] at h
    split at h
    · rename_i hdecl
      simp only [Outcome.of, Outcome.andThen] at h
      cases h
      exact ⟨[s.current_token], scopes,
        consumes_token s _ scopes scopes (by rw [hid]; simp) rfl rfl
          (by rw [scan_step_use _ _ hid, if_pos hdecl]) hR,
        Derives.primary_identifier hid, rfl⟩
    · cases h
  · split at h
    · rename_i hnum
      cases h
      exact ⟨[s.current_token], scopes,
        consumes_token s _ scopes scopes (by rw [hnum]; simp) rfl rfl
          (scan_step_number _ _ _ hnum) hR,
        Derives.primary_number hnum, rfl⟩
    · split at h
      · rw [andThen_ok] at h
        obtain ⟨s1, h1, h⟩ := h
        rw [andThen_ok] at h
        obtain ⟨s2, h2, h3⟩ := h
        obtain ⟨hlp, -, c1⟩ :=
          consume_delimiter_ok s s1 scopes '(' hR hD (by decide) (by decide) h1
        obtain ⟨e, scopes2, c2, de, hl⟩ :=
          ih .expression s1 s2 scopes c1.2.2 (c1.delimOK hD) h2
        obtain ⟨hrp, -, c3⟩ := consume_delimiter_ok s2 s' scopes2 ')' c2.2.2
          (c2.delimOK (c1.delimOK hD)) (by decide) (by decide) h3
        exact ⟨_, scopes2, c1.trans (c2.trans c3), (Derives.primary_paren hlp de hrp).cast (by simp), hl⟩
      · cases h

theorem sound_unary (n : Nat) (ih : ∀ p, Sound p n) : Sound .unary (n + 1) := by
  intro s s' scopes hR hD h
  simp only [Proc.run] at h
  rw [parse_unary_succ] at h
  split at h
  · rename_i hop
    obtain ⟨ht, hv⟩ := (at_unary_op_iff s).mp hop
    have c1 := consumes_operator s scopes hR ht
    obtain ⟨a, scopes2, c2, da, hl⟩ :=
      ih .unary (next_token s) s' scopes c1.2.2 (c1.delimOK hD) h
    exact ⟨_, scopes2, c1.trans c2, (Derives.unary_op ht hv da).cast (by simp), hl⟩
  · obtain ⟨a, scopes2, c2, da, hl⟩ := ih .primary s s' scopes hR hD h
    exact ⟨a, scopes2, c2, Derives.unary_primary da, hl⟩

theorem sound_binary_loop (l : Level) (n : Nat) (ih : ∀ p, Sound p n) :
    Sound (.binary_loop l) (n + 1) := by
  intro s s' scopes hR hD h
  simp only [Proc.run] at h
  rw [level_loop_succ] at h
  split at h
  · rename_i hop
    obtain ⟨ht, hv⟩ := (level_at_op_iff l s).mp hop
    have c1 := consumes_operator s scopes hR ht
    rw [andThen_ok] at h
    obtain ⟨s2, h2, h3⟩ := h
    obtain ⟨p, hrun, hnt⟩ := level_sub_proc l
    rw [← hrun] at h2
    obtain ⟨a, scopes2, c2, da, hl2⟩ :=
      ih p (next_token s) s2 scopes c1.2.2 (c1.delimOK hD) h2
    obtain ⟨r, scopes3, c3, dr, hl3⟩ :=
      ih (.binary_loop l) s2 s' scopes2 c2.2.2 (c2.delimOK (c1.delimOK hD)) h3
    rw [hnt] at da
    exact ⟨_, scopes3, c1.trans (c2.trans c3), (Derives.rest_cons ht hv da dr).cast (by simp),
      hl3.trans hl2⟩
  · cases h
    exact ⟨[], scopes, Consumes.refl s scopes hR, Derives.rest_nil, rfl⟩

theorem sound_binary (l : Level) (n : Nat) (ih : ∀ p, Sound p n) :
    Sound (.binary l) (n + 1) := by
  intro s s' scopes hR hD h
  simp only [Proc.run] at h
  rw [level_parse_succ, andThen_ok] at h
  obtain ⟨s2, h2, h3⟩ := h
  obtain ⟨p, hrun, hnt⟩ := level_sub_proc l
  rw [← hrun] at h2
  obtain ⟨a, scopes2, c2, da, hl2⟩ := ih p s s2 scopes hR hD h2
  obtain ⟨r, scopes3, c3, dr, hl3⟩ :=
    ih (.binary_loop l) s2 s' scopes2 c2.2.2 (c2.delimOK hD) h3
  rw [hnt] at da
  exact ⟨_, scopes3, c2.trans c3, Derives.binary da dr, hl3.trans hl2⟩

theorem sound_assignment (n : Nat) (ih : ∀ p, Sound p n) : Sound .assignment (n + 1) := by
  intro s s' scopes hR hD h
  simp only [Proc.run] at h
  rw [parse_assignment, andThen_ok] at h
  obtain ⟨s1, h1, h⟩ := h
  obtain ⟨a, scopes1, c1, da, hl1⟩ := ih (.binary .logicalOr) s s1 scopes hR hD h1
  split at h
  · rw [andThen_ok] at h
    obtain ⟨s2, h2, h3⟩ := h
    obtain ⟨heq, -, c2⟩ := consume_operator_ok s1 s2 scopes1 _ c1.2.2 h2
    obtain ⟨b, scopes3, c3, db, hl3⟩ :=
      ih .assignment s2 s' scopes1 c2.2.2 (c2.delimOK (c1.delimOK hD)) h3
    exact ⟨_, scopes3, c1.trans (c2.trans c3), (Derives.assign da heq db).cast (by simp), hl3.trans hl1⟩
  · cases h
    exact ⟨a, scopes1, c1, Derives.assignment da, hl1⟩

theorem sound_expression (n : Nat) (ih : ∀ p, Sound p n) : Sound .expression (n + 1) := by
  intro s s' scopes hR hD h
  simp only [Proc.run] at h
  rw [parse_expression] at h
  obtain ⟨a, scopes1, c1, da, hl1⟩ := ih .assignment s s' scopes hR hD h
  exact ⟨a, scopes1, c1, Derives.expression da, hl1⟩

/-- The optional expression before a delimiter `c`. -/
theorem sound_optional (n : Nat) (ih : ∀ p, Sound p n) (c : Char) (s s' : State)
    (scopes : Scopes) (hR : Refines scopes s) (hD : DelimOK s)
    (h : (if ¬ match_delimiter s c = true then parse_expression n s else .ok s) = .ok s') :
    ∃ ts scopes', Consumes s scopes ts s' scopes' ∧ Derives .optExpr ts ∧
      scopes'.length = scopes.length := by
  split at h
  · obtain ⟨a, scopes1, c1, da, hl1⟩ := ih .expression s s' scopes hR hD h
    exact ⟨a, scopes1, c1, Derives.optExpr_some da, hl1⟩
  · cases h
    exact ⟨[], scopes, Consumes.refl s scopes hR, Derives.optExpr_none, rfl⟩

theorem sound_expression_statement (n : Nat) (ih : ∀ p, Sound p n) :
    Sound .expression_statement (n + 1) := by
  intro s s' scopes hR hD h
  simp only [Proc.run] at h
  rw [parse_expression_statement] at h
  split at h
  · rename_i hm
    cases h
    have hsemi := (match_delimiter_iff s ';' hD).mp hm
    exact ⟨[s.current_token], scopes,
      consumes_token s _ scopes scopes (by rw [hsemi.1]; simp) rfl rfl
        (scan_step_delim _ _ _ ';' hsemi (by decide) (by decide)) hR,
      (Derives.exprStmt Derives.optExpr_none hsemi).cast (by simp), rfl⟩
  · rw [andThen_ok] at h
    obtain ⟨s1, h1, h2⟩ := h
    obtain ⟨e, scopes1, c1, de, hl1⟩ := ih .expression s s1 scopes hR hD h1
    obtain ⟨hsemi, -, c2⟩ := consume_delimiter_ok s1 s' scopes1 ';' c1.2.2
      (c1.delimOK hD) (by decide) (by decide) h2
    exact ⟨_, scopes1, c1.trans c2, (Derives.exprStmt (Derives.optExpr_some de) hsemi).cast (by simp), hl1⟩

theorem sound_return (n : Nat) (ih : ∀ p, Sound p n) : Sound .return_statement (n + 1) := by
  intro s s' scopes hR hD h
  simp only [Proc.run] at h
  rw [parse_return_statement, andThen_ok] at h
  obtain ⟨s1, h1, h⟩ := h
  rw [andThen_ok] at h
  obtain ⟨s2, h2, h3⟩ := h
  obtain ⟨hkw, -, c1⟩ := consume_keyword_ok s s1 scopes _ hR (by decide) h1
  obtain ⟨e, scopes2, c2, de, hl2⟩ :=
    sound_optional n ih ';' s1 s2 scopes c1.2.2 (c1.delimOK hD) h2
  obtain ⟨hsemi, -, c3⟩ := consume_delimiter_ok s2 s' scopes2 ';' c2.2.2
    (c2.delimOK (c1.delimOK hD)) (by decide) (by decide) h3
  exact ⟨_, scopes2, c1.trans (c2.trans c3), (Derives.returnStmt hkw de hsemi).cast (by simp), hl2⟩

theorem sound_while (n : Nat) (ih : ∀ p, Sound p n) : Sound .while_statement (n + 1) := by
  intro s s' scopes hR hD h
  simp only [Proc.run] at h
  rw [parse_while_statement, andThen_ok] at h
  obtain ⟨s1, h1, h⟩ := h
  rw [andThen_ok] at h
  obtain ⟨s2, h2, h⟩ := h
  rw [andThen_ok] at h
  obtain ⟨s3, h3, h⟩ := h
  rw [andThen_ok] at h
  obtain ⟨s4, h4, h5⟩ := h
  obtain ⟨hkw, -, c1⟩ := consume_keyword_ok s s1 scopes _ hR (by decide) h1
  have d1 := c1.delimOK hD
  obtain ⟨hlp, -, c2⟩ := consume_delimiter_ok s1 s2 scopes '(' c1.2.2 d1
    (by decide) (by decide) h2
  have d2 := c2.delimOK d1
  obtain ⟨e, scopes3, c3, de, hl3⟩ := ih .expression s2 s3 scopes c2.2.2 d2 h3
  have d3 := c3.delimOK d2
  obtain ⟨hrp, -, c4⟩ := consume_delimiter_ok s3 s4 scopes3 ')' c3.2.2 d3
    (by decide) (by decide) h4
  have d4 := c4.delimOK d3
  obtain ⟨a, scopes5, c5, da, hl5⟩ := ih .statement s4 s' scopes3 c4.2.2 d4 h5
  exact ⟨_, scopes5, c1.trans (c2.trans (c3.trans (c4.trans c5))),
    (Derives.whileStmt hkw hlp de hrp da).cast (by simp), hl5.trans hl3⟩

theorem sound_if (n : Nat) (ih : ∀ p, Sound p n) : Sound .if_statement (n + 1) := by
  intro s s' scopes hR hD h
  simp only [Proc.run] at h
  rw [parse_if_statement, andThen_ok] at h
  obtain ⟨s1, h1, h⟩ := h
  rw [andThen_ok] at h
  obtain ⟨s2, h2, h⟩ := h
  rw [andThen_ok] at h
  obtain ⟨s3, h3, h⟩ := h
  rw [andThen_ok] at h
  obtain ⟨s4, h4, h⟩ := h
  rw [andThen_ok] at h
  obtain ⟨s5, h5, h6⟩ := h
  obtain ⟨hkw, -, c1⟩ := consume_keyword_ok s s1 scopes _ hR (by decide) h1
  have d1 := c1.delimOK hD
  obtain ⟨hlp, -, c2⟩ := consume_delimiter_ok s1 s2 scopes '(' c1.2.2 d1
    (by decide) (by decide) h2
  have d2 := c2.delimOK d1
  obtain ⟨e, scopes3, c3, de, hl3⟩ := ih .expression s2 s3 scopes c2.2.2 d2 h3
  have d3 := c3.delimOK d2
  obtain ⟨hrp, -, c4⟩ := consume_delimiter_ok s3 s4 scopes3 ')' c3.2.2 d3
    (by decide) (by decide) h4
  have d4 := c4.delimOK d3
  obtain ⟨a, scopes5, c5, da, hl5⟩ := ih .statement s4 s5 scopes3 c4.2.2 d4 h5
  have d5 := c5.delimOK d4
  split at h6
  · rw [andThen_ok] at h6
    obtain ⟨s6, h6, h7⟩ := h6
    obtain ⟨hel, -, c6⟩ := consume_keyword_ok s5 s6 scopes5 _ c5.2.2 (by decide) h6
    obtain ⟨b, scopes7, c7, db, hl7⟩ :=
      ih .statement s6 s' scopes5 c6.2.2 (c6.delimOK d5) h7
    refine ⟨_, scopes7, c1.trans (c2.trans (c3.trans (c4.trans (c5.trans (c6.trans c7))))),
      ?_, hl7.trans (hl5.trans hl3)⟩
    exact (Derives.ifElse hkw hlp de hrp da hel db).cast (by simp)
  · cases h6
    exact ⟨_, scopes5, c1.trans (c2.trans (c3.trans (c4.trans c5))),
      (Derives.ifStmt hkw hlp de hrp da).cast (by simp), hl5.trans hl3⟩

theorem sound_for (n : Nat) (ih : ∀ p, Sound p n) : Sound .for_statement (n + 1) := by
  intro s s' scopes hR hD h
  simp only [Proc.run] at h
  rw [parse_for_statement, andThen_ok] at h
  obtain ⟨s1, h1, h⟩ := h
  rw [andThen_ok] at h
  obtain ⟨s2, h2, h⟩ := h
  rw [andThen_ok] at h
  obtain ⟨s3, h3, h⟩ := h
  rw [andThen_ok] at h
  obtain ⟨s4, h4, h⟩ := h
  rw [andThen_ok] at h
  obtain ⟨s5, h5, h⟩ := h
  rw [andThen_ok] at h
  obtain ⟨s6, h6, h⟩ := h
  rw [andThen_ok] at h
  obtain ⟨s7, h7, h⟩ := h
  rw [andThen_ok] at h
  obtain ⟨s8, h8, h9⟩ := h
  obtain ⟨hkw, -, c1⟩ := consume_keyword_ok s s1 scopes _ hR (by decide) h1
  have d1 := c1.delimOK hD
  obtain ⟨hlp, -, c2⟩ := consume_delimiter_ok s1 s2 scopes '(' c1.2.2 d1
    (by decide) (by decide) h2
  have d2 := c2.delimOK d1
  obtain ⟨e1, scopes3, c3, de1, hl3⟩ := sound_optional n ih ';' s2 s3 scopes c2.2.2 d2 h3
  have d3 := c3.delimOK d2
  obtain ⟨hs1, -, c4⟩ := consume_delimiter_ok s3 s4 scopes3 ';' c3.2.2 d3
    (by decide) (by decide) h4
  have d4 := c4.delimOK d3
  obtain ⟨e2, scopes5, c5, de2, hl5⟩ := sound_optional n ih ';' s4 s5 scopes3 c4.2.2 d4 h5
  have d5 := c5.delimOK d4
  obtain ⟨hs2, -, c6⟩ := consume_delimiter_ok s5 s6 scopes5 ';' c5.2.2 d5
    (by decide) (by decide) h6
  have d6 := c6.delimOK d5
  obtain ⟨e3, scopes7, c7, de3, hl7⟩ := sound_optional n ih ')' s6 s7 scopes5 c6.2.2 d6 h7
  have d7 := c7.delimOK d6
  obtain ⟨hrp, -, c8⟩ := consume_delimiter_ok s7 s8 scopes7 ')' c7.2.2 d7
    (by decide) (by decide) h8
  have d8 := c8.delimOK d7
  obtain ⟨a, scopes9, c9, da, hl9⟩ := ih .statement s8 s' scopes7 c8.2.2 d8 h9
  exact ⟨_, scopes9,
    c1.trans (c2.trans (c3.trans (c4.trans (c5.trans (c6.trans (c7.trans (c8.trans c9))))))),
    (Derives.forStmt hkw hlp de1 hs1 de2 hs2 de3 hrp da).cast (by simp),
    hl9.trans (hl7.trans (hl5.trans hl3))⟩

/-- The keyword `int` and the identifier after it, with the call of
`add_symbol` between them. -/
theorem consumes_declaration (s s2 : State) (scopes : Scopes) (hR : Refines scopes s)
    (hkw : is_kw s.current_token "int".toList)
    (hid : (next_token s).current_token.type = .TOKEN_IDENTIFIER)
    (hadd : add_symbol (next_token s) (next_token s).current_token.value "int".toList =
      .ok s2) :
    ∃ scopes', Consumes s scopes [s.current_token, (next_token s).current_token]
        (next_token s2) scopes' ∧ scopes'.length = scopes.length := by
  obtain ⟨top, outer, rfl⟩ := List.exists_cons_of_ne_nil hR.1
  obtain ⟨hnew, hfull, rfl, hR2⟩ :=
    refines_add_symbol_ok top outer (next_token s) s2 _ hR hadd
  refine ⟨(top ++ [(next_token s).current_token.value]) :: outer, ⟨?_, ?_, hR2⟩, rfl⟩
  · rw [pending_next_token s (by rw [hkw.1]; simp),
      pending_next_token (next_token s) (by rw [hid]; simp)]
    rfl
  · simp only [scan]
    rw [scan_step_int _ _ _ hkw]
    simp only []
    rw [scan_step_declare _ _ _ hid, if_neg hnew, if_neg hfull]

theorem sound_declaration (n : Nat) (ih : ∀ p, Sound p n) : Sound .declaration (n + 1) := by
  intro s s' scopes hR hD h
  simp only [Proc.run] at h
  rw [parse_declaration, andThen_ok] at h
  obtain ⟨s1, h1, h⟩ := h
  obtain ⟨hkw, rfl⟩ := consume_keyword_eq s s1 _ h1
  split at h
  · cases h
  · rename_i hid
    rw [not_not] at hid
    rw [andThen_ok] at h
    obtain ⟨s2, h2, h⟩ := h
    rw [of_ok] at h2
    rw [andThen_ok] at h
    obtain ⟨s3, h3, h4⟩ := h
    obtain ⟨scopes2, c1, hl1⟩ := consumes_declaration s s2 scopes hR hkw hid h2
    have d1 := c1.delimOK hD
    split at h3
    · rename_i hm
      have heq := (match_operator_iff _ _).mp hm
      have c2 := consumes_operator (next_token s2) scopes2 c1.2.2 heq.1
      have d2 := c2.delimOK d1
      obtain ⟨e, scopes3, c3, de, hl3⟩ := ih .expression _ s3 scopes2 c2.2.2 d2 h3
      have d3 := c3.delimOK d2
      obtain ⟨hsemi, -, c4⟩ := consume_delimiter_ok s3 s' scopes3 ';' c3.2.2 d3
        (by decide) (by decide) h4
      exact ⟨_, scopes3, c1.trans (c2.trans (c3.trans c4)),
        (Derives.decl_init hkw hid heq de hsemi).cast (by simp), hl3.trans hl1⟩
    · cases h3
      obtain ⟨hsemi, -, c4⟩ := consume_delimiter_ok _ s' scopes2 ';' c1.2.2 d1
        (by decide) (by decide) h4
      exact ⟨_, scopes2, c1.trans c4, (Derives.decl hkw hid hsemi).cast (by simp), hl1⟩

theorem sound_compound (n : Nat) (ih : ∀ p, Sound p n) :
    Sound .compound_statement (n + 1) := by
  intro s s' scopes hR hD h
  simp only [Proc.run] at h
  rw [parse_compound_statement, andThen_ok] at h
  obtain ⟨s1, h1, h⟩ := h
  rw [andThen_ok] at h
  obtain ⟨s2, h2, h3⟩ := h
  obtain ⟨hlb, rfl⟩ := consume_delimiter_eq s s1 _ hD h1
  have c1 : Consumes s scopes [s.current_token] (enter_scope (next_token s))
      ([] :: scopes) :=
    consumes_token s _ _ _ (by rw [hlb.1]; simp) rfl rfl (scan_step_open _ _ _ hlb)
      (refines_enter scopes _ hR)
  have d1 := c1.delimOK hD
  obtain ⟨b, scopes2, c2, db, hl2⟩ := ih .statement_list _ s2 _ c1.2.2 d1 h2
  have d2 := c2.delimOK d1
  have d2' : DelimOK (exit_scope s2) := delimOK_congr s2 _ rfl d2
  obtain ⟨hrb, rfl⟩ := consume_delimiter_eq (exit_scope s2) s' _ d2' h3
  have hrb' : is_delim s2.current_token '}' := hrb
  obtain ⟨inner, top, outer, rfl⟩ : ∃ inner top outer, scopes2 = inner :: top :: outer := by
    obtain ⟨t, o, rfl⟩ := List.exists_cons_of_ne_nil hR.1
    match scopes2, hl2 with
    | [], hl2 => simp at hl2
    | [_], hl2 => simp at hl2
    | inner :: top :: outer, _ => exact ⟨inner, top, outer, rfl⟩
  have c3 : Consumes s2 (inner :: top :: outer) [s2.current_token]
      (next_token (exit_scope s2)) (top :: outer) :=
    consumes_token s2 _ _ _ (by rw [hrb'.1]; simp)
      rfl rfl (scan_step_close _ _ _ _ _ hrb') (refines_exit inner top outer s2 c2.2.2)
  refine ⟨_, top :: outer, c1.trans (c2.trans c3),
    (Derives.block hlb db hrb').cast (by simp), ?_⟩
  simp only [List.length_cons] at hl2 ⊢
  omega

theorem sound_statement (n : Nat) (ih : ∀ p, Sound p n) : Sound .statement (n + 1) := by
  intro s s' scopes hR hD h
  simp only [Proc.run] at h
  rw [parse_statement] at h
  split at h
  · obtain ⟨a, scopes1, c1, da, hl1⟩ := ih .declaration s s' scopes hR hD h
    exact ⟨a, scopes1, c1, Derives.statement_decl da, hl1⟩
  · split at h
    · obtain ⟨a, scopes1, c1, da, hl1⟩ := ih .compound_statement s s' scopes hR hD h
      exact ⟨a, scopes1, c1, Derives.statement_block da, hl1⟩
    · split at h
      · obtain ⟨a, scopes1, c1, da, hl1⟩ := ih .if_statement s s' scopes hR hD h
        exact ⟨a, scopes1, c1, Derives.statement_if da, hl1⟩
      · split at h
        · obtain ⟨a, scopes1, c1, da, hl1⟩ := ih .while_statement s s' scopes hR hD h
          exact ⟨a, scopes1, c1, Derives.statement_while da, hl1⟩
        · split at h
          · obtain ⟨a, scopes1, c1, da, hl1⟩ := ih .for_statement s s' scopes hR hD h
            exact ⟨a, scopes1, c1, Derives.statement_for da, hl1⟩
          · split at h
            · obtain ⟨a, scopes1, c1, da, hl1⟩ :=
                ih .return_statement s s' scopes hR hD h
              exact ⟨a, scopes1, c1, Derives.statement_return da, hl1⟩
            · obtain ⟨a, scopes1, c1, da, hl1⟩ :=
                ih .expression_statement s s' scopes hR hD h
              exact ⟨a, scopes1, c1, Derives.statement_expr da, hl1⟩

theorem sound_statement_list (n : Nat) (ih : ∀ p, Sound p n) :
    Sound .statement_list (n + 1) := by
  intro s s' scopes hR hD h
  simp only [Proc.run] at h
  rw [parse_statement_list] at h
  split at h
  · rw [andThen_ok] at h
    obtain ⟨s1, h1, h2⟩ := h
    obtain ⟨a, scopes1, c1, da, hl1⟩ := ih .statement s s1 scopes hR hD h1
    obtain ⟨b, scopes2, c2, db, hl2⟩ :=
      ih .statement_list s1 s' scopes1 c1.2.2 (c1.delimOK hD) h2
    exact ⟨_, scopes2, c1.trans c2, Derives.stmtList_cons da db, hl2.trans hl1⟩
  · cases h
    exact ⟨[], scopes, Consumes.refl s scopes hR, Derives.stmtList_nil, rfl⟩

/-- Every procedure of the parser is sound, with every budget. -/
theorem sound_all (n : Nat) : ∀ p, Sound p n := by
  induction n with
  | zero => exact sound_zero
  | succ n ih =>
    intro p
    cases p with
    | statement_list => exact sound_statement_list n ih
    | statement => exact sound_statement n ih
    | declaration => exact sound_declaration n ih
    | expression_statement => exact sound_expression_statement n ih
    | compound_statement => exact sound_compound n ih
    | if_statement => exact sound_if n ih
    | while_statement => exact sound_while n ih
    | for_statement => exact sound_for n ih
    | return_statement => exact sound_return n ih
    | expression => exact sound_expression n ih
    | assignment => exact sound_assignment n ih
    | binary l => exact sound_binary l n ih
    | binary_loop l => exact sound_binary_loop l n ih
    | unary => exact sound_unary n ih
    | primary => exact sound_primary n ih

theorem refines_initial (input : List Char) :
    Refines [[]] (next_token (initial_state input)) :=
  ⟨by simp, rfl, rfl⟩

/-- Soundness of `parse_program`: when it returns, the pending tokens are a
program of the grammar and obey the scoping rule. -/
theorem sound_program (n : Nat) (s s' : State) (scopes : Scopes) (hR : Refines scopes s)
    (hD : DelimOK s) (h : parse_program n s = .ok s') :
    Derives .program (pending s) ∧ ∃ st, scan (pending s) (scopes, false) = .ok st := by
  unfold parse_program at h
  rw [andThen_ok] at h
  obtain ⟨s1, h1, h2⟩ := h
  split at h2
  · cases h2
  · rename_i heof
    rw [not_not] at heof
    cases h2
    obtain ⟨ts, scopes1, c1, dts, _⟩ := sound_all n .statement_list s s' scopes hR hD h1
    rw [c1.1, pending_of_eof s' heof]
    refine ⟨Derives.program dts heof, ?_⟩
    rw [scan_append_ok _ _ _ _ c1.2.1, scan_single]
    exact ⟨_, scan_step_neutral _ _ _ (by rw [heof]; simp)
      (not_delim_of_type _ _ (by rw [heof]; simp))
      (not_delim_of_type _ _ (by rw [heof]; simp))
      (not_kw_of_type _ _ (by rw [heof]; simp))⟩

/-! ## Sequences of the grammar are not empty -/

theorem operand_nonempty (l : Level) : l.operand.nonempty = true := by
  cases l <;> rfl

theorem derives_nonempty {X : NT} {ts : List Token} (h : Derives X ts) :
    X.nonempty = true → ts ≠ [] := by
  induction h with
  | binary _ _ iha _ =>
    intro _
    have := iha (operand_nonempty _)
    simp [this]
  | assign _ _ _ iha _ =>
    intro _
    simp
  | _ => first
    | (intro h; cases h; done)
    | (intro _; simp; done)
    | (rename_i ih; intro _; exact ih rfl)

/-! ## Termination of the parser -/

theorem andThen_ne (r : Outcome) (k : State → Outcome) (hr : r ≠ .out_of_fuel)
    (hk : ∀ s1, r = .ok s1 → k s1 ≠ .out_of_fuel) : r.andThen k ≠ .out_of_fuel := by
  cases r with
  | ok s1 => exact hk s1 rfl
  | error e => simp [Outcome.andThen]
  | out_of_fuel => exact absurd rfl hr

theorem of_ne (r : Except Err State) : Outcome.of r ≠ .out_of_fuel := by
  cases r <;> simp [Outcome.of]

theorem ready_mono {scopes : Scopes} {s : State} {m k : Nat} (h : Ready scopes s m)
    (hk : m ≤ k) : Ready scopes s k :=
  ⟨h.1, h.2.1, le_trans h.2.2 hk⟩

theorem ready_next_token {scopes : Scopes} {s : State} {m : Nat} (h : Ready scopes s m)
    (hne : s.current_token.type ≠ .TOKEN_EOF) :
    Ready scopes (next_token s) (m - 1) ∧ 1 ≤ m := by
  obtain ⟨hR, hD, hm⟩ := h
  have hp := pending_next_token s hne
  rw [hp, List.length_cons] at hm
  exact ⟨⟨hR, delimOK_of_append s _ [s.current_token] hD hp, by omega⟩, by omega⟩

theorem ready_consume_delimiter {scopes : Scopes} {s s1 : State} {m : Nat} {c : Char}
    (h : Ready scopes s m) (h1 : Outcome.of (consume_delimiter s c) = .ok s1) :
    Ready scopes s1 (m - 1) ∧ 1 ≤ m := by
  obtain ⟨hd, rfl⟩ := consume_delimiter_eq s s1 c h.2.1 h1
  exact ready_next_token h (by rw [hd.1]; simp)

theorem ready_consume_keyword {scopes : Scopes} {s s1 : State} {m : Nat} {kw : List Char}
    (h : Ready scopes s m) (h1 : Outcome.of (consume_keyword s kw) = .ok s1) :
    Ready scopes s1 (m - 1) ∧ 1 ≤ m := by
  obtain ⟨hd, rfl⟩ := consume_keyword_eq s s1 kw h1
  exact ready_next_token h (by rw [hd.1]; simp)

/-- What is left after a procedure returned. -/
theorem ready_after (p : Proc) (n : Nat) {scopes : Scopes} {s s' : State} {m : Nat}
    (h : Ready scopes s m) (hrun : p.run n s = .ok s') :
    ∃ scopes', Ready scopes' s' m ∧ scopes'.length = scopes.length ∧
      (p.nt.nonempty = true → Ready scopes' s' (m - 1) ∧ 1 ≤ m) := by
  obtain ⟨hR, hD, hm⟩ := h
  obtain ⟨ts, scopes', c, d, hl⟩ := sound_all n p s s' scopes hR hD hrun
  have hlen : (pending s).length = ts.length + (pending s').length := by
    rw [c.1, List.length_append]
  refine ⟨scopes', ⟨c.2.2, c.delimOK hD, by omega⟩, hl, fun hne => ?_⟩
  have := List.length_pos.mpr (derives_nonempty d hne)
  exact ⟨⟨c.2.2, c.delimOK hD, by omega⟩, by omega⟩

theorem terminates_zero (p : Proc) : Terminates p 0 := by
  intro s scopes m _ hb
  cases p with
  | binary l => cases l <;> simp [Proc.rank] at hb
  | _ => simp [Proc.rank] at hb

theorem terminates_primary (n : Nat) (ih : ∀ p, Terminates p n) :
    Terminates .primary (n + 1) := by
  intro s scopes m hG hb
  simp only [Proc.run, Proc.rank] at hb ⊢
  rw [parse_primary]
  split
  · exact andThen_ne _ _ (of_ne _) fun s1 _ => by simp
  · split
    · simp
    · split
      · refine andThen_ne _ _ (of_ne _) fun s1 h1 => ?_
        obtain ⟨g1, _⟩ := ready_consume_delimiter hG h1
        exact andThen_ne _ _ (ih .expression s1 scopes _ g1 (by simp only [Proc.rank]; omega))
          fun s2 _ => of_ne _
      · simp

theorem terminates_unary (n : Nat) (ih : ∀ p, Terminates p n) :
    Terminates .unary (n + 1) := by
  intro s scopes m hG hb
  simp only [Proc.run, Proc.rank] at hb ⊢
  rw [parse_unary_succ]
  split
  · rename_i hop
    obtain ⟨g1, _⟩ := ready_next_token hG
      (by rw [((at_unary_op_iff s).mp hop).1]; simp)
    exact ih .unary _ scopes _ g1 (by simp only [Proc.rank]; omega)
  · exact ih .primary s scopes m hG (by simp only [Proc.rank]; omega)

theorem sub_rank (l : Level) :
    ∃ p : Proc, p.run = l.sub ∧ p.nt.nonempty = true ∧ p.rank < (Proc.binary l).rank ∧
      p.rank ≤ 16 := by
  cases l
  · exact ⟨.binary .logicalAnd, rfl, rfl, by decide, by decide⟩
  · exact ⟨.binary .equality, rfl, rfl, by decide, by decide⟩
  · exact ⟨.binary .relational, rfl, rfl, by decide, by decide⟩
  · exact ⟨.binary .additive, rfl, rfl, by decide, by decide⟩
  · exact ⟨.binary .multiplicative, rfl, rfl, by decide, by decide⟩
  · exact ⟨.unary, rfl, rfl, by decide, by decide⟩

theorem terminates_binary_loop (l : Level) (n : Nat) (ih : ∀ p, Terminates p n) :
    Terminates (.binary_loop l) (n + 1) := by
  intro s scopes m hG hb
  simp only [Proc.run, Proc.rank] at hb ⊢
  rw [level_loop_succ]
  split
  · rename_i hop
    obtain ⟨g1, _⟩ := ready_next_token hG
      (by rw [((level_at_op_iff l s).mp hop).1]; simp)
    obtain ⟨p, hrun, hne, _, hr⟩ := sub_rank l
    rw [← hrun]
    refine andThen_ne _ _ (ih p _ scopes _ g1 (by omega)) fun s2 h2 => ?_
    obtain ⟨scopes2, g2, _, _⟩ := ready_after p n g1 h2
    exact ih (.binary_loop l) s2 scopes2 _ g2 (by simp only [Proc.rank]; omega)
  · simp

theorem terminates_binary (l : Level) (n : Nat) (ih : ∀ p, Terminates p n) :
    Terminates (.binary l) (n + 1) := by
  intro s scopes m hG hb
  simp only [Proc.run] at hb ⊢
  rw [level_parse_succ]
  obtain ⟨p, hrun, hne, hlt, _⟩ := sub_rank l
  rw [← hrun]
  refine andThen_ne _ _ (ih p s scopes m hG (by omega)) fun s2 h2 => ?_
  obtain ⟨scopes2, _, _, h3⟩ := ready_after p n hG h2
  obtain ⟨g2, _⟩ := h3 hne
  have : 1 ≤ (Proc.binary l).rank := by cases l <;> decide
  exact ih (.binary_loop l) s2 scopes2 _ g2 (by simp only [Proc.rank]; omega)

theorem terminates_assignment (n : Nat) (ih : ∀ p, Terminates p n) :
    Terminates .assignment (n + 1) := by
  intro s scopes m hG hb
  simp only [Proc.run, Proc.rank] at hb ⊢
  rw [parse_assignment]
  refine andThen_ne _ _ (ih (.binary .logicalOr) s scopes m hG
    (by simp only [Proc.rank]; omega)) fun s1 h1 => ?_
  obtain ⟨scopes1, _, _, h3⟩ := ready_after (.binary .logicalOr) n hG h1
  obtain ⟨g1, _⟩ := h3 rfl
  split
  · rename_i hm
    refine andThen_ne _ _ (of_ne _) fun s2 h2 => ?_
    obtain ⟨_, rfl⟩ : is_op s1.current_token "=".toList ∧ s2 = next_token s1 := by
      have := consume_operator_ok s1 s2 scopes1 _ g1.1 h2
      exact ⟨this.1, this.2.1⟩
    obtain ⟨g2, _⟩ := ready_next_token g1
      (by rw [((match_operator_iff _ _).mp hm).1]; simp)
    exact ih .assignment _ scopes1 _ g2 (by simp only [Proc.rank]; omega)
  · simp

theorem terminates_expression (n : Nat) (ih : ∀ p, Terminates p n) :
    Terminates .expression (n + 1) := by
  intro s scopes m hG hb
  simp only [Proc.run, Proc.rank] at hb ⊢
  rw [parse_expression]
  exact ih .assignment s scopes m hG (by simp only [Proc.rank]; omega)

/-- The optional expression before a delimiter. -/
theorem terminates_optional (n : Nat) (ih : ∀ p, Terminates p n) (c : Char) (s : State)
    (scopes : Scopes) (m : Nat) (hG : Ready scopes s m) (hb : 16 * m + 10 ≤ n) :
    (if ¬ match_delimiter s c = true then parse_expression n s else .ok s) ≠ .out_of_fuel ∧
      ∀ s', (if ¬ match_delimiter s c = true then parse_expression n s else .ok s) = .ok s' →
        ∃ scopes', Ready scopes' s' m ∧ scopes'.length = scopes.length := by
  split
  · refine ⟨ih .expression s scopes m hG hb, fun s' h => ?_⟩
    obtain ⟨scopes', g, hl, _⟩ := ready_after .expression n hG h
    exact ⟨scopes', g, hl⟩
  · refine ⟨by simp, fun s' h => ?_⟩
    cases h
    exact ⟨scopes, hG, rfl⟩

theorem terminates_expression_statement (n : Nat) (ih : ∀ p, Terminates p n) :
    Terminates .expression_statement (n + 1) := by
  intro s scopes m hG hb
  simp only [Proc.run, Proc.rank] at hb ⊢
  rw [parse_expression_statement]
  split
  · simp
  · exact andThen_ne _ _ (ih .expression s scopes m hG (by simp only [Proc.rank]; omega))
      fun s1 _ => of_ne _

theorem terminates_return (n : Nat) (ih : ∀ p, Terminates p n) :
    Terminates .return_statement (n + 1) := by
  intro s scopes m hG hb
  simp only [Proc.run, Proc.rank] at hb ⊢
  rw [parse_return_statement]
  refine andThen_ne _ _ (of_ne _) fun s1 h1 => ?_
  obtain ⟨g1, _⟩ := ready_consume_keyword hG h1
  exact andThen_ne _ _ (terminates_optional n ih ';' s1 scopes _ g1 (by omega)).1
    fun s2 _ => of_ne _

theorem terminates_while (n : Nat) (ih : ∀ p, Terminates p n) :
    Terminates .while_statement (n + 1) := by
  intro s scopes m hG hb
  simp only [Proc.run, Proc.rank] at hb ⊢
  rw [parse_while_statement]
  refine andThen_ne _ _ (of_ne _) fun s1 h1 => ?_
  obtain ⟨g1, _⟩ := ready_consume_keyword hG h1
  refine andThen_ne _ _ (of_ne _) fun s2 h2 => ?_
  obtain ⟨g2, _⟩ := ready_consume_delimiter g1 h2
  refine andThen_ne _ _ (ih .expression s2 scopes _ g2 (by simp only [Proc.rank]; omega))
    fun s3 h3 => ?_
  obtain ⟨scopes3, g3, _, _⟩ := ready_after .expression n g2 h3
  refine andThen_ne _ _ (of_ne _) fun s4 h4 => ?_
  obtain ⟨g4, _⟩ := ready_consume_delimiter g3 h4
  exact ih .statement s4 scopes3 _ g4 (by simp only [Proc.rank]; omega)

theorem terminates_if (n : Nat) (ih : ∀ p, Terminates p n) :
    Terminates .if_statement (n + 1) := by
  intro s scopes m hG hb
  simp only [Proc.run, Proc.rank] at hb ⊢
  rw [parse_if_statement]
  refine andThen_ne _ _ (of_ne _) fun s1 h1 => ?_
  obtain ⟨g1, _⟩ := ready_consume_keyword hG h1
  refine andThen_ne _ _ (of_ne _) fun s2 h2 => ?_
  obtain ⟨g2, _⟩ := ready_consume_delimiter g1 h2
  refine andThen_ne _ _ (ih .expression s2 scopes _ g2 (by simp only [Proc.rank]; omega))
    fun s3 h3 => ?_
  obtain ⟨scopes3, g3, _, _⟩ := ready_after .expression n g2 h3
  refine andThen_ne _ _ (of_ne _) fun s4 h4 => ?_
  obtain ⟨g4, _⟩ := ready_consume_delimiter g3 h4
  refine andThen_ne _ _ (ih .statement s4 scopes3 _ g4 (by simp only [Proc.rank]; omega))
    fun s5 h5 => ?_
  obtain ⟨scopes5, g5, _, _⟩ := ready_after .statement n g4 h5
  split
  · refine andThen_ne _ _ (of_ne _) fun s6 h6 => ?_
    obtain ⟨g6, _⟩ := ready_consume_keyword g5 h6
    exact ih .statement s6 scopes5 _ g6 (by simp only [Proc.rank]; omega)
  · simp

theorem terminates_for (n : Nat) (ih : ∀ p, Terminates p n) :
    Terminates .for_statement (n + 1) := by
  intro s scopes m hG hb
  simp only [Proc.run, Proc.rank] at hb ⊢
  rw [parse_for_statement]
  refine andThen_ne _ _ (of_ne _) fun s1 h1 => ?_
  obtain ⟨g1, _⟩ := ready_consume_keyword hG h1
  refine andThen_ne _ _ (of_ne _) fun s2 h2 => ?_
  obtain ⟨g2, _⟩ := ready_consume_delimiter g1 h2
  obtain ⟨t3, p3⟩ := terminates_optional n ih ';' s2 scopes _ g2 (by omega)
  refine andThen_ne _ _ t3 fun s3 h3 => ?_
  obtain ⟨scopes3, g3, _⟩ := p3 s3 h3
  refine andThen_ne _ _ (of_ne _) fun s4 h4 => ?_
  obtain ⟨g4, _⟩ := ready_consume_delimiter g3 h4
  obtain ⟨t5, p5⟩ := terminates_optional n ih ';' s4 scopes3 _ g4 (by omega)
  refine andThen_ne _ _ t5 fun s5 h5 => ?_
  obtain ⟨scopes5, g5, _⟩ := p5 s5 h5
  refine andThen_ne _ _ (of_ne _) fun s6 h6 => ?_
  obtain ⟨g6, _⟩ := ready_consume_delimiter g5 h6
  obtain ⟨t7, p7⟩ := terminates_optional n ih ')' s6 scopes5 _ g6 (by omega)
  refine andThen_ne _ _ t7 fun s7 h7 => ?_
  obtain ⟨scopes7, g7, _⟩ := p7 s7 h7
  refine andThen_ne _ _ (of_ne _) fun s8 h8 => ?_
  obtain ⟨g8, _⟩ := ready_consume_delimiter g7 h8
  exact ih .statement s8 scopes7 _ g8 (by simp only [Proc.rank]; omega)

theorem terminates_declaration (n : Nat) (ih : ∀ p, Terminates p n) :
    Terminates .declaration (n + 1) := by
  intro s scopes m hG hb
  simp only [Proc.run, Proc.rank] at hb ⊢
  rw [parse_declaration]
  refine andThen_ne _ _ (of_ne _) fun s1 h1 => ?_
  obtain ⟨g1, _⟩ := ready_consume_keyword hG h1
  split
  · simp
  · rename_i hid
    rw [not_not] at hid
    refine andThen_ne _ _ (of_ne _) fun s2 h2 => ?_
    rw [of_ok] at h2
    obtain ⟨top, outer, rfl⟩ := List.exists_cons_of_ne_nil g1.1.1
    obtain ⟨_, _, rfl, hR2⟩ := refines_add_symbol_ok top outer s1 s2 _ g1.1 h2
    have g2 : Ready ((top ++ [s1.current_token.value]) :: outer)
        { s1 with symbol_table := table_of ((top ++ [s1.current_token.value]) :: outer) }
        (m - 1) := ⟨hR2, delimOK_congr s1 _ rfl g1.2.1, g1.2.2⟩
    obtain ⟨g3, _⟩ := ready_next_token g2 (by show s1.current_token.type ≠ _; rw [hid]; simp)
    refine andThen_ne _ _ ?_ fun s4 _ => of_ne _
    split
    · rename_i hm
      obtain ⟨g4, _⟩ := ready_next_token g3 (by rw [((match_operator_iff _ _).mp hm).1]; simp)
      exact ih .expression _ _ _ g4 (by simp only [Proc.rank]; omega)
    · simp

theorem ready_enter {scopes : Scopes} {s : State} {m : Nat} (h : Ready scopes s m) :
    Ready ([] :: scopes) (enter_scope s) m :=
  ⟨refines_enter scopes s h.1, delimOK_congr s _ rfl h.2.1, h.2.2⟩

theorem terminates_compound (n : Nat) (ih : ∀ p, Terminates p n) :
    Terminates .compound_statement (n + 1) := by
  intro s scopes m hG hb
  simp only [Proc.run, Proc.rank] at hb ⊢
  rw [parse_compound_statement]
  refine andThen_ne _ _ (of_ne _) fun s1 h1 => ?_
  obtain ⟨g1, _⟩ := ready_consume_delimiter hG h1
  exact andThen_ne _ _ (ih .statement_list _ _ _ (ready_enter g1)
    (by simp only [Proc.rank]; omega)) fun s2 _ => of_ne _

theorem terminates_statement (n : Nat) (ih : ∀ p, Terminates p n) :
    Terminates .statement (n + 1) := by
  intro s scopes m hG hb
  simp only [Proc.run, Proc.rank] at hb ⊢
  rw [parse_statement]
  split
  · exact ih .declaration s scopes m hG (by simp only [Proc.rank]; omega)
  · split
    · exact ih .compound_statement s scopes m hG (by simp only [Proc.rank]; omega)
    · split
      · exact ih .if_statement s scopes m hG (by simp only [Proc.rank]; omega)
      · split
        · exact ih .while_statement s scopes m hG (by simp only [Proc.rank]; omega)
        · split
          · exact ih .for_statement s scopes m hG (by simp only [Proc.rank]; omega)
          · split
            · exact ih .return_statement s scopes m hG (by simp only [Proc.rank]; omega)
            · exact ih .expression_statement s scopes m hG
                (by simp only [Proc.rank]; omega)

theorem terminates_statement_list (n : Nat) (ih : ∀ p, Terminates p n) :
    Terminates .statement_list (n + 1) := by
  intro s scopes m hG hb
  simp only [Proc.run, Proc.rank] at hb ⊢
  rw [parse_statement_list]
  split
  · refine andThen_ne _ _ (ih .statement s scopes m hG (by simp only [Proc.rank]; omega))
      fun s1 h1 => ?_
    obtain ⟨scopes1, _, _, h3⟩ := ready_after .statement n hG h1
    obtain ⟨g1, _⟩ := h3 rfl
    exact ih .statement_list s1 scopes1 _ g1 (by simp only [Proc.rank]; omega)
  · simp

/-- No procedure of the parser runs out of a budget of 16 units per pending
token plus its rank. -/
theorem terminates_all (n : Nat) : ∀ p, Terminates p n := by
  induction n with
  | zero => exact terminates_zero
  | succ n ih =>
    intro p
    cases p with
    | statement_list => exact terminates_statement_list n ih
    | statement => exact terminates_statement n ih
    | declaration => exact terminates_declaration n ih
    | expression_statement => exact terminates_expression_statement n ih
    | compound_statement => exact terminates_compound n ih
    | if_statement => exact terminates_if n ih
    | while_statement => exact terminates_while n ih
    | for_statement => exact terminates_for n ih
    | return_statement => exact terminates_return n ih
    | expression => exact terminates_expression n ih
    | assignment => exact terminates_assignment n ih
    | binary l => exact terminates_binary l n ih
    | binary_loop l => exact terminates_binary_loop l n ih
    | unary => exact terminates_unary n ih
    | primary => exact terminates_primary n ih

theorem lex_all_length (n : Nat) (s : Source) : (lex_all n s).length ≤ n := by
  induction n generalizing s with
  | zero => simp [lex_all]
  | succ n ih =>
    rw [lex_all_succ]
    split
    · simp
    · have := ih (get_next_token s).2
      simp only [List.length_cons]
      omega

theorem ready_initial (input : List Char) :
    Ready [[]] (next_token (initial_state input)) (input.length + 1) := by
  refine ⟨refines_initial input, delimOK_initial input, ?_⟩
  rw [pending_initial]
  exact lex_all_length _ _

/-- The analysis of an input never runs out of its budget. -/
theorem analyse_terminates (input : List Char) : analyse input ≠ .out_of_fuel := by
  have h : Proc.run .statement_list (budget input) (next_token (initial_state input)) ≠
      .out_of_fuel :=
    terminates_all (budget input) .statement_list _ _ _ (ready_initial input)
      (by simp only [Proc.rank, budget]; omega)
  unfold analyse parse_program
  refine andThen_ne _ _ h fun s1 _ => ?_
  split <;> simp

/-! ## A larger budget does not change a result -/

theorem andThen_mono (r r' : Outcome) (k k' : State → Outcome)
    (hr : r ≠ .out_of_fuel → r' = r)
    (hk : ∀ s1, k s1 ≠ .out_of_fuel → k' s1 = k s1)
    (h : r.andThen k ≠ .out_of_fuel) : r'.andThen k' = r.andThen k := by
  cases r with
  | ok s1 => rw [hr (by simp)]; exact hk s1 h
  | error e => rw [hr (by simp)]; rfl
  | out_of_fuel => exact absurd rfl h

theorem ite_mono (c : Prop) [Decidable c] (a a' b b' : Outcome)
    (ha : a ≠ .out_of_fuel → a' = a) (hb : b ≠ .out_of_fuel → b' = b)
    (h : (if c then a else b) ≠ .out_of_fuel) :
    (if c then a' else b') = if c then a else b := by
  split
  · rw [if_pos ‹c›] at h; exact ha h
  · rw [if_neg ‹¬ c›] at h; exact hb h

theorem stable_zero (p : Proc) : Stable p 0 := by
  intro s h
  exfalso
  apply h
  cases p with
  | binary l => exact level_parse_zero l s
  | binary_loop l => exact level_loop_zero l s
  | _ => rfl

theorem stable_primary (n : Nat) (ih : ∀ p, Stable p n) : Stable .primary (n + 1) := by
  intro s h
  simp only [Proc.run, parse_primary] at h ⊢
  refine ite_mono _ _ _ _ _ (fun _ => rfl) (ite_mono _ _ _ _ _ (fun _ => rfl)
    (ite_mono _ _ _ _ _ ?_ (fun _ => rfl))) h
  intro h
  refine andThen_mono _ _ _ _ (fun _ => rfl) (fun s1 h1 => ?_) h
  exact andThen_mono _ _ _ _ (ih .expression s1) (fun _ _ => rfl) h1

theorem stable_unary (n : Nat) (ih : ∀ p, Stable p n) : Stable .unary (n + 1) := by
  intro s h
  simp only [Proc.run] at h ⊢
  rw [parse_unary_succ n s] at h
  rw [parse_unary_succ (n + 1) s, parse_unary_succ n s]
  exact ite_mono _ _ _ _ _ (ih .unary _) (ih .primary _) h

theorem stable_binary_loop (l : Level) (n : Nat) (ih : ∀ p, Stable p n) :
    Stable (.binary_loop l) (n + 1) := by
  intro s h
  obtain ⟨p, hrun, _⟩ := level_sub_proc l
  simp only [Proc.run] at h ⊢
  rw [level_loop_succ l n s, ← hrun] at h
  rw [level_loop_succ l (n + 1) s, level_loop_succ l n s, ← hrun]
  refine ite_mono _ _ _ _ _ ?_ (fun _ => rfl) h
  intro h
  exact andThen_mono _ _ _ _ (ih p _) (fun s1 h1 => ih (.binary_loop l) s1 h1) h

theorem stable_binary (l : Level) (n : Nat) (ih : ∀ p, Stable p n) :
    Stable (.binary l) (n + 1) := by
  intro s h
  obtain ⟨p, hrun, _⟩ := level_sub_proc l
  simp only [Proc.run, level_parse_succ, ← hrun] at h ⊢
  exact andThen_mono _ _ _ _ (ih p _) (fun s1 h1 => ih (.binary_loop l) s1 h1) h

theorem parse_assignment_succ (n : Nat) (s : State) :
    parse_assignment (n + 1) s =
      (parse_logical_or n s).andThen fun s =>
        if match_operator s "=".toList then
          (Outcome.of (consume_operator s "=".toList)).andThen fun s => parse_assignment n s
        else .ok s := by
  rw [parse_assignment]

theorem parse_statement_list_succ (n : Nat) (s : State) :
    parse_statement_list (n + 1) s =
      if s.current_token.type ≠ .TOKEN_EOF ∧ ¬ match_delimiter s '}' then
        (parse_statement n s).andThen fun s => parse_statement_list n s
      else .ok s := by
  rw [parse_statement_list]

theorem stable_assignment (n : Nat) (ih : ∀ p, Stable p n) : Stable .assignment (n + 1) := by
  intro s h
  simp only [Proc.run] at h ⊢
  rw [parse_assignment_succ n s] at h
  rw [parse_assignment_succ (n + 1) s, parse_assignment_succ n s]
  refine andThen_mono _ _ _ _ (ih (.binary .logicalOr) s) (fun s1 h1 => ?_) h
  refine ite_mono _ _ _ _ _ ?_ (fun _ => rfl) h1
  intro h2
  exact andThen_mono _ _ _ _ (fun _ => rfl) (fun s2 h3 => ih .assignment s2 h3) h2

theorem stable_expression (n : Nat) (ih : ∀ p, Stable p n) : Stable .expression (n + 1) := by
  intro s h
  simp only [Proc.run, parse_expression] at h ⊢
  exact ih .assignment s h

theorem stable_optional (n : Nat) (ih : ∀ p, Stable p n) (c : Char) (s : State)
    (h : (if ¬ match_delimiter s c = true then parse_expression n s else .ok s) ≠
      .out_of_fuel) :
    (if ¬ match_delimiter s c = true then parse_expression (n + 1) s else .ok s) =
      if ¬ match_delimiter s c = true then parse_expression n s else .ok s :=
  ite_mono _ _ _ _ _ (ih .expression s) (fun _ => rfl) h

theorem stable_expression_statement (n : Nat) (ih : ∀ p, Stable p n) :
    Stable .expression_statement (n + 1) := by
  intro s h
  simp only [Proc.run, parse_expression_statement] at h ⊢
  refine ite_mono _ _ _ _ _ (fun _ => rfl) ?_ h
  intro h
  exact andThen_mono _ _ _ _ (ih .expression s) (fun _ _ => rfl) h

theorem stable_return (n : Nat) (ih : ∀ p, Stable p n) :
    Stable .return_statement (n + 1) := by
  intro s h
  simp only [Proc.run, parse_return_statement] at h ⊢
  refine andThen_mono _ _ _ _ (fun _ => rfl) (fun s1 h1 => ?_) h
  exact andThen_mono _ _ _ _ (stable_optional n ih ';' s1) (fun _ _ => rfl) h1

theorem stable_while (n : Nat) (ih : ∀ p, Stable p n) : Stable .while_statement (n + 1) := by
  intro s h
  simp only [Proc.run, parse_while_statement] at h ⊢
  refine andThen_mono _ _ _ _ (fun _ => rfl) (fun s1 h1 => ?_) h
  refine andThen_mono _ _ _ _ (fun _ => rfl) (fun s2 h2 => ?_) h1
  refine andThen_mono _ _ _ _ (ih .expression s2) (fun s3 h3 => ?_) h2
  exact andThen_mono _ _ _ _ (fun _ => rfl) (fun s4 h4 => ih .statement s4 h4) h3

theorem stable_if (n : Nat) (ih : ∀ p, Stable p n) : Stable .if_statement (n + 1) := by
  intro s h
  simp only [Proc.run, parse_if_statement] at h ⊢
  refine andThen_mono _ _ _ _ (fun _ => rfl) (fun s1 h1 => ?_) h
  refine andThen_mono _ _ _ _ (fun _ => rfl) (fun s2 h2 => ?_) h1
  refine andThen_mono _ _ _ _ (ih .expression s2) (fun s3 h3 => ?_) h2
  refine andThen_mono _ _ _ _ (fun _ => rfl) (fun s4 h4 => ?_) h3
  refine andThen_mono _ _ _ _ (ih .statement s4) (fun s5 h5 => ?_) h4
  refine ite_mono _ _ _ _ _ ?_ (fun _ => rfl) h5
  intro h6
  exact andThen_mono _ _ _ _ (fun _ => rfl) (fun s6 h7 => ih .statement s6 h7) h6

theorem stable_for (n : Nat) (ih : ∀ p, Stable p n) : Stable .for_statement (n + 1) := by
  intro s h
  simp only [Proc.run, parse_for_statement] at h ⊢
  refine andThen_mono _ _ _ _ (fun _ => rfl) (fun s1 h1 => ?_) h
  refine andThen_mono _ _ _ _ (fun _ => rfl) (fun s2 h2 => ?_) h1
  refine andThen_mono _ _ _ _ (stable_optional n ih ';' s2) (fun s3 h3 => ?_) h2
  refine andThen_mono _ _ _ _ (fun _ => rfl) (fun s4 h4 => ?_) h3
  refine andThen_mono _ _ _ _ (stable_optional n ih ';' s4) (fun s5 h5 => ?_) h4
  refine andThen_mono _ _ _ _ (fun _ => rfl) (fun s6 h6 => ?_) h5
  refine andThen_mono _ _ _ _ (stable_optional n ih ')' s6) (fun s7 h7 => ?_) h6
  exact andThen_mono _ _ _ _ (fun _ => rfl) (fun s8 h8 => ih .statement s8 h8) h7

theorem stable_declaration (n : Nat) (ih : ∀ p, Stable p n) :
    Stable .declaration (n + 1) := by
  intro s h
  simp only [Proc.run, parse_declaration] at h ⊢
  refine andThen_mono _ _ _ _ (fun _ => rfl) (fun s1 h1 => ?_) h
  refine ite_mono _ _ _ _ _ (fun _ => rfl) ?_ h1
  intro h2
  refine andThen_mono _ _ _ _ (fun _ => rfl) (fun s2 h3 => ?_) h2
  refine andThen_mono _ _ _ _ ?_ (fun _ _ => rfl) h3
  exact ite_mono _ _ _ _ _ (ih .expression _) (fun _ => rfl)

theorem stable_compound (n : Nat) (ih : ∀ p, Stable p n) :
    Stable .compound_statement (n + 1) := by
  intro s h
  simp only [Proc.run, parse_compound_statement] at h ⊢
  refine andThen_mono _ _ _ _ (fun _ => rfl) (fun s1 h1 => ?_) h
  exact andThen_mono _ _ _ _ (ih .statement_list _) (fun _ _ => rfl) h1

theorem stable_statement (n : Nat) (ih : ∀ p, Stable p n) : Stable .statement (n + 1) := by
  intro s h
  simp only [Proc.run, parse_statement] at h ⊢
  exact ite_mono _ _ _ _ _ (ih .declaration s) (ite_mono _ _ _ _ _ (ih .compound_statement s)
    (ite_mono _ _ _ _ _ (ih .if_statement s) (ite_mono _ _ _ _ _ (ih .while_statement s)
    (ite_mono _ _ _ _ _ (ih .for_statement s) (ite_mono _ _ _ _ _ (ih .return_statement s)
    (ih .expression_statement s)))))) h

theorem stable_statement_list (n : Nat) (ih : ∀ p, Stable p n) :
    Stable .statement_list (n + 1) := by
  intro s h
  simp only [Proc.run] at h ⊢
  rw [parse_statement_list_succ n s] at h
  rw [parse_statement_list_succ (n + 1) s, parse_statement_list_succ n s]
  refine ite_mono _ _ _ _ _ ?_ (fun _ => rfl) h
  intro h1
  exact andThen_mono _ _ _ _ (ih .statement s) (fun s1 h2 => ih .statement_list s1 h2) h1

theorem stable_all (n : Nat) : ∀ p, Stable p n := by
  induction n with
  | zero => exact stable_zero
  | succ n ih =>
    intro p
    cases p with
    | statement_list => exact stable_statement_list n ih
    | statement => exact stable_statement n ih
    | declaration => exact stable_declaration n ih
    | expression_statement => exact stable_expression_statement n ih
    | compound_statement => exact stable_compound n ih
    | if_statement => exact stable_if n ih
    | while_statement => exact stable_while n ih
    | for_statement => exact stable_for n ih
    | return_statement => exact stable_return n ih
    | expression => exact stable_expression n ih
    | assignment => exact stable_assignment n ih
    | binary l => exact stable_binary l n ih
    | binary_loop l => exact stable_binary_loop l n ih
    | unary => exact stable_unary n ih
    | primary => exact stable_primary n ih

/-- A result obtained with some budget is the result with every larger one. -/
theorem run_le (p : Proc) (n m : Nat) (s : State) (hnm : n ≤ m)
    (h : p.run n s ≠ .out_of_fuel) : p.run m s = p.run n s := by
  induction m with
  | zero =>
    have : n = 0 := by omega
    rw [this]
  | succ m ih =>
    by_cases hn : n = m + 1
    · rw [hn]
    · have hm := ih (by omega)
      rw [stable_all m p s (by rw [hm]; exact h), hm]

/-- The result of a procedure does not depend on the budget. -/
theorem run_deterministic (p : Proc) (n m : Nat) (s a b : State)
    (ha : p.run n s = .ok a) (hb : p.run m s = .ok b) : a = b := by
  have h1 := run_le p n (max n m) s (le_max_left _ _) (by rw [ha]; simp)
  have h2 := run_le p m (max n m) s (le_max_right _ _) (by rw [hb]; simp)
  rw [ha] at h1
  rw [hb, h1] at h2
  cases h2
  rfl

/-! ## Analysis accepts sentences of the grammar only -/

/-- C2: when the analysis of an input succeeds, the token sequence of the
input is derived from `program`; when the token sequence is not derived from
`program`, the analysis ends with a condition (it neither succeeds nor runs
on); and `int x = 1 + ;` ends with the syntax condition at the `;`. -/
theorem analyse_accepts_grammar :
    (∀ input s', analyse input = .ok s' → Derives .program (token_sequence input)) ∧
    (∀ input, ¬ Derives .program (token_sequence input) → ∃ e, analyse input = .error e) ∧
    analyse "int x = 1 + ;".toList =
      .error (.syntax_error ⟨.TOKEN_DELIMITER, [';'], 1, 13⟩) := by
  have hsound : ∀ input s', analyse input = .ok s' →
      Derives .program (token_sequence input) := by
    intro input s' h
    have := (sound_program _ _ s' [[]] (refines_initial input) (delimOK_initial input) h).1
    rwa [pending_initial] at this
  refine ⟨hsound, ?_, by decide⟩
  intro input hnot
  cases h : analyse input with
  | ok s' => exact absurd (hsound input s' h) hnot
  | error e => exact ⟨e, rfl⟩
  | out_of_fuel => exact absurd h (analyse_terminates input)

/-- Witness of C2: the analysis of `int x = 5;` succeeds, so its token
sequence is a program of the grammar. -/
theorem analyse_accepts_grammar_witness :
    Derives .program (token_sequence "int x = 5;".toList) :=
  analyse_accepts_grammar.1 "int x = 5;".toList
    ⟨⟨[], 1, 10⟩, ⟨.TOKEN_EOF, [], 1, 10⟩, [⟨['x'], "int".toList, 0⟩], 0⟩ (by decide)

/-! ## Positions in the token sequence -/

theorem iterate_pending (pre : List Token) (s0 : State) (rest : List Token)
    (h : pending s0 = pre ++ rest) (hrest : rest ≠ []) :
    pending (next_token^[pre.length] s0) = rest := by
  induction pre generalizing s0 with
  | nil => simpa using h
  | cons p pre ih =>
    have hne : s0.current_token.type ≠ .TOKEN_EOF := by
      intro heof
      rw [pending_of_eof s0 heof] at h
      simp only [List.cons_append, List.cons.injEq] at h
      have := h.2.symm
      simp only [List.append_eq_nil] at this
      exact hrest this.2
    rw [pending_next_token s0 hne] at h
    simp only [List.cons_append, List.cons.injEq] at h
    rw [List.length_cons, Function.iterate_succ_apply]
    exact ih (next_token s0) h.2

theorem pending_after (s0 : State) (k : Nat) (scopes : Scopes) (ts : List Token)
    (h : At s0 k ts) (hts : ts ≠ []) : pending (after s0 k scopes) = ts := by
  obtain ⟨pre, hp, rfl⟩ := h
  rw [pending_congr (next_token^[pre.length] s0) (after s0 pre.length scopes) rfl rfl]
  exact iterate_pending pre s0 ts hp hts

theorem after_current (s0 : State) (k : Nat) (scopes : Scopes) (t : Token)
    (ts : List Token) (h : At s0 k (t :: ts)) : (after s0 k scopes).current_token = t := by
  have hp := pending_after s0 k scopes (t :: ts) h (by simp)
  have hh := pending_head (after s0 k scopes)
  rw [hp] at hh
  simpa using hh.symm

theorem after_next_token (s0 : State) (k : Nat) (scopes : Scopes) :
    next_token (after s0 k scopes) = after s0 (k + 1) scopes := by
  simp only [after, next_token, Function.iterate_succ_apply']

theorem at_tail (s0 : State) (k : Nat) (t : Token) (ts : List Token)
    (h : At s0 k (t :: ts)) : At s0 (k + 1) ts := by
  obtain ⟨pre, hp, rfl⟩ := h
  exact ⟨pre ++ [t], by simp [hp], by simp⟩

theorem at_drop (s0 : State) (k : Nat) (a b : List Token) (h : At s0 k (a ++ b)) :
    At s0 (k + a.length) b := by
  obtain ⟨pre, hp, rfl⟩ := h
  exact ⟨pre ++ a, by simp [hp], by simp⟩

theorem at_not_eof (s0 : State) (k : Nat) (t u : Token) (ts : List Token)
    (h : At s0 k (t :: u :: ts)) : t.type ≠ .TOKEN_EOF := by
  intro heof
  have hp := pending_after s0 k [[]] (t :: u :: ts) h (by simp)
  have hc := after_current s0 k [[]] t (u :: ts) h
  rw [pending_of_eof _ (by rw [hc]; exact heof)] at hp
  simp at hp

theorem refines_after (s0 : State) (k : Nat) (scopes : Scopes) (h : scopes ≠ []) :
    Refines scopes (after s0 k scopes) :=
  ⟨h, rfl, rfl⟩

theorem delimOK_after (s0 : State) (k : Nat) (scopes : Scopes) (ts : List Token)
    (hD : DelimOK s0) (h : At s0 k ts) (hts : ts ≠ []) : DelimOK (after s0 k scopes) := by
  intro t ht
  rw [pending_after s0 k scopes ts h hts] at ht
  obtain ⟨pre, hp, _⟩ := h
  exact hD t (by rw [hp]; exact List.mem_append_right _ ht)

theorem after_enter (s0 : State) (k : Nat) (scopes : Scopes) :
    enter_scope (after s0 k scopes) = after s0 k ([] :: scopes) := by
  simp only [after, enter_scope, table_of, List.map_nil, List.append_nil, List.length_cons,
    Nat.cast_add, Nat.cast_one]
  congr 1
  omega

theorem after_exit (s0 : State) (k : Nat) (inner top : List (List Char)) (outer : Scopes) :
    exit_scope (after s0 k (inner :: top :: outer)) = after s0 k (top :: outer) := by
  have h := refines_exit inner top outer (after s0 k (inner :: top :: outer))
    (refines_after s0 k _ (by simp))
  obtain ⟨_, ht, hl⟩ := h
  have e : exit_scope (after s0 k (inner :: top :: outer)) =
      { after s0 k (inner :: top :: outer) with
        symbol_table := (exit_scope (after s0 k (inner :: top :: outer))).symbol_table
        current_scope_level :=
          (exit_scope (after s0 k (inner :: top :: outer))).current_scope_level } := rfl
  rw [e, ht, hl]
  rfl

theorem after_add (s0 : State) (k : Nat) (top : List (List Char)) (outer : Scopes)
    (name : List Char) (hnew : name ∉ top) (hroom : ¬ MAX_SYMBOLS ≤ live (top :: outer)) :
    add_symbol (after s0 k (top :: outer)) name "int".toList =
      .ok (after s0 k ((top ++ [name]) :: outer)) := by
  rw [refines_add_symbol top outer _ name (refines_after s0 k _ (by simp)), if_neg hnew,
    if_neg hroom]
  rfl

/-! ## Steps of the parser at a position -/

theorem at_match_delimiter (s0 : State) (k : Nat) (scopes : Scopes) (t : Token)
    (ts : List Token) (c : Char) (hD : DelimOK s0) (h : At s0 k (t :: ts)) :
    match_delimiter (after s0 k scopes) c = true ↔ is_delim t c := by
  rw [match_delimiter_iff _ _ (delimOK_after s0 k scopes _ hD h (by simp)),
    after_current s0 k scopes t ts h]

theorem at_match_keyword (s0 : State) (k : Nat) (scopes : Scopes) (t : Token)
    (ts : List Token) (kw : List Char) (h : At s0 k (t :: ts)) :
    match_keyword (after s0 k scopes) kw = true ↔ is_kw t kw := by
  rw [match_keyword_iff, after_current s0 k scopes t ts h]

theorem at_match_operator (s0 : State) (k : Nat) (scopes : Scopes) (t : Token)
    (ts : List Token) (op : List Char) (h : At s0 k (t :: ts)) :
    match_operator (after s0 k scopes) op = true ↔ is_op t op := by
  rw [match_operator_iff, after_current s0 k scopes t ts h]

theorem at_consume_delimiter (s0 : State) (k : Nat) (scopes : Scopes) (t : Token)
    (ts : List Token) (c : Char) (hD : DelimOK s0) (h : At s0 k (t :: ts))
    (ht : is_delim t c) :
    Outcome.of (consume_delimiter (after s0 k scopes) c) = .ok (after s0 (k + 1) scopes) := by
  unfold consume_delimiter
  rw [if_pos ((at_match_delimiter s0 k scopes t ts c hD h).mpr ht), after_next_token]
  rfl

theorem at_consume_keyword (s0 : State) (k : Nat) (scopes : Scopes) (t : Token)
    (ts : List Token) (kw : List Char) (h : At s0 k (t :: ts)) (ht : is_kw t kw) :
    Outcome.of (consume_keyword (after s0 k scopes) kw) = .ok (after s0 (k + 1) scopes) := by
  unfold consume_keyword
  rw [if_pos ((at_match_keyword s0 k scopes t ts kw h).mpr ht), after_next_token]
  rfl

theorem at_consume_operator (s0 : State) (k : Nat) (scopes : Scopes) (t : Token)
    (ts : List Token) (op : List Char) (h : At s0 k (t :: ts)) (ht : is_op t op) :
    Outcome.of (consume_operator (after s0 k scopes) op) = .ok (after s0 (k + 1) scopes) := by
  unfold consume_operator
  rw [if_pos ((at_match_operator s0 k scopes t ts op h).mpr ht), after_next_token]
  rfl

/-! ## Results that are not errors -/

theorem Returns.bind {r : Outcome} {k : State → Outcome} {P Q : State → Prop}
    (h : Returns r P) (hk : ∀ s1, P s1 → Returns (k s1) Q) : Returns (r.andThen k) Q := by
  rcases h with h | ⟨s1, h, hP⟩
  · rw [h]; exact Or.inl rfl
  · rw [h]; exact hk s1 hP

theorem Returns.ok {s : State} {P : State → Prop} (h : P s) : Returns (.ok s) P :=
  Or.inr ⟨s, rfl, h⟩

theorem Returns.mono {r : Outcome} {P Q : State → Prop} (h : Returns r P)
    (hPQ : ∀ s, P s → Q s) : Returns r Q := by
  rcases h with h | ⟨s1, h, hP⟩
  · exact Or.inl h
  · exact Or.inr ⟨s1, h, hPQ s1 hP⟩

theorem returns_zero (p : Proc) (s : State) (P : State → Prop) : Returns (p.run 0 s) P := by
  left
  cases p with
  | binary l => exact level_parse_zero l s
  | binary_loop l => exact level_loop_zero l s
  | _ => rfl

/-! ## Chains of `else` branches -/

theorem Chain.concat {a b c : State} (h1 : Chain a b) (h2 : Chain b c) : Chain a c := by
  induction h1 with
  | refl s => exact h2
  | step s s1 s2 n helse hrun _ ih => exact Chain.step s s1 _ n helse hrun (ih h2)

theorem Chain.of_not_else {a b : State} (h : Chain a b)
    (hne : match_keyword a "else".toList = false) : b = a := by
  cases h with
  | refl s => rfl
  | step s s1 s2 n helse hrun _ => rw [hne] at helse; cases helse

theorem ChainErr.of_chain {a b : State} {e : Err} (h1 : Chain a b) (h2 : ChainErr b e) :
    ChainErr a e := by
  induction h1 with
  | refl s => exact h2
  | step s s1 s2 n helse hrun _ ih => exact ChainErr.step s s1 e n helse hrun (ih h2)

theorem ChainErr.is_else {a : State} {e : Err} (h : ChainErr a e) :
    match_keyword a "else".toList = true := by
  cases h with
  | here _ _ _ helse _ => exact helse
  | step _ _ _ _ helse _ _ => exact helse

theorem Branches.of_returns {r : Outcome} {sEnd : State}
    (h : Returns r (fun s' => s' = sEnd)) : Branches r sEnd := by
  rcases h with h | ⟨s', h, rfl⟩
  · exact Or.inl h
  · exact Or.inr (Or.inl ⟨s', h, Chain.refl _⟩)

theorem Branches.returns {r : Outcome} {sEnd : State} (h : Branches r sEnd)
    (hne : match_keyword sEnd "else".toList = false) : Returns r (fun s' => s' = sEnd) := by
  rcases h with h | ⟨s', h, hch⟩ | ⟨e, _, herr⟩
  · exact Or.inl h
  · exact Or.inr ⟨s', h, hch.of_not_else hne⟩
  · rw [herr.is_else] at hne; cases hne

theorem Branches.seq {r : Outcome} {k : State → Outcome} {sEnd : State}
    (h : Branches r sEnd) (hk : ∀ s1, Chain sEnd s1 → Branches (k s1) sEnd) :
    Branches (r.andThen k) sEnd := by
  rcases h with h | ⟨s', h, hch⟩ | ⟨e, h, herr⟩
  · rw [h]; exact Or.inl rfl
  · rw [h]; exact hk s' hch
  · rw [h]; exact Or.inr (Or.inr ⟨e, rfl, herr⟩)

theorem Returns.branches {r : Outcome} {k : State → Outcome} {P : State → Prop}
    {sEnd : State} (h : Returns r P) (hk : ∀ s1, P s1 → Branches (k s1) sEnd) :
    Branches (r.andThen k) sEnd := by
  rcases h with h | ⟨s1, h, hP⟩
  · rw [h]; exact Or.inl rfl
  · rw [h]; exact hk s1 hP

/-! ## The scoping rule, taken apart -/

theorem scan_append_inv (a b : List Token) (st st' : Scopes × Bool)
    (h : scan (a ++ b) st = .ok st') : ∃ st1, scan a st = .ok st1 ∧ scan b st1 = .ok st' := by
  rw [scan_append] at h
  cases h1 : scan a st with
  | ok st1 => rw [h1] at h; exact ⟨st1, rfl, h⟩
  | error e => rw [h1] at h; cases h

theorem scan_cons_inv (t : Token) (b : List Token) (st st' : Scopes × Bool)
    (h : scan (t :: b) st = .ok st') :
    ∃ st1, scan_step st t = .ok st1 ∧ scan b st1 = .ok st' := by
  simp only [scan] at h
  cases h1 : scan_step st t with
  | ok st1 => rw [h1] at h; exact ⟨st1, rfl, h⟩
  | error e => rw [h1] at h; cases h

theorem scan_step_flag (st st' : Scopes × Bool) (t : Token)
    (h : scan_step st t = .ok st') : st'.2 = decide (is_kw t "int".toList) := by
  unfold scan_step at h
  split at h
  · rename_i hid
    have hk : decide (is_kw t "int".toList) = false :=
      decide_eq_false (not_kw_of_type _ _ (by rw [hid]; simp))
    rw [hk]
    split at h
    · split at h
      · cases h
      · split at h
        · cases h
        · split at h
          · cases h
          · cases h; rfl
    · split at h
      · cases h; rfl
      · cases h
  · split at h
    · rename_i hd
      cases h
      exact (decide_eq_false (not_kw_of_type _ _ (by rw [hd.1]; simp))).symm
    · split at h
      · rename_i hd
        have hk : decide (is_kw t "int".toList) = false :=
          decide_eq_false (not_kw_of_type _ _ (by rw [hd.1]; simp))
        rw [hk]
        split at h
        · cases h; rfl
        · cases h
      · cases h; rfl

theorem scan_step_ne (st st' : Scopes × Bool) (t : Token)
    (h : scan_step st t = .ok st') (hne : st.1 ≠ []) : st'.1 ≠ [] := by
  unfold scan_step at h
  split at h
  · split at h
    · split at h
      · cases h
      · split at h
        · cases h
        · split at h
          · cases h
          · cases h; simp
    · split at h
      · cases h; exact hne
      · cases h
  · split at h
    · cases h; simp
    · split at h
      · split at h
        · cases h; simp
        · cases h
      · cases h; exact hne

/-- The scoping rule never leaves the stack of scopes empty. -/
theorem scan_ne (ts : List Token) (st st' : Scopes × Bool) (h : scan ts st = .ok st')
    (hne : st.1 ≠ []) : st'.1 ≠ [] := by
  induction ts generalizing st with
  | nil => cases h; exact hne
  | cons t ts ih =>
    obtain ⟨st1, h1, h2⟩ := scan_cons_inv t ts st st' h
    exact ih st1 h2 (scan_step_ne st st1 t h1 hne)

/-- After a sequence the flag tells whether its last token is `int`. -/
theorem scan_flag (ts : List Token) (st st' : Scopes × Bool) (h : scan ts st = .ok st') :
    st'.2 = match ts.getLast? with
      | none => st.2
      | some t => decide (is_kw t "int".toList) := by
  induction ts generalizing st with
  | nil => cases h; rfl
  | cons t ts ih =>
    obtain ⟨st1, h1, h2⟩ := scan_cons_inv t ts st st' h
    have := ih st1 h2
    cases ts with
    | nil =>
      cases h2
      simpa using scan_step_flag st st' t h1
    | cons u ts =>
      rw [List.getLast?_cons_cons]
      exact this

/-! ## First and last tokens of the sequences of the grammar -/

theorem getLast_append_cases {a b : List Token} {t : Token}
    (h : (a ++ b).getLast? = some t) :
    b.getLast? = some t ∨ (b = [] ∧ a.getLast? = some t) := by
  cases b using List.reverseRecOn with
  | nil => right; simpa using h
  | append_singleton b x =>
    left
    rw [← List.append_assoc, List.getLast?_append_of_ne_nil _ (by simp)] at h
    rw [List.getLast?_append_of_ne_nil _ (by simp)]
    exact h

theorem getLast_cons_cases {x t : Token} {b : List Token}
    (h : (x :: b).getLast? = some t) : b.getLast? = some t ∨ (b = [] ∧ t = x) := by
  rcases getLast_append_cases (a := [x]) (b := b) h with h | ⟨hb, h⟩
  · exact Or.inl h
  · right
    refine ⟨hb, ?_⟩
    simpa using h.symm

theorem getLast_single {x t : Token} (h : [x].getLast? = some t) : t = x := by
  simpa using h.symm

theorem getLast_three {x y z t : Token} (h : [x, y, z].getLast? = some t) : t = z := by
  simpa using h.symm

theorem not_int_of_delim {t : Token} {c : Char} (h : is_delim t c) :
    ¬ is_kw t "int".toList :=
  not_kw_of_type _ _ (by rw [h.1]; simp)

/-- No sequence of the grammar ends with the keyword `int`. -/
theorem derives_last {X : NT} {ts : List Token} (h : Derives X ts) :
    ∀ t, ts.getLast? = some t → ¬ is_kw t "int".toList := by
  induction h with
  | program _ heof _ =>
    intro t ht
    rcases getLast_append_cases ht with ht | ⟨hb, _⟩
    · rw [getLast_single ht]
      exact not_kw_of_type _ _ (by rw [heof]; simp)
    · simp at hb
  | stmtList_nil => intro t ht; simp at ht
  | stmtList_cons _ _ iha ihb =>
    intro t ht
    rcases getLast_append_cases ht with ht | ⟨_, ht⟩
    · exact ihb t ht
    · exact iha t ht
  | statement_decl _ ih => exact ih
  | statement_block _ ih => exact ih
  | statement_if _ ih => exact ih
  | statement_while _ ih => exact ih
  | statement_for _ ih => exact ih
  | statement_return _ ih => exact ih
  | statement_expr _ ih => exact ih
  | decl _ _ hsemi =>
    intro t ht
    rw [getLast_three ht]
    exact not_int_of_delim hsemi
  | decl_init _ _ _ _ hsemi _ =>
    intro t ht
    rcases getLast_append_cases ht with ht | ⟨hb, _⟩
    · rw [getLast_single ht]
      exact not_int_of_delim hsemi
    · simp at hb
  | block _ _ hrb _ =>
    intro t ht
    rcases getLast_append_cases ht with ht | ⟨hb, _⟩
    · rw [getLast_single ht]
      exact not_int_of_delim hrb
    · simp at hb
  | ifStmt _ _ _ hrp _ _ iha =>
    intro t ht
    rcases getLast_append_cases ht with ht | ⟨hb, _⟩
    · rcases getLast_cons_cases ht with ht | ⟨_, rfl⟩
      · exact iha t ht
      · exact not_int_of_delim hrp
    · simp at hb
  | ifElse _ _ _ _ _ hel _ _ _ ihb =>
    intro t ht
    rcases getLast_append_cases ht with ht | ⟨hb, _⟩
    · rcases getLast_cons_cases ht with ht | ⟨_, rfl⟩
      · exact ihb t ht
      · exact fun h => by
          have := hel.2.symm.trans h.2
          simp at this
    · simp at hb
  | whileStmt _ _ _ hrp _ _ iha =>
    intro t ht
    rcases getLast_append_cases ht with ht | ⟨hb, _⟩
    · rcases getLast_cons_cases ht with ht | ⟨_, rfl⟩
      · exact iha t ht
      · exact not_int_of_delim hrp
    · simp at hb
  | forStmt _ _ _ _ _ _ _ hrp _ _ _ _ iha =>
    intro t ht
    rcases getLast_append_cases ht with ht | ⟨hb, _⟩
    · rcases getLast_cons_cases ht with ht | ⟨_, rfl⟩
      · exact iha t ht
      · exact not_int_of_delim hrp
    · simp at hb
  | returnStmt _ _ hsemi _ =>
    intro t ht
    rcases getLast_append_cases ht with ht | ⟨hb, _⟩
    · rw [getLast_single ht]
      exact not_int_of_delim hsemi
    · simp at hb
  | exprStmt _ hsemi _ =>
    intro t ht
    rcases getLast_append_cases ht with ht | ⟨hb, _⟩
    · rw [getLast_single ht]
      exact not_int_of_delim hsemi
    · simp at hb
  | optExpr_none => intro t ht; simp at ht
  | optExpr_some _ ih => exact ih
  | expression _ ih => exact ih
  | assignment _ ih => exact ih
  | assign _ heq _ _ ihb =>
    intro t ht
    rcases getLast_append_cases ht with ht | ⟨hb, _⟩
    · rcases getLast_cons_cases ht with ht | ⟨_, rfl⟩
      · exact ihb t ht
      · exact not_kw_of_type _ _ (by rw [heq.1]; simp)
    · simp at hb
  | binary _ _ iha ihr =>
    intro t ht
    rcases getLast_append_cases ht with ht | ⟨_, ht⟩
    · exact ihr t ht
    · exact iha t ht
  | rest_nil => intro t ht; simp at ht
  | rest_cons hop _ _ _ iha ihr =>
    intro t ht
    rcases getLast_append_cases ht with ht | ⟨_, ht⟩
    · exact ihr t ht
    · rcases getLast_cons_cases ht with ht | ⟨_, rfl⟩
      · exact iha t ht
      · exact not_kw_of_type _ _ (by rw [hop]; simp)
  | unary_op hop _ _ iha =>
    intro t ht
    rcases getLast_cons_cases ht with ht | ⟨_, rfl⟩
    · exact iha t ht
    · exact not_kw_of_type _ _ (by rw [hop]; simp)
  | unary_primary _ ih => exact ih
  | primary_identifier hid =>
    intro t ht
    rw [getLast_single ht]
    exact not_kw_of_type _ _ (by rw [hid]; simp)
  | primary_number hnum =>
    intro t ht
    rw [getLast_single ht]
    exact not_kw_of_type _ _ (by rw [hnum]; simp)
  | primary_paren _ _ hrp _ =>
    intro t ht
    rcases getLast_append_cases ht with ht | ⟨hb, _⟩
    · rw [getLast_single ht]
      exact not_int_of_delim hrp
    · simp at hb

/-- After a sequence of the grammar that was entered with the flag down, the
flag is down. -/
theorem derives_flag {X : NT} {ts : List Token} (h : Derives X ts)
    (scopes scopes' : Scopes) (b : Bool)
    (hscan : scan ts (scopes, false) = .ok (scopes', b)) : b = false := by
  have := scan_flag ts _ _ hscan
  simp only [] at this
  cases hl : ts.getLast? with
  | none => rw [hl] at this; exact this
  | some t =>
    rw [hl] at this
    rw [this]
    exact decide_eq_false (derives_last h t hl)

theorem head_of_append {a b ts' : List Token} {t : Token} (ha : a ≠ [])
    (h : a ++ b = t :: ts') : ∃ a', a = t :: a' := by
  cases a with
  | nil => exact absurd rfl ha
  | cons x a' =>
    simp only [List.cons_append, List.cons.injEq] at h
    exact ⟨a', by rw [h.1]⟩

theorem stmtFirst_of_kw {t : Token} {kw : List Char} (h : is_kw t kw)
    (hkw : kw = "int".toList ∨ kw = "if".toList ∨ kw = "while".toList ∨
      kw = "for".toList ∨ kw = "return".toList) : StmtFirst t :=
  Or.inl ⟨h.1, by rw [h.2]; exact hkw⟩

theorem exprFirst_of_operand {l : Level} {t : Token} (h : l.operand.first t) :
    ExprFirst t := by
  cases l <;> exact h

/-- The first token of a sequence of the grammar. -/
theorem derives_first {X : NT} {ts : List Token} (h : Derives X ts) :
    ∀ t ts', ts = t :: ts' → X.first t := by
  induction h with
  | program _ _ _ => intro _ _ _; trivial
  | stmtList_nil => intro t ts' h; cases h
  | stmtList_cons ha _ iha _ =>
    intro t ts' h
    obtain ⟨a', rfl⟩ := head_of_append (derives_nonempty ha rfl) h
    exact iha t a' rfl
  | statement_decl _ ih =>
    intro t ts' h
    exact stmtFirst_of_kw (ih t ts' h) (Or.inl rfl)
  | statement_block _ ih => intro t ts' h; exact Or.inr (Or.inl (ih t ts' h))
  | statement_if _ ih =>
    intro t ts' h
    exact stmtFirst_of_kw (ih t ts' h) (Or.inr (Or.inl rfl))
  | statement_while _ ih =>
    intro t ts' h
    exact stmtFirst_of_kw (ih t ts' h) (Or.inr (Or.inr (Or.inl rfl)))
  | statement_for _ ih =>
    intro t ts' h
    exact stmtFirst_of_kw (ih t ts' h) (Or.inr (Or.inr (Or.inr (Or.inl rfl))))
  | statement_return _ ih =>
    intro t ts' h
    exact stmtFirst_of_kw (ih t ts' h) (Or.inr (Or.inr (Or.inr (Or.inr rfl))))
  | statement_expr _ ih =>
    intro t ts' h
    rcases ih t ts' h with h | h
    · exact Or.inr (Or.inr (Or.inl h))
    · exact Or.inr (Or.inr (Or.inr h))
  | decl hkw _ _ => intro t ts' h; cases h; exact hkw
  | decl_init hkw _ _ _ _ _ => intro t ts' h; cases h; exact hkw
  | block hlb _ _ _ => intro t ts' h; cases h; exact hlb
  | ifStmt hkw _ _ _ _ _ _ => intro t ts' h; cases h; exact hkw
  | ifElse hkw _ _ _ _ _ _ _ _ _ => intro t ts' h; cases h; exact hkw
  | whileStmt hkw _ _ _ _ _ _ => intro t ts' h; cases h; exact hkw
  | forStmt hkw _ _ _ _ _ _ _ _ _ _ _ _ => intro t ts' h; cases h; exact hkw
  | returnStmt hkw _ _ _ => intro t ts' h; cases h; exact hkw
  | @exprStmt semi e _ hsemi ih =>
    intro t ts' h
    cases e with
    | nil => cases h; exact Or.inl hsemi
    | cons x e' => cases h; exact Or.inr (ih _ e' rfl)
  | optExpr_none => intro t ts' h; cases h
  | optExpr_some _ ih => exact ih
  | expression _ ih => exact ih
  | assignment _ ih => exact ih
  | assign ha _ _ iha _ =>
    intro t ts' h
    obtain ⟨a', rfl⟩ := head_of_append (derives_nonempty ha rfl) h
    exact iha t a' rfl
  | binary ha _ iha _ =>
    intro t ts' h
    obtain ⟨a', rfl⟩ := head_of_append (derives_nonempty ha (operand_nonempty _)) h
    exact exprFirst_of_operand (iha t a' rfl)
  | rest_nil => intro t ts' h; cases h
  | rest_cons hop hv _ _ _ _ => intro t ts' h; cases h; exact ⟨hop, hv⟩
  | unary_op hop hv _ _ => intro t ts' h; cases h; exact Or.inr (Or.inr (Or.inr ⟨hop, hv⟩))
  | unary_primary _ ih =>
    intro t ts' h
    rcases ih t ts' h with h | h | h
    · exact Or.inl h
    · exact Or.inr (Or.inl h)
    · exact Or.inr (Or.inr (Or.inl h))
  | primary_identifier hid => intro t ts' h; cases h; exact Or.inl hid
  | primary_number hnum => intro t ts' h; cases h; exact Or.inr (Or.inl hnum)
  | primary_paren hlp _ _ _ => intro t ts' h; cases h; exact Or.inr (Or.inr hlp)

/-! ## Completeness of the parser: expressions -/

theorem exprFirst_not_kw {t : Token} (h : ExprFirst t) (kw : List Char) : ¬ is_kw t kw := by
  rcases h with h | h | h | h
  · exact not_kw_of_type _ _ (by rw [h]; simp)
  · exact not_kw_of_type _ _ (by rw [h]; simp)
  · exact not_kw_of_type _ _ (by rw [h.1]; simp)
  · exact not_kw_of_type _ _ (by rw [h.1]; simp)

theorem exprFirst_not_delim {t : Token} (h : ExprFirst t) (c : Char) (hc : c ≠ '(') :
    ¬ is_delim t c := by
  rcases h with h | h | h | h
  · exact not_delim_of_type _ _ (by rw [h]; simp)
  · exact not_delim_of_type _ _ (by rw [h]; simp)
  · exact fun h' => hc (is_delim_unique t _ _ h' h)
  · exact not_delim_of_type _ _ (by rw [h.1]; simp)

theorem exprFirst_ne_eof {t : Token} (h : ExprFirst t) : t.type ≠ .TOKEN_EOF := by
  rcases h with h | h | h | h
  · rw [h]; simp
  · rw [h]; simp
  · rw [h.1]; simp
  · rw [h.1]; simp

theorem ops_subset_tight (l : Level) : ∀ v, v ∈ l.ops → v ∈ l.tight := by
  intro v hv
  cases l <;> simp only [Level.tight, List.mem_append] <;> tauto

theorem at_op_at (s0 : State) (k : Nat) (scopes : Scopes) (t : Token) (ts : List Token)
    (l : Level) (h : At s0 k (t :: ts)) :
    l.at_op (after s0 k scopes) = true ↔ t.type = .TOKEN_OPERATOR ∧ t.value ∈ l.ops := by
  rw [level_at_op_iff, after_current s0 k scopes t ts h]

theorem at_unary_op_at (s0 : State) (k : Nat) (scopes : Scopes) (t : Token)
    (ts : List Token) (h : At s0 k (t :: ts)) :
    at_unary_op (after s0 k scopes) = true ↔
      t.type = .TOKEN_OPERATOR ∧ t.value ∈ unary_ops := by
  rw [at_unary_op_iff, after_current s0 k scopes t ts h]

theorem scan_cons_ok (t : Token) (ts : List Token) (st st1 : Scopes × Bool)
    (h : scan_step st t = .ok st1) : scan (t :: ts) st = scan ts st1 := by
  simp only [scan, h]

theorem complete_primary_identifier (s0 : State) {x : Token}
    (hid : x.type = .TOKEN_IDENTIFIER) : Complete s0 .primary [x] := by
  intro n k t rest scopes scopes' hat hne hscan _
  show Returns (parse_primary n _) _
  cases n with
  | zero => exact Or.inl rfl
  | succ n =>
    have hcur := after_current s0 k scopes x (t :: rest) hat
    rw [scan_single, scan_step_use _ _ hid] at hscan
    split at hscan
    · rename_i hdecl
      cases hscan
      rw [parse_primary, if_pos (by rw [hcur]; exact hid),
        refines_check scopes _ _ (refines_after s0 k scopes hne), hcur, if_pos hdecl]
      simp only [Outcome.of, Outcome.andThen]
      rw [after_next_token]
      exact Returns.ok rfl
    · cases hscan

theorem complete_primary_number (s0 : State) {x : Token}
    (hnum : x.type = .TOKEN_NUMBER) : Complete s0 .primary [x] := by
  intro n k t rest scopes scopes' hat hne hscan _
  show Returns (parse_primary n _) _
  cases n with
  | zero => exact Or.inl rfl
  | succ n =>
    have hcur := after_current s0 k scopes x (t :: rest) hat
    rw [scan_single, scan_step_number _ _ _ hnum] at hscan
    cases hscan
    rw [parse_primary, if_neg (by rw [hcur, hnum]; simp), if_pos (by rw [hcur]; exact hnum),
      after_next_token]
    exact Returns.ok rfl

theorem complete_primary_paren (s0 : State) (hD : DelimOK s0) {lp rp : Token}
    {e : List Token} (hlp : is_delim lp '(') (he : Derives .expression e)
    (hrp : is_delim rp ')') (ihe : Complete s0 .expression e) :
    Complete s0 .primary (lp :: e ++ [rp]) := by
  intro n k t rest scopes scopes' hat hne hscan _
  show Returns (parse_primary n _) _
  cases n with
  | zero => exact Or.inl rfl
  | succ n =>
    have hat0 : At s0 k (lp :: (e ++ rp :: t :: rest)) := by simpa using hat
    have hat1 := at_tail _ _ _ _ hat0
    have hat2 := at_drop _ _ _ _ hat1
    have hcur := after_current s0 k scopes lp _ hat0
    have hs0 : scan (lp :: (e ++ [rp])) (scopes, false) = .ok (scopes', false) := by
      simpa using hscan
    rw [scan_cons_ok _ _ _ _ (scan_step_delim _ _ _ '(' hlp (by decide) (by decide))] at hs0
    obtain ⟨⟨scopes1, b1⟩, hs1, hs2⟩ := scan_append_inv _ _ _ _ hs0
    obtain rfl := derives_flag he _ _ _ hs1
    rw [scan_single, scan_step_delim _ _ _ ')' hrp (by decide) (by decide)] at hs2
    cases hs2
    rw [parse_primary, if_neg (by rw [hcur, hlp.1]; simp),
      if_neg (by rw [hcur, hlp.1]; simp),
      if_pos ((at_match_delimiter s0 k scopes lp _ '(' hD hat0).mpr hlp),
      at_consume_delimiter s0 k scopes lp _ '(' hD hat0 hlp]
    simp only [Outcome.andThen]
    have h1 : Returns (parse_expression n (after s0 (k + 1) scopes))
        (fun s' => s' = after s0 (k + 1 + e.length) scopes') :=
      ihe n (k + 1) rp (t :: rest) scopes scopes' hat1 hne hs1 hrp.1
    refine h1.bind fun s1 hs1 => ?_
    subst hs1
    rw [at_consume_delimiter s0 _ scopes' rp _ ')' hD hat2 hrp]
    have : k + 1 + e.length + 1 = k + (lp :: e ++ [rp]).length := by
      simp only [List.length_cons, List.length_append, List.length_nil]
      omega
    rw [this]
    exact Returns.ok rfl

theorem complete_unary_op (s0 : State) {op : Token} {a : List Token}
    (hop : op.type = .TOKEN_OPERATOR) (hv : op.value ∈ unary_ops)
    (iha : Complete s0 .unary a) : Complete s0 .unary (op :: a) := by
  intro n k t rest scopes scopes' hat hne hscan _
  show Returns (parse_unary n _) _
  cases n with
  | zero => exact Or.inl rfl
  | succ n =>
    have hat0 : At s0 k (op :: (a ++ t :: rest)) := by simpa using hat
    have hat1 := at_tail _ _ _ _ hat0
    rw [scan_cons_ok _ _ _ _ (scan_step_operator _ _ _ hop)] at hscan
    rw [parse_unary_succ, if_pos ((at_unary_op_at s0 k scopes op _ hat0).mpr ⟨hop, hv⟩),
      after_next_token]
    have h1 : Returns (parse_unary n (after s0 (k + 1) scopes))
        (fun s' => s' = after s0 (k + 1 + a.length) scopes') :=
      iha n (k + 1) t rest scopes scopes' hat1 hne hscan trivial
    have : k + 1 + a.length = k + (op :: a).length := by
      simp only [List.length_cons]
      omega
    rw [← this]
    exact h1

theorem complete_unary_primary (s0 : State) {a : List Token} (ha : Derives .primary a)
    (iha : Complete s0 .primary a) : Complete s0 .unary a := by
  intro n k t rest scopes scopes' hat hne hscan _
  show Returns (parse_unary n _) _
  cases n with
  | zero => exact Or.inl rfl
  | succ n =>
    obtain ⟨x, a', rfl⟩ := List.exists_cons_of_ne_nil (derives_nonempty ha rfl)
    have hat0 : At s0 k (x :: (a' ++ t :: rest)) := by simpa using hat
    have hfirst := derives_first ha x a' rfl
    have hnot : ¬ (x.type = .TOKEN_OPERATOR ∧ x.value ∈ unary_ops) := by
      rintro ⟨h, _⟩
      rcases hfirst with h' | h' | h'
      · rw [h] at h'; cases h'
      · rw [h] at h'; cases h'
      · have := h'.1; rw [h] at this; cases this
    rw [parse_unary_succ,
      if_neg (fun h => hnot ((at_unary_op_at s0 k scopes x _ hat0).mp h))]
    exact iha n k t rest scopes scopes' hat hne hscan trivial

theorem rest_follow_ops {l : Level} {t : Token} (h : (NT.rest l).follow t) :
    ¬ (t.type = .TOKEN_OPERATOR ∧ t.value ∈ l.ops) :=
  fun h' => h ⟨h'.1, ops_subset_tight l _ h'.2⟩

theorem operand_run (l : Level) : l.operand.run = l.sub := by
  cases l <;> rfl

theorem operand_post (l : Level) (n : Nat) (s sEnd : State) (t : Token) :
    Post l.operand n s sEnd t = Returns (l.sub n s) (fun s' => s' = sEnd) := by
  cases l <;> rfl

/-- The token after an operand of a level is an operator of the level or the
token after the whole sequence; it ends the operand. -/
theorem operand_follow {l : Level} {r rest : List Token} {t : Token}
    (hr : Derives (.rest l) r) (hf : (NT.rest l).follow t) :
    ∃ t1 rest1, r ++ t :: rest = t1 :: rest1 ∧ l.operand.follow t1 := by
  cases r with
  | nil =>
    refine ⟨t, rest, rfl, ?_⟩
    cases l <;> first
      | trivial
      | (intro h
         apply hf
         refine ⟨h.1, ?_⟩
         have := h.2
         simp only [Level.tight, List.mem_append] at this ⊢
         tauto)
  | cons x r' =>
    refine ⟨x, r' ++ t :: rest, rfl, ?_⟩
    have hx := derives_first hr x r' rfl
    cases l
    · exact fun h => (by decide : ∀ v ∈ Level.logicalOr.ops, v ∉ Level.logicalAnd.tight)
        _ hx.2 h.2
    · exact fun h => (by decide : ∀ v ∈ Level.logicalAnd.ops, v ∉ Level.equality.tight)
        _ hx.2 h.2
    · exact fun h => (by decide : ∀ v ∈ Level.equality.ops, v ∉ Level.relational.tight)
        _ hx.2 h.2
    · exact fun h => (by decide : ∀ v ∈ Level.relational.ops, v ∉ Level.additive.tight)
        _ hx.2 h.2
    · exact fun h => (by decide : ∀ v ∈ Level.additive.ops, v ∉ Level.multiplicative.tight)
        _ hx.2 h.2
    · trivial

theorem complete_rest_nil (s0 : State) (l : Level) : Complete s0 (.rest l) [] := by
  intro n k t rest scopes scopes' hat hne hscan hf
  show Returns (l.loop n _) _
  cases hscan
  cases n with
  | zero => exact Or.inl (level_loop_zero l _)
  | succ n =>
    have hat0 : At s0 k (t :: rest) := hat
    rw [level_loop_succ,
      if_neg (fun h => rest_follow_ops hf ((at_op_at s0 k scopes t rest l hat0).mp h))]
    exact Returns.ok rfl

theorem complete_rest_cons (s0 : State) {l : Level} {op : Token} {a r : List Token}
    (hop : op.type = .TOKEN_OPERATOR) (hv : op.value ∈ l.ops) (ha : Derives l.operand a)
    (hr : Derives (.rest l) r) (iha : Complete s0 l.operand a)
    (ihr : Complete s0 (.rest l) r) : Complete s0 (.rest l) (op :: a ++ r) := by
  intro n k t rest scopes scopes' hat hne hscan hf
  show Returns (l.loop n _) _
  cases n with
  | zero => exact Or.inl (level_loop_zero l _)
  | succ n =>
    have hat0 : At s0 k (op :: (a ++ (r ++ t :: rest))) := by simpa using hat
    have hat1 := at_tail _ _ _ _ hat0
    have hat2 := at_drop _ _ _ _ hat1
    have hs0 : scan (op :: (a ++ r)) (scopes, false) = .ok (scopes', false) := by
      simpa using hscan
    rw [scan_cons_ok _ _ _ _ (scan_step_operator _ _ _ hop)] at hs0
    obtain ⟨⟨scopes1, b1⟩, hs1, hs2⟩ := scan_append_inv _ _ _ _ hs0
    obtain rfl := derives_flag ha _ _ _ hs1
    obtain ⟨t1, rest1, hsplit, hf1⟩ := @operand_follow _ _ rest _ hr hf
    rw [hsplit] at hat1
    rw [level_loop_succ, if_pos ((at_op_at s0 k scopes op _ l hat0).mpr ⟨hop, hv⟩),
      after_next_token]
    have h1 : Returns (l.sub n (after s0 (k + 1) scopes))
        (fun s' => s' = after s0 (k + 1 + a.length) scopes1) := by
      rw [← operand_post l n _ _ t1]
      exact iha n (k + 1) t1 rest1 scopes scopes1 hat1 hne hs1 hf1
    refine h1.bind fun s1 hs1 => ?_
    subst hs1
    have hne1 : scopes1 ≠ [] := scan_ne _ _ _ hs1 hne
    have h2 : Returns (l.loop n (after s0 (k + 1 + a.length) scopes1))
        (fun s' => s' = after s0 (k + 1 + a.length + r.length) scopes') :=
      ihr n (k + 1 + a.length) t rest scopes1 scopes' hat2 hne1 hs2 hf
    have : k + 1 + a.length + r.length = k + (op :: a ++ r).length := by
      simp only [List.length_cons, List.length_append]
      omega
    rw [← this]
    exact h2

theorem complete_binary (s0 : State) {l : Level} {a r : List Token}
    (ha : Derives l.operand a) (hr : Derives (.rest l) r) (iha : Complete s0 l.operand a)
    (ihr : Complete s0 (.rest l) r) : Complete s0 (.binary l) (a ++ r) := by
  intro n k t rest scopes scopes' hat hne hscan hf
  show Returns (l.parse n _) _
  cases n with
  | zero => exact Or.inl (level_parse_zero l _)
  | succ n =>
    have hat0 : At s0 k (a ++ (r ++ t :: rest)) := by simpa using hat
    have hat2 := at_drop _ _ _ _ hat0
    obtain ⟨⟨scopes1, b1⟩, hs1, hs2⟩ := scan_append_inv _ _ _ _ hscan
    obtain rfl := derives_flag ha _ _ _ hs1
    obtain ⟨t1, rest1, hsplit, hf1⟩ := @operand_follow _ _ rest _ hr hf
    rw [hsplit] at hat0
    rw [level_parse_succ]
    have h1 : Returns (l.sub n (after s0 k scopes))
        (fun s' => s' = after s0 (k + a.length) scopes1) := by
      rw [← operand_post l n _ _ t1]
      exact iha n k t1 rest1 scopes scopes1 hat0 hne hs1 hf1
    refine h1.bind fun s1 hs1 => ?_
    subst hs1
    have h2 : Returns (l.loop n (after s0 (k + a.length) scopes1))
        (fun s' => s' = after s0 (k + a.length + r.length) scopes') :=
      ihr n (k + a.length) t rest scopes1 scopes' hat2 (scan_ne _ _ _ hs1 hne) hs2 hf
    have : k + a.length + r.length = k + (a ++ r).length := by
      simp only [List.length_append]
      omega
    rw [← this]
    exact h2

theorem complete_assignment (s0 : State) {a : List Token}
    (iha : Complete s0 (.binary .logicalOr) a) : Complete s0 .assignment a := by
  intro n k t rest scopes scopes' hat hne hscan hf
  show Returns (parse_assignment n _) _
  cases n with
  | zero => exact Or.inl rfl
  | succ n =>
    have hat2 := at_drop _ _ _ _ hat
    have hf' : t.type = .TOKEN_DELIMITER := hf
    rw [parse_assignment_succ]
    have h1 : Returns (parse_logical_or n (after s0 k scopes))
        (fun s' => s' = after s0 (k + a.length) scopes') :=
      iha n k t rest scopes scopes' hat hne hscan (fun h => by rw [hf'] at h; cases h.1)
    refine h1.bind fun s1 hs1 => ?_
    subst hs1
    rw [if_neg (fun h => by
      have := ((at_match_operator s0 _ scopes' t rest _ hat2).mp h).1
      rw [hf'] at this
      cases this)]
    exact Returns.ok rfl

theorem complete_assign (s0 : State) {eq : Token} {a b : List Token}
    (ha : Derives (.binary .logicalOr) a) (heq : is_op eq "=".toList)
    (iha : Complete s0 (.binary .logicalOr) a) (ihb : Complete s0 .assignment b) :
    Complete s0 .assignment (a ++ eq :: b) := by
  intro n k t rest scopes scopes' hat hne hscan hf
  show Returns (parse_assignment n _) _
  cases n with
  | zero => exact Or.inl rfl
  | succ n =>
    have hat0 : At s0 k (a ++ eq :: (b ++ t :: rest)) := by simpa using hat
    have hat1 := at_drop _ _ _ _ hat0
    have hat2 := at_tail _ _ _ _ hat1
    obtain ⟨⟨scopes1, b1⟩, hs1, hs2⟩ := scan_append_inv _ _ _ _ hscan
    obtain rfl := derives_flag ha _ _ _ hs1
    rw [scan_cons_ok _ _ _ _ (scan_step_operator _ _ _ heq.1)] at hs2
    rw [parse_assignment_succ]
    have h1 : Returns (parse_logical_or n (after s0 k scopes))
        (fun s' => s' = after s0 (k + a.length) scopes1) :=
      iha n k eq (b ++ t :: rest) scopes scopes1 hat0 hne hs1 (fun h => by
        have := h.2
        rw [heq.2] at this
        revert this
        decide)
    refine h1.bind fun s1 hs1 => ?_
    subst hs1
    rw [if_pos ((at_match_operator s0 _ scopes1 eq _ _ hat1).mpr heq),
      at_consume_operator s0 _ scopes1 eq _ _ hat1 heq]
    simp only [Outcome.andThen]
    have h2 : Returns (parse_assignment n (after s0 (k + a.length + 1) scopes1))
        (fun s' => s' = after s0 (k + a.length + 1 + b.length) scopes') :=
      ihb n (k + a.length + 1) t rest scopes1 scopes' hat2 (scan_ne _ _ _ hs1 hne) hs2 hf
    have : k + a.length + 1 + b.length = k + (a ++ eq :: b).length := by
      simp only [List.length_cons, List.length_append]
      omega
    rw [← this]
    exact h2

theorem complete_expression (s0 : State) {a : List Token}
    (iha : Complete s0 .assignment a) : Complete s0 .expression a := by
  intro n k t rest scopes scopes' hat hne hscan hf
  show Returns (parse_expression n _) _
  cases n with
  | zero => exact Or.inl rfl
  | succ n =>
    rw [parse_expression]
    exact iha n k t rest scopes scopes' hat hne hscan hf

theorem complete_optExpr_none (s0 : State) (hD : DelimOK s0) : Complete s0 .optExpr [] := by
  intro n k t rest scopes scopes' hat hne hscan _ c _ hc
  cases hscan
  have hat0 : At s0 k (t :: rest) := hat
  rw [if_neg (not_not.mpr ((at_match_delimiter s0 k scopes t rest c hD hat0).mpr hc))]
  exact Returns.ok rfl

theorem complete_optExpr_some (s0 : State) (hD : DelimOK s0) {e : List Token}
    (he : Derives .expression e) (ihe : Complete s0 .expression e) :
    Complete s0 .optExpr e := by
  intro n k t rest scopes scopes' hat hne hscan _ c hcp hc
  obtain ⟨x, e', rfl⟩ := List.exists_cons_of_ne_nil (derives_nonempty he rfl)
  have hat0 : At s0 k (x :: (e' ++ t :: rest)) := by simpa using hat
  have hfirst : ExprFirst x := derives_first he x e' rfl
  rw [if_pos (fun h => exprFirst_not_delim hfirst c hcp
    ((at_match_delimiter s0 k scopes x _ c hD hat0).mp h))]
  exact ihe n k t rest scopes scopes' hat hne hscan hc.1

/-! ## Completeness of the parser: statements -/

theorem run_agree (p : Proc) (n m : Nat) (s : State) (hn : p.run n s ≠ .out_of_fuel)
    (hm : p.run m s ≠ .out_of_fuel) : p.run n s = p.run m s := by
  rw [← run_le p n (max n m) s (le_max_left _ _) hn,
    ← run_le p m (max n m) s (le_max_right _ _) hm]

/-- Some budget is enough for a procedure at a position. -/
theorem exists_run (p : Proc) (s0 : State) (hD : DelimOK s0) (k : Nat) (scopes : Scopes)
    (ts : List Token) (hat : At s0 k ts) (hts : ts ≠ []) (hne : scopes ≠ []) :
    ∃ n, p.run n (after s0 k scopes) ≠ .out_of_fuel :=
  ⟨16 * (pending (after s0 k scopes)).length + p.rank,
    terminates_all _ p _ scopes _
      ⟨refines_after s0 k scopes hne, delimOK_after s0 k scopes ts hD hat hts, le_refl _⟩
      (le_refl _)⟩

/-- The `else` part of `parse_if_statement`, entered in a state that `else`
branches lead to. -/
theorem else_tail (n : Nat) (sEnd s5 : State) (hch : Chain sEnd s5) :
    Branches
      (if match_keyword s5 "else".toList = true then
        (Outcome.of (consume_keyword s5 "else".toList)).andThen fun s => parse_statement n s
       else .ok s5)
      sEnd := by
  by_cases hm : match_keyword s5 "else".toList = true
  · rw [if_pos hm]
    unfold consume_keyword
    rw [if_pos hm]
    simp only [Outcome.of, Outcome.andThen]
    cases e : parse_statement n (next_token s5) with
    | out_of_fuel => exact Or.inl rfl
    | ok s1 =>
      exact Or.inr (Or.inl ⟨s1, rfl, hch.concat (Chain.step s5 s1 s1 n hm e (Chain.refl s1))⟩)
    | error err =>
      exact Or.inr (Or.inr ⟨err, rfl, ChainErr.of_chain hch (ChainErr.here s5 err n hm e)⟩)
  · rw [if_neg hm]
    exact Or.inr (Or.inl ⟨s5, rfl, hch⟩)

theorem stmtFirst_ne_eof {t : Token} (h : StmtFirst t) : t.type ≠ .TOKEN_EOF := by
  rcases h with h | h | h | h
  · rw [h.1]; simp
  · rw [h.1]; simp
  · rw [h.1]; simp
  · exact exprFirst_ne_eof h

theorem stmtFirst_not_close {t : Token} (h : StmtFirst t) : ¬ is_delim t '}' := by
  rcases h with h | h | h | h
  · exact not_delim_of_type _ _ (by rw [h.1]; simp)
  · exact fun h' => absurd (is_delim_unique t _ _ h h') (by decide)
  · exact fun h' => absurd (is_delim_unique t _ _ h h') (by decide)
  · exact exprFirst_not_delim h _ (by decide)

theorem stmtFirst_not_else {t : Token} (h : StmtFirst t) : ¬ is_kw t "else".toList := by
  rcases h with h | h | h | h
  · intro h'
    have := h.2
    rw [h'.2] at this
    revert this
    decide
  · exact not_kw_of_type _ _ (by rw [h.1]; simp)
  · exact not_kw_of_type _ _ (by rw [h.1]; simp)
  · exact exprFirst_not_kw h _

theorem follow_not_else {t : Token} (h : NT.stmtList.follow t) :
    ¬ is_kw t "else".toList := by
  rcases h with h | h
  · exact not_kw_of_type _ _ (by rw [h]; simp)
  · exact not_kw_of_type _ _ (by rw [h.1]; simp)

theorem complete_stmtList_nil (s0 : State) (hD : DelimOK s0) :
    Complete s0 .stmtList [] := by
  intro n k t rest scopes scopes' hat hne hscan hf
  show Returns (parse_statement_list n _) _
  cases hscan
  cases n with
  | zero => exact Or.inl rfl
  | succ n =>
    have hat0 : At s0 k (t :: rest) := hat
    have hcur := after_current s0 k scopes t rest hat0
    rw [parse_statement_list_succ, if_neg]
    · exact Returns.ok rfl
    · rintro ⟨h1, h2⟩
      rcases hf with hf | hf
      · exact h1 (by rw [hcur]; exact hf)
      · exact h2 ((at_match_delimiter s0 k scopes t rest '}' hD hat0).mpr hf)

theorem complete_stmtList_cons (s0 : State) (hD : DelimOK s0) {a b : List Token}
    (ha : Derives .statement a) (hb : Derives .stmtList b)
    (iha : Complete s0 .statement a) (ihb : Complete s0 .stmtList b) :
    Complete s0 .stmtList (a ++ b) := by
  intro n k t rest scopes scopes' hat hne hscan hf
  show Returns (parse_statement_list n _) _
  cases n with
  | zero => exact Or.inl rfl
  | succ n =>
    obtain ⟨x, a', rfl⟩ := List.exists_cons_of_ne_nil (derives_nonempty ha rfl)
    have hx : StmtFirst x := derives_first ha x a' rfl
    have hat0 : At s0 k (x :: (a' ++ (b ++ t :: rest))) := by simpa using hat
    have hat1 : At s0 k ((x :: a') ++ (b ++ t :: rest)) := by simpa using hat
    have hat2 := at_drop _ _ _ _ hat1
    have hcur := after_current s0 k scopes x _ hat0
    obtain ⟨⟨scopes1, b1⟩, hs1, hs2⟩ := scan_append_inv _ _ _ _ hscan
    obtain rfl := derives_flag ha _ _ _ hs1
    -- the token after the first statement
    obtain ⟨y, rest1, hsplit, hy⟩ :
        ∃ y rest1, b ++ t :: rest = y :: rest1 ∧ ¬ is_kw y "else".toList := by
      cases b with
      | nil => exact ⟨t, rest, rfl, follow_not_else hf⟩
      | cons y b' =>
        exact ⟨y, b' ++ t :: rest, rfl, stmtFirst_not_else (derives_first hb y b' rfl)⟩
    have hat2' := hat2
    rw [hsplit] at hat2' hat1
    have hnelse : match_keyword (after s0 (k + (x :: a').length) scopes1) "else".toList =
        false := by
      rw [← Bool.not_eq_true]
      exact fun h => hy ((at_match_keyword s0 _ scopes1 y rest1 _ hat2').mp h)
    rw [parse_statement_list_succ, if_pos]
    · have h1 : Returns (parse_statement n (after s0 k scopes))
          (fun s' => s' = after s0 (k + (x :: a').length) scopes1) :=
        Branches.returns (iha n k y rest1 scopes scopes1 hat1 hne hs1 trivial) hnelse
      refine h1.bind fun s1 hch => ?_
      rw [hch]
      have h2 : Returns (parse_statement_list n (after s0 (k + (x :: a').length) scopes1))
          (fun s' => s' = after s0 (k + (x :: a').length + b.length) scopes') :=
        ihb n _ t rest scopes1 scopes' hat2 (scan_ne _ _ _ hs1 hne) hs2 hf
      have : k + (x :: a').length + b.length = k + (x :: a' ++ b).length := by
        simp only [List.length_cons, List.length_append]
        omega
      rw [← this]
      exact h2
    · refine ⟨by rw [hcur]; exact stmtFirst_ne_eof hx, fun h => ?_⟩
      exact stmtFirst_not_close hx ((at_match_delimiter s0 k scopes x _ '}' hD hat0).mp h)

theorem returns_ok_eq {s sEnd : State} (h : Returns (.ok s) (fun s' => s' = sEnd)) :
    s = sEnd := by
  rcases h with h | ⟨s', h, hs⟩
  · cases h
  · cases h; exact hs

theorem complete_exprStmt (s0 : State) (hD : DelimOK s0) {semi : Token} {e : List Token}
    (he : Derives .optExpr e) (hsemi : is_delim semi ';')
    (ihe : Complete s0 .optExpr e) : Complete s0 .exprStmt (e ++ [semi]) := by
  intro n k t rest scopes scopes' hat hne hscan _
  show Returns (parse_expression_statement n _) _
  cases n with
  | zero => exact Or.inl rfl
  | succ n =>
    have hat0 : At s0 k (e ++ semi :: t :: rest) := by simpa using hat
    have hat1 := at_drop _ _ _ _ hat0
    obtain ⟨⟨scopes1, b1⟩, hs1, hs2⟩ := scan_append_inv _ _ _ _ hscan
    obtain rfl := derives_flag he _ _ _ hs1
    rw [scan_single, scan_step_delim _ _ _ ';' hsemi (by decide) (by decide)] at hs2
    cases hs2
    have hopt := ihe n k semi (t :: rest) scopes scopes' hat0 hne hs1 trivial ';'
      (by decide) hsemi
    have hlen : k + e.length + 1 = k + (e ++ [semi]).length := by
      simp only [List.length_append, List.length_cons, List.length_nil]
      omega
    rw [parse_expression_statement]
    by_cases hm : match_delimiter (after s0 k scopes) ';' = true
    · rw [if_pos hm]
      rw [if_neg (not_not.mpr hm)] at hopt
      rw [returns_ok_eq hopt, after_next_token, hlen]
      exact Returns.ok rfl
    · rw [if_neg hm]
      rw [if_pos hm] at hopt
      refine hopt.bind fun s1 hs1 => ?_
      subst hs1
      rw [at_consume_delimiter s0 _ scopes' semi _ ';' hD hat1 hsemi, hlen]
      exact Returns.ok rfl

theorem complete_returnStmt (s0 : State) (hD : DelimOK s0) {kw semi : Token}
    {e : List Token} (hkw : is_kw kw "return".toList) (he : Derives .optExpr e)
    (hsemi : is_delim semi ';') (ihe : Complete s0 .optExpr e) :
    Complete s0 .returnStmt (kw :: e ++ [semi]) := by
  intro n k t rest scopes scopes' hat hne hscan _
  show Returns (parse_return_statement n _) _
  cases n with
  | zero => exact Or.inl rfl
  | succ n =>
    have hat0 : At s0 k (kw :: (e ++ semi :: t :: rest)) := by simpa using hat
    have hat1 := at_tail _ _ _ _ hat0
    have hat2 := at_drop _ _ _ _ hat1
    have hs0 : scan (kw :: (e ++ [semi])) (scopes, false) = .ok (scopes', false) := by
      simpa using hscan
    rw [scan_cons_ok _ _ _ _ (scan_step_keyword _ _ _ _ hkw (by decide))] at hs0
    obtain ⟨⟨scopes1, b1⟩, hs1, hs2⟩ := scan_append_inv _ _ _ _ hs0
    obtain rfl := derives_flag he _ _ _ hs1
    rw [scan_single, scan_step_delim _ _ _ ';' hsemi (by decide) (by decide)] at hs2
    cases hs2
    have hopt := ihe n (k + 1) semi (t :: rest) scopes scopes' hat1 hne hs1 trivial ';'
      (by decide) hsemi
    rw [parse_return_statement, at_consume_keyword s0 k scopes kw _ _ hat0 hkw]
    simp only [Outcome.andThen]
    refine hopt.bind fun s1 hs1 => ?_
    subst hs1
    have hlen : k + 1 + e.length + 1 = k + (kw :: e ++ [semi]).length := by
      simp only [List.length_append, List.length_cons, List.length_nil]
      omega
    rw [at_consume_delimiter s0 _ scopes' semi _ ';' hD hat2 hsemi, hlen]
    exact Returns.ok rfl

/-- The keyword `int` and an identifier under the scoping rule. -/
theorem scan_declaration {kw id : Token} {ts : List Token} {scopes scopes' : Scopes}
    (hkw : is_kw kw "int".toList) (hid : id.type = .TOKEN_IDENTIFIER)
    (h : scan (kw :: id :: ts) (scopes, false) = .ok (scopes', false)) :
    ∃ top outer, scopes = top :: outer ∧ id.value ∉ top ∧
      ¬ MAX_SYMBOLS ≤ live (top :: outer) ∧
      scan ts ((top ++ [id.value]) :: outer, false) = .ok (scopes', false) := by
  rw [scan_cons_ok _ _ _ _ (scan_step_int _ _ _ hkw)] at h
  obtain ⟨st1, h1, h2⟩ := scan_cons_inv _ _ _ _ h
  cases scopes with
  | nil =>
    unfold scan_step at h1
    rw [if_pos hid] at h1
    simp at h1
  | cons top outer =>
    rw [scan_step_declare _ _ _ hid] at h1
    split at h1
    · cases h1
    · rename_i hnew
      split at h1
      · cases h1
      · rename_i hroom
        cases h1
        exact ⟨top, outer, rfl, hnew, hroom, h2⟩

theorem complete_decl (s0 : State) (hD : DelimOK s0) {kw id semi : Token}
    (hkw : is_kw kw "int".toList) (hid : id.type = .TOKEN_IDENTIFIER)
    (hsemi : is_delim semi ';') : Complete s0 .decl [kw, id, semi] := by
  intro n k t rest scopes scopes' hat hne hscan _
  show Returns (parse_declaration n _) _
  cases n with
  | zero => exact Or.inl rfl
  | succ n =>
    have hat0 : At s0 k (kw :: id :: semi :: t :: rest) := by simpa using hat
    have hat1 := at_tail _ _ _ _ hat0
    have hat2 := at_tail _ _ _ _ hat1
    obtain ⟨top, outer, rfl, hnew, hroom, hs2⟩ := scan_declaration hkw hid hscan
    rw [scan_single, scan_step_delim _ _ _ ';' hsemi (by decide) (by decide)] at hs2
    cases hs2
    have hcur1 := after_current s0 (k + 1) (top :: outer) id _ hat1
    rw [parse_declaration, at_consume_keyword s0 k _ kw _ _ hat0 hkw]
    simp only [Outcome.andThen]
    rw [if_neg (not_not.mpr (by rw [hcur1]; exact hid)), hcur1,
      after_add s0 (k + 1) top outer id.value hnew hroom]
    simp only [Outcome.of, Outcome.andThen]
    rw [after_next_token, if_neg]
    · simp only []
      have := at_consume_delimiter s0 (k + 1 + 1) ((top ++ [id.value]) :: outer) semi _ ';'
        hD hat2 hsemi
      simp only [Outcome.of] at this
      rw [this]
      exact Returns.ok rfl
    · intro h
      have := ((at_match_operator s0 _ _ semi _ _ hat2).mp h).1
      rw [hsemi.1] at this
      cases this

theorem complete_decl_init (s0 : State) (hD : DelimOK s0) {kw id eq semi : Token}
    {e : List Token} (hkw : is_kw kw "int".toList) (hid : id.type = .TOKEN_IDENTIFIER)
    (heq : is_op eq "=".toList) (he : Derives .expression e) (hsemi : is_delim semi ';')
    (ihe : Complete s0 .expression e) :
    Complete s0 .decl (kw :: id :: eq :: e ++ [semi]) := by
  intro n k t rest scopes scopes' hat hne hscan _
  show Returns (parse_declaration n _) _
  cases n with
  | zero => exact Or.inl rfl
  | succ n =>
    have hat0 : At s0 k (kw :: id :: eq :: (e ++ semi :: t :: rest)) := by simpa using hat
    have hat1 := at_tail _ _ _ _ hat0
    have hat2 := at_tail _ _ _ _ hat1
    have hat3 := at_tail _ _ _ _ hat2
    have hat4 := at_drop _ _ _ _ hat3
    have hs0 : scan (kw :: id :: eq :: (e ++ [semi])) (scopes, false) =
        .ok (scopes', false) := by simpa using hscan
    obtain ⟨top, outer, rfl, hnew, hroom, hs2⟩ := scan_declaration hkw hid hs0
    rw [scan_cons_ok _ _ _ _ (scan_step_operator _ _ _ heq.1)] at hs2
    obtain ⟨⟨scopes1, b1⟩, hs3, hs4⟩ := scan_append_inv _ _ _ _ hs2
    obtain rfl := derives_flag he _ _ _ hs3
    rw [scan_single, scan_step_delim _ _ _ ';' hsemi (by decide) (by decide)] at hs4
    cases hs4
    have hcur1 := after_current s0 (k + 1) (top :: outer) id _ hat1
    rw [parse_declaration, at_consume_keyword s0 k _ kw _ _ hat0 hkw]
    simp only [Outcome.andThen]
    rw [if_neg (not_not.mpr (by rw [hcur1]; exact hid)), hcur1,
      after_add s0 (k + 1) top outer id.value hnew hroom]
    simp only [Outcome.of, Outcome.andThen]
    rw [after_next_token, if_pos ((at_match_operator s0 _ _ eq _ _ hat2).mpr heq),
      after_next_token]
    have h1 : Returns (parse_expression n (after s0 (k + 1 + 1 + 1)
        ((top ++ [id.value]) :: outer)))
        (fun s' => s' = after s0 (k + 1 + 1 + 1 + e.length) scopes') :=
      ihe n _ semi (t :: rest) _ scopes' hat3 (by simp) hs3 hsemi.1
    refine h1.bind fun s1 hs1 => ?_
    subst hs1
    have := at_consume_delimiter s0 _ scopes' semi _ ';' hD hat4 hsemi
    simp only [Outcome.of] at this
    rw [this]
    have hlen : k + 1 + 1 + 1 + e.length + 1 = k + (kw :: id :: eq :: e ++ [semi]).length := by
      simp only [List.length_append, List.length_cons, List.length_nil]
      omega
    rw [hlen]
    exact Returns.ok rfl

theorem scan_close_inv {t : Token} {scopes : Scopes} {b : Bool} {st' : Scopes × Bool}
    (ht : is_delim t '}') (h : scan_step (scopes, b) t = .ok st') :
    ∃ inner top outer, scopes = inner :: top :: outer ∧ st' = (top :: outer, false) := by
  match scopes with
  | [] =>
    unfold scan_step at h
    rw [if_neg (by rw [ht.1]; simp), if_neg (fun h' => absurd (is_delim_unique t _ _ ht h')
      (by decide)), if_pos ht] at h
    cases h
  | [_] =>
    unfold scan_step at h
    rw [if_neg (by rw [ht.1]; simp), if_neg (fun h' => absurd (is_delim_unique t _ _ ht h')
      (by decide)), if_pos ht] at h
    cases h
  | inner :: top :: outer =>
    rw [scan_step_close _ _ _ _ _ ht] at h
    cases h
    exact ⟨inner, top, outer, rfl, rfl⟩

theorem complete_block (s0 : State) (hD : DelimOK s0) {lb rb : Token} {b : List Token}
    (hlb : is_delim lb '{') (hb : Derives .stmtList b) (hrb : is_delim rb '}')
    (ihb : Complete s0 .stmtList b) : Complete s0 .block (lb :: b ++ [rb]) := by
  intro n k t rest scopes scopes' hat hne hscan _
  show Returns (parse_compound_statement n _) _
  cases n with
  | zero => exact Or.inl rfl
  | succ n =>
    have hat0 : At s0 k (lb :: (b ++ rb :: t :: rest)) := by simpa using hat
    have hat1 := at_tail _ _ _ _ hat0
    have hat2 := at_drop _ _ _ _ hat1
    have hs0 : scan (lb :: (b ++ [rb])) (scopes, false) = .ok (scopes', false) := by
      simpa using hscan
    rw [scan_cons_ok _ _ _ _ (scan_step_open _ _ _ hlb)] at hs0
    obtain ⟨⟨scopes1, b1⟩, hs1, hs2⟩ := scan_append_inv _ _ _ _ hs0
    obtain rfl := derives_flag hb _ _ _ hs1
    rw [scan_single] at hs2
    obtain ⟨inner, top, outer, rfl, hst⟩ := scan_close_inv hrb hs2
    cases hst
    rw [parse_compound_statement, at_consume_delimiter s0 k scopes lb _ '{' hD hat0 hlb]
    simp only [Outcome.andThen]
    rw [after_enter]
    have h1 : Returns (parse_statement_list n (after s0 (k + 1) ([] :: scopes)))
        (fun s' => s' = after s0 (k + 1 + b.length) (inner :: top :: outer)) :=
      ihb n _ rb (t :: rest) _ _ hat1 (by simp) hs1 (Or.inr hrb)
    refine h1.bind fun s1 hs1 => ?_
    subst hs1
    rw [after_exit, at_consume_delimiter s0 _ (top :: outer) rb _ '}' hD hat2 hrb]
    have hlen : k + 1 + b.length + 1 = k + (lb :: b ++ [rb]).length := by
      simp only [List.length_append, List.length_cons, List.length_nil]
      omega
    rw [hlen]
    exact Returns.ok rfl

theorem complete_whileStmt (s0 : State) (hD : DelimOK s0) {kw lp rp : Token}
    {e a : List Token} (hkw : is_kw kw "while".toList) (hlp : is_delim lp '(')
    (he : Derives .expression e) (hrp : is_delim rp ')')
    (ihe : Complete s0 .expression e) (iha : Complete s0 .statement a) :
    Complete s0 .whileStmt (kw :: lp :: e ++ rp :: a) := by
  intro n k t rest scopes scopes' hat hne hscan _
  show Branches (parse_while_statement n _) _
  cases n with
  | zero => exact Or.inl rfl
  | succ n =>
    have hat0 : At s0 k (kw :: lp :: (e ++ rp :: (a ++ t :: rest))) := by simpa using hat
    have hat1 := at_tail _ _ _ _ hat0
    have hat2 := at_tail _ _ _ _ hat1
    have hat3 := at_drop _ _ _ _ hat2
    have hat4 := at_tail _ _ _ _ hat3
    have hs0 : scan (kw :: lp :: (e ++ rp :: a)) (scopes, false) = .ok (scopes', false) := by
      simpa using hscan
    rw [scan_cons_ok _ _ _ _ (scan_step_keyword _ _ _ _ hkw (by decide)),
      scan_cons_ok _ _ _ _ (scan_step_delim _ _ _ '(' hlp (by decide) (by decide))] at hs0
    obtain ⟨⟨scopes1, b1⟩, hs1, hs2⟩ := scan_append_inv _ _ _ _ hs0
    obtain rfl := derives_flag he _ _ _ hs1
    rw [scan_cons_ok _ _ _ _ (scan_step_delim _ _ _ ')' hrp (by decide) (by decide))] at hs2
    have hlen : k + 1 + 1 + e.length + 1 + a.length = k + (kw :: lp :: e ++ rp :: a).length := by
      simp only [List.length_append, List.length_cons]
      omega
    rw [← hlen]
    rw [parse_while_statement, at_consume_keyword s0 k scopes kw _ _ hat0 hkw]
    simp only [Outcome.andThen]
    rw [at_consume_delimiter s0 _ scopes lp _ '(' hD hat1 hlp]
    simp only []
    have h1 : Returns (parse_expression n (after s0 (k + 1 + 1) scopes))
        (fun s' => s' = after s0 (k + 1 + 1 + e.length) scopes1) :=
      ihe n _ rp (a ++ t :: rest) _ _ hat2 hne hs1 hrp.1
    refine h1.branches fun s1 hs1' => ?_
    subst hs1'
    rw [at_consume_delimiter s0 _ scopes1 rp _ ')' hD hat3 hrp]
    simp only [Outcome.andThen]
    exact iha n _ t rest scopes1 scopes' hat4 (scan_ne _ _ _ hs1 hne) hs2 trivial

theorem complete_forStmt (s0 : State) (hD : DelimOK s0) {kw lp s1 s2 rp : Token}
    {e1 e2 e3 a : List Token} (hkw : is_kw kw "for".toList) (hlp : is_delim lp '(')
    (he1 : Derives .optExpr e1) (hs1 : is_delim s1 ';') (he2 : Derives .optExpr e2)
    (hs2 : is_delim s2 ';') (he3 : Derives .optExpr e3) (hrp : is_delim rp ')')
    (ih1 : Complete s0 .optExpr e1) (ih2 : Complete s0 .optExpr e2)
    (ih3 : Complete s0 .optExpr e3) (iha : Complete s0 .statement a) :
    Complete s0 .forStmt (kw :: lp :: e1 ++ s1 :: e2 ++ s2 :: e3 ++ rp :: a) := by
  intro n k t rest scopes scopes' hat hne hscan _
  show Branches (parse_for_statement n _) _
  cases n with
  | zero => exact Or.inl rfl
  | succ n =>
    have hat0 : At s0 k (kw :: lp :: (e1 ++ s1 :: (e2 ++ s2 :: (e3 ++ rp ::
        (a ++ t :: rest))))) := by simpa using hat
    have hat1 := at_tail _ _ _ _ hat0
    have hat2 := at_tail _ _ _ _ hat1
    have hat3 := at_drop _ _ _ _ hat2
    have hat4 := at_tail _ _ _ _ hat3
    have hat5 := at_drop _ _ _ _ hat4
    have hat6 := at_tail _ _ _ _ hat5
    have hat7 := at_drop _ _ _ _ hat6
    have hat8 := at_tail _ _ _ _ hat7
    have hsc : scan (kw :: lp :: (e1 ++ s1 :: (e2 ++ s2 :: (e3 ++ rp :: a)))) (scopes, false) =
        .ok (scopes', false) := by simpa using hscan
    rw [scan_cons_ok _ _ _ _ (scan_step_keyword _ _ _ _ hkw (by decide)),
      scan_cons_ok _ _ _ _ (scan_step_delim _ _ _ '(' hlp (by decide) (by decide))] at hsc
    obtain ⟨⟨scopes1, b1⟩, hc1, hsc⟩ := scan_append_inv _ _ _ _ hsc
    obtain rfl := derives_flag he1 _ _ _ hc1
    rw [scan_cons_ok _ _ _ _ (scan_step_delim _ _ _ ';' hs1 (by decide) (by decide))] at hsc
    obtain ⟨⟨scopes2, b2⟩, hc2, hsc⟩ := scan_append_inv _ _ _ _ hsc
    obtain rfl := derives_flag he2 _ _ _ hc2
    rw [scan_cons_ok _ _ _ _ (scan_step_delim _ _ _ ';' hs2 (by decide) (by decide))] at hsc
    obtain ⟨⟨scopes3, b3⟩, hc3, hsc⟩ := scan_append_inv _ _ _ _ hsc
    obtain rfl := derives_flag he3 _ _ _ hc3
    rw [scan_cons_ok _ _ _ _ (scan_step_delim _ _ _ ')' hrp (by decide) (by decide))] at hsc
    have hne1 := scan_ne _ _ _ hc1 hne
    have hne2 := scan_ne _ _ _ hc2 hne1
    have hne3 := scan_ne _ _ _ hc3 hne2
    have hlen : k + 1 + 1 + e1.length + 1 + e2.length + 1 + e3.length + 1 + a.length =
        k + (kw :: lp :: e1 ++ s1 :: e2 ++ s2 :: e3 ++ rp :: a).length := by
      simp only [List.length_append, List.length_cons]
      omega
    rw [← hlen]
    rw [parse_for_statement, at_consume_keyword s0 k scopes kw _ _ hat0 hkw]
    simp only [Outcome.andThen]
    rw [at_consume_delimiter s0 _ scopes lp _ '(' hD hat1 hlp]
    simp only []
    refine (ih1 n _ s1 _ scopes scopes1 hat2 hne hc1 trivial ';' (by decide) hs1).branches
      fun x hx => ?_
    subst hx
    rw [at_consume_delimiter s0 _ scopes1 s1 _ ';' hD hat3 hs1]
    simp only [Outcome.andThen]
    refine (ih2 n _ s2 _ scopes1 scopes2 hat4 hne1 hc2 trivial ';' (by decide) hs2).branches
      fun x hx => ?_
    subst hx
    rw [at_consume_delimiter s0 _ scopes2 s2 _ ';' hD hat5 hs2]
    simp only [Outcome.andThen]
    refine (ih3 n _ rp _ scopes2 scopes3 hat6 hne2 hc3 trivial ')' (by decide) hrp).branches
      fun x hx => ?_
    subst hx
    rw [at_consume_delimiter s0 _ scopes3 rp _ ')' hD hat7 hrp]
    simp only [Outcome.andThen]
    exact iha n _ t rest scopes3 scopes' hat8 hne3 hsc trivial

theorem complete_ifStmt (s0 : State) (hD : DelimOK s0) {kw lp rp : Token}
    {e a : List Token} (hkw : is_kw kw "if".toList) (hlp : is_delim lp '(')
    (he : Derives .expression e) (hrp : is_delim rp ')')
    (ihe : Complete s0 .expression e) (iha : Complete s0 .statement a) :
    Complete s0 .ifStmt (kw :: lp :: e ++ rp :: a) := by
  intro n k t rest scopes scopes' hat hne hscan _
  show Branches (parse_if_statement n _) _
  cases n with
  | zero => exact Or.inl rfl
  | succ n =>
    have hat0 : At s0 k (kw :: lp :: (e ++ rp :: (a ++ t :: rest))) := by simpa using hat
    have hat1 := at_tail _ _ _ _ hat0
    have hat2 := at_tail _ _ _ _ hat1
    have hat3 := at_drop _ _ _ _ hat2
    have hat4 := at_tail _ _ _ _ hat3
    have hs0 : scan (kw :: lp :: (e ++ rp :: a)) (scopes, false) = .ok (scopes', false) := by
      simpa using hscan
    rw [scan_cons_ok _ _ _ _ (scan_step_keyword _ _ _ _ hkw (by decide)),
      scan_cons_ok _ _ _ _ (scan_step_delim _ _ _ '(' hlp (by decide) (by decide))] at hs0
    obtain ⟨⟨scopes1, b1⟩, hs1, hs2⟩ := scan_append_inv _ _ _ _ hs0
    obtain rfl := derives_flag he _ _ _ hs1
    rw [scan_cons_ok _ _ _ _ (scan_step_delim _ _ _ ')' hrp (by decide) (by decide))] at hs2
    have hlen : k + 1 + 1 + e.length + 1 + a.length = k + (kw :: lp :: e ++ rp :: a).length := by
      simp only [List.length_append, List.length_cons]
      omega
    rw [← hlen]
    rw [parse_if_statement, at_consume_keyword s0 k scopes kw _ _ hat0 hkw]
    simp only [Outcome.andThen]
    rw [at_consume_delimiter s0 _ scopes lp _ '(' hD hat1 hlp]
    simp only []
    have h1 : Returns (parse_expression n (after s0 (k + 1 + 1) scopes))
        (fun s' => s' = after s0 (k + 1 + 1 + e.length) scopes1) :=
      ihe n _ rp (a ++ t :: rest) _ _ hat2 hne hs1 hrp.1
    refine h1.branches fun x hx => ?_
    subst hx
    rw [at_consume_delimiter s0 _ scopes1 rp _ ')' hD hat3 hrp]
    simp only [Outcome.andThen]
    have h2 : Branches (parse_statement n (after s0 (k + 1 + 1 + e.length + 1) scopes1))
        (after s0 (k + 1 + 1 + e.length + 1 + a.length) scopes') :=
      iha n _ t rest scopes1 scopes' hat4 (scan_ne _ _ _ hs1 hne) hs2 trivial
    exact h2.seq fun s5 hch => else_tail n _ s5 hch

theorem complete_ifElse (s0 : State) (hD : DelimOK s0) {kw lp rp el : Token}
    {e a b : List Token} (hkw : is_kw kw "if".toList) (hlp : is_delim lp '(')
    (he : Derives .expression e) (hrp : is_delim rp ')') (ha : Derives .statement a)
    (hel : is_kw el "else".toList) (ihe : Complete s0 .expression e)
    (iha : Complete s0 .statement a) (ihb : Complete s0 .statement b) :
    Complete s0 .ifStmt (kw :: lp :: e ++ rp :: a ++ el :: b) := by
  intro n k t rest scopes scopes' hat hne hscan _
  show Branches (parse_if_statement n _) _
  cases n with
  | zero => exact Or.inl rfl
  | succ n =>
    have hat0 : At s0 k (kw :: lp :: (e ++ rp :: (a ++ el :: (b ++ t :: rest)))) := by
      simpa using hat
    have hat1 := at_tail _ _ _ _ hat0
    have hat2 := at_tail _ _ _ _ hat1
    have hat3 := at_drop _ _ _ _ hat2
    have hat4 := at_tail _ _ _ _ hat3
    have hat5 := at_drop _ _ _ _ hat4
    have hat6 := at_tail _ _ _ _ hat5
    have hs0 : scan (kw :: lp :: (e ++ rp :: (a ++ el :: b))) (scopes, false) =
        .ok (scopes', false) := by simpa using hscan
    rw [scan_cons_ok _ _ _ _ (scan_step_keyword _ _ _ _ hkw (by decide)),
      scan_cons_ok _ _ _ _ (scan_step_delim _ _ _ '(' hlp (by decide) (by decide))] at hs0
    obtain ⟨⟨scopes1, b1⟩, hs1, hs2⟩ := scan_append_inv _ _ _ _ hs0
    obtain rfl := derives_flag he _ _ _ hs1
    rw [scan_cons_ok _ _ _ _ (scan_step_delim _ _ _ ')' hrp (by decide) (by decide))] at hs2
    obtain ⟨⟨scopes2, b2⟩, hs3, hs4⟩ := scan_append_inv _ _ _ _ hs2
    obtain rfl := derives_flag ha _ _ _ hs3
    rw [scan_cons_ok _ _ _ _ (scan_step_keyword _ _ _ _ hel (by decide))] at hs4
    have hne1 := scan_ne _ _ _ hs1 hne
    have hne2 := scan_ne _ _ _ hs3 hne1
    have hlen : k + 1 + 1 + e.length + 1 + a.length + 1 + b.length =
        k + (kw :: lp :: e ++ rp :: a ++ el :: b).length := by
      simp only [List.length_append, List.length_cons]
      omega
    rw [← hlen]
    -- the `else` branch, from the state before `else`
    have hB : ∀ m, Branches
        (parse_statement m (after s0 (k + 1 + 1 + e.length + 1 + a.length + 1) scopes2))
        (after s0 (k + 1 + 1 + e.length + 1 + a.length + 1 + b.length) scopes') :=
      fun m => ihb m _ t rest scopes2 scopes' hat6 hne2 hs4 trivial
    have helse : match_keyword (after s0 (k + 1 + 1 + e.length + 1 + a.length) scopes2)
        "else".toList = true := (at_match_keyword s0 _ scopes2 el _ _ hat5).mpr hel
    rw [parse_if_statement, at_consume_keyword s0 k scopes kw _ _ hat0 hkw]
    simp only [Outcome.andThen]
    rw [at_consume_delimiter s0 _ scopes lp _ '(' hD hat1 hlp]
    simp only []
    have h1 : Returns (parse_expression n (after s0 (k + 1 + 1) scopes))
        (fun s' => s' = after s0 (k + 1 + 1 + e.length) scopes1) :=
      ihe n _ rp (a ++ el :: (b ++ t :: rest)) _ _ hat2 hne hs1 hrp.1
    refine h1.branches fun x hx => ?_
    subst hx
    rw [at_consume_delimiter s0 _ scopes1 rp _ ')' hD hat3 hrp]
    simp only [Outcome.andThen]
    have h2 : Branches (parse_statement n (after s0 (k + 1 + 1 + e.length + 1) scopes1))
        (after s0 (k + 1 + 1 + e.length + 1 + a.length) scopes2) :=
      iha n _ el (b ++ t :: rest) scopes1 scopes2 hat4 hne1 hs3 trivial
    rcases h2 with h2 | ⟨s5, h2, hch⟩ | ⟨err, h2, herr⟩
    · rw [h2]; exact Or.inl rfl
    · rw [h2]
      show Branches (if _ then _ else _) _
      cases hch with
      | refl _ =>
        rw [if_pos helse, at_consume_keyword s0 _ scopes2 el _ _ hat5 hel]
        exact hB n
      | step _ s1 _ m _ hrun hch' =>
        rw [after_next_token] at hrun
        rcases hB m with h | ⟨s1', h, hch1⟩ | ⟨_, h, _⟩
        · rw [hrun] at h; cases h
        · rw [hrun] at h
          cases h
          exact else_tail n _ s5 (hch1.concat hch')
        · rw [hrun] at h; cases h
    · rw [h2]
      refine Or.inr (Or.inr ⟨err, rfl, ?_⟩)
      cases herr with
      | here _ _ m _ hrun =>
        rw [after_next_token] at hrun
        rcases hB m with h | ⟨_, h, _⟩ | ⟨err', h, herr'⟩
        · rw [hrun] at h; cases h
        · rw [hrun] at h; cases h
        · rw [hrun] at h
          cases h
          exact herr'
      | step _ s1 _ m _ hrun herr1 =>
        rw [after_next_token] at hrun
        rcases hB m with h | ⟨s1', h, hch1⟩ | ⟨_, h, _⟩
        · rw [hrun] at h; cases h
        · rw [hrun] at h
          cases h
          exact ChainErr.of_chain hch1 herr1
        · rw [hrun] at h; cases h

/-! ## Completeness of the parser: dispatch and the whole program -/

theorem kw_unique {t : Token} {a b : List Char} (ha : is_kw t a) (hb : is_kw t b) : a = b :=
  ha.2.symm.trans hb.2

/-- The tests of `parse_statement` on a keyword that opens a statement. -/
theorem dispatch_keyword (s0 : State) (hD : DelimOK s0) (n k : Nat) (scopes : Scopes)
    (x : Token) (ts : List Token) (hat : At s0 k (x :: ts)) (kw : List Char)
    (hx : is_kw x kw) :
    parse_statement (n + 1) (after s0 k scopes) =
      if kw = "int".toList then parse_declaration n (after s0 k scopes)
      else if kw = "if".toList then parse_if_statement n (after s0 k scopes)
      else if kw = "while".toList then parse_while_statement n (after s0 k scopes)
      else if kw = "for".toList then parse_for_statement n (after s0 k scopes)
      else if kw = "return".toList then parse_return_statement n (after s0 k scopes)
      else parse_expression_statement n (after s0 k scopes) := by
  have hk : ∀ kw', match_keyword (after s0 k scopes) kw' = true ↔ kw = kw' := by
    intro kw'
    rw [at_match_keyword s0 k scopes x ts kw' hat]
    exact ⟨fun h => kw_unique hx h, fun h => h ▸ hx⟩
  have hd : ¬ match_delimiter (after s0 k scopes) '{' = true := fun h =>
    not_delim_of_type x '{' (by rw [hx.1]; simp)
      ((at_match_delimiter s0 k scopes x ts '{' hD hat).mp h)
  rw [parse_statement]
  simp only [hk, hd, if_false, Bool.false_eq_true]

theorem complete_statement_kw (s0 : State) (hD : DelimOK s0) {X : NT} {a : List Token}
    (kw : List Char) (ha : Derives X a) (hne : X.nonempty = true)
    (hfollow : ∀ t, X.follow t)
    (hfirst : ∀ t, X.first t → is_kw t kw)
    (hrun : ∀ n s, parse_statement (n + 1) s =
      (if kw = "int".toList then parse_declaration n s
      else if kw = "if".toList then parse_if_statement n s
      else if kw = "while".toList then parse_while_statement n s
      else if kw = "for".toList then parse_for_statement n s
      else if kw = "return".toList then parse_return_statement n s
      else parse_expression_statement n s) → parse_statement (n + 1) s = X.run n s)
    (hpost : ∀ n s sEnd t, Post X n s sEnd t → Branches (X.run n s) sEnd)
    (iha : Complete s0 X a) : Complete s0 .statement a := by
  intro n k t rest scopes scopes' hat hsc hscan _
  show Branches (parse_statement n _) _
  cases n with
  | zero => exact Or.inl rfl
  | succ n =>
    obtain ⟨x, a', rfl⟩ := List.exists_cons_of_ne_nil (derives_nonempty ha hne)
    have hat0 : At s0 k (x :: (a' ++ t :: rest)) := by simpa using hat
    have hx := hfirst x (derives_first ha x a' rfl)
    rw [hrun n _ (dispatch_keyword s0 hD n k scopes x _ hat0 kw hx)]
    exact hpost n _ _ t (iha n k t rest scopes scopes' hat hsc hscan (hfollow t))

theorem complete_statement_decl (s0 : State) (hD : DelimOK s0) {a : List Token}
    (ha : Derives .decl a) (iha : Complete s0 .decl a) : Complete s0 .statement a :=
  complete_statement_kw s0 hD "int".toList ha rfl (fun _ => trivial) (fun _ h => h)
    (fun n s h => by rw [h]; rfl)
    (fun n s sEnd t h => Branches.of_returns h) iha

theorem complete_statement_if (s0 : State) (hD : DelimOK s0) {a : List Token}
    (ha : Derives .ifStmt a) (iha : Complete s0 .ifStmt a) : Complete s0 .statement a :=
  complete_statement_kw s0 hD "if".toList ha rfl (fun _ => trivial) (fun _ h => h)
    (fun n s h => by rw [h]; rfl)
    (fun n s sEnd t h => h) iha

theorem complete_statement_while (s0 : State) (hD : DelimOK s0) {a : List Token}
    (ha : Derives .whileStmt a) (iha : Complete s0 .whileStmt a) :
    Complete s0 .statement a :=
  complete_statement_kw s0 hD "while".toList ha rfl (fun _ => trivial) (fun _ h => h)
    (fun n s h => by rw [h]; rfl)
    (fun n s sEnd t h => h) iha

theorem complete_statement_for (s0 : State) (hD : DelimOK s0) {a : List Token}
    (ha : Derives .forStmt a) (iha : Complete s0 .forStmt a) : Complete s0 .statement a :=
  complete_statement_kw s0 hD "for".toList ha rfl (fun _ => trivial) (fun _ h => h)
    (fun n s h => by rw [h]; rfl)
    (fun n s sEnd t h => h) iha

theorem complete_statement_return (s0 : State) (hD : DelimOK s0) {a : List Token}
    (ha : Derives .returnStmt a) (iha : Complete s0 .returnStmt a) :
    Complete s0 .statement a :=
  complete_statement_kw s0 hD "return".toList ha rfl (fun _ => trivial) (fun _ h => h)
    (fun n s h => by rw [h]; rfl)
    (fun n s sEnd t h => Branches.of_returns h) iha

theorem complete_statement_block (s0 : State) (hD : DelimOK s0) {a : List Token}
    (ha : Derives .block a) (iha : Complete s0 .block a) : Complete s0 .statement a := by
  intro n k t rest scopes scopes' hat hsc hscan _
  show Branches (parse_statement n _) _
  cases n with
  | zero => exact Or.inl rfl
  | succ n =>
    obtain ⟨x, a', rfl⟩ := List.exists_cons_of_ne_nil (derives_nonempty ha rfl)
    have hat0 : At s0 k (x :: (a' ++ t :: rest)) := by simpa using hat
    have hx : is_delim x '{' := derives_first ha x a' rfl
    rw [parse_statement,
      if_neg (fun h => not_kw_of_type x _ (by rw [hx.1]; simp)
        ((at_match_keyword s0 k scopes x _ _ hat0).mp h)),
      if_pos ((at_match_delimiter s0 k scopes x _ '{' hD hat0).mpr hx)]
    exact Branches.of_returns (iha n k t rest scopes scopes' hat hsc hscan trivial)

theorem complete_statement_expr (s0 : State) (hD : DelimOK s0) {a : List Token}
    (ha : Derives .exprStmt a) (iha : Complete s0 .exprStmt a) :
    Complete s0 .statement a := by
  intro n k t rest scopes scopes' hat hsc hscan _
  show Branches (parse_statement n _) _
  cases n with
  | zero => exact Or.inl rfl
  | succ n =>
    obtain ⟨x, a', rfl⟩ := List.exists_cons_of_ne_nil (derives_nonempty ha rfl)
    have hat0 : At s0 k (x :: (a' ++ t :: rest)) := by simpa using hat
    have hx : is_delim x ';' ∨ ExprFirst x := derives_first ha x a' rfl
    have hk : ∀ kw, ¬ match_keyword (after s0 k scopes) kw = true := by
      intro kw h
      have h' := (at_match_keyword s0 k scopes x _ kw hat0).mp h
      rcases hx with hx | hx
      · exact not_kw_of_type x _ (by rw [hx.1]; simp) h'
      · exact exprFirst_not_kw hx _ h'
    have hd : ¬ match_delimiter (after s0 k scopes) '{' = true := by
      intro h
      have h' := (at_match_delimiter s0 k scopes x _ '{' hD hat0).mp h
      rcases hx with hx | hx
      · exact absurd (is_delim_unique x _ _ hx h') (by decide)
      · exact exprFirst_not_delim hx _ (by decide) h'
    rw [parse_statement, if_neg (hk _), if_neg hd, if_neg (hk _), if_neg (hk _),
      if_neg (hk _), if_neg (hk _)]
    exact Branches.of_returns (iha n k t rest scopes scopes' hat hsc hscan trivial)

/-- Completeness: wherever a sequence derived from a nonterminal stands among
the pending tokens, followed by a token that ends it, and obeys the scoping
rule, the procedure of the nonterminal reads exactly this sequence. -/
theorem complete_all (s0 : State) (hD : DelimOK s0) {X : NT} {ts : List Token}
    (h : Derives X ts) : Complete s0 X ts := by
  induction h with
  | program _ _ _ => intro _ _ _ _ _ _ _ _ _ _; trivial
  | stmtList_nil => exact complete_stmtList_nil s0 hD
  | stmtList_cons ha hb iha ihb => exact complete_stmtList_cons s0 hD ha hb iha ihb
  | statement_decl ha ih => exact complete_statement_decl s0 hD ha ih
  | statement_block ha ih => exact complete_statement_block s0 hD ha ih
  | statement_if ha ih => exact complete_statement_if s0 hD ha ih
  | statement_while ha ih => exact complete_statement_while s0 hD ha ih
  | statement_for ha ih => exact complete_statement_for s0 hD ha ih
  | statement_return ha ih => exact complete_statement_return s0 hD ha ih
  | statement_expr ha ih => exact complete_statement_expr s0 hD ha ih
  | decl hkw hid hsemi => exact complete_decl s0 hD hkw hid hsemi
  | decl_init hkw hid heq he hsemi ihe =>
    exact complete_decl_init s0 hD hkw hid heq he hsemi ihe
  | block hlb hb hrb ihb => exact complete_block s0 hD hlb hb hrb ihb
  | ifStmt hkw hlp he hrp _ ihe iha => exact complete_ifStmt s0 hD hkw hlp he hrp ihe iha
  | ifElse hkw hlp he hrp ha hel _ ihe iha ihb =>
    exact complete_ifElse s0 hD hkw hlp he hrp ha hel ihe iha ihb
  | whileStmt hkw hlp he hrp _ ihe iha =>
    exact complete_whileStmt s0 hD hkw hlp he hrp ihe iha
  | forStmt hkw hlp he1 hs1 he2 hs2 he3 hrp _ ih1 ih2 ih3 iha =>
    exact complete_forStmt s0 hD hkw hlp he1 hs1 he2 hs2 he3 hrp ih1 ih2 ih3 iha
  | returnStmt hkw he hsemi ihe => exact complete_returnStmt s0 hD hkw he hsemi ihe
  | exprStmt he hsemi ihe => exact complete_exprStmt s0 hD he hsemi ihe
  | optExpr_none => exact complete_optExpr_none s0 hD
  | optExpr_some he ihe => exact complete_optExpr_some s0 hD he ihe
  | expression _ ih => exact complete_expression s0 ih
  | assignment _ ih => exact complete_assignment s0 ih
  | assign ha heq _ iha ihb => exact complete_assign s0 ha heq iha ihb
  | binary ha hr iha ihr => exact complete_binary s0 ha hr iha ihr
  | rest_nil => exact complete_rest_nil s0 _
  | rest_cons hop hv ha hr iha ihr => exact complete_rest_cons s0 hop hv ha hr iha ihr
  | unary_op hop hv _ iha => exact complete_unary_op s0 hop hv iha
  | unary_primary ha iha => exact complete_unary_primary s0 ha iha
  | primary_identifier hid => exact complete_primary_identifier s0 hid
  | primary_number hnum => exact complete_primary_number s0 hnum
  | primary_paren hlp he hrp ihe => exact complete_primary_paren s0 hD hlp he hrp ihe

/-! ## Analysis of programs of the grammar -/

theorem after_zero (s0 : State) (scopes : Scopes) (h : Refines scopes s0) :
    after s0 0 scopes = s0 := by
  obtain ⟨_, ht, hl⟩ := h
  cases s0
  simp only [after, Function.iterate_zero, id_eq] at ht hl ⊢
  rw [ht, hl]

/-- Completeness of `parse_program`: on pending tokens that are a program of
the grammar and obey the scoping rule it ends in no condition. -/
theorem complete_program (n : Nat) (s0 : State) (scopes : Scopes) (hD : DelimOK s0)
    (hR : Refines scopes s0) (hd : Derives .program (pending s0))
    (hs : ∃ st, scan (pending s0) (scopes, false) = .ok st) :
    Returns (parse_program n s0) (fun _ => True) := by
  generalize hp : pending s0 = toks at hd hs
  cases hd with
  | @program ts eof hts heof =>
    obtain ⟨st, hs⟩ := hs
    obtain ⟨⟨scopes1, b1⟩, hs1, _⟩ := scan_append_inv _ _ _ _ hs
    obtain rfl := derives_flag hts _ _ _ hs1
    have hat : At s0 0 (ts ++ eof :: []) := ⟨[], by simpa using hp, rfl⟩
    have h1 : Returns (parse_statement_list n (after s0 0 scopes))
        (fun s' => s' = after s0 (0 + ts.length) scopes1) :=
      complete_all s0 hD hts n 0 eof [] scopes scopes1 hat hR.1 hs1 (Or.inl heof)
    rw [after_zero s0 scopes hR] at h1
    unfold parse_program
    refine h1.bind fun s1 hs1' => ?_
    subst hs1'
    have hcur := after_current s0 (0 + ts.length) scopes1 eof [] (at_drop _ _ _ _ hat)
    rw [if_neg (not_not.mpr (by rw [hcur]; exact heof))]
    exact Returns.ok trivial

/-- The scoping rule implies declaration before use. -/
theorem scan_declared_before_use (ts : List Token) (st st' : Scopes × Bool)
    (h : scan ts st = .ok st') : declared_before_use ts st = true := by
  induction ts generalizing st with
  | nil => rfl
  | cons t ts ih =>
    obtain ⟨st1, h1, h2⟩ := scan_cons_inv t ts st st' h
    have hu : use_step st t = some st1 := by
      unfold scan_step at h1
      unfold use_step
      split at h1
      · rename_i hid
        rw [if_pos hid]
        split at h1
        · rename_i hflag
          rw [if_pos hflag]
          split at h1
          · cases h1
          · split at h1
            · cases h1
            · split at h1
              · cases h1
              · cases h1; rfl
        · rename_i hflag
          rw [if_neg hflag]
          split at h1
          · rename_i hdecl; rw [if_pos hdecl]; cases h1; rfl
          · cases h1
      · rename_i hid
        rw [if_neg hid]
        split at h1
        · rename_i hopen; rw [if_pos hopen]; cases h1; rfl
        · rename_i hopen
          rw [if_neg hopen]
          split at h1
          · rename_i hclose
            rw [if_pos hclose]
            split at h1
            · rename_i heq; cases h1; rw [heq]; rfl
            · cases h1
          · rename_i hclose; rw [if_neg hclose]; cases h1; rfl
    simp only [declared_before_use, hu]
    exact ih st1 h2

/-! ## Success of the analysis -/

theorem derives_level_up {l : Level} {a : List Token} (h : Derives l.operand a) :
    Derives (.binary l) a :=
  (Derives.binary h Derives.rest_nil).cast (by simp)

theorem derives_expression_of_additive {a : List Token}
    (h : Derives (.binary .additive) a) : Derives .expression a :=
  .expression (.assignment (derives_level_up (l := .logicalOr)
    (derives_level_up (l := .logicalAnd) (derives_level_up (l := .equality)
      (derives_level_up (l := .relational) h)))))

theorem derives_multiplicative_of_primary {a : List Token} (h : Derives .primary a) :
    Derives (.binary .multiplicative) a :=
  derives_level_up (l := .multiplicative) (.unary_primary h)

theorem derives_expression_of_primary {a : List Token} (h : Derives .primary a) :
    Derives .expression a :=
  derives_expression_of_additive
    (derives_level_up (l := .additive) (derives_multiplicative_of_primary h))

theorem analyse_returns (input : List Char)
    (hgrammar : Derives .program (token_sequence input))
    (hscope : ∃ st, scan (token_sequence input) ([[]], false) = .ok st) :
    ∃ s', analyse input = .ok s' := by
  have h := complete_program (budget input) (next_token (initial_state input)) [[]]
    (delimOK_initial input) (refines_initial input)
    (by rw [pending_initial]; exact hgrammar) (by rw [pending_initial]; exact hscope)
  rcases h with h | ⟨s', h, _⟩
  · exact absurd h (analyse_terminates input)
  · exact ⟨s', h⟩

theorem derives_two_declarations :
    Derives .program (token_sequence "int x; int x;".toList) := by
  have e : token_sequence "int x; int x;".toList =
      ([⟨.TOKEN_KEYWORD, "int".toList, 1, 1⟩, ⟨.TOKEN_IDENTIFIER, ['x'], 1, 5⟩,
          ⟨.TOKEN_DELIMITER, [';'], 1, 6⟩] ++
        ([⟨.TOKEN_KEYWORD, "int".toList, 1, 8⟩, ⟨.TOKEN_IDENTIFIER, ['x'], 1, 12⟩,
          ⟨.TOKEN_DELIMITER, [';'], 1, 13⟩] ++ [])) ++ [⟨.TOKEN_EOF, [], 1, 13⟩] := by
    decide
  rw [e]
  exact .program
    (.stmtList_cons (.statement_decl (.decl ⟨rfl, rfl⟩ rfl ⟨rfl, rfl⟩))
      (.stmtList_cons (.statement_decl (.decl ⟨rfl, rfl⟩ rfl ⟨rfl, rfl⟩)) .stmtList_nil))
    rfl

theorem derives_two_initialisations :
    Derives .program (token_sequence "int x = 5; int y = x + 1;".toList) := by
  have e : token_sequence "int x = 5; int y = x + 1;".toList =
      ((⟨.TOKEN_KEYWORD, "int".toList, 1, 1⟩ :: ⟨.TOKEN_IDENTIFIER, ['x'], 1, 5⟩ ::
          ⟨.TOKEN_OPERATOR, ['='], 1, 7⟩ :: [⟨.TOKEN_NUMBER, ['5'], 1, 9⟩] ++
            [⟨.TOKEN_DELIMITER, [';'], 1, 10⟩]) ++
        ((⟨.TOKEN_KEYWORD, "int".toList, 1, 12⟩ :: ⟨.TOKEN_IDENTIFIER, ['y'], 1, 16⟩ ::
          ⟨.TOKEN_OPERATOR, ['='], 1, 18⟩ ::
            ([⟨.TOKEN_IDENTIFIER, ['x'], 1, 20⟩] ++
              (⟨.TOKEN_OPERATOR, ['+'], 1, 22⟩ :: [⟨.TOKEN_NUMBER, ['1'], 1, 24⟩] ++ [])) ++
            [⟨.TOKEN_DELIMITER, [';'], 1, 25⟩]) ++ [])) ++ [⟨.TOKEN_EOF, [], 1, 25⟩] := by
    decide
  rw [e]
  refine .program (.stmtList_cons (.statement_decl ?_)
    (.stmtList_cons (.statement_decl ?_) .stmtList_nil)) rfl
  · exact .decl_init ⟨rfl, rfl⟩ rfl ⟨rfl, rfl⟩
      (derives_expression_of_primary (.primary_number rfl)) ⟨rfl, rfl⟩
  · refine .decl_init ⟨rfl, rfl⟩ rfl ⟨rfl, rfl⟩ (derives_expression_of_additive ?_) ⟨rfl, rfl⟩
    exact .binary (l := .additive) (derives_multiplicative_of_primary (.primary_identifier rfl))
      (.rest_cons rfl (by decide) (derives_multiplicative_of_primary (.primary_number rfl))
        .rest_nil)

/-- C1 as stated fails: the token sequence of `int x; int x;` is a program of
the grammar in which every identifier used is declared before its use (no
identifier is used at all), and its analysis ends with the redeclaration
condition at the second `x`. -/
theorem analyse_redeclared :
    Derives .program (token_sequence "int x; int x;".toList) ∧
    declared_before_use (token_sequence "int x; int x;".toList) ([[]], false) = true ∧
    analyse "int x; int x;".toList = .error (.redeclaration ['x'] 1 12) :=
  ⟨derives_two_declarations, by decide, by decide⟩

/-- C1 (amended): when the token sequence of the input is derived from
`program` and obeys the whole scoping rule (every identifier used is declared
in an open scope, no name is declared twice in one scope, and a declaration is
made only while fewer than 100 declarations are live), the analysis
`next_token(); parse_program();` returns with success: it raises no condition
and does not run on. -/
theorem analyse_complete (input : List Char)
    (hgrammar : Derives .program (token_sequence input))
    (hscope : ∃ st, scan (token_sequence input) ([[]], false) = .ok st) :
    ∃ s', analyse input = .ok s' :=
  analyse_returns input hgrammar hscope

/-- Witness of C1: `int x = 5; int y = x + 1;` is a program of the grammar
that obeys the scoping rule, and its analysis succeeds. -/
theorem analyse_complete_witness :
    ∃ s', analyse "int x = 5; int y = x + 1;".toList = .ok s' :=
  analyse_complete "int x = 5; int y = x + 1;".toList derives_two_initialisations
    ⟨([[['x'], ['y']]], false), rfl⟩

/-! ## The first fault of the scoping rule: expressions -/

theorem Stops.andThen {r : Outcome} {k : State → Outcome} {e : Err} (h : Stops r e) :
    Stops (r.andThen k) e := by
  rcases h with h | h
  · rw [h]; exact Or.inl rfl
  · rw [h]; exact Or.inr rfl

theorem Returns.stops {r : Outcome} {k : State → Outcome} {P : State → Prop} {e : Err}
    (h : Returns r P) (hk : ∀ s1, P s1 → Stops (k s1) e) : Stops (r.andThen k) e := by
  rcases h with h | ⟨s1, h, hP⟩
  · rw [h]; exact Or.inl rfl
  · rw [h]; exact hk s1 hP

theorem stops_not_ok {s : State} {e : Err} (h : Stops (.ok s) e) : False := by
  rcases h with h | h <;> cases h

theorem head_shared {ts a b : List Token} {id : Token} (h : ts = a ++ id :: b)
    (rest : List Token) : ∃ x ts' r', ts = x :: ts' ∧ a ++ id :: rest = x :: r' := by
  cases a with
  | nil => exact ⟨id, b, rest, h, rfl⟩
  | cons x a' => exact ⟨x, a' ++ id :: b, a' ++ id :: rest, h, rfl⟩

/-- The fault is not at a terminal of the production that is no identifier:
it is further on. -/
theorem faulty_terminal {s0 : State} {k : Nat} {scopes scopes1 : Scopes}
    {a tail b rest : List Token} {id t : Token} {e : Err}
    (h : t :: tail = a ++ id :: b) (hF : Faulty s0 k scopes a id rest e)
    (ht : t.type ≠ .TOKEN_IDENTIFIER)
    (hstep : scan_step (scopes, false) t = .ok (scopes1, false)) :
    ∃ a', a = t :: a' ∧ tail = a' ++ id :: b ∧ Faulty s0 (k + 1) scopes1 a' id rest e ∧
      At s0 k (t :: (a' ++ id :: rest)) := by
  obtain ⟨hat, hne, hid, st, f, hscan, hfault, he⟩ := hF
  cases a with
  | nil =>
    simp only [List.nil_append, List.cons.injEq] at h
    rw [h.1] at ht
    exact absurd hid ht
  | cons x a' =>
    simp only [List.cons_append, List.cons.injEq] at h
    obtain ⟨rfl, rfl⟩ := h
    have hat0 : At s0 k (t :: (a' ++ id :: rest)) := by simpa using hat
    rw [scan_cons_ok _ _ _ _ hstep] at hscan
    exact ⟨a', rfl, rfl, ⟨at_tail _ _ _ _ hat0, scan_step_ne _ _ _ hstep hne, hid, st, f, hscan,
      hfault, he⟩, hat0⟩

/-- The fault is inside the sequence derived from a nonterminal of the
production, or further on. -/
theorem faulty_nonterminal {s0 : State} {k : Nat} {scopes : Scopes}
    {a u tail b rest : List Token} {id : Token} {e : Err} {Y : NT}
    (h : u ++ tail = a ++ id :: b) (hF : Faulty s0 k scopes a id rest e)
    (hu : Derives Y u) :
    (∃ b1, u = a ++ id :: b1) ∨
    ∃ a' scopes1, a = u ++ a' ∧ tail = a' ++ id :: b ∧
      scan u (scopes, false) = .ok (scopes1, false) ∧
      Faulty s0 (k + u.length) scopes1 a' id rest e ∧
      At s0 k (u ++ (a' ++ id :: rest)) := by
  obtain ⟨hat, hne, hid, st, f, hscan, hfault, he⟩ := hF
  have key : (∃ b1, u = a ++ id :: b1) ∨ ∃ a', a = u ++ a' ∧ tail = a' ++ id :: b := by
    rcases List.append_eq_append_iff.mp h with ⟨a', ha, ht⟩ | ⟨c, hu', hc⟩
    · exact Or.inr ⟨a', ha, ht⟩
    · cases c with
      | nil =>
        refine Or.inr ⟨[], by simpa using hu'.symm, by simpa using hc.symm⟩
      | cons y c =>
        simp only [List.cons_append, List.cons.injEq] at hc
        exact Or.inl ⟨c, by rw [hu', hc.1]⟩
  rcases key with h1 | ⟨a', rfl, ht⟩
  · exact Or.inl h1
  · refine Or.inr ⟨a', ?_⟩
    obtain ⟨⟨scopes1, b1⟩, hs1, hs2⟩ := scan_append_inv _ _ _ _ hscan
    obtain rfl := derives_flag hu _ _ _ hs1
    have hat0 : At s0 k (u ++ (a' ++ id :: rest)) := by simpa using hat
    exact ⟨scopes1, rfl, ht, hs1, ⟨at_drop _ _ _ _ hat0, scan_ne _ _ _ hs1 hne, hid, st, f, hs2,
      hfault, he⟩, hat0⟩

/-- The terminal that ends a production is not the fault when it is no
identifier. -/
theorem faulty_last {s0 : State} {k : Nat} {scopes : Scopes}
    {a b rest : List Token} {id t : Token} {e : Err}
    (h : [t] = a ++ id :: b) (hF : Faulty s0 k scopes a id rest e)
    (ht : t.type ≠ .TOKEN_IDENTIFIER) : False := by
  cases a with
  | nil =>
    simp only [List.nil_append, List.cons.injEq] at h
    rw [h.1] at ht
    exact ht hF.2.2.1
  | cons x a' =>
    simp only [List.cons_append, List.cons.injEq] at h
    have := h.2
    simp at this

theorem failPost_operand (l : Level) (n : Nat) (s : State) (e : Err) :
    FailPost l.operand n s e = Stops (l.sub n s) e := by
  cases l <;> rfl

/-- The operator that follows an operand of a level ends the operand. -/
theorem rest_first_follow {l : Level} {x : Token} {r : List Token}
    (hr : Derives (.rest l) (x :: r)) : l.operand.follow x := by
  have hx := derives_first hr x r rfl
  cases l
  · exact fun h => (by decide : ∀ v ∈ Level.logicalOr.ops, v ∉ Level.logicalAnd.tight)
      _ hx.2 h.2
  · exact fun h => (by decide : ∀ v ∈ Level.logicalAnd.ops, v ∉ Level.equality.tight)
      _ hx.2 h.2
  · exact fun h => (by decide : ∀ v ∈ Level.equality.ops, v ∉ Level.relational.tight)
      _ hx.2 h.2
  · exact fun h => (by decide : ∀ v ∈ Level.relational.ops, v ∉ Level.additive.tight)
      _ hx.2 h.2
  · exact fun h => (by decide : ∀ v ∈ Level.additive.ops, v ∉ Level.multiplicative.tight)
      _ hx.2 h.2
  · trivial

theorem fails_primary_identifier (s0 : State) {x : Token}
    (_hid : x.type = .TOKEN_IDENTIFIER) : Fails s0 .primary [x] := by
  intro a id b n k scopes rest e h hF
  show Stops (parse_primary n _) e
  cases a with
  | cons y a' =>
    simp only [List.cons_append, List.cons.injEq] at h
    have := h.2
    simp at this
  | nil =>
    obtain ⟨hat, hne, hid, st, f, hscan, hfault, he⟩ := hF
    cases hscan
    have hat0 : At s0 k (id :: rest) := hat
    have hcur := after_current s0 k scopes id rest hat0
    rw [scan_step_use _ _ hid] at hfault
    cases n with
    | zero => exact Or.inl rfl
    | succ n =>
      split at hfault
      · cases hfault
      · rename_i hdecl
        cases hfault
        rw [parse_primary, if_pos (by rw [hcur]; exact hid),
          refines_check scopes _ _ (refines_after s0 k scopes hne), hcur, if_neg hdecl, he]
        exact Or.inr rfl

theorem fails_primary_number (s0 : State) {x : Token}
    (hnum : x.type = .TOKEN_NUMBER) : Fails s0 .primary [x] := by
  intro a id b n k scopes rest e h hF
  exact (faulty_last h hF (by rw [hnum]; simp)).elim

theorem fails_primary_paren (s0 : State) (hD : DelimOK s0) {lp rp : Token}
    {e0 : List Token} (hlp : is_delim lp '(') (he : Derives .expression e0)
    (hrp : is_delim rp ')') (ihe : Fails s0 .expression e0) :
    Fails s0 .primary (lp :: e0 ++ [rp]) := by
  intro a id b n k scopes rest e h hF
  show Stops (parse_primary n _) e
  have h0 : lp :: (e0 ++ [rp]) = a ++ id :: b := by simpa using h
  obtain ⟨a1, rfl, h1, hF1, hat0⟩ := faulty_terminal h0 hF (by rw [hlp.1]; simp)
    (scan_step_delim _ _ _ '(' hlp (by decide) (by decide))
  cases n with
  | zero => exact Or.inl rfl
  | succ n =>
    have hcur := after_current s0 k scopes lp _ hat0
    rw [parse_primary, if_neg (by rw [hcur, hlp.1]; simp),
      if_neg (by rw [hcur, hlp.1]; simp),
      if_pos ((at_match_delimiter s0 k scopes lp _ '(' hD hat0).mpr hlp),
      at_consume_delimiter s0 k scopes lp _ '(' hD hat0 hlp]
    simp only [Outcome.andThen]
    rcases faulty_nonterminal h1 hF1 he with ⟨b1, h2⟩ | ⟨a2, scopes1, _, h2, _, hF2, _⟩
    · exact Stops.andThen (ihe a1 id b1 n (k + 1) scopes rest e h2 hF1)
    · exact (faulty_last h2 hF2 (by rw [hrp.1]; simp)).elim

theorem fails_unary_op (s0 : State) {op : Token} {a0 : List Token}
    (hop : op.type = .TOKEN_OPERATOR) (hv : op.value ∈ unary_ops)
    (iha : Fails s0 .unary a0) : Fails s0 .unary (op :: a0) := by
  intro a id b n k scopes rest e h hF
  show Stops (parse_unary n _) e
  obtain ⟨a1, rfl, h1, hF1, hat0⟩ := faulty_terminal h hF (by rw [hop]; simp)
    (scan_step_operator _ _ _ hop)
  cases n with
  | zero => exact Or.inl rfl
  | succ n =>
    rw [parse_unary_succ, if_pos ((at_unary_op_at s0 k scopes op _ hat0).mpr ⟨hop, hv⟩),
      after_next_token]
    exact iha a1 id b n (k + 1) scopes rest e h1 hF1

theorem fails_unary_primary (s0 : State) {a0 : List Token} (ha : Derives .primary a0)
    (iha : Fails s0 .primary a0) : Fails s0 .unary a0 := by
  intro a id b n k scopes rest e h hF
  show Stops (parse_unary n _) e
  obtain ⟨x, ts', r', hx, hr⟩ := head_shared h rest
  have hat0 : At s0 k (x :: r') := hr ▸ hF.1
  have hfirst := derives_first ha x ts' hx
  have hnot : ¬ (x.type = .TOKEN_OPERATOR ∧ x.value ∈ unary_ops) := by
    rintro ⟨h, _⟩
    rcases hfirst with h' | h' | h'
    · rw [h] at h'; cases h'
    · rw [h] at h'; cases h'
    · have := h'.1; rw [h] at this; cases this
  cases n with
  | zero => exact Or.inl rfl
  | succ n =>
    rw [parse_unary_succ,
      if_neg (fun h => hnot ((at_unary_op_at s0 k scopes x _ hat0).mp h))]
    exact iha a id b n k scopes rest e h hF

/-- After an operand of a level that is read to its end, the fault is in the
operators and operands that follow. -/
theorem fails_after_operand (s0 : State) {l : Level} {a0 r a2 b rest : List Token}
    {id : Token} {e : Err} {k n : Nat} {scopes scopes1 : Scopes}
    (hr : Derives (.rest l) r) (ca : Complete s0 l.operand a0) (ihr : Fails s0 (.rest l) r)
    (h2 : r = a2 ++ id :: b) (hne : scopes ≠ [])
    (hs1 : scan a0 (scopes, false) = .ok (scopes1, false))
    (hF2 : Faulty s0 (k + a0.length) scopes1 a2 id rest e)
    (hat : At s0 k (a0 ++ (a2 ++ id :: rest))) :
    Stops ((l.sub n (after s0 k scopes)).andThen fun s => l.loop n s) e := by
  obtain ⟨x, r', rest1, hx, hsplit⟩ := head_shared h2 rest
  rw [hsplit] at hat
  have h1 : Returns (l.sub n (after s0 k scopes))
      (fun s' => s' = after s0 (k + a0.length) scopes1) := by
    rw [← operand_post l n _ _ x]
    exact ca n k x rest1 scopes scopes1 hat hne hs1 (rest_first_follow (hx ▸ hr))
  refine h1.stops fun s1 hs => ?_
  subst hs
  exact ihr a2 id b n _ scopes1 rest e h2 hF2

theorem fails_rest_nil (s0 : State) (l : Level) : Fails s0 (.rest l) [] := by
  intro a id b n k scopes rest e h hF
  simp at h

theorem fails_rest_cons (s0 : State) {l : Level} {op : Token} {a0 r : List Token}
    (hop : op.type = .TOKEN_OPERATOR) (hv : op.value ∈ l.ops) (ha : Derives l.operand a0)
    (hr : Derives (.rest l) r) (iha : Fails s0 l.operand a0) (ihr : Fails s0 (.rest l) r)
    (ca : Complete s0 l.operand a0) : Fails s0 (.rest l) (op :: a0 ++ r) := by
  intro a id b n k scopes rest e h hF
  show Stops (l.loop n _) e
  have h0 : op :: (a0 ++ r) = a ++ id :: b := by simpa using h
  obtain ⟨a1, rfl, h1, hF1, hat0⟩ := faulty_terminal h0 hF (by rw [hop]; simp)
    (scan_step_operator _ _ _ hop)
  cases n with
  | zero => exact Or.inl (level_loop_zero l _)
  | succ n =>
    rw [level_loop_succ, if_pos ((at_op_at s0 k scopes op _ l hat0).mpr ⟨hop, hv⟩),
      after_next_token]
    rcases faulty_nonterminal h1 hF1 ha with ⟨b1, h2⟩ | ⟨a2, scopes1, _, h2, hs1, hF2, hat1⟩
    · have := iha a1 id b1 n (k + 1) scopes rest e h2 hF1
      rw [failPost_operand] at this
      exact this.andThen
    · exact fails_after_operand s0 hr ca ihr h2 hF1.2.1 hs1 hF2 hat1

theorem fails_binary (s0 : State) {l : Level} {a0 r : List Token}
    (ha : Derives l.operand a0) (hr : Derives (.rest l) r) (iha : Fails s0 l.operand a0)
    (ihr : Fails s0 (.rest l) r) (ca : Complete s0 l.operand a0) :
    Fails s0 (.binary l) (a0 ++ r) := by
  intro a id b n k scopes rest e h hF
  show Stops (l.parse n _) e
  cases n with
  | zero => exact Or.inl (level_parse_zero l _)
  | succ n =>
    rw [level_parse_succ]
    rcases faulty_nonterminal h hF ha with ⟨b1, h2⟩ | ⟨a2, scopes1, _, h2, hs1, hF2, hat1⟩
    · have := iha a id b1 n k scopes rest e h2 hF
      rw [failPost_operand] at this
      exact this.andThen
    · exact fails_after_operand s0 hr ca ihr h2 hF.2.1 hs1 hF2 hat1

theorem fails_assignment (s0 : State) {a0 : List Token}
    (iha : Fails s0 (.binary .logicalOr) a0) : Fails s0 .assignment a0 := by
  intro a id b n k scopes rest e h hF
  show Stops (parse_assignment n _) e
  cases n with
  | zero => exact Or.inl rfl
  | succ n =>
    rw [parse_assignment_succ]
    exact Stops.andThen (iha a id b n k scopes rest e h hF)

theorem fails_assign (s0 : State) {eq : Token} {a0 b0 : List Token}
    (ha : Derives (.binary .logicalOr) a0) (heq : is_op eq "=".toList)
    (iha : Fails s0 (.binary .logicalOr) a0) (ihb : Fails s0 .assignment b0)
    (ca : Complete s0 (.binary .logicalOr) a0) : Fails s0 .assignment (a0 ++ eq :: b0) := by
  intro a id b n k scopes rest e h hF
  show Stops (parse_assignment n _) e
  cases n with
  | zero => exact Or.inl rfl
  | succ n =>
    rw [parse_assignment_succ]
    rcases faulty_nonterminal h hF ha with ⟨b1, h2⟩ | ⟨a2, scopes1, _, h2, hs1, hF2, hat1⟩
    · exact Stops.andThen (iha a id b1 n k scopes rest e h2 hF)
    · obtain ⟨a3, rfl, h3, hF3, hat2⟩ := faulty_terminal h2 hF2 (by rw [heq.1]; simp)
        (scan_step_operator _ _ _ heq.1)
      have h1 : Returns (parse_logical_or n (after s0 k scopes))
          (fun s' => s' = after s0 (k + a0.length) scopes1) :=
        ca n k eq (a3 ++ id :: rest) scopes scopes1 hat1 hF.2.1 hs1 (fun h => by
          have := h.2
          rw [heq.2] at this
          revert this
          decide)
      refine h1.stops fun s1 hs => ?_
      subst hs
      rw [if_pos ((at_match_operator s0 _ scopes1 eq _ _ hat2).mpr heq),
        at_consume_operator s0 _ scopes1 eq _ _ hat2 heq]
      simp only [Outcome.andThen]
      exact ihb a3 id b n _ scopes1 rest e h3 hF3

theorem fails_expression (s0 : State) {a0 : List Token}
    (iha : Fails s0 .assignment a0) : Fails s0 .expression a0 := by
  intro a id b n k scopes rest e h hF
  show Stops (parse_expression n _) e
  cases n with
  | zero => exact Or.inl rfl
  | succ n =>
    rw [parse_expression]
    exact iha a id b n k scopes rest e h hF

theorem fails_optExpr_none (s0 : State) : Fails s0 .optExpr [] := by
  intro a id b n k scopes rest e h hF
  simp at h

theorem fails_optExpr_some (s0 : State) (hD : DelimOK s0) {e0 : List Token}
    (he : Derives .expression e0) (ihe : Fails s0 .expression e0) :
    Fails s0 .optExpr e0 := by
  intro a id b n k scopes rest e h hF c hc
  obtain ⟨x, ts', r', hx, hr⟩ := head_shared h rest
  have hat0 : At s0 k (x :: r') := hr ▸ hF.1
  have hfirst : ExprFirst x := derives_first he x ts' hx
  rw [if_pos (fun h => exprFirst_not_delim hfirst c hc
    ((at_match_delimiter s0 k scopes x _ c hD hat0).mp h))]
  exact ihe a id b n k scopes rest e h hF

/-! ## The first fault of the scoping rule: statements -/

theorem cons_split {t id : Token} {tail a b : List Token} (h : t :: tail = a ++ id :: b) :
    (a = [] ∧ t = id ∧ tail = b) ∨ ∃ a', a = t :: a' ∧ tail = a' ++ id :: b := by
  cases a with
  | nil =>
    simp only [List.nil_append, List.cons.injEq] at h
    exact Or.inl ⟨rfl, h.1, h.2⟩
  | cons x a' =>
    simp only [List.cons_append, List.cons.injEq] at h
    exact Or.inr ⟨a', by rw [h.1], h.2⟩

theorem last_not_fault {t id : Token} {a b : List Token} (h : [t] = a ++ id :: b)
    (hid : id.type = .TOKEN_IDENTIFIER) (ht : t.type ≠ .TOKEN_IDENTIFIER) : False := by
  rcases cons_split h with ⟨_, rfl, _⟩ | ⟨a', _, h'⟩
  · exact ht hid
  · simp at h'

/-- The fault at the identifier of a declaration: `parse_declaration` raises
its condition. -/
theorem fails_declared (s0 : State) {kw id : Token} {rest : List Token} {k : Nat} (n : Nat)
    {scopes : Scopes} {f : ScopeFault} (hat : At s0 k (kw :: id :: rest))
    (hkw : is_kw kw "int".toList) (hid : id.type = .TOKEN_IDENTIFIER) (hne : scopes ≠ [])
    (hfault : scan_step (scopes, true) id = .error f) :
    Stops (parse_declaration n (after s0 k scopes)) (fault_error f id) := by
  cases n with
  | zero => exact Or.inl rfl
  | succ n =>
    obtain ⟨top, outer, rfl⟩ := List.exists_cons_of_ne_nil hne
    have hat1 := at_tail _ _ _ _ hat
    have hcur1 := after_current s0 (k + 1) (top :: outer) id _ hat1
    rw [parse_declaration, at_consume_keyword s0 k _ kw _ _ hat hkw]
    simp only [Outcome.andThen]
    rw [if_neg (not_not.mpr (by rw [hcur1]; exact hid)), hcur1,
      refines_add_symbol top outer _ id.value (refines_after s0 (k + 1) _ (by simp))]
    rw [scan_step_declare _ _ _ hid] at hfault
    split at hfault
    · rename_i hin
      cases hfault
      rw [if_pos hin, hcur1]
      exact Or.inr rfl
    · rename_i hin
      split at hfault
      · rename_i hfull
        cases hfault
        rw [if_neg hin, if_pos hfull]
        exact Or.inr rfl
      · cases hfault

theorem fails_decl (s0 : State) {kw id0 semi : Token}
    (hkw : is_kw kw "int".toList) (hsemi : is_delim semi ';') :
    Fails s0 .decl [kw, id0, semi] := by
  intro a id b n k scopes rest e h hF
  show Stops (parse_declaration n _) e
  rcases cons_split h with ⟨rfl, rfl, _⟩ | ⟨a1, rfl, h1⟩
  · exact absurd hF.2.2.1 (by rw [hkw.1]; simp)
  · rcases cons_split h1 with ⟨rfl, rfl, _⟩ | ⟨a2, rfl, h2⟩
    · obtain ⟨hat, hne, hid, st, f, hscan, hfault, he⟩ := hF
      rw [scan_single, scan_step_int _ _ _ hkw] at hscan
      cases hscan
      rw [he]
      exact fails_declared s0 n hat hkw hid hne hfault
    · exact (last_not_fault h2 hF.2.2.1 (by rw [hsemi.1]; simp)).elim

theorem fails_decl_init (s0 : State) {kw id0 eq semi : Token}
    {e0 : List Token} (hkw : is_kw kw "int".toList) (hid0 : id0.type = .TOKEN_IDENTIFIER)
    (heq : is_op eq "=".toList) (he : Derives .expression e0) (hsemi : is_delim semi ';')
    (ihe : Fails s0 .expression e0) :
    Fails s0 .decl (kw :: id0 :: eq :: e0 ++ [semi]) := by
  intro a id b n k scopes rest e h hF
  show Stops (parse_declaration n _) e
  have h0 : kw :: id0 :: eq :: (e0 ++ [semi]) = a ++ id :: b := by simpa using h
  rcases cons_split h0 with ⟨rfl, rfl, _⟩ | ⟨a1, rfl, h1⟩
  · exact absurd hF.2.2.1 (by rw [hkw.1]; simp)
  · rcases cons_split h1 with ⟨rfl, rfl, _⟩ | ⟨a2, rfl, h2⟩
    · obtain ⟨hat, hne, hid, st, f, hscan, hfault, he'⟩ := hF
      rw [scan_single, scan_step_int _ _ _ hkw] at hscan
      cases hscan
      rw [he']
      exact fails_declared s0 n hat hkw hid hne hfault
    · obtain ⟨hat, hne, hid, st, f, hscan, hfault, he'⟩ := hF
      have hat0 : At s0 k (kw :: id0 :: (a2 ++ id :: rest)) := by simpa using hat
      have hat1 := at_tail _ _ _ _ hat0
      have hat2 := at_tail _ _ _ _ hat1
      have hsc : scan (kw :: id0 :: a2) (scopes, false) = .ok st := hscan
      rw [scan_cons_ok _ _ _ _ (scan_step_int _ _ _ hkw)] at hsc
      obtain ⟨st1, hd1, hscan2⟩ := scan_cons_inv _ _ _ _ hsc
      obtain ⟨top, outer, rfl⟩ := List.exists_cons_of_ne_nil hne
      rw [scan_step_declare _ _ _ hid0] at hd1
      split at hd1
      · cases hd1
      · rename_i hnew
        split at hd1
        · cases hd1
        · rename_i hroom
          cases hd1
          have hF2 : Faulty s0 (k + 1 + 1) ((top ++ [id0.value]) :: outer) a2 id rest e :=
            ⟨hat2, by simp, hid, st, f, hscan2, hfault, he'⟩
          obtain ⟨a3, rfl, h3, hF3, hat3⟩ := faulty_terminal h2 hF2 (by rw [heq.1]; simp)
            (scan_step_operator _ _ _ heq.1)
          cases n with
          | zero => exact Or.inl rfl
          | succ n =>
            have hcur1 := after_current s0 (k + 1) (top :: outer) id0 _ hat1
            rw [parse_declaration, at_consume_keyword s0 k _ kw _ _ hat0 hkw]
            simp only [Outcome.andThen]
            rw [if_neg (not_not.mpr (by rw [hcur1]; exact hid0)), hcur1,
              after_add s0 (k + 1) top outer id0.value hnew hroom]
            simp only [Outcome.of, Outcome.andThen]
            rw [after_next_token, if_pos ((at_match_operator s0 _ _ eq _ _ hat3).mpr heq),
              after_next_token]
            rcases faulty_nonterminal h3 hF3 he with ⟨b1, h4⟩ | ⟨_, _, _, h4, _, hF4, _⟩
            · exact Stops.andThen (ihe a3 id b1 n _ _ rest e h4 hF3)
            · exact (faulty_last h4 hF4 (by rw [hsemi.1]; simp)).elim

theorem fails_exprStmt (s0 : State) {semi : Token} {e0 : List Token}
    (he : Derives .optExpr e0) (hsemi : is_delim semi ';')
    (ihe : Fails s0 .optExpr e0) : Fails s0 .exprStmt (e0 ++ [semi]) := by
  intro a id b n k scopes rest e h hF
  show Stops (parse_expression_statement n _) e
  cases n with
  | zero => exact Or.inl rfl
  | succ n =>
    rcases faulty_nonterminal h hF he with ⟨b1, h2⟩ | ⟨_, _, _, h2, _, hF2, _⟩
    · have hopt := ihe a id b1 n k scopes rest e h2 hF ';' (by decide)
      rw [parse_expression_statement]
      by_cases hm : match_delimiter (after s0 k scopes) ';' = true
      · rw [if_neg (not_not.mpr hm)] at hopt
        exact (stops_not_ok hopt).elim
      · rw [if_pos hm] at hopt
        rw [if_neg hm]
        exact hopt.andThen
    · exact (faulty_last h2 hF2 (by rw [hsemi.1]; simp)).elim

theorem fails_returnStmt (s0 : State) {kw semi : Token} {e0 : List Token}
    (hkw : is_kw kw "return".toList) (he : Derives .optExpr e0)
    (hsemi : is_delim semi ';') (ihe : Fails s0 .optExpr e0) :
    Fails s0 .returnStmt (kw :: e0 ++ [semi]) := by
  intro a id b n k scopes rest e h hF
  show Stops (parse_return_statement n _) e
  have h0 : kw :: (e0 ++ [semi]) = a ++ id :: b := by simpa using h
  obtain ⟨a1, rfl, h1, hF1, hat0⟩ := faulty_terminal h0 hF (by rw [hkw.1]; simp)
    (scan_step_keyword _ _ _ _ hkw (by decide))
  cases n with
  | zero => exact Or.inl rfl
  | succ n =>
    rw [parse_return_statement, at_consume_keyword s0 k scopes kw _ _ hat0 hkw]
    simp only [Outcome.andThen]
    rcases faulty_nonterminal h1 hF1 he with ⟨b1, h2⟩ | ⟨_, _, _, h2, _, hF2, _⟩
    · exact (ihe a1 id b1 n _ scopes rest e h2 hF1 ';' (by decide)).andThen
    · exact (faulty_last h2 hF2 (by rw [hsemi.1]; simp)).elim

theorem fails_block (s0 : State) (hD : DelimOK s0) {lb rb : Token} {b0 : List Token}
    (hlb : is_delim lb '{') (hb : Derives .stmtList b0) (hrb : is_delim rb '}')
    (ihb : Fails s0 .stmtList b0) : Fails s0 .block (lb :: b0 ++ [rb]) := by
  intro a id b n k scopes rest e h hF
  show Stops (parse_compound_statement n _) e
  have h0 : lb :: (b0 ++ [rb]) = a ++ id :: b := by simpa using h
  obtain ⟨a1, rfl, h1, hF1, hat0⟩ := faulty_terminal h0 hF (by rw [hlb.1]; simp)
    (scan_step_open _ _ _ hlb)
  cases n with
  | zero => exact Or.inl rfl
  | succ n =>
    rw [parse_compound_statement, at_consume_delimiter s0 k scopes lb _ '{' hD hat0 hlb]
    simp only [Outcome.andThen]
    rw [after_enter]
    rcases faulty_nonterminal h1 hF1 hb with ⟨b1, h2⟩ | ⟨_, _, _, h2, _, hF2, _⟩
    · exact (ihb a1 id b1 n _ _ rest e h2 hF1).andThen
    · exact (faulty_last h2 hF2 (by rw [hrb.1]; simp)).elim

theorem fails_whileStmt (s0 : State) (hD : DelimOK s0) {kw lp rp : Token}
    {e0 a0 : List Token} (hkw : is_kw kw "while".toList) (hlp : is_delim lp '(')
    (he : Derives .expression e0) (hrp : is_delim rp ')')
    (ihe : Fails s0 .expression e0) (iha : Fails s0 .statement a0)
    (ce : Complete s0 .expression e0) :
    Fails s0 .whileStmt (kw :: lp :: e0 ++ rp :: a0) := by
  intro a id b n k scopes rest e h hF
  show Stops (parse_while_statement n _) e
  have h0 : kw :: lp :: (e0 ++ rp :: a0) = a ++ id :: b := by simpa using h
  obtain ⟨a1, rfl, h1, hF1, hat0⟩ := faulty_terminal h0 hF (by rw [hkw.1]; simp)
    (scan_step_keyword _ _ _ _ hkw (by decide))
  obtain ⟨a2, rfl, h2, hF2, hat1⟩ := faulty_terminal h1 hF1 (by rw [hlp.1]; simp)
    (scan_step_delim _ _ _ '(' hlp (by decide) (by decide))
  cases n with
  | zero => exact Or.inl rfl
  | succ n =>
    rw [parse_while_statement, at_consume_keyword s0 k scopes kw _ _ hat0 hkw]
    simp only [Outcome.andThen]
    rw [at_consume_delimiter s0 _ scopes lp _ '(' hD hat1 hlp]
    simp only []
    rcases faulty_nonterminal h2 hF2 he with ⟨b1, h3⟩ | ⟨a3, scopes1, _, h3, hs1, hF3, hat2⟩
    · exact (ihe a2 id b1 n _ scopes rest e h3 hF2).andThen
    · obtain ⟨a4, rfl, h4, hF4, hat3⟩ := faulty_terminal h3 hF3 (by rw [hrp.1]; simp)
        (scan_step_delim _ _ _ ')' hrp (by decide) (by decide))
      have c1 : Returns (parse_expression n (after s0 (k + 1 + 1) scopes))
          (fun s' => s' = after s0 (k + 1 + 1 + e0.length) scopes1) :=
        ce n _ rp _ _ _ hat2 hF.2.1 hs1 hrp.1
      refine c1.stops fun s1 hs => ?_
      subst hs
      rw [at_consume_delimiter s0 _ scopes1 rp _ ')' hD hat3 hrp]
      simp only [Outcome.andThen]
      exact iha a4 id b n _ scopes1 rest e h4 hF4

/-! ## The first fault of the scoping rule: statements with a body -/

theorem fails_forStmt (s0 : State) (hD : DelimOK s0) {kw lp s1 s2 rp : Token}
    {e1 e2 e3 a0 : List Token} (hkw : is_kw kw "for".toList) (hlp : is_delim lp '(')
    (he1 : Derives .optExpr e1) (hs1 : is_delim s1 ';') (he2 : Derives .optExpr e2)
    (hs2 : is_delim s2 ';') (he3 : Derives .optExpr e3) (hrp : is_delim rp ')')
    (ih1 : Fails s0 .optExpr e1) (ih2 : Fails s0 .optExpr e2)
    (ih3 : Fails s0 .optExpr e3) (iha : Fails s0 .statement a0)
    (c1 : Complete s0 .optExpr e1) (c2 : Complete s0 .optExpr e2)
    (c3 : Complete s0 .optExpr e3) :
    Fails s0 .forStmt (kw :: lp :: e1 ++ s1 :: e2 ++ s2 :: e3 ++ rp :: a0) := by
  intro a id b n k scopes rest e h hF
  show Stops (parse_for_statement n _) e
  have h0 : kw :: lp :: (e1 ++ s1 :: (e2 ++ s2 :: (e3 ++ rp :: a0))) = a ++ id :: b := by
    simpa using h
  obtain ⟨a1, rfl, h1, hF1, hat0⟩ := faulty_terminal h0 hF (by rw [hkw.1]; simp)
    (scan_step_keyword _ _ _ _ hkw (by decide))
  obtain ⟨a2, rfl, h2, hF2, hat1⟩ := faulty_terminal h1 hF1 (by rw [hlp.1]; simp)
    (scan_step_delim _ _ _ '(' hlp (by decide) (by decide))
  cases n with
  | zero => exact Or.inl rfl
  | succ n =>
    rw [parse_for_statement, at_consume_keyword s0 k scopes kw _ _ hat0 hkw]
    simp only [Outcome.andThen]
    rw [at_consume_delimiter s0 _ scopes lp _ '(' hD hat1 hlp]
    simp only []
    rcases faulty_nonterminal h2 hF2 he1 with ⟨b1, h3⟩ | ⟨a3, scopes1, _, h3, hc1, hF3, hat2⟩
    · exact (ih1 a2 id b1 n _ scopes rest e h3 hF2 ';' (by decide)).andThen
    obtain ⟨a4, rfl, h4, hF4, hat3⟩ := faulty_terminal h3 hF3 (by rw [hs1.1]; simp)
      (scan_step_delim _ _ _ ';' hs1 (by decide) (by decide))
    refine (c1 n _ s1 _ scopes scopes1 hat2 hF.2.1 hc1 trivial ';' (by decide) hs1).stops
      fun x hx => ?_
    subst hx
    rw [at_consume_delimiter s0 _ scopes1 s1 _ ';' hD hat3 hs1]
    simp only [Outcome.andThen]
    rcases faulty_nonterminal h4 hF4 he2 with ⟨b1, h5⟩ | ⟨a5, scopes2, _, h5, hc2, hF5, hat4⟩
    · exact (ih2 a4 id b1 n _ scopes1 rest e h5 hF4 ';' (by decide)).andThen
    obtain ⟨a6, rfl, h6, hF6, hat5⟩ := faulty_terminal h5 hF5 (by rw [hs2.1]; simp)
      (scan_step_delim _ _ _ ';' hs2 (by decide) (by decide))
    refine (c2 n _ s2 _ scopes1 scopes2 hat4 hF4.2.1 hc2 trivial ';' (by decide) hs2).stops
      fun x hx => ?_
    subst hx
    rw [at_consume_delimiter s0 _ scopes2 s2 _ ';' hD hat5 hs2]
    simp only [Outcome.andThen]
    rcases faulty_nonterminal h6 hF6 he3 with ⟨b1, h7⟩ | ⟨a7, scopes3, _, h7, hc3, hF7, hat6⟩
    · exact (ih3 a6 id b1 n _ scopes2 rest e h7 hF6 ')' (by decide)).andThen
    obtain ⟨a8, rfl, h8, hF8, hat7⟩ := faulty_terminal h7 hF7 (by rw [hrp.1]; simp)
      (scan_step_delim _ _ _ ')' hrp (by decide) (by decide))
    refine (c3 n _ rp _ scopes2 scopes3 hat6 hF6.2.1 hc3 trivial ')' (by decide) hrp).stops
      fun x hx => ?_
    subst hx
    rw [at_consume_delimiter s0 _ scopes3 rp _ ')' hD hat7 hrp]
    simp only [Outcome.andThen]
    exact iha a8 id b n _ scopes3 rest e h8 hF8

theorem fails_ifStmt (s0 : State) (hD : DelimOK s0) {kw lp rp : Token}
    {e0 a0 : List Token} (hkw : is_kw kw "if".toList) (hlp : is_delim lp '(')
    (he : Derives .expression e0) (hrp : is_delim rp ')')
    (ihe : Fails s0 .expression e0) (iha : Fails s0 .statement a0)
    (ce : Complete s0 .expression e0) :
    Fails s0 .ifStmt (kw :: lp :: e0 ++ rp :: a0) := by
  intro a id b n k scopes rest e h hF
  show Stops (parse_if_statement n _) e
  have h0 : kw :: lp :: (e0 ++ rp :: a0) = a ++ id :: b := by simpa using h
  obtain ⟨a1, rfl, h1, hF1, hat0⟩ := faulty_terminal h0 hF (by rw [hkw.1]; simp)
    (scan_step_keyword _ _ _ _ hkw (by decide))
  obtain ⟨a2, rfl, h2, hF2, hat1⟩ := faulty_terminal h1 hF1 (by rw [hlp.1]; simp)
    (scan_step_delim _ _ _ '(' hlp (by decide) (by decide))
  cases n with
  | zero => exact Or.inl rfl
  | succ n =>
    rw [parse_if_statement, at_consume_keyword s0 k scopes kw _ _ hat0 hkw]
    simp only [Outcome.andThen]
    rw [at_consume_delimiter s0 _ scopes lp _ '(' hD hat1 hlp]
    simp only []
    rcases faulty_nonterminal h2 hF2 he with ⟨b1, h3⟩ | ⟨a3, scopes1, _, h3, hs1, hF3, hat2⟩
    · exact (ihe a2 id b1 n _ scopes rest e h3 hF2).andThen
    · obtain ⟨a4, rfl, h4, hF4, hat3⟩ := faulty_terminal h3 hF3 (by rw [hrp.1]; simp)
        (scan_step_delim _ _ _ ')' hrp (by decide) (by decide))
      have c1 : Returns (parse_expression n (after s0 (k + 1 + 1) scopes))
          (fun s' => s' = after s0 (k + 1 + 1 + e0.length) scopes1) :=
        ce n _ rp _ _ _ hat2 hF.2.1 hs1 hrp.1
      refine c1.stops fun x hx => ?_
      subst hx
      rw [at_consume_delimiter s0 _ scopes1 rp _ ')' hD hat3 hrp]
      simp only [Outcome.andThen]
      exact (iha a4 id b n _ scopes1 rest e h4 hF4).andThen

theorem fails_ifElse (s0 : State) (hD : DelimOK s0) {kw lp rp el : Token}
    {e0 a0 b0 : List Token} (hkw : is_kw kw "if".toList) (hlp : is_delim lp '(')
    (he : Derives .expression e0) (hrp : is_delim rp ')') (ha : Derives .statement a0)
    (hel : is_kw el "else".toList) (ihe : Fails s0 .expression e0)
    (iha : Fails s0 .statement a0) (ihb : Fails s0 .statement b0)
    (ce : Complete s0 .expression e0) (ca : Complete s0 .statement a0) :
    Fails s0 .ifStmt (kw :: lp :: e0 ++ rp :: a0 ++ el :: b0) := by
  intro a id b n k scopes rest e h hF
  show Stops (parse_if_statement n _) e
  have h0 : kw :: lp :: (e0 ++ rp :: (a0 ++ el :: b0)) = a ++ id :: b := by simpa using h
  obtain ⟨a1, rfl, h1, hF1, hat0⟩ := faulty_terminal h0 hF (by rw [hkw.1]; simp)
    (scan_step_keyword _ _ _ _ hkw (by decide))
  obtain ⟨a2, rfl, h2, hF2, hat1⟩ := faulty_terminal h1 hF1 (by rw [hlp.1]; simp)
    (scan_step_delim _ _ _ '(' hlp (by decide) (by decide))
  cases n with
  | zero => exact Or.inl rfl
  | succ n =>
    rw [parse_if_statement, at_consume_keyword s0 k scopes kw _ _ hat0 hkw]
    simp only [Outcome.andThen]
    rw [at_consume_delimiter s0 _ scopes lp _ '(' hD hat1 hlp]
    simp only []
    rcases faulty_nonterminal h2 hF2 he with ⟨b1, h3⟩ | ⟨a3, scopes1, _, h3, hs1, hF3, hat2⟩
    · exact (ihe a2 id b1 n _ scopes rest e h3 hF2).andThen
    obtain ⟨a4, rfl, h4, hF4, hat3⟩ := faulty_terminal h3 hF3 (by rw [hrp.1]; simp)
      (scan_step_delim _ _ _ ')' hrp (by decide) (by decide))
    have c1 : Returns (parse_expression n (after s0 (k + 1 + 1) scopes))
        (fun s' => s' = after s0 (k + 1 + 1 + e0.length) scopes1) :=
      ce n _ rp _ _ _ hat2 hF.2.1 hs1 hrp.1
    refine c1.stops fun x hx => ?_
    subst hx
    rw [at_consume_delimiter s0 _ scopes1 rp _ ')' hD hat3 hrp]
    simp only [Outcome.andThen]
    rcases faulty_nonterminal h4 hF4 ha with ⟨b1, h5⟩ | ⟨a5, scopes2, _, h5, hs2, hF5, hat4⟩
    · exact (iha a4 id b1 n _ scopes1 rest e h5 hF4).andThen
    obtain ⟨a6, rfl, h6, hF6, hat5⟩ := faulty_terminal h5 hF5 (by rw [hel.1]; simp)
      (scan_step_keyword _ _ _ _ hel (by decide))
    -- the `else` branch stops, whatever the budget
    have hB : ∀ m, Stops
        (parse_statement m (after s0 (k + 1 + 1 + e0.length + 1 + a0.length + 1) scopes2))
        e := fun m => ihb a6 id b m _ scopes2 rest e h6 hF6
    have helse : match_keyword (after s0 (k + 1 + 1 + e0.length + 1 + a0.length) scopes2)
        "else".toList = true := (at_match_keyword s0 _ scopes2 el _ _ hat5).mpr hel
    have c2 : Branches (parse_statement n (after s0 (k + 1 + 1 + e0.length + 1) scopes1))
        (after s0 (k + 1 + 1 + e0.length + 1 + a0.length) scopes2) :=
      ca n _ el _ scopes1 scopes2 hat4 hF4.2.1 hs2 trivial
    rcases c2 with c2 | ⟨s5, c2, hch⟩ | ⟨err, c2, herr⟩
    · rw [c2]; exact Or.inl rfl
    · rw [c2]
      show Stops (if _ then _ else _) e
      cases hch with
      | refl _ =>
        rw [if_pos helse, at_consume_keyword s0 _ scopes2 el _ _ hat5 hel]
        exact hB n
      | step _ s1 _ m _ hrun _ =>
        rw [after_next_token] at hrun
        have := hB m
        rw [hrun] at this
        exact (stops_not_ok this).elim
    · rw [c2]
      cases herr with
      | here _ _ m _ hrun =>
        rw [after_next_token] at hrun
        have := hB m
        rw [hrun] at this
        rcases this with h' | h'
        · cases h'
        · exact Or.inr h'
      | step _ s1 _ m _ hrun _ =>
        rw [after_next_token] at hrun
        have := hB m
        rw [hrun] at this
        exact (stops_not_ok this).elim

theorem fails_stmtList_nil (s0 : State) : Fails s0 .stmtList [] := by
  intro a id b n k scopes rest e h hF
  simp at h

theorem fails_stmtList_cons (s0 : State) (hD : DelimOK s0) {a0 b0 : List Token}
    (ha : Derives .statement a0) (hb : Derives .stmtList b0)
    (iha : Fails s0 .statement a0) (ihb : Fails s0 .stmtList b0)
    (ca : Complete s0 .statement a0) : Fails s0 .stmtList (a0 ++ b0) := by
  intro a id b n k scopes rest e h hF
  show Stops (parse_statement_list n _) e
  cases n with
  | zero => exact Or.inl rfl
  | succ n =>
    obtain ⟨x, ts', r', hx, hr⟩ := head_shared h rest
    have hat0 : At s0 k (x :: r') := hr ▸ hF.1
    have hcur := after_current s0 k scopes x _ hat0
    have hfirst : StmtFirst x := by
      obtain ⟨y, a0', rfl⟩ := List.exists_cons_of_ne_nil (derives_nonempty ha rfl)
      simp only [List.cons_append, List.cons.injEq] at hx
      rw [← hx.1]
      exact derives_first ha y a0' rfl
    rw [parse_statement_list_succ, if_pos ⟨by rw [hcur]; exact stmtFirst_ne_eof hfirst,
      fun h => stmtFirst_not_close hfirst ((at_match_delimiter s0 k scopes x _ '}' hD hat0).mp h)⟩]
    rcases faulty_nonterminal h hF ha with ⟨b1, h2⟩ | ⟨a2, scopes1, _, h2, hs1, hF2, hat1⟩
    · exact (iha a id b1 n k scopes rest e h2 hF).andThen
    · obtain ⟨y, b0', rest1, hy, hsplit⟩ := head_shared h2 rest
      rw [hsplit] at hat1
      have hat2 : At s0 (k + a0.length) (y :: rest1) := hsplit ▸ hF2.1
      have hnelse : match_keyword (after s0 (k + a0.length) scopes1) "else".toList = false := by
        rw [← Bool.not_eq_true]
        exact fun h => stmtFirst_not_else (derives_first hb y b0' hy)
          ((at_match_keyword s0 _ scopes1 y rest1 _ hat2).mp h)
      have c1 : Returns (parse_statement n (after s0 k scopes))
          (fun s' => s' = after s0 (k + a0.length) scopes1) :=
        Branches.returns (ca n k y rest1 scopes scopes1 hat1 hF.2.1 hs1 trivial) hnelse
      refine c1.stops fun s1 hs => ?_
      subst hs
      exact ihb a2 id b n _ scopes1 rest e h2 hF2

theorem fails_program (s0 : State) {ts : List Token} {eof : Token}
    (hts : Derives .stmtList ts) (heof : eof.type = .TOKEN_EOF)
    (ih : Fails s0 .stmtList ts) : Fails s0 .program (ts ++ [eof]) := by
  intro a id b n k scopes rest e h hF
  show Stops (parse_program n _) e
  rcases faulty_nonterminal h hF hts with ⟨b1, h2⟩ | ⟨_, _, _, h2, _, hF2, _⟩
  · unfold parse_program
    exact (ih a id b1 n k scopes rest e h2 hF).andThen
  · exact (faulty_last h2 hF2 (by rw [heof]; simp)).elim

/-! ## The first fault of the scoping rule: dispatch and the whole program -/

theorem fails_statement_kw (s0 : State) (hD : DelimOK s0) {X : NT} {a0 : List Token}
    (kw : List Char) (ha : Derives X a0)
    (hfirst : ∀ t, X.first t → is_kw t kw)
    (hrun : ∀ n s, parse_statement (n + 1) s =
      (if kw = "int".toList then parse_declaration n s
      else if kw = "if".toList then parse_if_statement n s
      else if kw = "while".toList then parse_while_statement n s
      else if kw = "for".toList then parse_for_statement n s
      else if kw = "return".toList then parse_return_statement n s
      else parse_expression_statement n s) → parse_statement (n + 1) s = X.run n s)
    (hpost : ∀ n s e, FailPost X n s e → Stops (X.run n s) e)
    (iha : Fails s0 X a0) : Fails s0 .statement a0 := by
  intro a id b n k scopes rest e h hF
  show Stops (parse_statement n _) e
  cases n with
  | zero => exact Or.inl rfl
  | succ n =>
    obtain ⟨x, ts', r', hx, hr⟩ := head_shared h rest
    have hat0 : At s0 k (x :: r') := hr ▸ hF.1
    have hk := hfirst x (derives_first ha x ts' hx)
    rw [hrun n _ (dispatch_keyword s0 hD n k scopes x _ hat0 kw hk)]
    exact hpost n _ e (iha a id b n k scopes rest e h hF)

theorem fails_statement_block (s0 : State) (hD : DelimOK s0) {a0 : List Token}
    (ha : Derives .block a0) (iha : Fails s0 .block a0) : Fails s0 .statement a0 := by
  intro a id b n k scopes rest e h hF
  show Stops (parse_statement n _) e
  cases n with
  | zero => exact Or.inl rfl
  | succ n =>
    obtain ⟨x, ts', r', hx, hr⟩ := head_shared h rest
    have hat0 : At s0 k (x :: r') := hr ▸ hF.1
    have hfirst : is_delim x '{' := derives_first ha x ts' hx
    rw [parse_statement,
      if_neg (fun h => not_kw_of_type x _ (by rw [hfirst.1]; simp)
        ((at_match_keyword s0 k scopes x _ _ hat0).mp h)),
      if_pos ((at_match_delimiter s0 k scopes x _ '{' hD hat0).mpr hfirst)]
    exact iha a id b n k scopes rest e h hF

theorem fails_statement_expr (s0 : State) (hD : DelimOK s0) {a0 : List Token}
    (ha : Derives .exprStmt a0) (iha : Fails s0 .exprStmt a0) : Fails s0 .statement a0 := by
  intro a id b n k scopes rest e h hF
  show Stops (parse_statement n _) e
  cases n with
  | zero => exact Or.inl rfl
  | succ n =>
    obtain ⟨x, ts', r', hx, hr⟩ := head_shared h rest
    have hat0 : At s0 k (x :: r') := hr ▸ hF.1
    have hfirst : is_delim x ';' ∨ ExprFirst x := derives_first ha x ts' hx
    have hk : ∀ kw, ¬ match_keyword (after s0 k scopes) kw = true := by
      intro kw h
      have h' := (at_match_keyword s0 k scopes x _ kw hat0).mp h
      rcases hfirst with hx | hx
      · exact not_kw_of_type x _ (by rw [hx.1]; simp) h'
      · exact exprFirst_not_kw hx _ h'
    have hd : ¬ match_delimiter (after s0 k scopes) '{' = true := by
      intro h
      have h' := (at_match_delimiter s0 k scopes x _ '{' hD hat0).mp h
      rcases hfirst with hx | hx
      · exact absurd (is_delim_unique x _ _ hx h') (by decide)
      · exact exprFirst_not_delim hx _ (by decide) h'
    rw [parse_statement, if_neg (hk _), if_neg hd, if_neg (hk _), if_neg (hk _),
      if_neg (hk _), if_neg (hk _)]
    exact iha a id b n k scopes rest e h hF

/-- The parser stops at the first fault of the scoping rule: wherever the
tokens before an identifier begin a sequence derived from a nonterminal and
obey the scoping rule, and the identifier does not, the procedure of the
nonterminal raises the condition of this fault, unless the budget is used up
first. -/
theorem fails_all (s0 : State) (hD : DelimOK s0) {X : NT} {ts : List Token}
    (h : Derives X ts) : Fails s0 X ts := by
  induction h with
  | program hts heof ih => exact fails_program s0 hts heof ih
  | stmtList_nil => exact fails_stmtList_nil s0
  | stmtList_cons ha hb iha ihb =>
    exact fails_stmtList_cons s0 hD ha hb iha ihb (complete_all s0 hD ha)
  | statement_decl ha ih =>
    exact fails_statement_kw s0 hD "int".toList ha (fun _ h => h)
      (fun n s h => by rw [h]; rfl) (fun _ _ _ h => h) ih
  | statement_block ha ih => exact fails_statement_block s0 hD ha ih
  | statement_if ha ih =>
    exact fails_statement_kw s0 hD "if".toList ha (fun _ h => h)
      (fun n s h => by rw [h]; rfl) (fun _ _ _ h => h) ih
  | statement_while ha ih =>
    exact fails_statement_kw s0 hD "while".toList ha (fun _ h => h)
      (fun n s h => by rw [h]; rfl) (fun _ _ _ h => h) ih
  | statement_for ha ih =>
    exact fails_statement_kw s0 hD "for".toList ha (fun _ h => h)
      (fun n s h => by rw [h]; rfl) (fun _ _ _ h => h) ih
  | statement_return ha ih =>
    exact fails_statement_kw s0 hD "return".toList ha (fun _ h => h)
      (fun n s h => by rw [h]; rfl) (fun _ _ _ h => h) ih
  | statement_expr ha ih => exact fails_statement_expr s0 hD ha ih
  | decl hkw _ hsemi => exact fails_decl s0 hkw hsemi
  | decl_init hkw hid heq he hsemi ihe => exact fails_decl_init s0 hkw hid heq he hsemi ihe
  | block hlb hb hrb ihb => exact fails_block s0 hD hlb hb hrb ihb
  | ifStmt hkw hlp he hrp _ ihe iha =>
    exact fails_ifStmt s0 hD hkw hlp he hrp ihe iha (complete_all s0 hD he)
  | ifElse hkw hlp he hrp ha hel _ ihe iha ihb =>
    exact fails_ifElse s0 hD hkw hlp he hrp ha hel ihe iha ihb (complete_all s0 hD he)
      (complete_all s0 hD ha)
  | whileStmt hkw hlp he hrp _ ihe iha =>
    exact fails_whileStmt s0 hD hkw hlp he hrp ihe iha (complete_all s0 hD he)
  | forStmt hkw hlp he1 hs1 he2 hs2 he3 hrp _ ih1 ih2 ih3 iha =>
    exact fails_forStmt s0 hD hkw hlp he1 hs1 he2 hs2 he3 hrp ih1 ih2 ih3 iha
      (complete_all s0 hD he1) (complete_all s0 hD he2) (complete_all s0 hD he3)
  | returnStmt hkw he hsemi ihe => exact fails_returnStmt s0 hkw he hsemi ihe
  | exprStmt he hsemi ihe => exact fails_exprStmt s0 he hsemi ihe
  | optExpr_none => exact fails_optExpr_none s0
  | optExpr_some he ihe => exact fails_optExpr_some s0 hD he ihe
  | expression _ ih => exact fails_expression s0 ih
  | assignment _ ih => exact fails_assignment s0 ih
  | assign ha heq _ iha ihb => exact fails_assign s0 ha heq iha ihb (complete_all s0 hD ha)
  | binary ha hr iha ihr => exact fails_binary s0 ha hr iha ihr (complete_all s0 hD ha)
  | rest_nil => exact fails_rest_nil s0 _
  | rest_cons hop hv ha hr iha ihr =>
    exact fails_rest_cons s0 hop hv ha hr iha ihr (complete_all s0 hD ha)
  | unary_op hop hv _ iha => exact fails_unary_op s0 hop hv iha
  | unary_primary ha iha => exact fails_unary_primary s0 ha iha
  | primary_identifier hid => exact fails_primary_identifier s0 hid
  | primary_number hnum => exact fails_primary_number s0 hnum
  | primary_paren hlp he hrp ihe => exact fails_primary_paren s0 hD hlp he hrp ihe

/-- The analysis stops at the first fault of the scoping rule: when the
tokens of the input up to an identifier begin a program of the grammar and
obey the scoping rule, and the identifier does not, the analysis ends with
the condition of this fault. -/
theorem analyse_fault (input : List Char) (pre rest rest2 : List Token) (id : Token)
    (st : Scopes × Bool) (f : ScopeFault)
    (htokens : token_sequence input = pre ++ id :: rest)
    (hgrammar : Derives .program (pre ++ id :: rest2))
    (hscan : scan pre ([[]], false) = .ok st)
    (hid : id.type = .TOKEN_IDENTIFIER)
    (hfault : scan_step st id = .error f) :
    analyse input = .error (fault_error f id) := by
  have hF : Faulty (next_token (initial_state input)) 0 [[]] pre id rest (fault_error f id) :=
    ⟨⟨[], by rw [pending_initial, htokens]; rfl, rfl⟩, by simp, hid, st, f, hscan, hfault, rfl⟩
  have h := fails_all (next_token (initial_state input)) (delimOK_initial input) hgrammar
    pre id rest2 (budget input) 0 [[]] rest _ rfl hF
  have h' : Stops (parse_program (budget input) (after (next_token (initial_state input)) 0
      [[]])) (fault_error f id) := h
  rw [after_zero _ _ (refines_initial input)] at h'
  rcases h' with h' | h'
  · exact absurd h' (analyse_terminates input)
  · exact h'

/-! ## Use of an identifier that is not declared -/

theorem derives_logicalOr_of_primary {a : List Token} (h : Derives .primary a) :
    Derives (.binary .logicalOr) a :=
  derives_level_up (l := .logicalOr) (derives_level_up (l := .logicalAnd)
    (derives_level_up (l := .equality) (derives_level_up (l := .relational)
      (derives_level_up (l := .additive) (derives_multiplicative_of_primary h)))))

/-- The statement `x = 1;` is derived from `statement`. -/
theorem derives_assign_statement {x eq one semi : Token} (hx : x.type = .TOKEN_IDENTIFIER)
    (heq : is_op eq "=".toList) (hone : one.type = .TOKEN_NUMBER)
    (hsemi : is_delim semi ';') : Derives .statement [x, eq, one, semi] :=
  (Derives.statement_expr (.exprStmt (.optExpr_some (.expression
    (.assign (derives_logicalOr_of_primary (.primary_identifier hx)) heq
      (.assignment (derives_logicalOr_of_primary (.primary_number hone)))))) hsemi)).cast
    (by simp)

theorem derives_block_then_use :
    Derives .program
      ([⟨.TOKEN_DELIMITER, ['{'], 1, 1⟩, ⟨.TOKEN_KEYWORD, "int".toList, 1, 3⟩,
          ⟨.TOKEN_IDENTIFIER, ['x'], 1, 7⟩, ⟨.TOKEN_DELIMITER, [';'], 1, 8⟩,
          ⟨.TOKEN_DELIMITER, ['}'], 1, 10⟩] ++
        ⟨.TOKEN_IDENTIFIER, ['x'], 1, 12⟩ ::
          [⟨.TOKEN_OPERATOR, ['='], 1, 14⟩, ⟨.TOKEN_NUMBER, ['1'], 1, 16⟩,
            ⟨.TOKEN_DELIMITER, [';'], 1, 17⟩, ⟨.TOKEN_EOF, [], 1, 17⟩]) := by
  have hdecl : Derives .statement
      [⟨.TOKEN_KEYWORD, "int".toList, 1, 3⟩, ⟨.TOKEN_IDENTIFIER, ['x'], 1, 7⟩,
        ⟨.TOKEN_DELIMITER, [';'], 1, 8⟩] :=
    .statement_decl (.decl ⟨rfl, rfl⟩ rfl ⟨rfl, rfl⟩)
  have hblock : Derives .statement
      [⟨.TOKEN_DELIMITER, ['{'], 1, 1⟩, ⟨.TOKEN_KEYWORD, "int".toList, 1, 3⟩,
        ⟨.TOKEN_IDENTIFIER, ['x'], 1, 7⟩, ⟨.TOKEN_DELIMITER, [';'], 1, 8⟩,
        ⟨.TOKEN_DELIMITER, ['}'], 1, 10⟩] :=
    (Derives.statement_block (@Derives.block ⟨.TOKEN_DELIMITER, ['{'], 1, 1⟩
      ⟨.TOKEN_DELIMITER, ['}'], 1, 10⟩ _ ⟨rfl, rfl⟩
      (.stmtList_cons hdecl .stmtList_nil) ⟨rfl, rfl⟩)).cast (by simp)
  have huse : Derives .statement
      [⟨.TOKEN_IDENTIFIER, ['x'], 1, 12⟩, ⟨.TOKEN_OPERATOR, ['='], 1, 14⟩,
        ⟨.TOKEN_NUMBER, ['1'], 1, 16⟩, ⟨.TOKEN_DELIMITER, [';'], 1, 17⟩] :=
    derives_assign_statement rfl ⟨rfl, rfl⟩ rfl ⟨rfl, rfl⟩
  exact (@Derives.program _ ⟨.TOKEN_EOF, [], 1, 17⟩
    (.stmtList_cons hblock (.stmtList_cons huse .stmtList_nil)) rfl).cast (by simp)

theorem analyse_not_ok_of_fault (input : List Char) (f : ScopeFault)
    (h : scan (token_sequence input) ([[]], false) = .error f) :
    ∃ e, analyse input = .error e := by
  cases hr : analyse input with
  | ok s' =>
    obtain ⟨st, hst⟩ := (sound_program _ _ s' [[]] (refines_initial input)
      (delimOK_initial input) hr).2
    rw [pending_initial, h] at hst
    cases hst
  | error e => exact ⟨e, rfl⟩
  | out_of_fuel => exact absurd hr (analyse_terminates input)

/-- C8: (1) when `parse_primary` is entered with an identifier as current
token and `find_symbol` finds no visible declaration of it, it raises the
undeclared-use condition with the name and the position of this token;
(2) for every input whose tokens up to an identifier `id` begin a program of
the grammar and obey the scoping rule (so no condition is raised before), with
`id` not the name of a declaration (the token before is not `int`) and
declared in no scope that is open there, the analysis ends with the
undeclared-use condition at `id`; (3) whenever the scoping rule finds an
undeclared use in the token sequence, the analysis does not succeed; (4) the
analyses of `int x; y = 1;` and `{ int x; } x = 1;` end with this condition at
`y` and at the second `x`. -/
theorem analyse_undeclared :
    (∀ n s, s.current_token.type = .TOKEN_IDENTIFIER →
      find_symbol s s.current_token.value = none →
      parse_primary (n + 1) s =
        .error (.undeclared s.current_token.value s.current_token.line
          s.current_token.column)) ∧
    (∀ input pre rest rest2 id scopes,
      token_sequence input = pre ++ id :: rest →
      Derives .program (pre ++ id :: rest2) →
      scan pre ([[]], false) = .ok (scopes, false) →
      id.type = .TOKEN_IDENTIFIER → declared scopes id.value = false →
      analyse input = .error (.undeclared id.value id.line id.column)) ∧
    (∀ input name, scan (token_sequence input) ([[]], false) = .error (.undeclared name) →
      ∃ e, analyse input = .error e) ∧
    analyse "int x; y = 1;".toList = .error (.undeclared ['y'] 1 8) ∧
    analyse "{ int x; } x = 1;".toList = .error (.undeclared ['x'] 1 12) := by
  refine ⟨?_, ?_, fun input name h => analyse_not_ok_of_fault input _ h, by decide, by decide⟩
  · intro n s hid hnone
    rw [parse_primary, if_pos hid]
    unfold check_symbol_declared
    rw [hnone]
    rfl
  · intro input pre rest rest2 id scopes htokens hgrammar hscan hid hdecl
    have hfault : scan_step (scopes, false) id = .error (.undeclared id.value) := by
      rw [scan_step_use _ _ hid, hdecl]
      rfl
    exact analyse_fault input pre rest rest2 id _ _ htokens hgrammar hscan hid hfault

/-- Witness of C8: in `{ int x; } x = 1;` the tokens up to the second `x`
begin a program and obey the scoping rule, no scope that is open after the
block declares `x`, and the analysis ends with the undeclared-use condition
at line 1, column 12. -/
theorem analyse_undeclared_witness :
    analyse "{ int x; } x = 1;".toList = .error (.undeclared ['x'] 1 12) :=
  analyse_undeclared.2.1 "{ int x; } x = 1;".toList
    [⟨.TOKEN_DELIMITER, ['{'], 1, 1⟩, ⟨.TOKEN_KEYWORD, "int".toList, 1, 3⟩,
      ⟨.TOKEN_IDENTIFIER, ['x'], 1, 7⟩, ⟨.TOKEN_DELIMITER, [';'], 1, 8⟩,
      ⟨.TOKEN_DELIMITER, ['}'], 1, 10⟩]
    [⟨.TOKEN_OPERATOR, ['='], 1, 14⟩, ⟨.TOKEN_NUMBER, ['1'], 1, 16⟩,
      ⟨.TOKEN_DELIMITER, [';'], 1, 17⟩, ⟨.TOKEN_EOF, [], 1, 17⟩]
    [⟨.TOKEN_OPERATOR, ['='], 1, 14⟩, ⟨.TOKEN_NUMBER, ['1'], 1, 16⟩,
      ⟨.TOKEN_DELIMITER, [';'], 1, 17⟩, ⟨.TOKEN_EOF, [], 1, 17⟩]
    ⟨.TOKEN_IDENTIFIER, ['x'], 1, 12⟩ [[]] (by decide) derives_block_then_use rfl rfl rfl

/-! ## The lexer on text without line breaks -/

theorem isalnum_ge (c : Char) (h : isalnum c = true) : 48 ≤ c.toNat := by
  simp only [isalnum, isalpha, isdigit, Bool.or_eq_true, Bool.and_eq_true,
    decide_eq_true_eq] at h
  omega

theorem isalpha_isalnum (c : Char) (h : isalpha c = true) : isalnum c = true := by
  simp only [isalnum, h, Bool.true_or]

theorem isdigit_isalnum (c : Char) (h : isdigit c = true) : isalnum c = true := by
  simp only [isalnum, h, Bool.or_true]

theorem isalnum_not_space (c : Char) (h : isalnum c = true) : isspace c = false := by
  have := isalnum_ge c h
  rw [← Bool.not_eq_true]
  simp only [isspace, Bool.or_eq_true, Bool.and_eq_true, decide_eq_true_eq]
  omega

theorem isalnum_ne_newline (c : Char) (h : isalnum c = true) : c ≠ '\n' := by
  rintro rfl
  exact absurd h (by decide)

theorem isdigit_not_alpha (c : Char) (h : isdigit c = true) : isalpha c = false := by
  simp only [isdigit, Bool.and_eq_true, decide_eq_true_eq] at h
  rw [← Bool.not_eq_true]
  simp only [isalpha, Bool.or_eq_true, Bool.and_eq_true, decide_eq_true_eq]
  omega

theorem blank_isspace (ws : List Char) (h : ∀ x ∈ ws, x = ' ') :
    (∀ x ∈ ws, isspace x = true) ∧ ∀ x ∈ ws, x ≠ '\n' :=
  ⟨fun x hx => by rw [h x hx]; decide, fun x hx => by rw [h x hx]; decide⟩

theorem getch_plain (c : Char) (rest : List Char) (line col : Int) (hc : c ≠ '\n') :
    getch ⟨c :: rest, line, col⟩ = (some c, ⟨rest, line, col + 1⟩) := by
  simp only [getch, if_neg hc]

theorem advance_plain (cs rest : List Char) (line col : Int) (h : ∀ x ∈ cs, x ≠ '\n') :
    advance ⟨cs ++ rest, line, col⟩ cs = ⟨rest, line, col + cs.length⟩ := by
  induction cs generalizing col with
  | nil => simp [advance]
  | cons c cs ih =>
    rw [advance_cons]
    have hg : getch ⟨c :: cs ++ rest, line, col⟩ = (some c, ⟨cs ++ rest, line, col + 1⟩) :=
      getch_plain c (cs ++ rest) line col (h c (List.mem_cons_self _ _))
    rw [hg, ih (col + 1) (fun x hx => h x (List.mem_cons_of_mem _ hx))]
    simp only [List.length_cons, Nat.cast_add, Nat.cast_one]
    congr 1
    omega

/-- The character read after a token is pushed back: the state is the one
before it was read. -/
theorem unget_plain (rest : List Char) (line col : Int) (hcol : 0 ≤ col)
    (hrest : ∀ d r, rest = d :: r → d ≠ '\n') :
    ungetch_adjust (getch ⟨rest, line, col⟩).2 (getch ⟨rest, line, col⟩).1 =
      ⟨rest, line, col⟩ := by
  cases rest with
  | nil => rfl
  | cons d r =>
    have hd := hrest d r rfl
    rw [getch_plain d r line col hd]
    simp only [ungetch_adjust, if_neg hd]
    rw [if_pos (by omega)]
    congr 1
    omega

/-- The loop that reads a word or a number reads all its characters. -/
theorem run_loop_run (p : Char → Bool) (w rest : List Char) (n : Nat) (value : List Char)
    (c : Char) (s : Source) (hin : s.input_file = w ++ rest) (hw : ∀ x ∈ w, p x = true)
    (hrest : ∀ d r, rest = d :: r → p d = false)
    (hlen : value.length + 1 + w.length ≤ MAX_TOKEN_LENGTH - 1) (hn : w.length ≤ n) :
    run_loop p n value c s =
      (value ++ c :: w, (getch (advance s w)).1, (getch (advance s w)).2) := by
  induction w generalizing n value c s with
  | nil =>
    simp only [List.nil_append] at hin
    simp only [advance, List.foldl_nil, List.append_nil]
    cases n with
    | zero => rfl
    | succ n =>
      cases rest with
      | nil =>
        rw [run_loop, getch_nil s hin]
      | cons d r =>
        have hg := getch_cons s d r hin
        rw [run_loop, hg.1]
        simp only [hrest d r rfl, Bool.false_and, Bool.false_eq_true, if_false]
  | cons x w ih =>
    obtain ⟨m, rfl⟩ : ∃ m, n = m + 1 := ⟨n - 1, by simp at hn; omega⟩
    have hg := getch_cons s x (w ++ rest) hin
    have hlt : (value ++ [c]).length < MAX_TOKEN_LENGTH - 1 := by
      simp only [List.length_append, List.length_cons, List.length_nil] at hlen ⊢
      omega
    rw [run_loop, hg.1]
    simp only [hw x (List.mem_cons_self _ _), hlt, decide_True, Bool.and_self, if_true]
    rw [ih m (value ++ [c]) x (getch s).2 hg.2 (fun y hy => hw y (List.mem_cons_of_mem _ hy))
      (by simp only [List.length_append, List.length_cons, List.length_nil] at hlen ⊢; omega)
      (by simpa using hn), advance_cons]
    simp

theorem advance_token (ws rest : List Char) (c : Char) (line col : Int)
    (hws : ∀ x ∈ ws, x = ' ') (hc : c ≠ '\n') :
    advance ⟨ws ++ c :: rest, line, col⟩ (ws ++ [c]) = ⟨rest, line, col + ws.length + 1⟩ := by
  have h := advance_plain (ws ++ [c]) rest line col (by
    intro x hx
    rcases List.mem_append.mp hx with hx | hx
    · exact (blank_isspace ws hws).2 x hx
    · rw [List.mem_singleton.mp hx]; exact hc)
  simp only [List.append_assoc, List.singleton_append, List.length_append, List.length_cons,
    List.length_nil, Nat.cast_add, Nat.cast_one, Nat.cast_zero, zero_add] at h
  rw [h]
  congr 1
  omega

/-- A word after blanks, followed by a character that ends it: the token is
the word, and the character after it is left in the input. -/
theorem lex_word (input ws w rest : List Char) (c : Char) (line col col1 col2 : Int)
    (hin : input = ws ++ c :: (w ++ rest)) (hws : ∀ x ∈ ws, x = ' ')
    (hc : isalpha c = true) (hw : ∀ x ∈ w, isalnum x = true)
    (hrest : ∀ d r, rest = d :: r → isalnum d = false ∧ d ≠ '\n')
    (hlen : (c :: w).length ≤ MAX_TOKEN_LENGTH - 1) (hcol : 0 ≤ col)
    (h1 : col1 = col + ws.length + 1) (h2 : col2 = col + ws.length + (c :: w).length) :
    get_next_token ⟨input, line, col⟩ =
      (⟨if is_keyword (c :: w) then .TOKEN_KEYWORD else .TOKEN_IDENTIFIER, c :: w, line,
          col1⟩, ⟨rest, line, col2⟩) := by
  subst hin h1 h2
  have hal := isalpha_isalnum c hc
  unfold get_next_token
  simp only []
  rw [skip_space_loop_char ws _ _ c (w ++ rest) rfl (blank_isspace ws hws).1
    (isalnum_not_space c hal) (by simp; omega)]
  rw [advance_token ws (w ++ rest) c line col hws (isalnum_ne_newline c hal)]
  simp only [hc, if_true]
  rw [run_loop_run isalnum w rest _ [] c _ rfl hw (fun d r h => (hrest d r h).1)
    (by simp only [List.length_cons, List.length_nil] at hlen ⊢; omega) (by simp)]
  simp only [List.nil_append]
  rw [advance_plain w rest _ _ (fun x hx => isalnum_ne_newline x (hw x hx)),
    unget_plain rest line _ (by omega) (fun d r h => (hrest d r h).2)]
  simp only [List.length_cons, Nat.cast_add, Nat.cast_one]
  congr 2
  omega

/-- A number after blanks, followed by a character that ends it. -/
theorem lex_number (input ws w rest : List Char) (c : Char) (line col col1 col2 : Int)
    (hin : input = ws ++ c :: (w ++ rest)) (hws : ∀ x ∈ ws, x = ' ')
    (hc : isdigit c = true) (hw : ∀ x ∈ w, isdigit x = true)
    (hrest : ∀ d r, rest = d :: r → isdigit d = false ∧ d ≠ '\n')
    (hlen : (c :: w).length ≤ MAX_TOKEN_LENGTH - 1) (hcol : 0 ≤ col)
    (h1 : col1 = col + ws.length + 1) (h2 : col2 = col + ws.length + (c :: w).length) :
    get_next_token ⟨input, line, col⟩ =
      (⟨.TOKEN_NUMBER, c :: w, line, col1⟩, ⟨rest, line, col2⟩) := by
  subst hin h1 h2
  have hal := isdigit_isalnum c hc
  unfold get_next_token
  simp only []
  rw [skip_space_loop_char ws _ _ c (w ++ rest) rfl (blank_isspace ws hws).1
    (isalnum_not_space c hal) (by simp; omega)]
  rw [advance_token ws (w ++ rest) c line col hws (isalnum_ne_newline c hal)]
  simp only [isdigit_not_alpha c hc, hc, if_true, Bool.false_eq_true, if_false]
  rw [run_loop_run isdigit w rest _ [] c _ rfl hw (fun d r h => (hrest d r h).1)
    (by simp only [List.length_cons, List.length_nil] at hlen ⊢; omega) (by simp)]
  simp only [List.nil_append]
  rw [advance_plain w rest _ _
      (fun x hx => isalnum_ne_newline x (isdigit_isalnum x (hw x hx))),
    unget_plain rest line _ (by omega) (fun d r h => (hrest d r h).2)]
  simp only [List.length_cons, Nat.cast_add, Nat.cast_one]
  congr 2
  omega

theorem is_delimiter_not_word (c : Char) (h : is_delimiter c = true) :
    isspace c = false ∧ isalpha c = false ∧ isdigit c = false ∧ is_operator c = false ∧
      c ≠ '\n' := by
  simp only [is_delimiter, delimiters, List.any_cons, List.any_nil, Bool.or_false,
    Bool.or_eq_true, decide_eq_true_eq] at h
  rcases h with h | h | h | h | h | h | h <;> subst h <;> decide

/-- A delimiter after blanks. -/
theorem lex_delimiter (input ws rest : List Char) (c : Char) (line col col1 : Int)
    (hin : input = ws ++ c :: rest) (hws : ∀ x ∈ ws, x = ' ')
    (hc : is_delimiter c = true) (h1 : col1 = col + ws.length + 1) :
    get_next_token ⟨input, line, col⟩ =
      (⟨.TOKEN_DELIMITER, [c], line, col1⟩, ⟨rest, line, col1⟩) := by
  subst hin h1
  obtain ⟨hsp, hal, hdi, hop, hnl⟩ := is_delimiter_not_word c hc
  unfold get_next_token
  simp only []
  rw [skip_space_loop_char ws _ _ c rest rfl (blank_isspace ws hws).1 hsp (by simp; omega)]
  rw [advance_token ws rest c line col hws hnl]
  simp only [hal, hdi, hop, hc, if_true, Bool.false_eq_true, if_false]

/-- An operator of one character after blanks, followed by a character that
does not join it. -/
theorem lex_operator (input ws rest : List Char) (c d : Char) (line col col1 : Int)
    (hin : input = ws ++ c :: d :: rest) (hws : ∀ x ∈ ws, x = ' ')
    (hc : is_operator c = true) (hd : combinable c (some d) = false) (hnl : d ≠ '\n')
    (hcol : 0 ≤ col) (h1 : col1 = col + ws.length + 1) :
    get_next_token ⟨input, line, col⟩ =
      (⟨.TOKEN_OPERATOR, [c], line, col1⟩, ⟨d :: rest, line, col1⟩) := by
  subst hin h1
  have hcn : c ≠ '\n' := by
    rintro rfl
    exact absurd hc (by decide)
  rw [get_next_token_operator _ ws (d :: rest) c (blank_isspace ws hws).1 hc rfl,
    advance_token ws (d :: rest) c line col hws hcn, getch_plain d rest line _ hnl,
    if_neg (by rw [hd]; simp)]
  have := unget_plain (d :: rest) line (col + ws.length + 1) (by omega)
    (fun d' r h => by cases h; exact hnl)
  rw [getch_plain d rest line _ hnl] at this
  rw [this]

/-- The end of the input after blanks. -/
theorem lex_eof (input : List Char) (line col col1 : Int) (hws : ∀ x ∈ input, x = ' ')
    (h1 : col1 = col + input.length) :
    get_next_token ⟨input, line, col⟩ = (⟨.TOKEN_EOF, [], line, col1⟩, ⟨[], line, col1⟩) := by
  subst h1
  unfold get_next_token
  simp only []
  rw [skip_space_loop_eof input _ _ rfl (blank_isspace input hws).1 (by simp)]
  have := advance_plain input [] line col (blank_isspace input hws).2
  rw [List.append_nil] at this
  rw [this]

theorem lex_all_step (n : Nat) (s s' : Source) (t : Token) (h : get_next_token s = (t, s'))
    (ht : t.type ≠ .TOKEN_EOF) (hn : s.input_file.length < n) :
    lex_all n s = t :: lex_all (s'.input_file.length + 1) s' := by
  obtain ⟨m, rfl⟩ : ∃ m, n = m + 1 := ⟨n - 1, by omega⟩
  have hlt := get_next_token_lt s (by rw [h]; exact ht)
  rw [lex_all_succ, h, if_neg ht]
  rw [h] at hlt
  rw [lex_all_fuel m (s'.input_file.length + 1) s' (by simp only [] at hlt ⊢; omega)
    (by omega)]

theorem lex_all_stop (n : Nat) (s s' : Source) (t : Token) (h : get_next_token s = (t, s'))
    (ht : t.type = .TOKEN_EOF) (hn : 0 < n) : lex_all n s = [t] := by
  obtain ⟨m, rfl⟩ : ∃ m, n = m + 1 := ⟨n - 1, by omega⟩
  rw [lex_all_succ, h, if_pos ht]

/-! ## Redeclaration in the same scope and in a nested block -/

/-- The tokens of `int n; int n;` for a name `n = c :: w`. -/
theorem tokens_of_two_declarations (c : Char) (w : List Char) (hc : isalpha c = true)
    (hw : ∀ x ∈ w, isalnum x = true) (hlen : (c :: w).length ≤ MAX_TOKEN_LENGTH - 1)
    (hkw : is_keyword (c :: w) = false) :
    token_sequence
        ("int ".toList ++ (c :: w) ++ "; int ".toList ++ (c :: w) ++ ";".toList) =
      [⟨.TOKEN_KEYWORD, "int".toList, 1, 1⟩,
        ⟨.TOKEN_IDENTIFIER, c :: w, 1, 5⟩,
        ⟨.TOKEN_DELIMITER, [';'], 1, 5 + ((c :: w).length : Int)⟩,
        ⟨.TOKEN_KEYWORD, "int".toList, 1, 7 + ((c :: w).length : Int)⟩,
        ⟨.TOKEN_IDENTIFIER, c :: w, 1, 11 + ((c :: w).length : Int)⟩,
        ⟨.TOKEN_DELIMITER, [';'], 1, 11 + 2 * ((c :: w).length : Int)⟩,
        ⟨.TOKEN_EOF, [], 1, 11 + 2 * ((c :: w).length : Int)⟩] := by
  have e0 : get_next_token
      ⟨"int ".toList ++ (c :: w) ++ "; int ".toList ++ (c :: w) ++
        ";".toList,
        1, 0⟩ =
      (⟨.TOKEN_KEYWORD, "int".toList, 1, 1⟩,
        ⟨" ".toList ++ (c :: w) ++ "; int ".toList ++ (c :: w) ++ ";".toList,
          1, 3⟩) := by
    have h := lex_word
      ("int ".toList ++ (c :: w) ++ "; int ".toList ++ (c :: w) ++ ";".toList)
      [] ['n', 't']
      (" ".toList ++ (c :: w) ++ "; int ".toList ++ (c :: w) ++ ";".toList)
      'i' 1 (0) (1)
      (3)
      (by simp) (by intro x hx; cases hx)
      (by decide) (by decide)
      (by intro d r h; simp at h; rw [← h.1]; exact ⟨by decide, by decide⟩)
      (by decide) (by omega)
      (by
        simp only [List.length_cons, List.length_nil, Nat.cast_add, Nat.cast_one,
          Nat.cast_zero]
        omega)
      (by
        simp only [List.length_cons, List.length_nil, Nat.cast_add, Nat.cast_one,
          Nat.cast_zero]
        omega)
    simpa using h
  have e1 : get_next_token
      ⟨" ".toList ++ (c :: w) ++ "; int ".toList ++ (c :: w) ++ ";".toList,
        1, 3⟩ =
      (⟨.TOKEN_IDENTIFIER, c :: w, 1, 5⟩,
        ⟨"; int ".toList ++ (c :: w) ++ ";".toList,
          1, 4 + ((c :: w).length : Int)⟩) := by
    have h := lex_word
      (" ".toList ++ (c :: w) ++ "; int ".toList ++ (c :: w) ++ ";".toList)
      [' '] w
      ("; int ".toList ++ (c :: w) ++ ";".toList)
      c 1 (3) (5)
      (4 + ((c :: w).length : Int))
      (by simp) (by intro x hx; simpa using hx)
      hc hw (by intro d r h; simp at h; rw [← h.1]; exact ⟨by decide, by decide⟩)
      hlen (by omega)
      (by
        simp only [List.length_cons, List.length_nil, Nat.cast_add, Nat.cast_one,
          Nat.cast_zero]
        omega)
      (by
        simp only [List.length_cons, List.length_nil, Nat.cast_add, Nat.cast_one,
          Nat.cast_zero]
        omega)
    simpa [hkw] using h
  have e2 : get_next_token
      ⟨"; int ".toList ++ (c :: w) ++ ";".toList,
        1, 4 + ((c :: w).length : Int)⟩ =
      (⟨.TOKEN_DELIMITER, [';'], 1, 5 + ((c :: w).length : Int)⟩,
        ⟨" int ".toList ++ (c :: w) ++ ";".toList,
          1, 5 + ((c :: w).length : Int)⟩) := by
    exact lex_delimiter _ []
      (" int ".toList ++ (c :: w) ++ ";".toList)
      ';' 1 (4 + ((c :: w).length : Int)) (5 + ((c :: w).length : Int)) (by simp)
      (by intro x hx; cases hx) (by decide)
      (by
        simp only [List.length_cons, List.length_nil, Nat.cast_add, Nat.cast_one,
          Nat.cast_zero]
        omega)
  have e3 : get_next_token
      ⟨" int ".toList ++ (c :: w) ++ ";".toList,
        1, 5 + ((c :: w).length : Int)⟩ =
      (⟨.TOKEN_KEYWORD, "int".toList, 1, 7 + ((c :: w).length : Int)⟩,
        ⟨" ".toList ++ (c :: w) ++ ";".toList,
          1, 9 + ((c :: w).length : Int)⟩) := by
    have h := lex_word
      (" int ".toList ++ (c :: w) ++ ";".toList)
      [' '] ['n', 't']
      (" ".toList ++ (c :: w) ++ ";".toList)
      'i' 1 (5 + ((c :: w).length : Int)) (7 + ((c :: w).length : Int))
      (9 + ((c :: w).length : Int))
      (by simp) (by intro x hx; simpa using hx)
      (by decide) (by decide)
      (by intro d r h; simp at h; rw [← h.1]; exact ⟨by decide, by decide⟩)
      (by decide) (by omega)
      (by
        simp only [List.length_cons, List.length_nil, Nat.cast_add, Nat.cast_one,
          Nat.cast_zero]
        omega)
      (by
        simp only [List.length_cons, List.length_nil, Nat.cast_add, Nat.cast_one,
          Nat.cast_zero]
        omega)
    simpa using h
  have e4 : get_next_token
      ⟨" ".toList ++ (c :: w) ++ ";".toList,
        1, 9 + ((c :: w).length : Int)⟩ =
      (⟨.TOKEN_IDENTIFIER, c :: w, 1, 11 + ((c :: w).length : Int)⟩,
        ⟨";".toList,
          1, 10 + 2 * ((c :: w).length : Int)⟩) := by
    have h := lex_word
      (" ".toList ++ (c :: w) ++ ";".toList)
      [' '] w
      (";".toList)
      c 1 (9 + ((c :: w).length : Int)) (11 + ((c :: w).length : Int))
      (10 + 2 * ((c :: w).length : Int))
      (by simp) (by intro x hx; simpa using hx)
      hc hw (by intro d r h; simp at h; rw [← h.1]; exact ⟨by decide, by decide⟩)
      hlen (by omega)
      (by
        simp only [List.length_cons, List.length_nil, Nat.cast_add, Nat.cast_one,
          Nat.cast_zero]
        omega)
      (by
        simp only [List.length_cons, List.length_nil, Nat.cast_add, Nat.cast_one,
          Nat.cast_zero]
        omega)
    simpa [hkw] using h
  have e5 : get_next_token
      ⟨";".toList,
        1, 10 + 2 * ((c :: w).length : Int)⟩ =
      (⟨.TOKEN_DELIMITER, [';'], 1, 11 + 2 * ((c :: w).length : Int)⟩,
        ⟨[],
          1, 11 + 2 * ((c :: w).length : Int)⟩) := by
    exact lex_delimiter _ []
      ([])
      ';' 1 (10 + 2 * ((c :: w).length : Int)) (11 + 2 * ((c :: w).length : Int)) (by simp)
      (by intro x hx; cases hx) (by decide)
      (by
        simp only [List.length_cons, List.length_nil, Nat.cast_add, Nat.cast_one,
          Nat.cast_zero]
        omega)
  have e6 : get_next_token ⟨[], 1, 11 + 2 * ((c :: w).length : Int)⟩ =
      (⟨.TOKEN_EOF, [], 1, 11 + 2 * ((c :: w).length : Int)⟩,
        ⟨[], 1, 11 + 2 * ((c :: w).length : Int)⟩) :=
    lex_eof [] 1 (11 + 2 * ((c :: w).length : Int)) (11 + 2 * ((c :: w).length : Int))
      (by intro x hx; cases hx) (by simp)
  unfold token_sequence
  rw [lex_all_step _ _ _ _ e0 (by simp) (by simp),
    lex_all_step _ _ _ _ e1 (by simp) (by simp),
    lex_all_step _ _ _ _ e2 (by simp) (by simp),
    lex_all_step _ _ _ _ e3 (by simp) (by simp),
    lex_all_step _ _ _ _ e4 (by simp) (by simp),
    lex_all_step _ _ _ _ e5 (by simp) (by simp),
    lex_all_stop _ _ _ _ e6 rfl (by simp)]

/-- The tokens of `int n; { int n; n = 1; }` for a name `n = c :: w`. -/
theorem tokens_of_nested_declaration (c : Char) (w : List Char) (hc : isalpha c = true)
    (hw : ∀ x ∈ w, isalnum x = true) (hlen : (c :: w).length ≤ MAX_TOKEN_LENGTH - 1)
    (hkw : is_keyword (c :: w) = false) :
    token_sequence
        ("int ".toList ++ (c :: w) ++ "; \x7b int ".toList ++ (c :: w) ++ "; ".toList ++ (c :: w) ++
          " = 1; \x7d".toList) =
      [⟨.TOKEN_KEYWORD, "int".toList, 1, 1⟩,
        ⟨.TOKEN_IDENTIFIER, c :: w, 1, 5⟩,
        ⟨.TOKEN_DELIMITER, [';'], 1, 5 + ((c :: w).length : Int)⟩,
        ⟨.TOKEN_DELIMITER, ['{'], 1, 7 + ((c :: w).length : Int)⟩,
        ⟨.TOKEN_KEYWORD, "int".toList, 1, 9 + ((c :: w).length : Int)⟩,
        ⟨.TOKEN_IDENTIFIER, c :: w, 1, 13 + ((c :: w).length : Int)⟩,
        ⟨.TOKEN_DELIMITER, [';'], 1, 13 + 2 * ((c :: w).length : Int)⟩,
        ⟨.TOKEN_IDENTIFIER, c :: w, 1, 15 + 2 * ((c :: w).length : Int)⟩,
        ⟨.TOKEN_OPERATOR, ['='], 1, 16 + 3 * ((c :: w).length : Int)⟩,
        ⟨.TOKEN_NUMBER, ['1'], 1, 18 + 3 * ((c :: w).length : Int)⟩,
        ⟨.TOKEN_DELIMITER, [';'], 1, 19 + 3 * ((c :: w).length : Int)⟩,
        ⟨.TOKEN_DELIMITER, ['}'], 1, 21 + 3 * ((c :: w).length : Int)⟩,
        ⟨.TOKEN_EOF, [], 1, 21 + 3 * ((c :: w).length : Int)⟩] := by
  have e0 : get_next_token
      ⟨"int ".toList ++ (c :: w) ++ "; \x7b int ".toList ++ (c :: w) ++
        "; ".toList ++ (c :: w) ++ " = 1; \x7d".toList,
        1, 0⟩ =
      (⟨.TOKEN_KEYWORD, "int".toList, 1, 1⟩,
        ⟨" ".toList ++ (c :: w) ++ "; \x7b int ".toList ++ (c :: w) ++ "; ".toList ++ (c :: w) ++
          " = 1; \x7d".toList,
          1, 3⟩) := by
    have h := lex_word
      ("int ".toList ++ (c :: w) ++ "; \x7b int ".toList ++ (c :: w) ++ "; ".toList ++ (c :: w) ++
        " = 1; \x7d".toList)
      [] ['n', 't']
      (" ".toList ++ (c :: w) ++ "; \x7b int ".toList ++ (c :: w) ++ "; ".toList ++ (c :: w) ++
          " = 1; \x7d".toList)
      'i' 1 (0) (1)
      (3)
      (by simp) (by intro x hx; cases hx)
      (by decide) (by decide)
      (by intro d r h; simp at h; rw [← h.1]; exact ⟨by decide, by decide⟩)
      (by decide) (by omega)
      (by
        simp only [List.length_cons, List.length_nil, Nat.cast_add, Nat.cast_one,
          Nat.cast_zero]
        omega)
      (by
        simp only [List.length_cons, List.length_nil, Nat.cast_add, Nat.cast_one,
          Nat.cast_zero]
        omega)
    simpa using h
  have e1 : get_next_token
      ⟨" ".toList ++ (c :: w) ++ "; \x7b int ".toList ++ (c :: w) ++
        "; ".toList ++ (c :: w) ++ " = 1; \x7d".toList,
        1, 3⟩ =
      (⟨.TOKEN_IDENTIFIER, c :: w, 1, 5⟩,
        ⟨"; \x7b int ".toList ++ (c :: w) ++ "; ".toList ++ (c :: w) ++ " = 1; \x7d".toList,
          1, 4 + ((c :: w).length : Int)⟩) := by
    have h := lex_word
      (" ".toList ++ (c :: w) ++ "; \x7b int ".toList ++ (c :: w) ++ "; ".toList ++ (c :: w) ++
        " = 1; \x7d".toList)
      [' '] w
      ("; \x7b int ".toList ++ (c :: w) ++ "; ".toList ++ (c :: w) ++ " = 1; \x7d".toList)
      c 1 (3) (5)
      (4 + ((c :: w).length : Int))
      (by simp) (by intro x hx; simpa using hx)
      hc hw (by intro d r h; simp at h; rw [← h.1]; exact ⟨by decide, by decide⟩)
      hlen (by omega)
      (by
        simp only [List.length_cons, List.length_nil, Nat.cast_add, Nat.cast_one,
          Nat.cast_zero]
        omega)
      (by
        simp only [List.length_cons, List.length_nil, Nat.cast_add, Nat.cast_one,
          Nat.cast_zero]
        omega)
    simpa [hkw] using h
  have e2 : get_next_token
      ⟨"; \x7b int ".toList ++ (c :: w) ++ "; ".toList ++ (c :: w) ++
        " = 1; \x7d".toList,
        1, 4 + ((c :: w).length : Int)⟩ =
      (⟨.TOKEN_DELIMITER, [';'], 1, 5 + ((c :: w).length : Int)⟩,
        ⟨" \x7b int ".toList ++ (c :: w) ++ "; ".toList ++ (c :: w) ++ " = 1; \x7d".toList,
          1, 5 + ((c :: w).length : Int)⟩) := by
    exact lex_delimiter _ []
      (" \x7b int ".toList ++ (c :: w) ++ "; ".toList ++ (c :: w) ++ " = 1; \x7d".toList)
      ';' 1 (4 + ((c :: w).length : Int)) (5 + ((c :: w).length : Int)) (by simp)
      (by intro x hx; cases hx) (by decide)
      (by
        simp only [List.length_cons, List.length_nil, Nat.cast_add, Nat.cast_one,
          Nat.cast_zero]
        omega)
  have e3 : get_next_token
      ⟨" \x7b int ".toList ++ (c :: w) ++ "; ".toList ++ (c :: w) ++
        " = 1; \x7d".toList,
        1, 5 + ((c :: w).length : Int)⟩ =
      (⟨.TOKEN_DELIMITER, ['{'], 1, 7 + ((c :: w).length : Int)⟩,
        ⟨" int ".toList ++ (c :: w) ++ "; ".toList ++ (c :: w) ++ " = 1; \x7d".toList,
          1, 7 + ((c :: w).length : Int)⟩) := by
    exact lex_delimiter _ [' ']
      (" int ".toList ++ (c :: w) ++ "; ".toList ++ (c :: w) ++ " = 1; \x7d".toList)
      '{' 1 (5 + ((c :: w).length : Int)) (7 + ((c :: w).length : Int)) (by simp)
      (by intro x hx; simpa using hx) (by decide)
      (by
        simp only [List.length_cons, List.length_nil, Nat.cast_add, Nat.cast_one,
          Nat.cast_zero]
        omega)
  have e4 : get_next_token
      ⟨" int ".toList ++ (c :: w) ++ "; ".toList ++ (c :: w) ++
        " = 1; \x7d".toList,
        1, 7 + ((c :: w).length : Int)⟩ =
      (⟨.TOKEN_KEYWORD, "int".toList, 1, 9 + ((c :: w).length : Int)⟩,
        ⟨" ".toList ++ (c :: w) ++ "; ".toList ++ (c :: w) ++ " = 1; \x7d".toList,
          1, 11 + ((c :: w).length : Int)⟩) := by
    have h := lex_word
      (" int ".toList ++ (c :: w) ++ "; ".toList ++ (c :: w) ++ " = 1; \x7d".toList)
      [' '] ['n', 't']
      (" ".toList ++ (c :: w) ++ "; ".toList ++ (c :: w) ++ " = 1; \x7d".toList)
      'i' 1 (7 + ((c :: w).length : Int)) (9 + ((c :: w).length : Int))
      (11 + ((c :: w).length : Int))
      (by simp) (by intro x hx; simpa using hx)
      (by decide) (by decide)
      (by intro d r h; simp at h; rw [← h.1]; exact ⟨by decide, by decide⟩)
      (by decide) (by omega)
      (by
        simp only [List.length_cons, List.length_nil, Nat.cast_add, Nat.cast_one,
          Nat.cast_zero]
        omega)
      (by
        simp only [List.length_cons, List.length_nil, Nat.cast_add, Nat.cast_one,
          Nat.cast_zero]
        omega)
    simpa using h
  have e5 : get_next_token
      ⟨" ".toList ++ (c :: w) ++ "; ".toList ++ (c :: w) ++
        " = 1; \x7d".toList,
        1, 11 + ((c :: w).length : Int)⟩ =
      (⟨.TOKEN_IDENTIFIER, c :: w, 1, 13 + ((c :: w).length : Int)⟩,
        ⟨"; ".toList ++ (c :: w) ++ " = 1; \x7d".toList,
          1, 12 + 2 * ((c :: w).length : Int)⟩) := by
    have h := lex_word
      (" ".toList ++ (c :: w) ++ "; ".toList ++ (c :: w) ++ " = 1; \x7d".toList)
      [' '] w
      ("; ".toList ++ (c :: w) ++ " = 1; \x7d".toList)
      c 1 (11 + ((c :: w).length : Int)) (13 + ((c :: w).length : Int))
      (12 + 2 * ((c :: w).length : Int))
      (by simp) (by intro x hx; simpa using hx)
      hc hw (by intro d r h; simp at h; rw [← h.1]; exact ⟨by decide, by decide⟩)
      hlen (by omega)
      (by
        simp only [List.length_cons, List.length_nil, Nat.cast_add, Nat.cast_one,
          Nat.cast_zero]
        omega)
      (by
        simp only [List.length_cons, List.length_nil, Nat.cast_add, Nat.cast_one,
          Nat.cast_zero]
        omega)
    simpa [hkw] using h
  have e6 : get_next_token
      ⟨"; ".toList ++ (c :: w) ++ " = 1; \x7d".toList,
        1, 12 + 2 * ((c :: w).length : Int)⟩ =
      (⟨.TOKEN_DELIMITER, [';'], 1, 13 + 2 * ((c :: w).length : Int)⟩,
        ⟨" ".toList ++ (c :: w) ++ " = 1; \x7d".toList,
          1, 13 + 2 * ((c :: w).length : Int)⟩) := by
    exact lex_delimiter _ []
      (" ".toList ++ (c :: w) ++ " = 1; \x7d".toList)
      ';' 1 (12 + 2 * ((c :: w).length : Int)) (13 + 2 * ((c :: w).length : Int)) (by simp)
      (by intro x hx; cases hx) (by decide)
      (by
        simp only [List.length_cons, List.length_nil, Nat.cast_add, Nat.cast_one,
          Nat.cast_zero]
        omega)
  have e7 : get_next_token
      ⟨" ".toList ++ (c :: w) ++ " = 1; \x7d".toList,
        1, 13 + 2 * ((c :: w).length : Int)⟩ =
      (⟨.TOKEN_IDENTIFIER, c :: w, 1, 15 + 2 * ((c :: w).length : Int)⟩,
        ⟨" = 1; \x7d".toList,
          1, 14 + 3 * ((c :: w).length : Int)⟩) := by
    have h := lex_word
      (" ".toList ++ (c :: w) ++ " = 1; \x7d".toList)
      [' '] w
      (" = 1; \x7d".toList)
      c 1 (13 + 2 * ((c :: w).length : Int)) (15 + 2 * ((c :: w).length : Int))
      (14 + 3 * ((c :: w).length : Int))
      (by simp) (by intro x hx; simpa using hx)
      hc hw (by intro d r h; simp at h; rw [← h.1]; exact ⟨by decide, by decide⟩)
      hlen (by omega)
      (by
        simp only [List.length_cons, List.length_nil, Nat.cast_add, Nat.cast_one,
          Nat.cast_zero]
        omega)
      (by
        simp only [List.length_cons, List.length_nil, Nat.cast_add, Nat.cast_one,
          Nat.cast_zero]
        omega)
    simpa [hkw] using h
  have e8 : get_next_token
      ⟨" = 1; \x7d".toList,
        1, 14 + 3 * ((c :: w).length : Int)⟩ =
      (⟨.TOKEN_OPERATOR, ['='], 1, 16 + 3 * ((c :: w).length : Int)⟩,
        ⟨" 1; \x7d".toList,
          1, 16 + 3 * ((c :: w).length : Int)⟩) := by
    have h := lex_operator
      (" = 1; \x7d".toList)
      [' ']
      ("1; \x7d".toList)
      '=' ' ' 1 (14 + 3 * ((c :: w).length : Int)) (16 + 3 * ((c :: w).length : Int))
      (by simp) (by intro x hx; simpa using hx) (by decide)
      (by decide) (by decide) (by omega)
      (by
        simp only [List.length_cons, List.length_nil, Nat.cast_add, Nat.cast_one,
          Nat.cast_zero]
        omega)
    simpa using h
  have e9 : get_next_token
      ⟨" 1; \x7d".toList,
        1, 16 + 3 * ((c :: w).length : Int)⟩ =
      (⟨.TOKEN_NUMBER, ['1'], 1, 18 + 3 * ((c :: w).length : Int)⟩,
        ⟨"; \x7d".toList,
          1, 18 + 3 * ((c :: w).length : Int)⟩) := by
    have h := lex_number
      (" 1; \x7d".toList)
      [' '] []
      ("; \x7d".toList)
      '1' 1 (16 + 3 * ((c :: w).length : Int)) (18 + 3 * ((c :: w).length : Int))
      (18 + 3 * ((c :: w).length : Int))
      (by simp) (by intro x hx; simpa using hx)
      (by decide) (by decide)
      (by intro d r h; simp at h; rw [← h.1]; exact ⟨by decide, by decide⟩)
      (by decide) (by omega)
      (by
        simp only [List.length_cons, List.length_nil, Nat.cast_add, Nat.cast_one,
          Nat.cast_zero]
        omega)
      (by
        simp only [List.length_cons, List.length_nil, Nat.cast_add, Nat.cast_one,
          Nat.cast_zero]
        omega)
    simpa using h
  have e10 : get_next_token
      ⟨"; \x7d".toList,
        1, 18 + 3 * ((c :: w).length : Int)⟩ =
      (⟨.TOKEN_DELIMITER, [';'], 1, 19 + 3 * ((c :: w).length : Int)⟩,
        ⟨" \x7d".toList,
          1, 19 + 3 * ((c :: w).length : Int)⟩) := by
    exact lex_delimiter _ []
      (" \x7d".toList)
      ';' 1 (18 + 3 * ((c :: w).length : Int)) (19 + 3 * ((c :: w).length : Int)) (by simp)
      (by intro x hx; cases hx) (by decide)
      (by
        simp only [List.length_cons, List.length_nil, Nat.cast_add, Nat.cast_one,
          Nat.cast_zero]
        omega)
  have e11 : get_next_token
      ⟨" \x7d".toList,
        1, 19 + 3 * ((c :: w).length : Int)⟩ =
      (⟨.TOKEN_DELIMITER, ['}'], 1, 21 + 3 * ((c :: w).length : Int)⟩,
        ⟨[],
          1, 21 + 3 * ((c :: w).length : Int)⟩) := by
    exact lex_delimiter _ [' ']
      ([])
      '}' 1 (19 + 3 * ((c :: w).length : Int)) (21 + 3 * ((c :: w).length : Int)) (by simp)
      (by intro x hx; simpa using hx) (by decide)
      (by
        simp only [List.length_cons, List.length_nil, Nat.cast_add, Nat.cast_one,
          Nat.cast_zero]
        omega)
  have e12 : get_next_token ⟨[], 1, 21 + 3 * ((c :: w).length : Int)⟩ =
      (⟨.TOKEN_EOF, [], 1, 21 + 3 * ((c :: w).length : Int)⟩,
        ⟨[], 1, 21 + 3 * ((c :: w).length : Int)⟩) :=
    lex_eof [] 1 (21 + 3 * ((c :: w).length : Int)) (21 + 3 * ((c :: w).length : Int))
      (by intro x hx; cases hx) (by simp)
  unfold token_sequence
  rw [lex_all_step _ _ _ _ e0 (by simp) (by simp),
    lex_all_step _ _ _ _ e1 (by simp) (by simp),
    lex_all_step _ _ _ _ e2 (by simp) (by simp),
    lex_all_step _ _ _ _ e3 (by simp) (by simp),
    lex_all_step _ _ _ _ e4 (by simp) (by simp),
    lex_all_step _ _ _ _ e5 (by simp) (by simp),
    lex_all_step _ _ _ _ e6 (by simp) (by simp),
    lex_all_step _ _ _ _ e7 (by simp) (by simp),
    lex_all_step _ _ _ _ e8 (by simp) (by simp),
    lex_all_step _ _ _ _ e9 (by simp) (by simp),
    lex_all_step _ _ _ _ e10 (by simp) (by simp),
    lex_all_step _ _ _ _ e11 (by simp) (by simp),
    lex_all_stop _ _ _ _ e12 rfl (by simp)]

theorem is_identifier_spec (n : List Char) (h : is_identifier n = true) :
    ∃ c w, n = c :: w ∧ isalpha c = true ∧ (∀ x ∈ w, isalnum x = true) ∧
      (c :: w).length ≤ MAX_TOKEN_LENGTH - 1 ∧ is_keyword (c :: w) = false := by
  cases n with
  | nil => cases h
  | cons c w =>
    simp only [is_identifier, Bool.and_eq_true, List.all_eq_true, decide_eq_true_eq,
      Bool.not_eq_true'] at h
    exact ⟨c, w, rfl, h.1.1.1, h.1.1.2, h.1.2, h.2⟩

/-- Two declarations of one name in a row are a program of the grammar. -/
theorem derives_declared_twice {k1 x1 s1 k2 x2 s2 eof : Token}
    (hk1 : is_kw k1 "int".toList) (hx1 : x1.type = .TOKEN_IDENTIFIER)
    (hs1 : is_delim s1 ';') (hk2 : is_kw k2 "int".toList)
    (hx2 : x2.type = .TOKEN_IDENTIFIER) (hs2 : is_delim s2 ';')
    (heof : eof.type = .TOKEN_EOF) :
    Derives .program ([k1, x1, s1, k2] ++ x2 :: [s2, eof]) :=
  (Derives.program (.stmtList_cons (.statement_decl (.decl hk1 hx1 hs1))
    (.stmtList_cons (.statement_decl (.decl hk2 hx2 hs2)) .stmtList_nil)) heof).cast
    (by simp)

/-- A declaration, then a block that declares the name again and assigns to
it, is a program of the grammar. -/
theorem derives_declared_nested {k1 x1 s1 lb k2 x2 s2 x3 eq one s3 rb eof : Token}
    (hk1 : is_kw k1 "int".toList) (hx1 : x1.type = .TOKEN_IDENTIFIER)
    (hs1 : is_delim s1 ';') (hlb : is_delim lb '{') (hk2 : is_kw k2 "int".toList)
    (hx2 : x2.type = .TOKEN_IDENTIFIER) (hs2 : is_delim s2 ';')
    (hx3 : x3.type = .TOKEN_IDENTIFIER) (heq : is_op eq "=".toList)
    (hone : one.type = .TOKEN_NUMBER) (hs3 : is_delim s3 ';') (hrb : is_delim rb '}')
    (heof : eof.type = .TOKEN_EOF) :
    Derives .program [k1, x1, s1, lb, k2, x2, s2, x3, eq, one, s3, rb, eof] :=
  (Derives.program (.stmtList_cons (.statement_decl (.decl hk1 hx1 hs1))
    (.stmtList_cons (.statement_block (.block hlb
      (.stmtList_cons (.statement_decl (.decl hk2 hx2 hs2))
        (.stmtList_cons (derives_assign_statement hx3 heq hone hs3) .stmtList_nil)) hrb))
      .stmtList_nil)) heof).cast (by simp)

/-- The name declared at level 0 and again in a block: the lookup in the
block finds the symbol of the block. -/
theorem find_symbol_inner (s : State) (n : List Char) (htable : s.symbol_table = [])
    (hlevel : s.current_scope_level = 0) :
    ∃ s1 s2, add_symbol s n "int".toList = .ok s1 ∧
      add_symbol (enter_scope s1) n "int".toList = .ok s2 ∧
      find_symbol s2 n = some 1 ∧
      s2.symbol_table[0]? = some ⟨n, "int".toList, 0⟩ ∧
      s2.symbol_table[1]? = some ⟨n, "int".toList, 1⟩ ∧ s2.current_scope_level = 1 := by
  refine ⟨{ s with symbol_table := [⟨n, "int".toList, 0⟩] },
    { s with symbol_table := [⟨n, "int".toList, 0⟩, ⟨n, "int".toList, 1⟩]
             current_scope_level := 1 }, ?_, ?_, ?_, rfl, rfl, rfl⟩
  · simp [add_symbol, redeclared, htable, hlevel, MAX_SYMBOLS]
  · simp [add_symbol, redeclared, enter_scope, htable, hlevel, MAX_SYMBOLS]
  · simp [find_symbol, find_symbol_loop]

theorem analyse_declared_twice (n : List Char) (hn : is_identifier n = true) :
    analyse ("int ".toList ++ n ++ "; int ".toList ++ n ++ ";".toList) =
      .error (.redeclaration n 1 (11 + (n.length : Int))) := by
  obtain ⟨c, w, rfl, hc, hw, hlen, hkw⟩ := is_identifier_spec n hn
  exact analyse_fault _ _ _
    [⟨.TOKEN_DELIMITER, [';'], 1, 11 + 2 * ((c :: w).length : Int)⟩,
      ⟨.TOKEN_EOF, [], 1, 11 + 2 * ((c :: w).length : Int)⟩]
    _ ([[c :: w]], true) (.redeclared (c :: w))
    (tokens_of_two_declarations c w hc hw hlen hkw)
    (derives_declared_twice ⟨rfl, rfl⟩ rfl ⟨rfl, rfl⟩ ⟨rfl, rfl⟩ rfl ⟨rfl, rfl⟩ rfl)
    (by simp [scan, scan_step, is_delim, is_kw, live, MAX_SYMBOLS]) rfl
    (by rw [scan_step_declare _ _ _ rfl, if_pos (List.mem_singleton_self _)])

theorem analyse_declared_nested (n : List Char) (hn : is_identifier n = true) :
    ∃ s', analyse ("int ".toList ++ n ++ "; \x7b int ".toList ++ n ++ "; ".toList ++ n ++
      " = 1; \x7d".toList) = .ok s' := by
  obtain ⟨c, w, rfl, hc, hw, hlen, hkw⟩ := is_identifier_spec n hn
  apply analyse_returns
  · rw [tokens_of_nested_declaration c w hc hw hlen hkw]
    exact derives_declared_nested ⟨rfl, rfl⟩ rfl ⟨rfl, rfl⟩ ⟨rfl, rfl⟩ ⟨rfl, rfl⟩ rfl
      ⟨rfl, rfl⟩ rfl ⟨rfl, rfl⟩ rfl ⟨rfl, rfl⟩ ⟨rfl, rfl⟩ rfl
  · rw [tokens_of_nested_declaration c w hc hw hlen hkw]
    exact ⟨([[c :: w]], false),
      by simp [scan, scan_step, is_delim, is_kw, declared, live, MAX_SYMBOLS]⟩

/-- The word or number that the loop stores: the characters stored before,
the first character, and characters that pass the test; it is not longer than
`MAX_TOKEN_LENGTH - 1` when the first character still fits. -/
theorem run_loop_value (p : Char → Bool) (n : Nat) (value : List Char) (c : Char)
    (s : Source) :
    ∃ w, (run_loop p n value c s).1 = value ++ c :: w ∧ (∀ x ∈ w, p x = true) ∧
      (value.length + 1 ≤ MAX_TOKEN_LENGTH - 1 →
        (value ++ c :: w).length ≤ MAX_TOKEN_LENGTH - 1) := by
  induction n generalizing value c s with
  | zero => exact ⟨[], rfl, fun _ h => (by cases h), fun h => (by simpa using h)⟩
  | succ n ih =>
    rw [run_loop]
    cases hg : (getch s).1 with
    | none => exact ⟨[], rfl, fun _ h => (by cases h), fun h => (by simpa using h)⟩
    | some d =>
      simp only []
      by_cases hd : (p d && decide ((value ++ [c]).length < MAX_TOKEN_LENGTH - 1)) = true
      · rw [if_pos hd]
        obtain ⟨w, h1, h2, h3⟩ := ih (value ++ [c]) d (getch s).2
        simp only [Bool.and_eq_true, decide_eq_true_eq] at hd
        refine ⟨d :: w, by rw [h1]; simp, ?_, fun _ => ?_⟩
        · intro x hx
          rcases List.mem_cons.mp hx with rfl | hx
          · exact hd.1
          · exact h2 x hx
        · have := h3 (by have := hd.2; omega)
          simpa using this
      · rw [if_neg hd]
        exact ⟨[], rfl, fun _ h => (by cases h), fun h => (by simpa using h)⟩

/-- The lexeme of an identifier token is an identifier. -/
theorem identifier_token_name (s : Source)
    (h : (get_next_token s).1.type = .TOKEN_IDENTIFIER) :
    is_identifier (get_next_token s).1.value = true := by
  revert h
  unfold get_next_token
  simp only []
  split
  · intro h; cases h
  · rename_i c _
    split
    · rename_i hc
      obtain ⟨w, h1, h2, h3⟩ := run_loop_value isalnum
        (skip_space_loop (s.input_file.length + 1) (getch s).1 (getch s).2).2.input_file.length
        [] c (skip_space_loop (s.input_file.length + 1) (getch s).1 (getch s).2).2
      simp only []
      rw [h1]
      intro h
      split at h
      · cases h
      · rename_i hk
        simp only [List.nil_append] at hk h3 ⊢
        simp only [is_identifier, hc, Bool.true_and, Bool.and_eq_true, List.all_eq_true,
          decide_eq_true_eq, Bool.not_eq_true']
        exact ⟨⟨h2, h3 (by decide)⟩, by simpa using hk⟩
    · split
      · intro h; cases h
      · split
        · split
          · intro h; cases h
          · intro h; cases h
        · split
          · intro h; cases h
          · intro h; cases h

/-- C7: (1) whenever the tokens of an input up to an identifier begin a
program of the grammar and obey the scoping rule, the token before the
identifier is `int` and the innermost open scope declares its name already,
the analysis ends with the redeclaration condition at this identifier;
(2) for every identifier `n` (a letter followed by letters and digits, at most
99 characters, not a reserved word) the analysis of `int n; int n;` ends with
the redeclaration condition at the second `n`, in line 1 and column
`11 + |n|`; the analysis of `int n; { int n; n = 1; }` succeeds; and after
`n` is declared at level 0, a block is entered and `n` is declared in it,
`find_symbol` answers the symbol of the block, whose scope level 1 is one
above that of the outer symbol; (3) the lexeme of every identifier token that
`get_next_token` returns is such an identifier. -/
theorem redeclaration_scope :
    (∀ input pre rest rest2 id top outer,
      token_sequence input = pre ++ id :: rest →
      Derives .program (pre ++ id :: rest2) →
      scan pre ([[]], false) = .ok (top :: outer, true) →
      id.type = .TOKEN_IDENTIFIER → id.value ∈ top →
      analyse input = .error (.redeclaration id.value id.line id.column)) ∧
    (∀ n, is_identifier n = true →
      analyse ("int ".toList ++ n ++ "; int ".toList ++ n ++ ";".toList) =
        .error (.redeclaration n 1 (11 + (n.length : Int))) ∧
      (∃ s', analyse ("int ".toList ++ n ++ "; \x7b int ".toList ++ n ++ "; ".toList ++ n ++
        " = 1; \x7d".toList) = .ok s') ∧
      ∀ s, s.symbol_table = [] → s.current_scope_level = 0 →
        ∃ s1 s2, add_symbol s n "int".toList = .ok s1 ∧
          add_symbol (enter_scope s1) n "int".toList = .ok s2 ∧
          find_symbol s2 n = some 1 ∧
          s2.symbol_table[0]? = some ⟨n, "int".toList, 0⟩ ∧
          s2.symbol_table[1]? = some ⟨n, "int".toList, 1⟩ ∧
          s2.current_scope_level = 1) ∧
    (∀ s, (get_next_token s).1.type = .TOKEN_IDENTIFIER →
      is_identifier (get_next_token s).1.value = true) := by
  refine ⟨?_, fun n hn => ⟨analyse_declared_twice n hn, analyse_declared_nested n hn,
    fun s ht hl => find_symbol_inner s n ht hl⟩, identifier_token_name⟩
  intro input pre rest rest2 id top outer htokens hgrammar hscan hid hin
  exact analyse_fault input pre rest rest2 id _ (.redeclared id.value) htokens hgrammar hscan
    hid (by rw [scan_step_declare _ _ _ hid, if_pos hin])

/-- Witness of C7: `x` is an identifier, and the analysis of `int x; int x;`
ends with the redeclaration condition at line 1, column 12. -/
theorem redeclaration_scope_witness :
    analyse "int x; int x;".toList = .error (.redeclaration ['x'] 1 12) :=
  (redeclaration_scope.2.1 ['x'] (by decide)).1

/-! ## The lexer in general: words and numbers -/

theorem unget_getch_input (s : Source) :
    (ungetch_adjust (getch s).2 (getch s).1).input_file = s.input_file := by
  cases h : (getch s).1 with
  | none => rw [getch_none s h]; rfl
  | some c => exact (getch_some s c h).2

/-- The loop that reads a word or a number stores the first character and
then characters that pass the test, as long as there are any and fewer than
`MAX_TOKEN_LENGTH - 1` characters are stored; it ends after reading one more
character. -/
theorem run_loop_spec (p : Char → Bool) (w rest : List Char) (n : Nat) (value : List Char)
    (c : Char) (s : Source) (hin : s.input_file = w ++ rest) (hw : ∀ x ∈ w, p x = true)
    (hrest : ∀ d r, rest = d :: r → p d = false)
    (hlen : value.length + 1 ≤ MAX_TOKEN_LENGTH - 1) (hn : w.length ≤ n) :
    run_loop p n value c s =
      (value ++ c :: w.take (MAX_TOKEN_LENGTH - 2 - value.length),
        (getch (advance s (w.take (MAX_TOKEN_LENGTH - 2 - value.length)))).1,
        (getch (advance s (w.take (MAX_TOKEN_LENGTH - 2 - value.length)))).2) := by
  induction w generalizing n value c s with
  | nil =>
    simp only [List.nil_append] at hin
    simp only [advance, List.foldl_nil, List.take_nil]
    cases n with
    | zero => rfl
    | succ n =>
      cases rest with
      | nil =>
        rw [run_loop, getch_nil s hin]
      | cons d r =>
        have hg := getch_cons s d r hin
        rw [run_loop, hg.1]
        simp only [hrest d r rfl, Bool.false_and, Bool.false_eq_true, if_false]
  | cons x w ih =>
    obtain ⟨m, rfl⟩ : ∃ m, n = m + 1 := ⟨n - 1, by simp at hn; omega⟩
    have hg := getch_cons s x (w ++ rest) hin
    rw [run_loop, hg.1]
    simp only [hw x (List.mem_cons_self _ _), Bool.true_and, decide_eq_true_eq,
      List.length_append, List.length_cons, List.length_nil]
    by_cases hfull : value.length + 1 < MAX_TOKEN_LENGTH - 1
    · rw [if_pos (by simpa using hfull)]
      obtain ⟨k, hk⟩ : ∃ k, MAX_TOKEN_LENGTH - 2 - value.length = k + 1 :=
        ⟨MAX_TOKEN_LENGTH - 2 - value.length - 1, by
          simp only [MAX_TOKEN_LENGTH] at hfull ⊢; omega⟩
      have hk' : MAX_TOKEN_LENGTH - 2 - (value ++ [c]).length = k := by
        simp only [List.length_append, List.length_cons, List.length_nil]
        omega
      rw [ih m (value ++ [c]) x (getch s).2 hg.2
        (fun y hy => hw y (List.mem_cons_of_mem _ hy))
        (by simp only [List.length_append, List.length_cons, List.length_nil]; omega)
        (by simpa using hn), hk', hk, List.take_succ_cons, advance_cons]
      simp
    · rw [if_neg (by simpa using hfull)]
      have hz : MAX_TOKEN_LENGTH - 2 - value.length = 0 := by
        simp only [MAX_TOKEN_LENGTH] at hfull hlen ⊢; omega
      rw [hz]
      simp only [List.take_zero, advance, List.foldl_nil]
      rw [hg.1]

/-- The branch of `get_next_token` for a word: after white space, a letter
`c` and the run `w` of letters and digits that follows it. -/
theorem get_next_token_word (s : Source) (ws w rest : List Char) (c : Char)
    (hin : s.input_file = ws ++ c :: (w ++ rest)) (hws : ∀ x ∈ ws, isspace x = true)
    (hc : isalpha c = true) (hw : ∀ x ∈ w, isalnum x = true)
    (hrest : ∀ d r, rest = d :: r → isalnum d = false) :
    get_next_token s =
      (⟨if is_keyword (c :: w.take (MAX_TOKEN_LENGTH - 2)) then .TOKEN_KEYWORD
          else .TOKEN_IDENTIFIER,
        c :: w.take (MAX_TOKEN_LENGTH - 2),
        (advance s (ws ++ [c])).current_line, (advance s (ws ++ [c])).current_column⟩,
        ungetch_adjust
          (getch (advance (advance s (ws ++ [c])) (w.take (MAX_TOKEN_LENGTH - 2)))).2
          (getch (advance (advance s (ws ++ [c])) (w.take (MAX_TOKEN_LENGTH - 2)))).1) := by
  have hs1 : (advance s (ws ++ [c])).input_file = w ++ rest :=
    advance_input (ws ++ [c]) s (w ++ rest) (by rw [hin]; simp)
  unfold get_next_token
  simp only []
  rw [skip_space_loop_char ws s _ c (w ++ rest) hin hws
    (isalnum_not_space c (isalpha_isalnum c hc)) (by rw [hin]; simp; omega)]
  simp only [hc, if_true]
  rw [run_loop_spec isalnum w rest _ [] c _ hs1 hw hrest (by decide) (by rw [hs1]; simp)]
  simp only [List.nil_append, List.length_nil, Nat.sub_zero]

/-- The branch of `get_next_token` for a number. -/
theorem get_next_token_number (s : Source) (ws w rest : List Char) (c : Char)
    (hin : s.input_file = ws ++ c :: (w ++ rest)) (hws : ∀ x ∈ ws, isspace x = true)
    (hc : isdigit c = true) (hw : ∀ x ∈ w, isdigit x = true)
    (hrest : ∀ d r, rest = d :: r → isdigit d = false) :
    get_next_token s =
      (⟨.TOKEN_NUMBER, c :: w.take (MAX_TOKEN_LENGTH - 2),
        (advance s (ws ++ [c])).current_line, (advance s (ws ++ [c])).current_column⟩,
        ungetch_adjust
          (getch (advance (advance s (ws ++ [c])) (w.take (MAX_TOKEN_LENGTH - 2)))).2
          (getch (advance (advance s (ws ++ [c])) (w.take (MAX_TOKEN_LENGTH - 2)))).1) := by
  have hs1 : (advance s (ws ++ [c])).input_file = w ++ rest :=
    advance_input (ws ++ [c]) s (w ++ rest) (by rw [hin]; simp)
  unfold get_next_token
  simp only []
  rw [skip_space_loop_char ws s _ c (w ++ rest) hin hws
    (isalnum_not_space c (isdigit_isalnum c hc)) (by rw [hin]; simp; omega)]
  simp only [isdigit_not_alpha c hc, hc, if_true, Bool.false_eq_true, if_false]
  rw [run_loop_spec isdigit w rest _ [] c _ hs1 hw hrest (by decide) (by rw [hs1]; simp)]
  simp only [List.nil_append, List.length_nil, Nat.sub_zero]

/-- What a word or number leaves in the input: the characters of the run
that were not stored, and what follows the run. -/
theorem advance_take_input (s : Source) (w rest : List Char) (k : Nat)
    (hin : s.input_file = w ++ rest) :
    (ungetch_adjust (getch (advance s (w.take k))).2
      (getch (advance s (w.take k))).1).input_file = w.drop k ++ rest := by
  rw [unget_getch_input]
  exact advance_input (w.take k) s (w.drop k ++ rest) (by
    rw [hin, ← List.append_assoc, List.take_append_drop])

/-! ## Words, numbers and the bound of the lexeme -/

theorem is_keyword_iff (v : List Char) : is_keyword v = true ↔ v ∈ keywords := by
  simp only [is_keyword, List.any_eq_true, decide_eq_true_eq]
  exact ⟨fun ⟨k, hk, h⟩ => h ▸ hk, fun h => ⟨v, h, rfl⟩⟩

theorem replicate_isalnum (n : Nat) : ∀ x ∈ List.replicate n 'a', isalnum x = true := by
  intro x hx
  rw [List.eq_of_mem_replicate hx]
  decide

/-- The first character of the lexeme is the first character of the input
that is not white, unless that is the NUL character. -/
theorem lexeme_head (s : Source) (ws rest : List Char) (c : Char)
    (hin : s.input_file = ws ++ c :: rest) (hws : ∀ x ∈ ws, isspace x = true)
    (hc : isspace c = false) (hnul : c.toNat ≠ 0) :
    (get_next_token s).1.value.head? = some c := by
  unfold get_next_token
  simp only []
  rw [skip_space_loop_char ws s _ c rest hin hws hc (by rw [hin]; simp; omega)]
  simp only []
  split
  · obtain ⟨w, h1, _⟩ := run_loop_value isalnum (advance s (ws ++ [c])).input_file.length [] c
      (advance s (ws ++ [c]))
    simp only []
    rw [h1]
    rfl
  · split
    · obtain ⟨w, h1, _⟩ := run_loop_value isdigit (advance s (ws ++ [c])).input_file.length []
        c (advance s (ws ++ [c]))
      simp only []
      rw [h1]
      rfl
    · split
      · split <;> rfl
      · split
        · rfl
        · simp only [one_char, if_neg hnul]
          rfl

/-- A word: the lexeme is the first `MAX_TOKEN_LENGTH - 1` characters of the
letter and the run that follows it, and the rest is left in the input. -/
theorem word_lexeme (s : Source) (ws w rest : List Char) (c : Char)
    (hin : s.input_file = ws ++ c :: (w ++ rest)) (hws : ∀ x ∈ ws, isspace x = true)
    (hc : isalpha c = true) (hw : ∀ x ∈ w, isalnum x = true)
    (hrest : ∀ d r, rest = d :: r → isalnum d = false) :
    (get_next_token s).1.value = (c :: w).take (MAX_TOKEN_LENGTH - 1) ∧
    (get_next_token s).2.input_file = (c :: w).drop (MAX_TOKEN_LENGTH - 1) ++ rest ∧
    (get_next_token s).1.type =
      if (get_next_token s).1.value ∈ keywords then .TOKEN_KEYWORD else .TOKEN_IDENTIFIER := by
  have hs1 : (advance s (ws ++ [c])).input_file = w ++ rest :=
    advance_input (ws ++ [c]) s (w ++ rest) (by rw [hin]; simp)
  rw [get_next_token_word s ws w rest c hin hws hc hw hrest]
  refine ⟨rfl, ?_, ?_⟩
  · exact advance_take_input _ w rest _ hs1
  · simp only []
    by_cases hk : is_keyword (c :: w.take (MAX_TOKEN_LENGTH - 2)) = true
    · rw [if_pos hk, if_pos ((is_keyword_iff _).mp hk)]
    · rw [if_neg hk, if_neg (fun h => hk ((is_keyword_iff _).mpr h))]

/-- A number: the lexeme is the first `MAX_TOKEN_LENGTH - 1` digits of the
run, and the rest is left in the input. -/
theorem number_lexeme (s : Source) (ws w rest : List Char) (c : Char)
    (hin : s.input_file = ws ++ c :: (w ++ rest)) (hws : ∀ x ∈ ws, isspace x = true)
    (hc : isdigit c = true) (hw : ∀ x ∈ w, isdigit x = true)
    (hrest : ∀ d r, rest = d :: r → isdigit d = false) :
    (get_next_token s).1.value = (c :: w).take (MAX_TOKEN_LENGTH - 1) ∧
    (get_next_token s).2.input_file = (c :: w).drop (MAX_TOKEN_LENGTH - 1) ++ rest ∧
    (get_next_token s).1.type = .TOKEN_NUMBER := by
  have hs1 : (advance s (ws ++ [c])).input_file = w ++ rest :=
    advance_input (ws ++ [c]) s (w ++ rest) (by rw [hin]; simp)
  rw [get_next_token_number s ws w rest c hin hws hc hw hrest]
  exact ⟨rfl, advance_take_input _ w rest _ hs1, rfl⟩

set_option maxRecDepth 100000 in
theorem first_tokens_of_long_word :
    get_next_token ⟨List.replicate 100 'a', 1, 0⟩ =
      (⟨.TOKEN_IDENTIFIER, List.replicate 99 'a', 1, 1⟩, ⟨['a'], 1, 99⟩) ∧
    get_next_token ⟨['a'], 1, 99⟩ = (⟨.TOKEN_IDENTIFIER, ['a'], 1, 100⟩, ⟨[], 1, 100⟩) := by
  constructor
  · rw [get_next_token_word ⟨List.replicate 100 'a', 1, 0⟩ [] (List.replicate 99 'a') [] 'a'
      rfl (by intro x hx; cases hx) (by decide) (replicate_isalnum 99)
      (by intro d r h; cases h)]
    rfl
  · rfl

/-- C11 as stated fails: the input of 100 letters `a` begins with a letter,
and the lexeme of the token is not the maximal run of letters and digits (all
100 characters) but its first 99 characters; the last `a` is left. -/
theorem word_not_maximal :
    (get_next_token ⟨List.replicate 100 'a', 1, 0⟩).1.value = List.replicate 99 'a' ∧
    (get_next_token ⟨List.replicate 100 'a', 1, 0⟩).2.input_file = ['a'] ∧
    (∀ x ∈ List.replicate 100 'a', isalnum x = true) := by
  rw [first_tokens_of_long_word.1]
  exact ⟨rfl, rfl, replicate_isalnum 100⟩

/-- C11 (amended): when the first character after white space is a letter
`c`, followed by the maximal run `w` of letters and digits (what follows `w`
is no letter or digit), the lexeme of the token is the first 99 characters of
`c :: w` - all of it when it has at most 99 characters - and what is not in
the lexeme is left in the input, beginning with the character that follows
the lexeme; the kind is Keyword if the lexeme is one of `if`, `else`, `while`,
`for`, `return`, `int`, and Identifier otherwise. -/
theorem word_classification (s : Source) (ws w rest : List Char) (c : Char)
    (hin : s.input_file = ws ++ c :: (w ++ rest)) (hws : ∀ x ∈ ws, isspace x = true)
    (hc : isalpha c = true) (hw : ∀ x ∈ w, isalnum x = true)
    (hrest : ∀ d r, rest = d :: r → isalnum d = false) :
    (get_next_token s).1.value = (c :: w).take 99 ∧
    (get_next_token s).2.input_file = (c :: w).drop 99 ++ rest ∧
    ((c :: w).length ≤ 99 →
      (get_next_token s).1.value = c :: w ∧ (get_next_token s).2.input_file = rest) ∧
    ((get_next_token s).1.type = .TOKEN_KEYWORD ↔
      (get_next_token s).1.value ∈
        ["if".toList, "else".toList, "while".toList, "for".toList, "return".toList,
          "int".toList]) ∧
    ((get_next_token s).1.type = .TOKEN_IDENTIFIER ↔
      (get_next_token s).1.value ∉
        ["if".toList, "else".toList, "while".toList, "for".toList, "return".toList,
          "int".toList]) := by
  obtain ⟨h1, h2, h3⟩ := word_lexeme s ws w rest c hin hws hc hw hrest
  refine ⟨h1, h2, fun hlen => ?_, ?_, ?_⟩
  · have h1' : (get_next_token s).1.value = (c :: w).take 99 := h1
    have h2' : (get_next_token s).2.input_file = (c :: w).drop 99 ++ rest := h2
    rw [h1', h2', List.take_of_length_le hlen, List.drop_of_length_le hlen]
    exact ⟨rfl, rfl⟩
  · rw [h3]
    show _ ↔ (get_next_token s).1.value ∈ keywords
    by_cases hk : (get_next_token s).1.value ∈ keywords
    · rw [if_pos hk]; exact ⟨fun _ => hk, fun _ => rfl⟩
    · rw [if_neg hk]; exact ⟨fun h => (by cases h), fun h => absurd h hk⟩
  · rw [h3]
    show _ ↔ (get_next_token s).1.value ∉ keywords
    by_cases hk : (get_next_token s).1.value ∈ keywords
    · rw [if_pos hk]; exact ⟨fun h => (by cases h), fun h => absurd hk h⟩
    · rw [if_neg hk]; exact ⟨fun _ => hk, fun _ => rfl⟩

/-- Witness of C11: after two blanks, `while(` gives the keyword `while` and
leaves the parenthesis. -/
theorem word_classification_witness :
    (get_next_token ⟨"  while(".toList, 1, 0⟩).1.value = "while".toList ∧
    (get_next_token ⟨"  while(".toList, 1, 0⟩).2.input_file = ['('] :=
  ((word_classification ⟨"  while(".toList, 1, 0⟩ [' ', ' '] "hile".toList ['('] 'w' rfl
    (by decide) (by decide) (by decide)
    (by intro d r h; cases h; decide)).2.2.1 (by decide))

/-- C12 as stated fails: of a run of 100 letters `a` the lexeme of the first
token is the first 99, and the 100th is not dropped: it is the lexeme of the
token that the next call returns. -/
theorem truncation_keeps_run :
    (get_next_token ⟨List.replicate 100 'a', 1, 0⟩).1.value = List.replicate 99 'a' ∧
    (get_next_token (get_next_token ⟨List.replicate 100 'a', 1, 0⟩).2).1 =
      ⟨.TOKEN_IDENTIFIER, ['a'], 1, 100⟩ := by
  have h := first_tokens_of_long_word
  refine ⟨by rw [h.1], ?_⟩
  rw [h.1]
  show (get_next_token ⟨['a'], 1, 99⟩).1 = _
  rw [h.2]

/-- C12 (amended): when the input begins, after white space, with a letter
and a run of letters and digits, or with a run of digits, of more than 99
characters in all, the lexeme of the token is the first 99 characters, and
the characters of the run beyond them are not consumed: they are left in the
input before what follows the run, and the lexeme of the token of the next
call begins with the 100th character. -/
theorem lexeme_truncation (s : Source) (ws w rest : List Char) (c : Char)
    (hin : s.input_file = ws ++ c :: (w ++ rest)) (hws : ∀ x ∈ ws, isspace x = true)
    (hrun : (isalpha c = true ∧ (∀ x ∈ w, isalnum x = true) ∧
        ∀ d r, rest = d :: r → isalnum d = false) ∨
      (isdigit c = true ∧ (∀ x ∈ w, isdigit x = true) ∧
        ∀ d r, rest = d :: r → isdigit d = false))
    (hlong : 99 < (c :: w).length) :
    (get_next_token s).1.value = (c :: w).take 99 ∧
    (get_next_token s).2.input_file = (c :: w).drop 99 ++ rest ∧
    ∃ d r, (c :: w).drop 99 = d :: r ∧
      (get_next_token (get_next_token s).2).1.value.head? = some d := by
  have hal : ∀ x ∈ c :: w, isalnum x = true := by
    intro x hx
    rcases hrun with ⟨hc, hw, _⟩ | ⟨hc, hw, _⟩
    · rcases List.mem_cons.mp hx with rfl | hx
      · exact isalpha_isalnum _ hc
      · exact hw x hx
    · rcases List.mem_cons.mp hx with rfl | hx
      · exact isdigit_isalnum _ hc
      · exact isdigit_isalnum _ (hw x hx)
  have h12 : (get_next_token s).1.value = (c :: w).take 99 ∧
      (get_next_token s).2.input_file = (c :: w).drop 99 ++ rest := by
    rcases hrun with ⟨hc, hw, hrest⟩ | ⟨hc, hw, hrest⟩
    · exact ⟨(word_lexeme s ws w rest c hin hws hc hw hrest).1,
        (word_lexeme s ws w rest c hin hws hc hw hrest).2.1⟩
    · exact ⟨(number_lexeme s ws w rest c hin hws hc hw hrest).1,
        (number_lexeme s ws w rest c hin hws hc hw hrest).2.1⟩
  refine ⟨h12.1, h12.2, ?_⟩
  obtain ⟨d, r, hd⟩ : ∃ d r, (c :: w).drop 99 = d :: r := by
    cases h : (c :: w).drop 99 with
    | nil =>
      have := List.drop_eq_nil_iff.mp h
      omega
    | cons d r => exact ⟨d, r, rfl⟩
  have hdal : isalnum d = true :=
    hal d (List.mem_of_mem_drop (by rw [hd]; exact List.mem_cons_self _ _))
  refine ⟨d, r, hd, ?_⟩
  exact lexeme_head _ [] (r ++ rest) d (by rw [h12.2, hd]; rfl) (by intro x hx; cases hx)
    (isalnum_not_space d hdal) (by have := isalnum_ge d hdal; omega)

/-- Witness of C12: of 100 letters `a` the lexeme is the first 99, one `a`
is left in the input, and the next lexeme begins with it. -/
theorem lexeme_truncation_witness :
    (get_next_token ⟨List.replicate 100 'a', 1, 0⟩).1.value = List.replicate 99 'a' ∧
    (get_next_token ⟨List.replicate 100 'a', 1, 0⟩).2.input_file = ['a'] ∧
    ∃ d r, ['a'] = d :: r ∧
      (get_next_token (get_next_token ⟨List.replicate 100 'a', 1, 0⟩).2).1.value.head? =
        some d :=
  lexeme_truncation ⟨List.replicate 100 'a', 1, 0⟩ [] (List.replicate 99 'a') [] 'a' rfl
    (by intro x hx; cases hx)
    (Or.inl ⟨by decide, replicate_isalnum 99, by intro d r h; cases h⟩) (by decide)

/-! ## The position tracker: reading a character and pushing it back -/

theorem unget_getch (s : Source) (c : Char) (rest : List Char)
    (hin : s.input_file = c :: rest) (hline : 1 ≤ s.current_line)
    (hcol : 0 ≤ s.current_column) :
    ungetch_adjust (getch s).2 (getch s).1 =
      if c = '\n' then { s with current_column := 0 } else s := by
  obtain ⟨input, line, col⟩ := s
  simp only [] at hin hline hcol
  subst hin
  by_cases hc : c = '\n'
  · simp only [getch, ungetch_adjust, hc, if_true]
    rw [if_pos (by omega)]
    congr 1
    omega
  · simp only [getch, ungetch_adjust, hc, if_false]
    rw [if_pos (by omega)]
    congr 1
    omega

/-- C15 as stated fails: at line 1, column 5, reading a line break and
pushing it back gives line 1 again but column 0. -/
theorem pushback_loses_column :
    ungetch_adjust (getch ⟨['\n'], 1, 5⟩).2 (getch ⟨['\n'], 1, 5⟩).1 = ⟨['\n'], 1, 0⟩ := by
  rfl

/-- C15 (amended): in a state of the position tracker (line at least 1,
column at least 0), `ungetch_adjust` right after `getch` of a character that
is no line break gives the state before the `getch`: input, line and column;
for a line break it gives the input and the line back, and the column is 0. -/
theorem pushback_undoes_advance (s : Source) (c : Char) (rest : List Char)
    (hin : s.input_file = c :: rest) (hline : 1 ≤ s.current_line)
    (hcol : 0 ≤ s.current_column) :
    (c ≠ '\n' → ungetch_adjust (getch s).2 (getch s).1 = s) ∧
    (c = '\n' →
      ungetch_adjust (getch s).2 (getch s).1 = { s with current_column := 0 }) := by
  rw [unget_getch s c rest hin hline hcol]
  exact ⟨fun h => by rw [if_neg h], fun h => by rw [if_pos h]⟩

/-- Witness of C15: at line 3, column 7, reading `x` and pushing it back
changes nothing. -/
theorem pushback_undoes_advance_witness :
    ungetch_adjust (getch ⟨['x', 'y'], 3, 7⟩).2 (getch ⟨['x', 'y'], 3, 7⟩).1 =
      ⟨['x', 'y'], 3, 7⟩ :=
  (pushback_undoes_advance ⟨['x', 'y'], 3, 7⟩ 'x' ['y'] rfl (by decide) (by decide)).1
    (by decide)

/-! ## The level discipline of the reachable states -/

theorem exit_scope_removes_level (s : State) (h : WellFormed s) :
    ∀ y ∈ (exit_scope s).symbol_table, y.scope_level ≠ s.current_scope_level := by
  obtain ⟨removed, hsplit, _, hlast, _, _⟩ := exit_scope_split s
  obtain ⟨_, hle, hmono, _⟩ := h
  intro y hy heq
  cases hl : (exit_scope s).symbol_table.getLast? with
  | none =>
    rw [List.getLast?_eq_none_iff] at hl
    rw [hl] at hy
    cases hy
  | some z =>
    have hz : z ∈ (exit_scope s).symbol_table := List.mem_of_mem_getLast? hl
    have hzs : z ∈ s.symbol_table := by rw [hsplit]; exact List.mem_append_left _ hz
    have hkept : (exit_scope s).symbol_table.Pairwise
        (fun a b => a.scope_level ≤ b.scope_level) := by
      rw [hsplit] at hmono
      exact (List.pairwise_append.mp hmono).1
    have hyz : y.scope_level ≤ z.scope_level := by
      obtain ⟨init, hinit⟩ : ∃ init, (exit_scope s).symbol_table = init ++ [z] := by
        obtain ⟨init, hi⟩ := List.getLast?_eq_some_iff.mp hl
        exact ⟨init, hi⟩
      rw [hinit] at hy hkept
      rcases List.mem_append.mp hy with hy | hy
      · exact (List.pairwise_append.mp hkept).2.2 y hy z (List.mem_singleton_self z)
      · rw [List.mem_singleton.mp hy]
    have := (hle z hzs).2
    exact hlast z hl (by omega)

theorem find_symbol_by_name (s : State) (h : WellFormed s) (name : List Char) :
    (find_symbol s name = none ↔ ∀ y ∈ s.symbol_table, y.name ≠ name) ∧
    ∀ i, find_symbol s name = some i ↔
      (∃ y, s.symbol_table[i]? = some y ∧ y.name = name) ∧
        ∀ j z, i < j → s.symbol_table[j]? = some z → z.name ≠ name := by
  have hvis : ∀ (j : Nat) (y : Symbol), s.symbol_table[j]? = some y →
      ((y.name = name ∧ y.scope_level ≤ s.current_scope_level) ↔ y.name = name) :=
    fun j y hy => ⟨fun hv => hv.1, fun hn => ⟨hn, (h.2.1 y (List.getElem?_mem hy)).2⟩⟩
  constructor
  · unfold find_symbol
    rw [find_symbol_loop_none]
    constructor
    · intro hh y hy hn
      obtain ⟨j, hj, rfl⟩ := List.getElem_of_mem hy
      exact hh j _ hj (List.getElem?_eq_getElem hj)
        ((hvis j _ (List.getElem?_eq_getElem hj)).mpr hn)
    · intro hh j y _ hjy hv
      exact hh y (List.getElem?_mem hjy) hv.1
  · intro i
    unfold find_symbol
    rw [find_symbol_loop_some]
    constructor
    · rintro ⟨_, ⟨y, hy, hv⟩, hj⟩
      refine ⟨⟨y, hy, hv.1⟩, fun j z hij hz hn => ?_⟩
      have hjlt : j < s.symbol_table.length := by
        by_contra hge
        rw [List.getElem?_eq_none (by omega)] at hz
        cases hz
      exact hj j z hij hjlt hz ((hvis j z hz).mpr hn)
    · rintro ⟨⟨y, hy, hn⟩, hj⟩
      refine ⟨?_, ⟨y, hy, (hvis i y hy).mpr hn⟩, fun j z hij _ hz hv => hj j z hij hz hv.1⟩
      by_contra hge
      rw [List.getElem?_eq_none (by omega)] at hy
      cases hy

/-- C17: in every reachable scope state the current level is not negative,
the scope levels of the symbols do not decrease along the table, and no
symbol has a level above the current one; so `exit_scope` leaves no symbol of
the current level in the table, and `find_symbol` answers by the name alone:
`NULL` exactly when no symbol has the name, otherwise the last symbol of this
name. -/
theorem lifo_discipline (s : State) (h : Reachable s) :
    0 ≤ s.current_scope_level ∧
    s.symbol_table.Pairwise (fun a b => a.scope_level ≤ b.scope_level) ∧
    (∀ y ∈ s.symbol_table, y.scope_level ≤ s.current_scope_level) ∧
    (∀ y ∈ (exit_scope s).symbol_table, y.scope_level ≠ s.current_scope_level) ∧
    (∀ name, find_symbol s name = none ↔ ∀ y ∈ s.symbol_table, y.name ≠ name) ∧
    (∀ name i, find_symbol s name = some i ↔
      (∃ y, s.symbol_table[i]? = some y ∧ y.name = name) ∧
        ∀ j z, i < j → s.symbol_table[j]? = some z → z.name ≠ name) := by
  have hw := reachable_wellFormed s h
  exact ⟨hw.1, hw.2.2.1, fun y hy => (hw.2.1 y hy).2, exit_scope_removes_level s hw,
    fun name => (find_symbol_by_name s hw name).1,
    fun name => (find_symbol_by_name s hw name).2⟩

/-- Witness of C17: in the state reached by declaring `x`, entering a block
and declaring `x` and `y` there, the level is 1 and leaving the block leaves
no symbol of level 1. -/
theorem lifo_discipline_witness :
    (0 : Int) ≤ inner_state.current_scope_level ∧
    ∀ y ∈ (exit_scope inner_state).symbol_table,
      y.scope_level ≠ inner_state.current_scope_level :=
  ⟨(lifo_discipline inner_state inner_state_reachable).1,
    (lifo_discipline inner_state inner_state_reachable).2.2.2.1⟩

/-! ## A declaration is made before its initializer is parsed -/

/-- The tokens of `int n = n;` for a name `n = c :: w`. -/
theorem tokens_of_self_initialised (c : Char) (w : List Char) (hc : isalpha c = true)
    (hw : ∀ x ∈ w, isalnum x = true) (hlen : (c :: w).length ≤ MAX_TOKEN_LENGTH - 1)
    (hkw : is_keyword (c :: w) = false) :
    token_sequence
        ("int ".toList ++ (c :: w) ++ " = ".toList ++ (c :: w) ++ ";".toList) =
      [⟨.TOKEN_KEYWORD, "int".toList, 1, 1⟩,
        ⟨.TOKEN_IDENTIFIER, c :: w, 1, 5⟩,
        ⟨.TOKEN_OPERATOR, ['='], 1, 6 + ((c :: w).length : Int)⟩,
        ⟨.TOKEN_IDENTIFIER, c :: w, 1, 8 + ((c :: w).length : Int)⟩,
        ⟨.TOKEN_DELIMITER, [';'], 1, 8 + 2 * ((c :: w).length : Int)⟩,
        ⟨.TOKEN_EOF, [], 1, 8 + 2 * ((c :: w).length : Int)⟩] := by
  have e0 : get_next_token
      ⟨"int ".toList ++ (c :: w) ++ " = ".toList ++ (c :: w) ++ ";".toList,
        1, 0⟩ =
      (⟨.TOKEN_KEYWORD, "int".toList, 1, 1⟩,
        ⟨" ".toList ++ (c :: w) ++ " = ".toList ++ (c :: w) ++ ";".toList,
          1, 3⟩) := by
    have h := lex_word
      ("int ".toList ++ (c :: w) ++ " = ".toList ++ (c :: w) ++ ";".toList)
      [] ['n', 't']
      (" ".toList ++ (c :: w) ++ " = ".toList ++ (c :: w) ++ ";".toList)
      'i' 1 (0) (1)
      (3)
      (by simp) (by intro x hx; cases hx)
      (by decide) (by decide)
      (by intro d r h; simp at h; rw [← h.1]; exact ⟨by decide, by decide⟩)
      (by decide) (by omega)
      (by
        simp only [List.length_cons, List.length_nil, Nat.cast_add, Nat.cast_one,
          Nat.cast_zero]
        omega)
      (by
        simp only [List.length_cons, List.length_nil, Nat.cast_add, Nat.cast_one,
          Nat.cast_zero]
        omega)
    simpa using h
  have e1 : get_next_token
      ⟨" ".toList ++ (c :: w) ++ " = ".toList ++ (c :: w) ++ ";".toList,
        1, 3⟩ =
      (⟨.TOKEN_IDENTIFIER, c :: w, 1, 5⟩,
        ⟨" = ".toList ++ (c :: w) ++ ";".toList,
          1, 4 + ((c :: w).length : Int)⟩) := by
    have h := lex_word
      (" ".toList ++ (c :: w) ++ " = ".toList ++ (c :: w) ++ ";".toList)
      [' '] w
      (" = ".toList ++ (c :: w) ++ ";".toList)
      c 1 (3) (5)
      (4 + ((c :: w).length : Int))
      (by simp) (by intro x hx; simpa using hx)
      hc hw (by intro d r h; simp at h; rw [← h.1]; exact ⟨by decide, by decide⟩)
      hlen (by omega)
      (by
        simp only [List.length_cons, List.length_nil, Nat.cast_add, Nat.cast_one,
          Nat.cast_zero]
        omega)
      (by
        simp only [List.length_cons, List.length_nil, Nat.cast_add, Nat.cast_one,
          Nat.cast_zero]
        omega)
    simpa [hkw] using h
  have e2 : get_next_token
      ⟨" = ".toList ++ (c :: w) ++ ";".toList,
        1, 4 + ((c :: w).length : Int)⟩ =
      (⟨.TOKEN_OPERATOR, ['='], 1, 6 + ((c :: w).length : Int)⟩,
        ⟨" ".toList ++ (c :: w) ++ ";".toList,
          1, 6 + ((c :: w).length : Int)⟩) := by
    have h := lex_operator
      (" = ".toList ++ (c :: w) ++ ";".toList)
      [' ']
      ((c :: w) ++ ";".toList)
      '=' ' ' 1 (4 + ((c :: w).length : Int)) (6 + ((c :: w).length : Int))
      (by simp) (by intro x hx; simpa using hx) (by decide)
      (by decide) (by decide) (by omega)
      (by
        simp only [List.length_cons, List.length_nil, Nat.cast_add, Nat.cast_one,
          Nat.cast_zero]
        omega)
    simpa using h
  have e3 : get_next_token
      ⟨" ".toList ++ (c :: w) ++ ";".toList,
        1, 6 + ((c :: w).length : Int)⟩ =
      (⟨.TOKEN_IDENTIFIER, c :: w, 1, 8 + ((c :: w).length : Int)⟩,
        ⟨";".toList,
          1, 7 + 2 * ((c :: w).length : Int)⟩) := by
    have h := lex_word
      (" ".toList ++ (c :: w) ++ ";".toList)
      [' '] w
      (";".toList)
      c 1 (6 + ((c :: w).length : Int)) (8 + ((c :: w).length : Int))
      (7 + 2 * ((c :: w).length : Int))
      (by simp) (by intro x hx; simpa using hx)
      hc hw (by intro d r h; simp at h; rw [← h.1]; exact ⟨by decide, by decide⟩)
      hlen (by omega)
      (by
        simp only [List.length_cons, List.length_nil, Nat.cast_add, Nat.cast_one,
          Nat.cast_zero]
        omega)
      (by
        simp only [List.length_cons, List.length_nil, Nat.cast_add, Nat.cast_one,
          Nat.cast_zero]
        omega)
    simpa [hkw] using h
  have e4 : get_next_token
      ⟨";".toList,
        1, 7 + 2 * ((c :: w).length : Int)⟩ =
      (⟨.TOKEN_DELIMITER, [';'], 1, 8 + 2 * ((c :: w).length : Int)⟩,
        ⟨[],
          1, 8 + 2 * ((c :: w).length : Int)⟩) := by
    exact lex_delimiter _ []
      ([])
      ';' 1 (7 + 2 * ((c :: w).length : Int)) (8 + 2 * ((c :: w).length : Int)) (by simp)
      (by intro x hx; cases hx) (by decide)
      (by
        simp only [List.length_cons, List.length_nil, Nat.cast_add, Nat.cast_one,
          Nat.cast_zero]
        omega)
  have e5 : get_next_token ⟨[], 1, 8 + 2 * ((c :: w).length : Int)⟩ =
      (⟨.TOKEN_EOF, [], 1, 8 + 2 * ((c :: w).length : Int)⟩,
        ⟨[], 1, 8 + 2 * ((c :: w).length : Int)⟩) :=
    lex_eof [] 1 (8 + 2 * ((c :: w).length : Int)) (8 + 2 * ((c :: w).length : Int))
      (by intro x hx; cases hx) (by simp)
  unfold token_sequence
  rw [lex_all_step _ _ _ _ e0 (by simp) (by simp),
    lex_all_step _ _ _ _ e1 (by simp) (by simp),
    lex_all_step _ _ _ _ e2 (by simp) (by simp),
    lex_all_step _ _ _ _ e3 (by simp) (by simp),
    lex_all_step _ _ _ _ e4 (by simp) (by simp),
    lex_all_stop _ _ _ _ e5 rfl (by simp)]

/-- The tokens of `int n; int n = ;` for a name `n = c :: w`. -/
theorem tokens_of_redeclared_malformed (c : Char) (w : List Char) (hc : isalpha c = true)
    (hw : ∀ x ∈ w, isalnum x = true) (hlen : (c :: w).length ≤ MAX_TOKEN_LENGTH - 1)
    (hkw : is_keyword (c :: w) = false) :
    token_sequence
        ("int ".toList ++ (c :: w) ++ "; int ".toList ++ (c :: w) ++ " = ;".toList) =
      [⟨.TOKEN_KEYWORD, "int".toList, 1, 1⟩,
        ⟨.TOKEN_IDENTIFIER, c :: w, 1, 5⟩,
        ⟨.TOKEN_DELIMITER, [';'], 1, 5 + ((c :: w).length : Int)⟩,
        ⟨.TOKEN_KEYWORD, "int".toList, 1, 7 + ((c :: w).length : Int)⟩,
        ⟨.TOKEN_IDENTIFIER, c :: w, 1, 11 + ((c :: w).length : Int)⟩,
        ⟨.TOKEN_OPERATOR, ['='], 1, 12 + 2 * ((c :: w).length : Int)⟩,
        ⟨.TOKEN_DELIMITER, [';'], 1, 14 + 2 * ((c :: w).length : Int)⟩,
        ⟨.TOKEN_EOF, [], 1, 14 + 2 * ((c :: w).length : Int)⟩] := by
  have e0 : get_next_token
      ⟨"int ".toList ++ (c :: w) ++ "; int ".toList ++ (c :: w) ++
        " = ;".toList,
        1, 0⟩ =
      (⟨.TOKEN_KEYWORD, "int".toList, 1, 1⟩,
        ⟨" ".toList ++ (c :: w) ++ "; int ".toList ++ (c :: w) ++ " = ;".toList,
          1, 3⟩) := by
    have h := lex_word
      ("int ".toList ++ (c :: w) ++ "; int ".toList ++ (c :: w) ++ " = ;".toList)
      [] ['n', 't']
      (" ".toList ++ (c :: w) ++ "; int ".toList ++ (c :: w) ++ " = ;".toList)
      'i' 1 (0) (1)
      (3)
      (by simp) (by intro x hx; cases hx)
      (by decide) (by decide)
      (by intro d r h; simp at h; rw [← h.1]; exact ⟨by decide, by decide⟩)
      (by decide) (by omega)
      (by
        simp only [List.length_cons, List.length_nil, Nat.cast_add, Nat.cast_one,
          Nat.cast_zero]
        omega)
      (by
        simp only [List.length_cons, List.length_nil, Nat.cast_add, Nat.cast_one,
          Nat.cast_zero]
        omega)
    simpa using h
  have e1 : get_next_token
      ⟨" ".toList ++ (c :: w) ++ "; int ".toList ++ (c :: w) ++
        " = ;".toList,
        1, 3⟩ =
      (⟨.TOKEN_IDENTIFIER, c :: w, 1, 5⟩,
        ⟨"; int ".toList ++ (c :: w) ++ " = ;".toList,
          1, 4 + ((c :: w).length : Int)⟩) := by
    have h := lex_word
      (" ".toList ++ (c :: w) ++ "; int ".toList ++ (c :: w) ++ " = ;".toList)
      [' '] w
      ("; int ".toList ++ (c :: w) ++ " = ;".toList)
      c 1 (3) (5)
      (4 + ((c :: w).length : Int))
      (by simp) (by intro x hx; simpa using hx)
      hc hw (by intro d r h; simp at h; rw [← h.1]; exact ⟨by decide, by decide⟩)
      hlen (by omega)
      (by
        simp only [List.length_cons, List.length_nil, Nat.cast_add, Nat.cast_one,
          Nat.cast_zero]
        omega)
      (by
        simp only [List.length_cons, List.length_nil, Nat.cast_add, Nat.cast_one,
          Nat.cast_zero]
        omega)
    simpa [hkw] using h
  have e2 : get_next_token
      ⟨"; int ".toList ++ (c :: w) ++ " = ;".toList,
        1, 4 + ((c :: w).length : Int)⟩ =
      (⟨.TOKEN_DELIMITER, [';'], 1, 5 + ((c :: w).length : Int)⟩,
        ⟨" int ".toList ++ (c :: w) ++ " = ;".toList,
          1, 5 + ((c :: w).length : Int)⟩) := by
    exact lex_delimiter _ []
      (" int ".toList ++ (c :: w) ++ " = ;".toList)
      ';' 1 (4 + ((c :: w).length : Int)) (5 + ((c :: w).length : Int)) (by simp)
      (by intro x hx; cases hx) (by decide)
      (by
        simp only [List.length_cons, List.length_nil, Nat.cast_add, Nat.cast_one,
          Nat.cast_zero]
        omega)
  have e3 : get_next_token
      ⟨" int ".toList ++ (c :: w) ++ " = ;".toList,
        1, 5 + ((c :: w).length : Int)⟩ =
      (⟨.TOKEN_KEYWORD, "int".toList, 1, 7 + ((c :: w).length : Int)⟩,
        ⟨" ".toList ++ (c :: w) ++ " = ;".toList,
          1, 9 + ((c :: w).length : Int)⟩) := by
    have h := lex_word
      (" int ".toList ++ (c :: w) ++ " = ;".toList)
      [' '] ['n', 't']
      (" ".toList ++ (c :: w) ++ " = ;".toList)
      'i' 1 (5 + ((c :: w).length : Int)) (7 + ((c :: w).length : Int))
      (9 + ((c :: w).length : Int))
      (by simp) (by intro x hx; simpa using hx)
      (by decide) (by decide)
      (by intro d r h; simp at h; rw [← h.1]; exact ⟨by decide, by decide⟩)
      (by decide) (by omega)
      (by
        simp only [List.length_cons, List.length_nil, Nat.cast_add, Nat.cast_one,
          Nat.cast_zero]
        omega)
      (by
        simp only [List.length_cons, List.length_nil, Nat.cast_add, Nat.cast_one,
          Nat.cast_zero]
        omega)
    simpa using h
  have e4 : get_next_token
      ⟨" ".toList ++ (c :: w) ++ " = ;".toList,
        1, 9 + ((c :: w).length : Int)⟩ =
      (⟨.TOKEN_IDENTIFIER, c :: w, 1, 11 + ((c :: w).length : Int)⟩,
        ⟨" = ;".toList,
          1, 10 + 2 * ((c :: w).length : Int)⟩) := by
    have h := lex_word
      (" ".toList ++ (c :: w) ++ " = ;".toList)
      [' '] w
      (" = ;".toList)
      c 1 (9 + ((c :: w).length : Int)) (11 + ((c :: w).length : Int))
      (10 + 2 * ((c :: w).length : Int))
      (by simp) (by intro x hx; simpa using hx)
      hc hw (by intro d r h; simp at h; rw [← h.1]; exact ⟨by decide, by decide⟩)
      hlen (by omega)
      (by
        simp only [List.length_cons, List.length_nil, Nat.cast_add, Nat.cast_one,
          Nat.cast_zero]
        omega)
      (by
        simp only [List.length_cons, List.length_nil, Nat.cast_add, Nat.cast_one,
          Nat.cast_zero]
        omega)
    simpa [hkw] using h
  have e5 : get_next_token
      ⟨" = ;".toList,
        1, 10 + 2 * ((c :: w).length : Int)⟩ =
      (⟨.TOKEN_OPERATOR, ['='], 1, 12 + 2 * ((c :: w).length : Int)⟩,
        ⟨" ;".toList,
          1, 12 + 2 * ((c :: w).length : Int)⟩) := by
    have h := lex_operator
      (" = ;".toList)
      [' ']
      (";".toList)
      '=' ' ' 1 (10 + 2 * ((c :: w).length : Int)) (12 + 2 * ((c :: w).length : Int))
      (by simp) (by intro x hx; simpa using hx) (by decide)
      (by decide) (by decide) (by omega)
      (by
        simp only [List.length_cons, List.length_nil, Nat.cast_add, Nat.cast_one,
          Nat.cast_zero]
        omega)
    simpa using h
  have e6 : get_next_token
      ⟨" ;".toList,
        1, 12 + 2 * ((c :: w).length : Int)⟩ =
      (⟨.TOKEN_DELIMITER, [';'], 1, 14 + 2 * ((c :: w).length : Int)⟩,
        ⟨[],
          1, 14 + 2 * ((c :: w).length : Int)⟩) := by
    exact lex_delimiter _ [' ']
      ([])
      ';' 1 (12 + 2 * ((c :: w).length : Int)) (14 + 2 * ((c :: w).length : Int)) (by simp)
      (by intro x hx; simpa using hx) (by decide)
      (by
        simp only [List.length_cons, List.length_nil, Nat.cast_add, Nat.cast_one,
          Nat.cast_zero]
        omega)
  have e7 : get_next_token ⟨[], 1, 14 + 2 * ((c :: w).length : Int)⟩ =
      (⟨.TOKEN_EOF, [], 1, 14 + 2 * ((c :: w).length : Int)⟩,
        ⟨[], 1, 14 + 2 * ((c :: w).length : Int)⟩) :=
    lex_eof [] 1 (14 + 2 * ((c :: w).length : Int)) (14 + 2 * ((c :: w).length : Int))
      (by intro x hx; cases hx) (by simp)
  unfold token_sequence
  rw [lex_all_step _ _ _ _ e0 (by simp) (by simp),
    lex_all_step _ _ _ _ e1 (by simp) (by simp),
    lex_all_step _ _ _ _ e2 (by simp) (by simp),
    lex_all_step _ _ _ _ e3 (by simp) (by simp),
    lex_all_step _ _ _ _ e4 (by simp) (by simp),
    lex_all_step _ _ _ _ e5 (by simp) (by simp),
    lex_all_step _ _ _ _ e6 (by simp) (by simp),
    lex_all_stop _ _ _ _ e7 rfl (by simp)]

/-- The declaration `int n = n;` alone is a program of the grammar. -/
theorem derives_self_initialised {kw x1 eq x2 semi eof : Token}
    (hkw : is_kw kw "int".toList) (hx1 : x1.type = .TOKEN_IDENTIFIER)
    (heq : is_op eq "=".toList) (hx2 : x2.type = .TOKEN_IDENTIFIER)
    (hsemi : is_delim semi ';') (heof : eof.type = .TOKEN_EOF) :
    Derives .program [kw, x1, eq, x2, semi, eof] :=
  (Derives.program (.stmtList_cons (.statement_decl (.decl_init hkw hx1 heq
    (derives_expression_of_primary (.primary_identifier hx2)) hsemi)) .stmtList_nil)
    heof).cast (by simp)

theorem analyse_self_initialised (n : List Char) (hn : is_identifier n = true) :
    ∃ s', analyse ("int ".toList ++ n ++ " = ".toList ++ n ++ ";".toList) = .ok s' := by
  obtain ⟨c, w, rfl, hc, hw, hlen, hkw⟩ := is_identifier_spec n hn
  apply analyse_returns
  · rw [tokens_of_self_initialised c w hc hw hlen hkw]
    exact derives_self_initialised ⟨rfl, rfl⟩ rfl ⟨rfl, rfl⟩ rfl ⟨rfl, rfl⟩ rfl
  · rw [tokens_of_self_initialised c w hc hw hlen hkw]
    exact ⟨([[c :: w]], false),
      by simp [scan, scan_step, is_delim, is_kw, declared, live, MAX_SYMBOLS]⟩

theorem analyse_redeclared_malformed (n : List Char) (hn : is_identifier n = true) :
    analyse ("int ".toList ++ n ++ "; int ".toList ++ n ++ " = ;".toList) =
      .error (.redeclaration n 1 (11 + (n.length : Int))) := by
  obtain ⟨c, w, rfl, hc, hw, hlen, hkw⟩ := is_identifier_spec n hn
  exact analyse_fault _
    [⟨.TOKEN_KEYWORD, "int".toList, 1, 1⟩, ⟨.TOKEN_IDENTIFIER, c :: w, 1, 5⟩,
      ⟨.TOKEN_DELIMITER, [';'], 1, 5 + ((c :: w).length : Int)⟩,
      ⟨.TOKEN_KEYWORD, "int".toList, 1, 7 + ((c :: w).length : Int)⟩]
    [⟨.TOKEN_OPERATOR, ['='], 1, 12 + 2 * ((c :: w).length : Int)⟩,
      ⟨.TOKEN_DELIMITER, [';'], 1, 14 + 2 * ((c :: w).length : Int)⟩,
      ⟨.TOKEN_EOF, [], 1, 14 + 2 * ((c :: w).length : Int)⟩]
    [⟨.TOKEN_DELIMITER, [';'], 1, 0⟩, ⟨.TOKEN_EOF, [], 1, 0⟩]
    ⟨.TOKEN_IDENTIFIER, c :: w, 1, 11 + ((c :: w).length : Int)⟩
    ([[c :: w]], true) (.redeclared (c :: w))
    (tokens_of_redeclared_malformed c w hc hw hlen hkw)
    (derives_declared_twice ⟨rfl, rfl⟩ rfl ⟨rfl, rfl⟩ ⟨rfl, rfl⟩ rfl ⟨rfl, rfl⟩ rfl)
    (by simp [scan, scan_step, is_delim, is_kw, live, MAX_SYMBOLS]) rfl
    (by rw [scan_step_declare _ _ _ rfl, if_pos (List.mem_singleton_self _)])

/-- In `parse_declaration` the symbol is added before the initializer is
parsed: the expression is parsed in the state with the new symbol. -/
theorem parse_declaration_initializer (n : Nat) (s s1 : State)
    (hkw : match_keyword s "int".toList = true)
    (hid : (next_token s).current_token.type = .TOKEN_IDENTIFIER)
    (hadd : add_symbol (next_token s) (next_token s).current_token.value "int".toList =
      .ok s1)
    (heq : match_operator (next_token s1) "=".toList = true) :
    s1.symbol_table = (next_token s).symbol_table ++
      [⟨(next_token s).current_token.value, "int".toList, s.current_scope_level⟩] ∧
    parse_declaration (n + 1) s =
      (parse_expression n (next_token (next_token s1))).andThen fun s' =>
        Outcome.of (consume_delimiter s' ';') := by
  constructor
  · obtain ⟨_, _, h⟩ := add_symbol_ok _ _ _ _ hadd
    rw [h]
    rfl
  · rw [parse_declaration]
    unfold consume_keyword
    rw [if_pos hkw]
    simp only [Outcome.of, Outcome.andThen]
    rw [if_neg (not_not.mpr hid), hadd]
    simp only [Outcome.andThen]
    rw [if_pos heq]

/-- C16: (1) in `parse_declaration`, when the keyword `int` is followed by an
identifier that `add_symbol` accepts and by `=`, the initializer expression is
parsed in the state whose table has the new symbol at its end; (2) for every
identifier `n` (a letter followed by letters and digits, at most 99
characters, not a reserved word) the analysis of `int n = n;` succeeds; and
(3) the analysis of `int n; int n = ;` ends with the redeclaration condition
at the second `n` (line 1, column `11 + |n|`), not with a syntax condition. -/
theorem declaration_before_initializer :
    (∀ n s s1, match_keyword s "int".toList = true →
      (next_token s).current_token.type = .TOKEN_IDENTIFIER →
      add_symbol (next_token s) (next_token s).current_token.value "int".toList = .ok s1 →
      match_operator (next_token s1) "=".toList = true →
      s1.symbol_table = (next_token s).symbol_table ++
        [⟨(next_token s).current_token.value, "int".toList, s.current_scope_level⟩] ∧
      parse_declaration (n + 1) s =
        (parse_expression n (next_token (next_token s1))).andThen fun s' =>
          Outcome.of (consume_delimiter s' ';')) ∧
    (∀ n, is_identifier n = true →
      ∃ s', analyse ("int ".toList ++ n ++ " = ".toList ++ n ++ ";".toList) = .ok s') ∧
    (∀ n, is_identifier n = true →
      analyse ("int ".toList ++ n ++ "; int ".toList ++ n ++ " = ;".toList) =
        .error (.redeclaration n 1 (11 + (n.length : Int)))) :=
  ⟨parse_declaration_initializer, analyse_self_initialised, analyse_redeclared_malformed⟩

/-- Witness of C16: `x` is an identifier, and the analysis of
`int x; int x = ;` ends with the redeclaration condition at line 1, column
12. -/
theorem declaration_before_initializer_witness :
    analyse "int x; int x = ;".toList = .error (.redeclaration ['x'] 1 12) :=
  declaration_before_initializer.2.2 ['x'] (by decide)

/-! ## Capacity of the symbol table -/

theorem exit_scope_length_le (s : State) :
    (exit_scope s).symbol_table.length ≤ s.symbol_table.length := by
  unfold exit_scope
  simp only [List.length_take]
  omega

/-- The scope operations never make the table longer than `MAX_SYMBOLS`. -/
theorem reachable_length (s : State) (h : Reachable s) :
    s.symbol_table.length ≤ MAX_SYMBOLS := by
  induction h with
  | init s htable _ => rw [htable]; simp
  | enter s _ ih => exact ih
  | declare s s' name type _ hadd ih =>
    obtain ⟨_, hlt, rfl⟩ := add_symbol_ok s s' name type hadd
    simp only [List.length_append, List.length_cons, List.length_nil]
    omega
  | exit s _ _ ih => exact le_trans (exit_scope_length_le s) ih
  | read s s' _ htable _ ih => rw [htable]; exact ih

theorem scan_step_live (st st' : Scopes × Bool) (t : Token)
    (h : scan_step st t = .ok st') (hl : live st.1 ≤ MAX_SYMBOLS) :
    live st'.1 ≤ MAX_SYMBOLS := by
  unfold scan_step at h
  split at h
  · split at h
    · split at h
      · cases h
      · rename_i top outer heq
        split at h
        · cases h
        · split at h
          · cases h
          · rename_i hfull
            cases h
            rw [heq] at hfull
            simp only [live, List.map_cons, List.sum_cons, List.length_append,
              List.length_cons, List.length_nil] at hfull ⊢
            omega
    · split at h
      · cases h; exact hl
      · cases h
  · split at h
    · cases h
      simpa [live] using hl
    · split at h
      · split at h
        · rename_i inner top outer heq
          cases h
          rw [heq] at hl
          simp only [live, List.map_cons, List.sum_cons] at hl ⊢
          omega
        · cases h
      · cases h; exact hl

theorem scan_live (ts : List Token) (st st' : Scopes × Bool) (h : scan ts st = .ok st')
    (hl : live st.1 ≤ MAX_SYMBOLS) : live st'.1 ≤ MAX_SYMBOLS := by
  induction ts generalizing st with
  | nil => cases h; exact hl
  | cons t ts ih =>
    obtain ⟨st1, h1, h2⟩ := scan_cons_inv t ts st st' h
    exact ih st1 h2 (scan_step_live st st1 t h1 hl)

/-- No procedure of the parser returns with more than `MAX_SYMBOLS` symbols in
the table, when it was entered with at most that many. -/
theorem run_length (p : Proc) (n : Nat) (s s' : State) (scopes : Scopes)
    (hR : Refines scopes s) (hD : DelimOK s)
    (hlen : s.symbol_table.length ≤ MAX_SYMBOLS) (h : p.run n s = .ok s') :
    s'.symbol_table.length ≤ MAX_SYMBOLS := by
  obtain ⟨ts, scopes', ⟨_, hscan, hR'⟩, _, _⟩ := sound_all n p s s' scopes hR hD h
  rw [hR'.2.1, table_of_length]
  rw [hR.2.1, table_of_length] at hlen
  exact scan_live ts (scopes, false) (scopes', false) hscan hlen

theorem add_symbol_globals_ok (s s' : State) (name type : List Char)
    (h : add_symbol s name type = .ok s') : add_symbol_globals s name type = s' := by
  unfold add_symbol at h
  unfold add_symbol_globals
  split at h
  · cases h
  · rename_i h1
    rw [if_neg h1]
    split at h
    · cases h
    · rename_i h2
      rw [if_neg h2]
      cases h
      rfl

/-! ## Programs that are a row of declarations -/

theorem declarations_cons (n : List Char) (ns : List (List Char)) :
    declarations (n :: ns) = "int ".toList ++ n ++ "; ".toList ++ declarations ns := by
  simp [declarations]

theorem declarations_append (a b : List (List Char)) :
    declarations (a ++ b) = declarations a ++ declarations b := by
  simp [declarations]

/-- The number of characters of `declarations names`. -/
theorem declarations_length (names : List (List Char)) :
    ((declarations names).length : Int) = (names.map fun n => 6 + (n.length : Int)).sum := by
  induction names with
  | nil => rfl
  | cons n ns ih =>
    rw [declarations_cons]
    simp only [List.length_append, Nat.cast_add, ih, List.map_cons, List.sum_cons]
    simp
    omega

theorem declaration_tokens_append (a b : List (List Char)) (col : Int) :
    declaration_tokens col (a ++ b) =
      declaration_tokens col a ++
        declaration_tokens (col + ((declarations a).length : Int)) b := by
  induction a generalizing col with
  | nil => simp [declaration_tokens, declarations]
  | cons n ns ih =>
    rw [List.cons_append, declaration_tokens, declaration_tokens, ih, declarations_cons]
    simp only [List.cons_append, List.length_append, Nat.cast_add]
    congr 5
    simp
    omega

/-- One declaration `int n; ` after blanks gives three tokens and leaves the
blank after the semicolon in the input. -/
theorem lex_declaration (n rest ws : List Char) (col : Int) (hws : ∀ x ∈ ws, x = ' ')
    (hcol : 0 ≤ col) (hn : is_identifier n = true) :
    lex_all ((ws ++ ("int ".toList ++ n ++ "; ".toList ++ rest)).length + 1)
        ⟨ws ++ ("int ".toList ++ n ++ "; ".toList ++ rest), 1, col⟩ =
      ⟨.TOKEN_KEYWORD, "int".toList, 1, col + ws.length + 1⟩ ::
        ⟨.TOKEN_IDENTIFIER, n, 1, col + ws.length + 5⟩ ::
        ⟨.TOKEN_DELIMITER, [';'], 1, col + ws.length + 5 + (n.length : Int)⟩ ::
        lex_all ((' ' :: rest).length + 1)
          ⟨' ' :: rest, 1, col + ws.length + 5 + (n.length : Int)⟩ := by
  obtain ⟨c, w, rfl, hc, hw, hlen, hkw⟩ := is_identifier_spec n hn
  have h1 := lex_word (ws ++ ("int ".toList ++ (c :: w) ++ "; ".toList ++ rest)) ws
    "nt".toList (' ' :: ((c :: w) ++ "; ".toList ++ rest)) 'i' 1 col (col + ws.length + 1)
    (col + ws.length + 3) (by simp) hws (by decide) (by decide)
    (fun d r h => by cases h; exact ⟨by decide, by decide⟩) (by decide) hcol rfl (by simp)
  rw [show is_keyword ('i' :: "nt".toList) = true by decide, if_pos rfl] at h1
  have h2 := lex_word (' ' :: ((c :: w) ++ "; ".toList ++ rest)) [' '] w
    (';' :: ' ' :: rest) c 1 (col + ws.length + 3) (col + ws.length + 5)
    (col + ws.length + 4 + ((c :: w).length : Int)) (by simp) (by simp) hc hw
    (fun d r h => by cases h; exact ⟨by decide, by decide⟩) hlen (by omega)
    (by simp; omega) (by simp; omega)
  rw [hkw, if_neg (by simp)] at h2
  have h3 := lex_delimiter (';' :: ' ' :: rest) [] (' ' :: rest) ';' 1
    (col + ws.length + 4 + ((c :: w).length : Int))
    (col + ws.length + 5 + ((c :: w).length : Int)) rfl (by simp) (by decide)
    (by simp; omega)
  rw [lex_all_step _ _ _ _ h1 (by simp) (by simp), lex_all_step _ _ _ _ h2 (by simp) (by simp),
    lex_all_step _ _ _ _ h3 (by simp) (by simp)]
  rfl

/-- The tokens of a row of declarations that follows blanks. -/
theorem lex_declarations (names : List (List Char)) (ws : List Char) (col : Int)
    (hws : ∀ x ∈ ws, x = ' ') (hcol : 0 ≤ col)
    (hn : ∀ n ∈ names, is_identifier n = true) :
    lex_all ((ws ++ declarations names).length + 1) ⟨ws ++ declarations names, 1, col⟩ =
      declaration_tokens (col + ws.length) names ++
        [⟨.TOKEN_EOF, [], 1, col + ws.length + ((declarations names).length : Int)⟩] := by
  induction names generalizing ws col with
  | nil =>
    simp only [declarations, List.flatMap_nil, List.append_nil, declaration_tokens,
      List.length_nil, Nat.cast_zero, add_zero, List.nil_append]
    exact lex_all_stop _ _ _ _ (lex_eof ws 1 col _ hws rfl) rfl (by omega)
  | cons n ns ih =>
    rw [declarations_cons, lex_declaration n (declarations ns) ws col hws hcol
      (hn n (List.mem_cons_self _ _))]
    have h := ih [' '] (col + ws.length + 5 + (n.length : Int)) (by simp) (by omega)
      (fun m hm => hn m (List.mem_cons_of_mem _ hm))
    rw [List.singleton_append] at h
    rw [h, declaration_tokens]
    simp only [List.cons_append, List.length_append, List.length_cons, List.length_nil,
      Nat.cast_add, Nat.cast_one, Nat.cast_zero]
    congr 5
    · omega
    · congr 1
      simp only [String.toList, List.length_cons, List.length_nil, Nat.cast_add,
        Nat.cast_one, Nat.cast_zero]
      omega

/-- The token sequence of a row of declarations. -/
theorem tokens_of_declarations (names : List (List Char))
    (hn : ∀ n ∈ names, is_identifier n = true) :
    token_sequence (declarations names) =
      declaration_tokens 0 names ++
        [⟨.TOKEN_EOF, [], 1, ((declarations names).length : Int)⟩] := by
  have h := lex_declarations names [] 0 (by simp) (le_refl _) hn
  simpa [token_sequence] using h

/-- A row of declarations is a statement list of the grammar. -/
theorem derives_declarations (names : List (List Char)) (col : Int) :
    Derives .stmtList (declaration_tokens col names) := by
  induction names generalizing col with
  | nil => exact .stmtList_nil
  | cons n ns ih =>
    exact (Derives.stmtList_cons (.statement_decl (.decl ⟨rfl, rfl⟩ rfl ⟨rfl, rfl⟩))
      (ih (col + 6 + (n.length : Int)))).cast rfl

/-- Declarations of names that differ from one another and from those of the
scope obey the scoping rule as long as the table has room. -/
theorem scan_declarations (names top : List (List Char)) (col : Int)
    (hnodup : (top ++ names).Nodup) (hlen : (top ++ names).length ≤ MAX_SYMBOLS) :
    scan (declaration_tokens col names) ([top], false) = .ok ([top ++ names], false) := by
  induction names generalizing top col with
  | nil => simp [declaration_tokens, scan]
  | cons n ns ih =>
    have hnot : n ∉ top := fun h =>
      (List.nodup_append.mp hnodup).2.2 h (List.mem_cons_self _ _)
    have hroom : ¬ MAX_SYMBOLS ≤ live [top] := by
      simp only [List.length_append, List.length_cons] at hlen
      simp only [live, List.map_cons, List.map_nil, List.sum_cons, List.sum_nil]
      omega
    rw [declaration_tokens, scan_cons_ok _ _ _ _ (scan_step_int _ _ _ ⟨rfl, rfl⟩),
      scan_cons_ok _ _ ([top], true) ([top ++ [n]], false)
        (by rw [scan_step_declare _ _ _ rfl, if_neg hnot, if_neg hroom]),
      scan_cons_ok _ _ _ _ (scan_step_delim _ _ _ ';' ⟨rfl, rfl⟩ (by decide) (by decide))]
    have h := ih (top ++ [n]) (col + 6 + (n.length : Int))
      (by rw [List.append_assoc]; exact hnodup) (by rw [List.append_assoc]; exact hlen)
    rw [h, List.append_assoc]
    rfl

/-- Up to `MAX_SYMBOLS` declarations of different names are accepted. -/
theorem analyse_declarations (names : List (List Char))
    (hn : ∀ n ∈ names, is_identifier n = true) (hnodup : names.Nodup)
    (hlen : names.length ≤ MAX_SYMBOLS) : ∃ s', analyse (declarations names) = .ok s' := by
  apply analyse_returns
  · rw [tokens_of_declarations names hn]
    exact .program (derives_declarations names 0) rfl
  · rw [tokens_of_declarations names hn, scan_append,
      scan_declarations names [] 0 (by simpa using hnodup) (by simpa using hlen)]
    exact ⟨_, rfl⟩

/-- More than `MAX_SYMBOLS` declarations of different names: the analysis
ends with the capacity condition. -/
theorem analyse_declarations_full (names : List (List Char))
    (hn : ∀ n ∈ names, is_identifier n = true) (hnodup : names.Nodup)
    (hlen : MAX_SYMBOLS < names.length) :
    analyse (declarations names) = .error .table_full := by
  obtain ⟨a, n, b, rfl, ha⟩ : ∃ a n b, names = a ++ n :: b ∧ a.length = MAX_SYMBOLS := by
    refine ⟨names.take MAX_SYMBOLS, names.get ⟨MAX_SYMBOLS, hlen⟩, names.drop (MAX_SYMBOLS + 1),
      ?_, by simp; omega⟩
    have h := List.take_append_drop MAX_SYMBOLS names
    rw [List.drop_eq_getElem_cons hlen] at h
    exact h.symm
  have hna : n ∉ a := fun h =>
    (List.nodup_append.mp hnodup).2.2 h (List.mem_cons_self _ _)
  have hda : a.Nodup := (List.nodup_append.mp hnodup).1
  exact analyse_fault _
    (declaration_tokens 0 a ++
      [⟨.TOKEN_KEYWORD, "int".toList, 1, ((declarations a).length : Int) + 1⟩])
    (⟨.TOKEN_DELIMITER, [';'], 1, ((declarations a).length : Int) + 5 + (n.length : Int)⟩ ::
      (declaration_tokens (((declarations a).length : Int) + 6 + (n.length : Int)) b ++
        [⟨.TOKEN_EOF, [], 1, ((declarations (a ++ n :: b)).length : Int)⟩]))
    [⟨.TOKEN_DELIMITER, [';'], 1, ((declarations a).length : Int) + 5 + (n.length : Int)⟩,
      ⟨.TOKEN_EOF, [], 1, 0⟩]
    ⟨.TOKEN_IDENTIFIER, n, 1, ((declarations a).length : Int) + 5⟩
    ([a], true) .overflow
    (by
      rw [tokens_of_declarations _ hn, declaration_tokens_append, declaration_tokens]
      simp)
    (by
      have h := Derives.program (derives_declarations (a ++ [n]) 0)
        (show (⟨.TOKEN_EOF, [], 1, 0⟩ : Token).type = .TOKEN_EOF from rfl)
      rw [declaration_tokens_append, declaration_tokens, declaration_tokens] at h
      exact h.cast (by simp))
    (by
      rw [scan_append, scan_declarations a [] 0 (by simpa using hda)
        (by simp only [List.nil_append]; omega)]
      simp only [List.nil_append]
      rw [scan_cons_ok _ _ _ _ (scan_step_int _ _ _ ⟨rfl, rfl⟩)]
      rfl)
    rfl
    (by
      rw [scan_step_declare _ _ _ rfl, if_neg hna, if_pos (by
        simp only [live, List.map_cons, List.map_nil, List.sum_cons, List.sum_nil]
        omega)])

/-- An analysis that succeeds ends with at most `MAX_SYMBOLS` symbols. -/
theorem analyse_length (input : List Char) (s' : State) (h : analyse input = .ok s') :
    s'.symbol_table.length ≤ MAX_SYMBOLS := by
  unfold analyse parse_program at h
  rw [andThen_ok] at h
  obtain ⟨s1, h1, h2⟩ := h
  split at h2
  · cases h2
  · cases h2
    have h1' : Proc.run .statement_list (budget input) (next_token (initial_state input)) =
        .ok s' := h1
    exact run_length .statement_list _ _ _ [[]] (refines_initial input) (delimOK_initial input)
      (by simp [next_token, initial_state]) h1'

theorem add_symbol_full (s : State) (name type : List Char)
    (hfull : MAX_SYMBOLS ≤ s.symbol_table.length)
    (hnew : ¬ ∃ y ∈ s.symbol_table, y.name = name ∧ y.scope_level = s.current_scope_level) :
    add_symbol s name type = .error .table_full ∧ add_symbol_globals s name type = s := by
  have hr : redeclared s.symbol_table name s.current_scope_level = false := by
    cases hb : redeclared s.symbol_table name s.current_scope_level
    · rfl
    · exact absurd ((redeclared_iff _ _ _).mp hb) hnew
  unfold add_symbol add_symbol_globals
  rw [hr]
  simp only [Bool.false_eq_true, if_false]
  rw [if_pos hfull, if_pos hfull]
  exact ⟨rfl, rfl⟩

theorem add_symbol_duplicate (s : State) (name type : List Char)
    (hdup : ∃ y ∈ s.symbol_table, y.name = name ∧ y.scope_level = s.current_scope_level) :
    add_symbol s name type =
        .error (.redeclaration name s.current_token.line s.current_token.column) ∧
      add_symbol_globals s name type = s := by
  have hr := (redeclared_iff _ _ _).mpr hdup
  unfold add_symbol add_symbol_globals
  rw [hr]
  simp

/-- C14: (1) no state that the scope operations produce from the empty table
holds more than `MAX_SYMBOLS` = 100 symbols, no procedure of the parser that
is entered with at most 100 symbols returns with more, and an analysis that
succeeds ends with at most 100; (2) `add_symbol` on a table that holds 100
symbols (or more), none of them with this name at the current level, raises
the capacity condition, and the globals are then what they were (`add_symbol`
writes nothing before it exits; when it returns, the globals are those of the
state it returns in); (3) the redeclaration test comes first: with
a symbol of this name at the current level `add_symbol` raises the
redeclaration condition, whatever the size of the table, and the globals are
unchanged; (4) for names that are identifiers and differ from one another, the
program `int n1; int n2; ...` is accepted when there are at most 100 names,
and with more than 100 names the analysis ends with the capacity condition. -/
theorem capacity :
    ((∀ s, Reachable s → s.symbol_table.length ≤ MAX_SYMBOLS) ∧
      (∀ (p : Proc) n s s' scopes, Refines scopes s → DelimOK s →
        s.symbol_table.length ≤ MAX_SYMBOLS → p.run n s = .ok s' →
        s'.symbol_table.length ≤ MAX_SYMBOLS) ∧
      (∀ input s', analyse input = .ok s' → s'.symbol_table.length ≤ MAX_SYMBOLS)) ∧
    ((∀ s name type, MAX_SYMBOLS ≤ s.symbol_table.length →
        (¬ ∃ y ∈ s.symbol_table, y.name = name ∧ y.scope_level = s.current_scope_level) →
        add_symbol s name type = .error .table_full ∧ add_symbol_globals s name type = s) ∧
      (∀ s s' name type, add_symbol s name type = .ok s' →
        add_symbol_globals s name type = s')) ∧
    (∀ s name type,
      (∃ y ∈ s.symbol_table, y.name = name ∧ y.scope_level = s.current_scope_level) →
      add_symbol s name type =
          .error (.redeclaration name s.current_token.line s.current_token.column) ∧
        add_symbol_globals s name type = s) ∧
    (∀ names : List (List Char), (∀ n ∈ names, is_identifier n = true) → names.Nodup →
      (names.length ≤ MAX_SYMBOLS → ∃ s', analyse (declarations names) = .ok s') ∧
      (MAX_SYMBOLS < names.length → analyse (declarations names) = .error .table_full)) :=
  ⟨⟨reachable_length, fun p n s s' scopes hR hD hl h => run_length p n s s' scopes hR hD hl h,
      analyse_length⟩,
    ⟨add_symbol_full, add_symbol_globals_ok⟩, add_symbol_duplicate,
    fun names hn hd => ⟨analyse_declarations names hn hd, analyse_declarations_full names hn hd⟩⟩

set_option maxRecDepth 100000 in
/-- Witness of C14: the program `int v0; int v1; ... int v100; ` of 101
declarations of different names ends with the capacity condition. -/
theorem capacity_witness :
    analyse (declarations (numbered_names 101)) = .error .table_full :=
  (capacity.2.2.2 (numbered_names 101) (by decide) (by decide)).2 (by decide)

/-! ## One call of the lexer, in general -/

theorem advance_append (s : Source) (a b : List Char) :
    advance s (a ++ b) = advance (advance s a) b := by
  simp [advance, List.foldl_append]

/-- A delimiter after white space. -/
theorem get_next_token_delim (s : Source) (ws rest : List Char) (c : Char)
    (hin : s.input_file = ws ++ c :: rest) (hws : ∀ x ∈ ws, isspace x = true)
    (hc : is_delimiter c = true) :
    get_next_token s =
      (⟨.TOKEN_DELIMITER, [c], (advance s (ws ++ [c])).current_line,
          (advance s (ws ++ [c])).current_column⟩, advance s (ws ++ [c])) := by
  obtain ⟨hsp, hal, hdi, hop, _⟩ := is_delimiter_not_word c hc
  unfold get_next_token
  simp only []
  rw [skip_space_loop_char ws s _ c rest hin hws hsp (by rw [hin]; simp; omega)]
  simp only [hal, hdi, hop, hc, if_true, Bool.false_eq_true, if_false]

/-- A character of no class after white space: the token of type
`TOKEN_ERROR`. -/
theorem get_next_token_invalid (s : Source) (ws rest : List Char) (c : Char)
    (hin : s.input_file = ws ++ c :: rest) (hws : ∀ x ∈ ws, isspace x = true)
    (hsp : isspace c = false) (hal : isalpha c = false) (hdi : isdigit c = false)
    (hop : is_operator c = false) (hde : is_delimiter c = false) :
    get_next_token s =
      (⟨.TOKEN_ERROR, one_char c, (advance s (ws ++ [c])).current_line,
          (advance s (ws ++ [c])).current_column⟩, advance s (ws ++ [c])) := by
  unfold get_next_token
  simp only []
  rw [skip_space_loop_char ws s _ c rest hin hws hsp (by rw [hin]; simp; omega)]
  simp only [hal, hdi, hop, hde, Bool.false_eq_true, if_false]

/-- The end of the input after white space. -/
theorem get_next_token_eof (s : Source) (hws : ∀ x ∈ s.input_file, isspace x = true) :
    get_next_token s =
      (⟨.TOKEN_EOF, [], (advance s s.input_file).current_line,
          (advance s s.input_file).current_column⟩, advance s s.input_file) := by
  unfold get_next_token
  simp only []
  rw [skip_space_loop_eof s.input_file s _ rfl hws (by omega)]

theorem takeWhile_dropWhile_next (p : Char → Bool) (r : List Char) :
    ∀ d t, r.dropWhile p = d :: t → p d = false := by
  intro d t h
  induction r with
  | nil => cases h
  | cons x xs ih =>
    by_cases hx : p x = true
    · rw [List.dropWhile_cons_of_pos hx] at h
      exact ih h
    · rw [List.dropWhile_cons_of_neg hx] at h
      cases h
      simpa using hx

/-- What one call of `get_next_token` does when a character that is not white
is left: it takes that character `c` and some characters `v` after it, at most
`MAX_TOKEN_LENGTH - 1` in all, records the position reached after reading `c`,
and ends either right after `c :: v` or after reading one character more and
pushing it back. -/
theorem get_next_token_step (s : Source) (ws r : List Char) (c : Char)
    (hin : s.input_file = ws ++ c :: r) (hws : ∀ x ∈ ws, isspace x = true)
    (hc : isspace c = false) :
    ∃ v rest, r = v ++ rest ∧ (c :: v).length ≤ MAX_TOKEN_LENGTH - 1 ∧
      (∀ x ∈ v, isspace x = false) ∧
      ((get_next_token s).1.type = .TOKEN_ERROR → v = []) ∧
      (get_next_token s).1.type ≠ .TOKEN_EOF ∧
      (get_next_token s).1.line = (advance s (ws ++ [c])).current_line ∧
      (get_next_token s).1.column = (advance s (ws ++ [c])).current_column ∧
      (get_next_token s).1.value =
        (if (get_next_token s).1.type = .TOKEN_ERROR then one_char c else c :: v) ∧
      (get_next_token s).2.input_file = rest ∧
      ((get_next_token s).2 = advance s (ws ++ c :: v) ∨
        (get_next_token s).2 =
          ungetch_adjust (getch (advance s (ws ++ c :: v))).2
            (getch (advance s (ws ++ c :: v))).1) := by
  have hs1 : (advance s (ws ++ [c])).input_file = r :=
    advance_input (ws ++ [c]) s r (by rw [hin]; simp)
  have hadv : ∀ v : List Char,
      advance s (ws ++ c :: v) = advance (advance s (ws ++ [c])) v := by
    intro v
    rw [← advance_append]
    simp
  by_cases hal : isalpha c = true
  · have h := get_next_token_word s ws (r.takeWhile isalnum) (r.dropWhile isalnum) c
      (by rw [List.takeWhile_append_dropWhile]; exact hin) hws hal
      (fun x hx => (List.mem_takeWhile_imp hx)) (takeWhile_dropWhile_next isalnum r)
    refine ⟨(r.takeWhile isalnum).take (MAX_TOKEN_LENGTH - 2),
      (r.takeWhile isalnum).drop (MAX_TOKEN_LENGTH - 2) ++ r.dropWhile isalnum, ?_, ?_, ?_, ?_,
      ?_, ?_, ?_, ?_, ?_, ?_⟩
    · rw [← List.append_assoc, List.take_append_drop, List.takeWhile_append_dropWhile]
    · simp only [List.length_cons, List.length_take, MAX_TOKEN_LENGTH]
      omega
    · exact fun x hx => isalnum_not_space x (List.mem_takeWhile_imp (List.mem_of_mem_take hx))
    · rw [h]; simp only []; split <;> simp
    · rw [h]; simp only []; split <;> simp
    · rw [h]
    · rw [h]
    · rw [h]; simp only []; split <;> simp
    · rw [h]
      exact advance_take_input _ _ _ _ (by rw [hs1, List.takeWhile_append_dropWhile])
    · right
      rw [h, hadv ((r.takeWhile isalnum).take (MAX_TOKEN_LENGTH - 2))]
  by_cases hdi : isdigit c = true
  · have h := get_next_token_number s ws (r.takeWhile isdigit) (r.dropWhile isdigit) c
      (by rw [List.takeWhile_append_dropWhile]; exact hin) hws hdi
      (fun x hx => (List.mem_takeWhile_imp hx)) (takeWhile_dropWhile_next isdigit r)
    refine ⟨(r.takeWhile isdigit).take (MAX_TOKEN_LENGTH - 2),
      (r.takeWhile isdigit).drop (MAX_TOKEN_LENGTH - 2) ++ r.dropWhile isdigit, ?_, ?_, ?_, ?_,
      ?_, ?_, ?_, ?_, ?_, ?_⟩
    · rw [← List.append_assoc, List.take_append_drop, List.takeWhile_append_dropWhile]
    · simp only [List.length_cons, List.length_take, MAX_TOKEN_LENGTH]
      omega
    · exact fun x hx => isalnum_not_space x (isdigit_isalnum x
        (List.mem_takeWhile_imp (List.mem_of_mem_take hx)))
    · rw [h]; simp
    · rw [h]; simp
    · rw [h]
    · rw [h]
    · rw [h]; simp
    · rw [h]
      exact advance_take_input _ _ _ _ (by rw [hs1, List.takeWhile_append_dropWhile])
    · right
      rw [h, hadv ((r.takeWhile isdigit).take (MAX_TOKEN_LENGTH - 2))]
  by_cases hop : is_operator c = true
  · have h := get_next_token_operator s ws r c hws hop hin
    by_cases hcomb : combinable c (getch (advance s (ws ++ [c]))).1 = true
    · rw [if_pos hcomb] at h
      cases r with
      | nil =>
        rw [getch_nil _ hs1] at hcomb
        simp [combinable] at hcomb
      | cons d t =>
        have hg := getch_cons _ d t hs1
        rw [hg.1] at h
        have hd : isspace d = false := by
          rw [hg.1] at hcomb
          have h2 := (combinable_iff c d).mp hcomb
          simp only [two_char_operators, String.toList, List.mem_cons, List.cons.injEq,
            and_true, List.mem_singleton, List.not_mem_nil, or_false] at h2
          rcases h2 with ⟨_, h2⟩ | ⟨_, h2⟩ | ⟨_, h2⟩ | ⟨_, h2⟩ | ⟨_, h2⟩ | ⟨_, h2⟩ <;>
            subst h2 <;> decide
        refine ⟨[d], t, rfl, by simp [MAX_TOKEN_LENGTH],
          (fun x hx => by rw [List.mem_singleton.mp hx]; exact hd),
          (fun ht => by rw [h] at ht; cases ht), ?_, ?_, ?_, ?_, ?_, ?_⟩
        · rw [h]; simp
        · rw [h]
        · rw [h]
        · rw [h]; simp
        · rw [h]; exact hg.2
        · left
          rw [h, hadv [d]]
          rfl
    · rw [if_neg hcomb] at h
      refine ⟨[], r, rfl, by simp [MAX_TOKEN_LENGTH], (fun x hx => by cases hx), (fun _ => rfl),
        ?_, ?_, ?_, ?_, ?_, ?_⟩
      · rw [h]; simp
      · rw [h]
      · rw [h]
      · rw [h]; simp
      · rw [h, unget_getch_input, hs1]
      · right
        rw [h]
  by_cases hde : is_delimiter c = true
  · have h := get_next_token_delim s ws r c hin hws hde
    refine ⟨[], r, rfl, by simp [MAX_TOKEN_LENGTH], (fun x hx => by cases hx), (fun _ => rfl),
      ?_, ?_, ?_, ?_, ?_, ?_⟩
    · rw [h]; simp
    · rw [h]
    · rw [h]
    · rw [h]; simp
    · rw [h, hs1]
    · left
      rw [h]
  · have h := get_next_token_invalid s ws r c hin hws hc (by simpa using hal)
      (by simpa using hdi) (by simpa using hop) (by simpa using hde)
    refine ⟨[], r, rfl, by simp [MAX_TOKEN_LENGTH], (fun x hx => by cases hx), (fun _ => rfl),
      ?_, ?_, ?_, ?_, ?_, ?_⟩
    · rw [h]; simp
    · rw [h]
    · rw [h]
    · rw [h]; simp
    · rw [h, hs1]
    · left
      rw [h]

/-! ## The lexer loses and duplicates no characters -/

theorem filter_white (ws : List Char) (hws : ∀ x ∈ ws, isspace x = true) :
    ws.filter (fun c => !isspace c) = [] := by
  rw [List.filter_eq_nil_iff]
  intro x hx
  simp [hws x hx]

theorem filter_not_white (v : List Char) (hv : ∀ x ∈ v, isspace x = false) :
    v.filter (fun c => !isspace c) = v := by
  rw [List.filter_eq_self]
  intro x hx
  simp [hv x hx]

theorem one_char_of_ne (c : Char) (h : c.toNat ≠ 0) : one_char c = [c] := by
  unfold one_char
  rw [if_neg h]

/-- The lexemes of the tokens of an input without NUL, put together, are the
characters of the input that are not white; every lexeme but that of
`TOKEN_EOF` has from 1 to `MAX_TOKEN_LENGTH - 1` characters. -/
theorem lex_all_lexemes (m : Nat) (s : Source) (hm : s.input_file.length ≤ m)
    (hnul : ∀ c ∈ s.input_file, c.toNat ≠ 0) :
    (lex_all (s.input_file.length + 1) s).flatMap Token.value =
        s.input_file.filter (fun c => !isspace c) ∧
      ∀ t ∈ lex_all (s.input_file.length + 1) s, t.type ≠ .TOKEN_EOF →
        1 ≤ t.value.length ∧ t.value.length ≤ MAX_TOKEN_LENGTH - 1 := by
  induction m generalizing s with
  | zero =>
    have hin : s.input_file = [] := List.length_eq_zero.mp (by omega)
    have h := get_next_token_eof s (by rw [hin]; simp)
    rw [lex_all_stop _ _ _ _ h rfl (by omega), hin]
    refine ⟨rfl, ?_⟩
    intro t ht hne
    rw [List.mem_singleton.mp ht] at hne
    exact absurd rfl hne
  | succ m ih =>
    have hsplit := List.takeWhile_append_dropWhile isspace s.input_file
    have hws : ∀ x ∈ s.input_file.takeWhile isspace, isspace x = true :=
      fun x hx => List.mem_takeWhile_imp hx
    cases hd : s.input_file.dropWhile isspace with
    | nil =>
      rw [hd, List.append_nil] at hsplit
      rw [hsplit] at hws
      have h := get_next_token_eof s hws
      rw [lex_all_stop _ _ _ _ h rfl (by omega), filter_white _ hws]
      refine ⟨rfl, ?_⟩
      intro t ht hne
      rw [List.mem_singleton.mp ht] at hne
      exact absurd rfl hne
    | cons c r =>
      rw [hd] at hsplit
      have hc : isspace c = false := takeWhile_dropWhile_next isspace s.input_file c r hd
      have hcn : c.toNat ≠ 0 := hnul c (by rw [← hsplit]; simp)
      obtain ⟨v, rest, hr, hlen, hv, herr, hne, _, _, hval, hin', _⟩ :=
        get_next_token_step s (s.input_file.takeWhile isspace) r c hsplit.symm hws hc
      have hvalue : (get_next_token s).1.value = c :: v := by
        rw [hval]
        split
        · rename_i ht
          rw [herr ht, one_char_of_ne c hcn]
        · rfl
      have hlt := get_next_token_lt s hne
      have hrest : ∀ x ∈ (get_next_token s).2.input_file, x.toNat ≠ 0 := by
        intro x hx
        rw [hin'] at hx
        exact hnul x (by rw [← hsplit, hr]; simp [hx])
      obtain ⟨ih1, ih2⟩ := ih (get_next_token s).2 (by omega) hrest
      rw [lex_all_step _ s (get_next_token s).2 (get_next_token s).1 rfl hne (by omega)]
      constructor
      · rw [List.flatMap_cons, ih1, hvalue, hin']
        conv_rhs => rw [← hsplit, hr]
        rw [List.filter_append, filter_white _ hws, List.nil_append,
          show c :: (v ++ rest) = (c :: v) ++ rest from rfl, List.filter_append,
          filter_not_white (c :: v) (by
            intro x hx
            rcases List.mem_cons.mp hx with rfl | hx
            · exact hc
            · exact hv x hx)]
      · intro t ht
        rcases List.mem_cons.mp ht with rfl | ht
        · intro _
          rw [hvalue]
          exact ⟨by simp, hlen⟩
        · exact ih2 t ht

/-- C19: for every input without a NUL character, the lexemes of the tokens
that successive calls of `get_next_token` return, up to and including the
first `TOKEN_EOF`, put together in order, are the input with its white-space
characters removed; the sequence ends with a `TOKEN_EOF` token and has no
other; and the lexeme of every token other than `TOKEN_EOF` has at least 1
and at most `MAX_TOKEN_LENGTH - 1` = 99 characters. -/
theorem lexemes_cover_input (input : List Char) (hnul : ∀ c ∈ input, c.toNat ≠ 0) :
    (token_sequence input).flatMap Token.value = input.filter (fun c => !isspace c) ∧
    (∃ ts eof, token_sequence input = ts ++ [eof] ∧ eof.type = .TOKEN_EOF ∧
      ∀ t ∈ ts, t.type ≠ .TOKEN_EOF) ∧
    ∀ t ∈ token_sequence input, t.type ≠ .TOKEN_EOF →
      1 ≤ t.value.length ∧ t.value.length ≤ 99 :=
  ⟨(lex_all_lexemes input.length ⟨input, 1, 0⟩ (le_refl _) hnul).1,
    lex_all_eof (input.length + 1) ⟨input, 1, 0⟩ (Nat.lt_succ_self _),
    (lex_all_lexemes input.length ⟨input, 1, 0⟩ (le_refl _) hnul).2⟩

/-- Witness of C19: the input `a1 <=b;` with a tab and a line end in it. -/
theorem lexemes_cover_input_witness :
    (token_sequence "a1\t<=\nb ;".toList).flatMap Token.value = "a1<=b;".toList :=
  (lexemes_cover_input "a1\t<=\nb ;".toList (by decide)).1

/-! ## Locations of tokens -/

theorem count_newline_snoc (cs : List Char) (c : Char) :
    (cs ++ [c]).count '\n' = cs.count '\n' + if c = '\n' then 1 else 0 := by
  rw [List.count_append]
  by_cases h : c = '\n'
  · subst h
    simp
  · simp [h, List.count_cons]

theorem since_newline_snoc (cs : List Char) (c : Char) :
    since_newline (cs ++ [c]) = if c = '\n' then 0 else since_newline cs + 1 := by
  unfold since_newline
  rw [List.reverse_append, List.reverse_singleton, List.singleton_append]
  by_cases h : c = '\n'
  · rw [if_pos h, List.takeWhile_cons_of_neg (by simp [h])]
    rfl
  · rw [if_neg h, List.takeWhile_cons_of_pos (by simp [h])]
    rfl

theorem ExactAt.synced {consumed : List Char} {s : Source} (h : ExactAt consumed s) :
    SyncedAt consumed s :=
  ⟨h.1, Or.inl h.2⟩

/-- Whatever the column was before a pushed-back newline, reading a character
makes both counters exact. -/
theorem getch_exact (consumed : List Char) (s : Source) (c : Char) (rest : List Char)
    (h : SyncedAt consumed s) (hin : s.input_file = c :: rest) :
    ExactAt (consumed ++ [c]) (getch s).2 := by
  unfold getch
  rw [hin]
  simp only []
  by_cases hc : c = '\n'
  · rw [if_pos hc]
    refine ⟨?_, ?_⟩
    · simp only [count_newline_snoc, if_pos hc, h.1]
      push_cast
      omega
    · simp only [since_newline_snoc, if_pos hc]
      rfl
  · rw [if_neg hc]
    rcases h.2 with hcol | ⟨r, hr⟩
    · refine ⟨?_, ?_⟩
      · simp only [count_newline_snoc, if_neg hc, h.1, add_zero]
      · simp only [since_newline_snoc, if_neg hc, hcol]
        push_cast
        rfl
    · rw [hin] at hr
      cases hr
      exact absurd rfl hc

theorem advance_exact (cs : List Char) :
    ∀ (consumed : List Char) (s : Source) (rest : List Char), SyncedAt consumed s →
      s.input_file = cs ++ rest → cs ≠ [] → ExactAt (consumed ++ cs) (advance s cs) := by
  induction cs with
  | nil => intro _ _ _ _ _ h; exact absurd rfl h
  | cons c cs ih =>
    intro consumed s rest h hin _
    have h1 := getch_exact consumed s c (cs ++ rest) h hin
    rw [advance_cons]
    cases cs with
    | nil => exact h1
    | cons d ds =>
      have h2 := ih (consumed ++ [c]) (getch s).2 rest h1.synced
        (getch_cons s c (d :: ds ++ rest) hin).2 (by simp)
      rw [List.append_assoc] at h2
      exact h2

/-- Pushing back the character read last leaves the line exact, and the
column too unless that character is a newline. -/
theorem unget_exact (consumed : List Char) (s : Source) (h : ExactAt consumed s) :
    SyncedAt consumed (ungetch_adjust (getch s).2 (getch s).1) := by
  cases hin : s.input_file with
  | nil =>
    rw [getch_nil s hin]
    exact h.synced
  | cons d rest =>
    have hg := getch_cons s d rest hin
    have h1 := getch_exact consumed s d rest h.synced hin
    rw [hg.1]
    unfold ungetch_adjust
    simp only []
    by_cases hd : d = '\n'
    · rw [if_pos hd]
      refine ⟨?_, Or.inr ⟨(getch s).2.input_file, by rw [hd]⟩⟩
      simp only [h1.1, count_newline_snoc, if_pos hd]
      push_cast
      rw [if_pos (by omega)]
      omega
    · rw [if_neg hd]
      refine ⟨?_, Or.inl ?_⟩
      · simp only [h1.1, count_newline_snoc, if_neg hd, add_zero]
      · simp only [h1.2, since_newline_snoc, if_neg hd]
        push_cast
        rw [if_pos (by omega)]
        omega

/-- A call of `get_next_token` keeps the counters in step with the
characters consumed. -/
theorem get_next_token_synced (consumed : List Char) (s : Source) (h : SyncedAt consumed s) :
    ∃ cs, s.input_file = cs ++ (get_next_token s).2.input_file ∧
      SyncedAt (consumed ++ cs) (get_next_token s).2 := by
  have hsplit := List.takeWhile_append_dropWhile isspace s.input_file
  have hws : ∀ x ∈ s.input_file.takeWhile isspace, isspace x = true :=
    fun x hx => List.mem_takeWhile_imp hx
  cases hd : s.input_file.dropWhile isspace with
  | nil =>
    rw [hd, List.append_nil] at hsplit
    rw [hsplit] at hws
    rw [get_next_token_eof s hws]
    refine ⟨s.input_file, ?_, ?_⟩
    · rw [advance_input s.input_file s [] (by simp)]
      simp
    · cases hin : s.input_file with
      | nil => simpa [advance] using h
      | cons c cs =>
        rw [← hin]
        exact (advance_exact s.input_file consumed s [] h (by simp) (by rw [hin]; simp)).synced
  | cons c r =>
    rw [hd] at hsplit
    have hc : isspace c = false := takeWhile_dropWhile_next isspace s.input_file c r hd
    obtain ⟨v, rest, hr, _, _, _, _, _, _, _, hin', hs'⟩ :=
      get_next_token_step s (s.input_file.takeWhile isspace) r c hsplit.symm hws hc
    have hcs : s.input_file = (s.input_file.takeWhile isspace ++ c :: v) ++ rest := by
      conv_lhs => rw [← hsplit, hr]
      simp
    have hex := advance_exact (s.input_file.takeWhile isspace ++ c :: v) consumed s rest h hcs
      (by simp)
    refine ⟨s.input_file.takeWhile isspace ++ c :: v, by rw [hin']; exact hcs, ?_⟩
    rcases hs' with hs' | hs'
    · rw [hs']
      exact hex.synced
    · rw [hs']
      exact unget_exact _ _ hex

theorem source_after_succ (input : List Char) (k : Nat) :
    source_after input (k + 1) = (get_next_token (source_after input k)).2 := by
  unfold source_after
  rw [Function.iterate_succ_apply']

theorem source_after_synced (input : List Char) (k : Nat) :
    ∃ consumed, input = consumed ++ (source_after input k).input_file ∧
      SyncedAt consumed (source_after input k) := by
  induction k with
  | zero => exact ⟨[], rfl, rfl, Or.inl rfl⟩
  | succ k ih =>
    obtain ⟨consumed, hin, hs⟩ := ih
    obtain ⟨cs, hcs, hs'⟩ := get_next_token_synced consumed _ hs
    rw [source_after_succ]
    exact ⟨consumed ++ cs, by rw [List.append_assoc, ← hcs]; exact hin, hs'⟩

/-- The position that a token records is that of its first character. -/
theorem get_next_token_location (consumed : List Char) (s : Source)
    (h : SyncedAt consumed s) (ws r : List Char) (c : Char)
    (hin : s.input_file = ws ++ c :: r) (hws : ∀ x ∈ ws, isspace x = true)
    (hc : isspace c = false) :
    (get_next_token s).1.line = line_of (consumed ++ ws) ∧
      (get_next_token s).1.column = column_of (consumed ++ ws) := by
  obtain ⟨v, rest, _, _, _, _, _, hline, hcol, _⟩ := get_next_token_step s ws r c hin hws hc
  have hex := advance_exact (ws ++ [c]) consumed s r h (by rw [hin]; simp) (by simp)
  have hcn : c ≠ '\n' := by
    rintro rfl
    exact absurd hc (by decide)
  rw [hline, hcol, hex.1, hex.2, ← List.append_assoc, count_newline_snoc,
    since_newline_snoc, if_neg hcn, if_neg hcn]
  refine ⟨by simp [line_of], ?_⟩
  simp only [column_of]
  push_cast
  omega

/-- The tokens of `lex_all` are those of the successive calls. -/
theorem lex_all_get (n : Nat) : ∀ (s : Source) (k : Nat) (t : Token),
    (lex_all n s)[k]? = some t →
      t = (get_next_token ((fun s => (get_next_token s).2)^[k] s)).1 ∧
      ∀ j < k, (get_next_token ((fun s => (get_next_token s).2)^[j] s)).1.type ≠ .TOKEN_EOF := by
  induction n with
  | zero => intro s k t h; simp [lex_all] at h
  | succ n ih =>
    intro s k t h
    rw [lex_all_succ] at h
    by_cases heof : (get_next_token s).1.type = .TOKEN_EOF
    · rw [if_pos heof] at h
      cases k with
      | zero =>
        simp only [List.getElem?_cons_zero, Option.some.injEq] at h
        exact ⟨h.symm, fun j hj => absurd hj (Nat.not_lt_zero _)⟩
      | succ k => simp at h
    · rw [if_neg heof] at h
      cases k with
      | zero =>
        simp only [List.getElem?_cons_zero, Option.some.injEq] at h
        exact ⟨h.symm, fun j hj => absurd hj (Nat.not_lt_zero _)⟩
      | succ k =>
        simp only [List.getElem?_cons_succ] at h
        obtain ⟨h1, h2⟩ := ih _ k t h
        refine ⟨by rw [Function.iterate_succ_apply]; exact h1, ?_⟩
        intro j hj
        cases j with
        | zero => exact heof
        | succ j =>
          rw [Function.iterate_succ_apply]
          exact h2 j (by omega)

/-- The token with index `k` of the token sequence, when it is not
`TOKEN_EOF`, is read by the call number `k + 1` of `get_next_token` from white
space followed by a character that is not white, and it records the position
of that character. -/
theorem token_located (input : List Char) (k : Nat) (t : Token)
    (ht : (token_sequence input)[k]? = some t) (hne : t.type ≠ .TOKEN_EOF) :
    ∃ consumed ws c after,
      input = consumed ++ ws ++ c :: after ∧
      (source_after input k).input_file = ws ++ c :: after ∧
      t = (get_next_token (source_after input k)).1 ∧
      (∀ x ∈ ws, isspace x = true) ∧ isspace c = false ∧
      (c.toNat ≠ 0 → t.value.head? = some c) ∧
      t.line = line_of (consumed ++ ws) ∧ t.column = column_of (consumed ++ ws) := by
  obtain ⟨htk, _⟩ := lex_all_get _ _ k t ht
  have htk' : t = (get_next_token (source_after input k)).1 := htk
  obtain ⟨consumed, hin, hs⟩ := source_after_synced input k
  have hsplit := List.takeWhile_append_dropWhile isspace (source_after input k).input_file
  have hws : ∀ x ∈ (source_after input k).input_file.takeWhile isspace, isspace x = true :=
    fun x hx => List.mem_takeWhile_imp hx
  cases hd : (source_after input k).input_file.dropWhile isspace with
  | nil =>
    exfalso
    rw [hd, List.append_nil] at hsplit
    rw [hsplit] at hws
    rw [htk', get_next_token_eof _ hws] at hne
    exact hne rfl
  | cons c r =>
    rw [hd] at hsplit
    have hc : isspace c = false := takeWhile_dropWhile_next isspace _ c r hd
    obtain ⟨hline, hcol⟩ := get_next_token_location consumed _ hs _ r c hsplit.symm hws hc
    refine ⟨consumed, (source_after input k).input_file.takeWhile isspace, c, r, ?_,
      hsplit.symm, htk', hws, hc, ?_, ?_, ?_⟩
    · rw [List.append_assoc, hsplit]
      exact hin
    · intro hnul
      rw [htk']
      exact lexeme_head _ _ r c hsplit.symm hws hc hnul
    · rw [htk']
      exact hline
    · rw [htk']
      exact hcol

/-- C18: for every input and every `k`, when the token with index `k` of the
token sequence (the token that the call number `k + 1` of `get_next_token`
returns) is not `TOKEN_EOF`, the input is `consumed ++ ws ++ c :: after`,
where `ws ++ c :: after` is what the calls before left to read, `ws` is white
space and `c` is not: `c` is the first character of the token (the head of
its lexeme, unless `c` is NUL), the token's line is 1 plus the number of
newline characters before `c`, and its column is 1 plus the number of
characters between the last newline before `c` (or the start of the input)
and `c`. -/
theorem token_location (input : List Char) (k : Nat) (t : Token)
    (ht : (token_sequence input)[k]? = some t) (hne : t.type ≠ .TOKEN_EOF) :
    ∃ consumed ws c after,
      input = consumed ++ ws ++ c :: after ∧
      (source_after input k).input_file = ws ++ c :: after ∧
      t = (get_next_token (source_after input k)).1 ∧
      (∀ x ∈ ws, isspace x = true) ∧ isspace c = false ∧
      (c.toNat ≠ 0 → t.value.head? = some c) ∧
      t.line = line_of (consumed ++ ws) ∧ t.column = column_of (consumed ++ ws) :=
  token_located input k t ht hne

/-- Witness of C18: in `ab` followed by a newline and `  c`, the newline is
pushed back after `ab`; the token `c` is at line 2, column 3. -/
theorem token_location_witness :
    ∃ consumed ws c after,
      "ab\n  c".toList = consumed ++ ws ++ c :: after ∧
      (source_after "ab\n  c".toList 1).input_file = ws ++ c :: after ∧
      (⟨.TOKEN_IDENTIFIER, ['c'], 2, 3⟩ : Token) =
        (get_next_token (source_after "ab\n  c".toList 1)).1 ∧
      (∀ x ∈ ws, isspace x = true) ∧ isspace c = false ∧
      (c.toNat ≠ 0 → (['c'] : List Char).head? = some c) ∧
      (2 : Int) = line_of (consumed ++ ws) ∧ (3 : Int) = column_of (consumed ++ ws) :=
  token_location "ab\n  c".toList 1 ⟨.TOKEN_IDENTIFIER, ['c'], 2, 3⟩ (by decide) (by decide)

/-! ## Progress and termination -/

/-- A call of `get_next_token` on a file that is not exhausted consumes a
character. -/
theorem get_next_token_progress (s : Source) (h : s.input_file ≠ []) :
    (get_next_token s).2.input_file.length < s.input_file.length := by
  have hsplit := List.takeWhile_append_dropWhile isspace s.input_file
  have hws : ∀ x ∈ s.input_file.takeWhile isspace, isspace x = true :=
    fun x hx => List.mem_takeWhile_imp hx
  cases hd : s.input_file.dropWhile isspace with
  | nil =>
    rw [hd, List.append_nil] at hsplit
    rw [hsplit] at hws
    rw [get_next_token_eof s hws, advance_input s.input_file s [] (by simp)]
    exact List.length_pos.mpr h
  | cons c r =>
    rw [hd] at hsplit
    have hc : isspace c = false := takeWhile_dropWhile_next isspace s.input_file c r hd
    obtain ⟨v, rest, hr, _, _, _, _, _, _, _, hin', _⟩ :=
      get_next_token_step s (s.input_file.takeWhile isspace) r c hsplit.symm hws hc
    rw [hin']
    conv_rhs => rw [← hsplit, hr]
    simp only [List.length_append, List.length_cons]
    omega

/-- The bound of the white-space loop is never reached: a larger bound gives
the same result. -/
theorem skip_space_loop_bound (s : Source) (n : Nat) (hn : s.input_file.length < n) :
    skip_space_loop n (getch s).1 (getch s).2 =
      skip_space_loop (s.input_file.length + 1) (getch s).1 (getch s).2 := by
  have hsplit := List.takeWhile_append_dropWhile isspace s.input_file
  have hws : ∀ x ∈ s.input_file.takeWhile isspace, isspace x = true :=
    fun x hx => List.mem_takeWhile_imp hx
  have hlen : (s.input_file.takeWhile isspace).length ≤ s.input_file.length := by
    have := congrArg List.length hsplit
    simp only [List.length_append] at this
    omega
  cases hd : s.input_file.dropWhile isspace with
  | nil =>
    rw [hd, List.append_nil] at hsplit
    rw [hsplit] at hws
    rw [skip_space_loop_eof s.input_file s n rfl hws hn,
      skip_space_loop_eof s.input_file s _ rfl hws (by omega)]
  | cons c r =>
    rw [hd] at hsplit
    have hc : isspace c = false := takeWhile_dropWhile_next isspace s.input_file c r hd
    rw [skip_space_loop_char _ s n c r hsplit.symm hws hc (by omega),
      skip_space_loop_char _ s _ c r hsplit.symm hws hc (by omega)]

/-- The bound of the loop that reads a word or a number is never reached. -/
theorem run_loop_bound (p : Char → Bool) (s : Source) (n : Nat) (value : List Char) (c : Char)
    (hlen : value.length + 1 ≤ MAX_TOKEN_LENGTH - 1) (hn : s.input_file.length ≤ n) :
    run_loop p n value c s = run_loop p s.input_file.length value c s := by
  have hsplit := List.takeWhile_append_dropWhile p s.input_file
  have hle : (s.input_file.takeWhile p).length ≤ s.input_file.length := by
    have := congrArg List.length hsplit
    simp only [List.length_append] at this
    omega
  rw [run_loop_spec p _ _ n value c s hsplit.symm (fun x hx => List.mem_takeWhile_imp hx)
      (takeWhile_dropWhile_next p s.input_file) hlen (by omega),
    run_loop_spec p _ _ _ value c s hsplit.symm (fun x hx => List.mem_takeWhile_imp hx)
      (takeWhile_dropWhile_next p s.input_file) hlen hle]

/-- A statement that is parsed takes at least one token. -/
theorem parse_statement_progress (n : Nat) (s s' : State) (scopes : Scopes)
    (hR : Refines scopes s) (hD : DelimOK s) (h : parse_statement n s = .ok s') :
    (∃ ts, ts ≠ [] ∧ pending s = ts ++ pending s') ∧
      (pending s').length < (pending s).length ∧ DelimOK s' ∧ ∃ scopes', Refines scopes' s' := by
  obtain ⟨ts, scopes', hcons, hder, _⟩ := sound_all n .statement s s' scopes hR hD h
  have hne : ts ≠ [] := derives_nonempty hder rfl
  refine ⟨⟨ts, hne, hcons.1⟩, ?_, hcons.delimOK hD, scopes', hcons.2.2⟩
  rw [hcons.1, List.length_append]
  have := List.length_pos.mpr hne
  omega

/-- Every procedure of the parser, on a state of the analysis, has one result
that every budget from `16 * (pending s).length + rank` on gives. -/
theorem run_result (p : Proc) (s : State) (scopes : Scopes) (hR : Refines scopes s)
    (hD : DelimOK s) :
    ∃ r, r ≠ .out_of_fuel ∧ ∀ n, 16 * (pending s).length + p.rank ≤ n → p.run n s = r := by
  have h := terminates_all (16 * (pending s).length + p.rank) p s scopes (pending s).length
    ⟨hR, hD, le_refl _⟩ (le_refl _)
  exact ⟨_, h, fun n hn => run_le p _ n s hn h⟩

/-- The analysis gives its result with every budget from `budget input` on. -/
theorem parse_program_budget (input : List Char) (n : Nat) (hn : budget input ≤ n) :
    parse_program n (next_token (initial_state input)) = analyse input := by
  have h : Proc.run .statement_list (budget input) (next_token (initial_state input)) ≠
      .out_of_fuel :=
    terminates_all (budget input) .statement_list _ _ _ (ready_initial input)
      (by simp only [Proc.rank, budget]; omega)
  have h2 := run_le .statement_list _ n _ hn h
  unfold analyse parse_program
  have h3 : parse_statement_list n (next_token (initial_state input)) =
      parse_statement_list (budget input) (next_token (initial_state input)) := h2
  rw [h3]

/-- C20: (1) a call of `get_next_token` on a file that is not exhausted
leaves fewer characters to read, and the bounds that the embedding gives to
the loops of the lexer are never reached (a larger bound gives the same
result); (2) a call of `parse_statement` on a state of the analysis that
returns has taken at least one token: fewer tokens are pending after it, and
the state it returns in is again a state of the analysis; (3) every procedure
of the parser, the loops of the statement list and of the operators among
them, on a state of the analysis has one result, a return or a condition,
which every sufficient budget gives; (4) the analysis of every input ends
with a return or with one condition, whatever the budget from `budget input`
on. -/
theorem analysis_terminates :
    ((∀ s : Source, s.input_file ≠ [] →
        (get_next_token s).2.input_file.length < s.input_file.length) ∧
      (∀ (s : Source) n, s.input_file.length < n →
        skip_space_loop n (getch s).1 (getch s).2 =
          skip_space_loop (s.input_file.length + 1) (getch s).1 (getch s).2) ∧
      (∀ p (s : Source) n value c, value.length + 1 ≤ MAX_TOKEN_LENGTH - 1 →
        s.input_file.length ≤ n →
        run_loop p n value c s = run_loop p s.input_file.length value c s)) ∧
    (∀ n s s' scopes, Refines scopes s → DelimOK s → parse_statement n s = .ok s' →
      (∃ ts, ts ≠ [] ∧ pending s = ts ++ pending s') ∧
        (pending s').length < (pending s).length ∧ DelimOK s' ∧
        ∃ scopes', Refines scopes' s') ∧
    (∀ (p : Proc) s scopes, Refines scopes s → DelimOK s →
      ∃ r, r ≠ .out_of_fuel ∧
        ∀ n, 16 * (pending s).length + p.rank ≤ n → p.run n s = r) ∧
    (∀ input, ((∃ s', analyse input = .ok s') ∨ ∃ e, analyse input = .error e) ∧
      ∀ n, budget input ≤ n →
        parse_program n (next_token (initial_state input)) = analyse input) := by
  refine ⟨⟨get_next_token_progress, skip_space_loop_bound, run_loop_bound⟩,
    parse_statement_progress, run_result, fun input => ⟨?_, parse_program_budget input⟩⟩
  have h := analyse_terminates input
  cases hr : analyse input with
  | ok s' => exact Or.inl ⟨s', rfl⟩
  | error e => exact Or.inr ⟨e, rfl⟩
  | out_of_fuel => exact absurd hr h

/-- Witness of C20: the call of `get_next_token` on `x = 1;` leaves fewer
characters to read. -/
theorem analysis_terminates_witness :
    (get_next_token ⟨"x = 1;".toList, 1, 0⟩).2.input_file.length < "x = 1;".toList.length :=
  analysis_terminates.1.1 ⟨"x = 1;".toList, 1, 0⟩ (by decide)

/-! ## A token of type `TOKEN_ERROR` before the parser -/

theorem match_delimiter_bad {s : State} {bad : Token} (hs : s.current_token = bad)
    (hb : bad.type = .TOKEN_ERROR) (c : Char) : match_delimiter s c = false := by
  simp [match_delimiter, hs, hb]

theorem match_operator_bad {s : State} {bad : Token} (hs : s.current_token = bad)
    (hb : bad.type = .TOKEN_ERROR) (op : List Char) : match_operator s op = false := by
  simp [match_operator, hs, hb]

theorem match_keyword_bad {s : State} {bad : Token} (hs : s.current_token = bad)
    (hb : bad.type = .TOKEN_ERROR) (kw : List Char) : match_keyword s kw = false := by
  simp [match_keyword, hs, hb]

theorem consume_delimiter_bad {s : State} {bad : Token} (hs : s.current_token = bad)
    (hb : bad.type = .TOKEN_ERROR) (c : Char) :
    Outcome.of (consume_delimiter s c) = .error (.syntax_error bad) := by
  unfold consume_delimiter
  rw [match_delimiter_bad hs hb, if_neg (by simp)]
  simp [Outcome.of, syntax_error, hs]

theorem consume_keyword_bad {s : State} {bad : Token} (hs : s.current_token = bad)
    (hb : bad.type = .TOKEN_ERROR) (kw : List Char) :
    Outcome.of (consume_keyword s kw) = .error (.syntax_error bad) := by
  unfold consume_keyword
  rw [match_keyword_bad hs hb, if_neg (by simp)]
  simp [Outcome.of, syntax_error, hs]

theorem bad_primary {s : State} {bad : Token} (hs : s.current_token = bad)
    (hb : bad.type = .TOKEN_ERROR) (n : Nat) :
    Stops (parse_primary n s) (.syntax_error bad) := by
  cases n with
  | zero => exact Or.inl rfl
  | succ n =>
    rw [parse_primary, if_neg (by rw [hs, hb]; simp), if_neg (by rw [hs, hb]; simp),
      match_delimiter_bad hs hb, if_neg (by simp)]
    exact Or.inr (by simp [syntax_error, hs])

theorem bad_unary {s : State} {bad : Token} (hs : s.current_token = bad)
    (hb : bad.type = .TOKEN_ERROR) (n : Nat) :
    Stops (parse_unary n s) (.syntax_error bad) := by
  cases n with
  | zero => exact Or.inl rfl
  | succ n =>
    have h : at_unary_op s = false := by
      rw [← Bool.not_eq_true, at_unary_op_iff, hs, hb]
      simp
    rw [parse_unary_succ, h, if_neg (by simp)]
    exact bad_primary hs hb n

theorem bad_parse_of_sub (l : Level) {s : State} {bad : Token} (n : Nat)
    (hsub : ∀ m, Stops (l.sub m s) (.syntax_error bad)) :
    Stops (l.parse n s) (.syntax_error bad) := by
  cases n with
  | zero => exact Or.inl (level_parse_zero l _)
  | succ n =>
    rw [level_parse_succ]
    exact (hsub n).andThen

theorem bad_parse {s : State} {bad : Token} (hs : s.current_token = bad)
    (hb : bad.type = .TOKEN_ERROR) (l : Level) (n : Nat) :
    Stops (l.parse n s) (.syntax_error bad) := by
  have h6 : ∀ m, Stops (Level.multiplicative.parse m s) (.syntax_error bad) :=
    fun m => bad_parse_of_sub .multiplicative m (fun m => bad_unary hs hb m)
  have h5 : ∀ m, Stops (Level.additive.parse m s) (.syntax_error bad) :=
    fun m => bad_parse_of_sub .additive m h6
  have h4 : ∀ m, Stops (Level.relational.parse m s) (.syntax_error bad) :=
    fun m => bad_parse_of_sub .relational m h5
  have h3 : ∀ m, Stops (Level.equality.parse m s) (.syntax_error bad) :=
    fun m => bad_parse_of_sub .equality m h4
  have h2 : ∀ m, Stops (Level.logicalAnd.parse m s) (.syntax_error bad) :=
    fun m => bad_parse_of_sub .logicalAnd m h3
  have h1 : ∀ m, Stops (Level.logicalOr.parse m s) (.syntax_error bad) :=
    fun m => bad_parse_of_sub .logicalOr m h2
  cases l
  · exact h1 n
  · exact h2 n
  · exact h3 n
  · exact h4 n
  · exact h5 n
  · exact h6 n

theorem bad_sub {s : State} {bad : Token} (hs : s.current_token = bad)
    (hb : bad.type = .TOKEN_ERROR) (l : Level) (n : Nat) :
    Stops (l.sub n s) (.syntax_error bad) := by
  cases l
  · exact bad_parse hs hb .logicalAnd n
  · exact bad_parse hs hb .equality n
  · exact bad_parse hs hb .relational n
  · exact bad_parse hs hb .additive n
  · exact bad_parse hs hb .multiplicative n
  · exact bad_unary hs hb n

/-- The loop of a level ends at once at a token that is no operator. -/
theorem bad_loop {s : State} {bad : Token} (hs : s.current_token = bad)
    (hb : bad.type = .TOKEN_ERROR) (l : Level) (n : Nat) : Halts (l.loop n s) bad := by
  cases n with
  | zero => exact Or.inl (level_loop_zero l _)
  | succ n =>
    have h : l.at_op s = false := by
      rw [← Bool.not_eq_true, level_at_op_iff, hs, hb]
      simp
    rw [level_loop_succ, h, if_neg (by simp)]
    exact Or.inr (Or.inr ⟨s, rfl, hs⟩)

theorem bad_assignment {s : State} {bad : Token} (hs : s.current_token = bad)
    (hb : bad.type = .TOKEN_ERROR) (n : Nat) :
    Stops (parse_assignment n s) (.syntax_error bad) := by
  cases n with
  | zero => exact Or.inl rfl
  | succ n =>
    rw [parse_assignment_succ]
    exact (bad_parse hs hb .logicalOr n).andThen

theorem bad_expression {s : State} {bad : Token} (hs : s.current_token = bad)
    (hb : bad.type = .TOKEN_ERROR) (n : Nat) :
    Stops (parse_expression n s) (.syntax_error bad) := by
  cases n with
  | zero => exact Or.inl rfl
  | succ n =>
    rw [parse_expression]
    exact bad_assignment hs hb n

theorem bad_optional {s : State} {bad : Token} (hs : s.current_token = bad)
    (hb : bad.type = .TOKEN_ERROR) (n : Nat) (c : Char) :
    Stops (if ¬ match_delimiter s c = true then parse_expression n s else .ok s)
      (.syntax_error bad) := by
  rw [if_pos (by rw [match_delimiter_bad hs hb]; simp)]
  exact bad_expression hs hb n

theorem bad_expression_statement {s : State} {bad : Token} (hs : s.current_token = bad)
    (hb : bad.type = .TOKEN_ERROR) (n : Nat) :
    Stops (parse_expression_statement n s) (.syntax_error bad) := by
  cases n with
  | zero => exact Or.inl rfl
  | succ n =>
    rw [parse_expression_statement, match_delimiter_bad hs hb, if_neg (by simp)]
    exact (bad_expression hs hb n).andThen

theorem bad_statement {s : State} {bad : Token} (hs : s.current_token = bad)
    (hb : bad.type = .TOKEN_ERROR) (n : Nat) :
    Stops (parse_statement n s) (.syntax_error bad) := by
  cases n with
  | zero => exact Or.inl rfl
  | succ n =>
    rw [parse_statement]
    simp only [match_keyword_bad hs hb, match_delimiter_bad hs hb, Bool.false_eq_true,
      if_false]
    exact bad_expression_statement hs hb n

theorem bad_statement_list {s : State} {bad : Token} (hs : s.current_token = bad)
    (hb : bad.type = .TOKEN_ERROR) (n : Nat) :
    Stops (parse_statement_list n s) (.syntax_error bad) := by
  cases n with
  | zero => exact Or.inl rfl
  | succ n =>
    rw [parse_statement_list_succ,
      if_pos ⟨by rw [hs, hb]; simp, by rw [match_delimiter_bad hs hb]; simp⟩]
    exact (bad_statement hs hb n).andThen

/-! ## Results at the token of type `TOKEN_ERROR` -/

theorem Stops.to_halts {r : Outcome} {bad : Token} (h : Stops r (.syntax_error bad)) :
    Halts r bad := by
  rcases h with h | h
  · exact Or.inl h
  · exact Or.inr (Or.inl h)

theorem Halts.of_current {s : State} {bad : Token} (h : s.current_token = bad) :
    Halts (.ok s) bad :=
  Or.inr (Or.inr ⟨s, rfl, h⟩)

theorem Halts.chain {r : Outcome} {k : State → Outcome} {bad : Token} (h : Halts r bad)
    (hk : ∀ s', s'.current_token = bad → Halts (k s') bad) : Halts (r.andThen k) bad := by
  rcases h with h | h | ⟨s', h, hs⟩
  · rw [h]; exact Or.inl rfl
  · rw [h]; exact Or.inr (Or.inl rfl)
  · rw [h]; exact hk s' hs

theorem Returns.then_halts {r : Outcome} {k : State → Outcome} {P : State → Prop} {bad : Token}
    (h : Returns r P) (hk : ∀ s1, P s1 → Halts (k s1) bad) : Halts (r.andThen k) bad := by
  rcases h with h | ⟨s1, h, hP⟩
  · rw [h]; exact Or.inl rfl
  · rw [h]; exact hk s1 hP

/-- The token `bad` is the current token where the part `a` ends. -/
theorem Invalid.current {s0 : State} {k : Nat} {scopes : Scopes} {bad : Token}
    {rest : List Token} (h : Invalid s0 k scopes [] bad rest) (scopes1 : Scopes) :
    (after s0 k scopes1).current_token = bad :=
  after_current s0 k scopes1 bad rest h.1

/-- The part read so far ends before a terminal of the production, or the
terminal is read. -/
theorem invalid_terminal {s0 : State} {k : Nat} {scopes scopes1 : Scopes}
    {a tail b rest : List Token} {bad t : Token}
    (h : t :: tail = a ++ b) (hI : Invalid s0 k scopes a bad rest)
    (hstep : scan_step (scopes, false) t = .ok (scopes1, false)) :
    (a = [] ∧ (after s0 k scopes).current_token = bad) ∨
    ∃ a', a = t :: a' ∧ tail = a' ++ b ∧ Invalid s0 (k + 1) scopes1 a' bad rest ∧
      At s0 k (t :: (a' ++ bad :: rest)) := by
  obtain ⟨hat, hne, hb, st, hscan⟩ := hI
  cases a with
  | nil => exact Or.inl ⟨rfl, after_current s0 k scopes bad rest hat⟩
  | cons x a' =>
    simp only [List.cons_append, List.cons.injEq] at h
    obtain ⟨rfl, rfl⟩ := h
    have hat0 : At s0 k (t :: (a' ++ bad :: rest)) := by simpa using hat
    rw [scan_cons_ok _ _ _ _ hstep] at hscan
    exact Or.inr ⟨a', rfl, rfl, ⟨at_tail _ _ _ _ hat0, scan_step_ne _ _ _ hstep hne, hb, st,
      hscan⟩, hat0⟩

/-- The part read so far ends inside or at the end of the sequence derived
from a nonterminal of the production, or goes on beyond it. -/
theorem invalid_nonterminal {s0 : State} {k : Nat} {scopes : Scopes}
    {a u tail b rest : List Token} {bad : Token} {Y : NT}
    (h : u ++ tail = a ++ b) (hI : Invalid s0 k scopes a bad rest) (hu : Derives Y u) :
    (∃ b1, u = a ++ b1) ∨
    ∃ x a' scopes1, a = u ++ x :: a' ∧ tail = x :: a' ++ b ∧
      scan u (scopes, false) = .ok (scopes1, false) ∧
      Invalid s0 (k + u.length) scopes1 (x :: a') bad rest ∧
      At s0 k (u ++ (x :: a' ++ bad :: rest)) := by
  obtain ⟨hat, hne, hb, st, hscan⟩ := hI
  rcases List.append_eq_append_iff.mp h with ⟨a', ha, ht⟩ | ⟨c, hu', _⟩
  · cases a' with
    | nil => exact Or.inl ⟨[], by simpa using ha.symm⟩
    | cons x a' =>
      subst ha
      refine Or.inr ⟨x, a', ?_⟩
      obtain ⟨⟨scopes1, b1⟩, hs1, hs2⟩ := scan_append_inv _ _ _ _ hscan
      obtain rfl := derives_flag hu _ _ _ hs1
      have hat0 : At s0 k (u ++ (x :: a' ++ bad :: rest)) := by simpa using hat
      exact ⟨scopes1, rfl, ht, hs1, ⟨at_drop _ _ _ _ hat0, scan_ne _ _ _ hs1 hne, hb, st, hs2⟩,
        hat0⟩
  · exact Or.inl ⟨c, hu'⟩

/-! ## The first token of type `TOKEN_ERROR`: expressions -/

theorem head_or_nil {ts a b : List Token} (h : ts = a ++ b) (bad : Token)
    (rest : List Token) :
    a = [] ∨ ∃ x ts' r', ts = x :: ts' ∧ a ++ bad :: rest = x :: r' := by
  cases a with
  | nil => exact Or.inl rfl
  | cons x a' => exact Or.inr ⟨x, a' ++ b, a' ++ bad :: rest, h, rfl⟩

theorem haltPost_operand (l : Level) (n : Nat) (s : State) (bad : Token) :
    HaltPost l.operand n s bad = Halts (l.sub n s) bad := by
  cases l <;> rfl

theorem halting_primary_identifier (s0 : State) {x : Token}
    (hid : x.type = .TOKEN_IDENTIFIER) : Halting s0 .primary [x] := by
  intro a b n k scopes rest bad h hI
  show Halts (parse_primary n _) bad
  cases a with
  | nil => exact (bad_primary (hI.current scopes) hI.2.2.1 n).to_halts
  | cons y a' =>
    simp only [List.cons_append, List.cons.injEq] at h
    obtain ⟨rfl, h⟩ := h
    obtain ⟨rfl, _⟩ := List.append_eq_nil.mp h.symm
    obtain ⟨hat, hne, hb, st, hscan⟩ := hI
    have hat0 : At s0 k (x :: bad :: rest) := hat
    have hcur := after_current s0 k scopes x _ hat0
    rw [scan_single, scan_step_use _ _ hid] at hscan
    cases n with
    | zero => exact Or.inl rfl
    | succ n =>
      split at hscan
      · rename_i hdecl
        rw [parse_primary, if_pos (by rw [hcur]; exact hid),
          refines_check scopes _ _ (refines_after s0 k scopes hne), hcur, if_pos hdecl]
        simp only [Outcome.of, Outcome.andThen]
        rw [after_next_token]
        exact Halts.of_current (after_current s0 _ scopes bad rest (at_tail _ _ _ _ hat0))
      · cases hscan

theorem halting_primary_number (s0 : State) {x : Token}
    (hnum : x.type = .TOKEN_NUMBER) : Halting s0 .primary [x] := by
  intro a b n k scopes rest bad h hI
  show Halts (parse_primary n _) bad
  cases a with
  | nil => exact (bad_primary (hI.current scopes) hI.2.2.1 n).to_halts
  | cons y a' =>
    simp only [List.cons_append, List.cons.injEq] at h
    obtain ⟨rfl, h⟩ := h
    obtain ⟨rfl, _⟩ := List.append_eq_nil.mp h.symm
    have hat0 : At s0 k (x :: bad :: rest) := hI.1
    have hcur := after_current s0 k scopes x _ hat0
    cases n with
    | zero => exact Or.inl rfl
    | succ n =>
      rw [parse_primary, if_neg (by rw [hcur, hnum]; simp), if_pos (by rw [hcur]; exact hnum),
        after_next_token]
      exact Halts.of_current (after_current s0 _ scopes bad rest (at_tail _ _ _ _ hat0))

theorem halting_primary_paren (s0 : State) (hD : DelimOK s0) {lp rp : Token}
    {e0 : List Token} (hlp : is_delim lp '(') (he : Derives .expression e0)
    (hrp : is_delim rp ')') (ihe : Halting s0 .expression e0)
    (ce : Complete s0 .expression e0) :
    Halting s0 .primary (lp :: e0 ++ [rp]) := by
  intro a b n k scopes rest bad h hI
  show Halts (parse_primary n _) bad
  have hb := hI.2.2.1
  have h0 : lp :: (e0 ++ [rp]) = a ++ b := by simpa using h
  rcases invalid_terminal h0 hI (scan_step_delim _ _ _ '(' hlp (by decide) (by decide)) with
    ⟨_, hcur⟩ | ⟨a1, rfl, h1, hI1, hat0⟩
  · exact (bad_primary hcur hb n).to_halts
  cases n with
  | zero => exact Or.inl rfl
  | succ n =>
    have hcur := after_current s0 k scopes lp _ hat0
    rw [parse_primary, if_neg (by rw [hcur, hlp.1]; simp),
      if_neg (by rw [hcur, hlp.1]; simp),
      if_pos ((at_match_delimiter s0 k scopes lp _ '(' hD hat0).mpr hlp),
      at_consume_delimiter s0 k scopes lp _ '(' hD hat0 hlp]
    simp only [Outcome.andThen]
    rcases invalid_nonterminal h1 hI1 he with ⟨b1, h2⟩ | ⟨x, a2, scopes1, _, h2, hs1, hI2, hat1⟩
    · exact (ihe a1 b1 n (k + 1) scopes rest bad h2 hI1).chain
        fun s' hs' => by rw [consume_delimiter_bad hs' hb]; exact Or.inr (Or.inl rfl)
    · simp only [List.cons_append, List.cons.injEq] at h2
      obtain ⟨rfl, h2⟩ := h2
      obtain ⟨rfl, _⟩ := List.append_eq_nil.mp h2.symm
      have hat2 := hI2.1
      have c1 : Returns (parse_expression n (after s0 (k + 1) scopes))
          (fun s' => s' = after s0 (k + 1 + e0.length) scopes1) :=
        ce n _ rp _ _ _ hat1 hI1.2.1 hs1 hrp.1
      refine c1.then_halts fun s1 hs => ?_
      subst hs
      rw [at_consume_delimiter s0 _ scopes1 rp _ ')' hD hat2 hrp]
      exact Halts.of_current (after_current s0 _ scopes1 bad rest (at_tail _ _ _ _ hat2))

theorem halting_unary_op (s0 : State) {op : Token} {a0 : List Token}
    (hop : op.type = .TOKEN_OPERATOR) (hv : op.value ∈ unary_ops)
    (iha : Halting s0 .unary a0) : Halting s0 .unary (op :: a0) := by
  intro a b n k scopes rest bad h hI
  show Halts (parse_unary n _) bad
  rcases invalid_terminal h hI (scan_step_operator _ _ _ hop) with
    ⟨_, hcur⟩ | ⟨a1, rfl, h1, hI1, hat0⟩
  · exact (bad_unary hcur hI.2.2.1 n).to_halts
  cases n with
  | zero => exact Or.inl rfl
  | succ n =>
    rw [parse_unary_succ, if_pos ((at_unary_op_at s0 k scopes op _ hat0).mpr ⟨hop, hv⟩),
      after_next_token]
    exact iha a1 b n (k + 1) scopes rest bad h1 hI1

theorem halting_unary_primary (s0 : State) {a0 : List Token} (ha : Derives .primary a0)
    (iha : Halting s0 .primary a0) : Halting s0 .unary a0 := by
  intro a b n k scopes rest bad h hI
  show Halts (parse_unary n _) bad
  rcases head_or_nil h bad rest with rfl | ⟨x, ts', r', hx, hr⟩
  · exact (bad_unary (hI.current scopes) hI.2.2.1 n).to_halts
  have hat0 : At s0 k (x :: r') := hr ▸ hI.1
  have hfirst := derives_first ha x ts' hx
  have hnot : ¬ (x.type = .TOKEN_OPERATOR ∧ x.value ∈ unary_ops) := by
    rintro ⟨h, _⟩
    rcases hfirst with h' | h' | h'
    · rw [h] at h'; cases h'
    · rw [h] at h'; cases h'
    · have := h'.1; rw [h] at this; cases this
  cases n with
  | zero => exact Or.inl rfl
  | succ n =>
    rw [parse_unary_succ,
      if_neg (fun h => hnot ((at_unary_op_at s0 k scopes x _ hat0).mp h))]
    exact iha a b n k scopes rest bad h hI

/-- An operand of a level and what follows it, when the token of type
`TOKEN_ERROR` is in the operand, at its end or further on. -/
theorem halting_operand_rest (s0 : State) {l : Level} {a0 r a b rest : List Token}
    {bad : Token} {k : Nat} (n : Nat) {scopes : Scopes}
    (ha : Derives l.operand a0) (hr : Derives (.rest l) r)
    (iha : Halting s0 l.operand a0) (ihr : Halting s0 (.rest l) r)
    (ca : Complete s0 l.operand a0) (h : a0 ++ r = a ++ b)
    (hI : Invalid s0 k scopes a bad rest) :
    Halts ((l.sub n (after s0 k scopes)).andThen (l.loop n)) bad := by
  have hb := hI.2.2.1
  rcases invalid_nonterminal h hI ha with ⟨b1, h2⟩ | ⟨x, a2, scopes1, _, h2, hs1, hI2, hat1⟩
  · have := iha a b1 n k scopes rest bad h2 hI
    rw [haltPost_operand] at this
    exact this.chain fun s' hs' => bad_loop hs' hb l n
  · have h1 : Returns (l.sub n (after s0 k scopes))
        (fun s' => s' = after s0 (k + a0.length) scopes1) := by
      rw [← operand_post l n _ _ x]
      exact ca n k x (a2 ++ bad :: rest) scopes scopes1 hat1 hI.2.1 hs1
        (rest_first_follow (h2 ▸ hr))
    refine h1.then_halts fun s1 hs => ?_
    subst hs
    exact ihr (x :: a2) b n _ scopes1 rest bad h2 hI2

theorem halting_rest_nil (s0 : State) (l : Level) : Halting s0 (.rest l) [] := by
  intro a b n k scopes rest bad h hI
  show Halts (l.loop n _) bad
  obtain ⟨rfl, _⟩ := List.append_eq_nil.mp h.symm
  exact bad_loop (hI.current scopes) hI.2.2.1 l n

theorem halting_rest_cons (s0 : State) {l : Level} {op : Token} {a0 r : List Token}
    (hop : op.type = .TOKEN_OPERATOR) (hv : op.value ∈ l.ops) (ha : Derives l.operand a0)
    (hr : Derives (.rest l) r) (iha : Halting s0 l.operand a0)
    (ihr : Halting s0 (.rest l) r) (ca : Complete s0 l.operand a0) :
    Halting s0 (.rest l) (op :: a0 ++ r) := by
  intro a b n k scopes rest bad h hI
  show Halts (l.loop n _) bad
  have h0 : op :: (a0 ++ r) = a ++ b := by simpa using h
  rcases invalid_terminal h0 hI (scan_step_operator _ _ _ hop) with
    ⟨_, hcur⟩ | ⟨a1, rfl, h1, hI1, hat0⟩
  · exact bad_loop hcur hI.2.2.1 l n
  cases n with
  | zero => exact Or.inl (level_loop_zero l _)
  | succ n =>
    rw [level_loop_succ, if_pos ((at_op_at s0 k scopes op _ l hat0).mpr ⟨hop, hv⟩),
      after_next_token]
    exact halting_operand_rest s0 n ha hr iha ihr ca h1 hI1

theorem halting_binary (s0 : State) {l : Level} {a0 r : List Token}
    (ha : Derives l.operand a0) (hr : Derives (.rest l) r) (iha : Halting s0 l.operand a0)
    (ihr : Halting s0 (.rest l) r) (ca : Complete s0 l.operand a0) :
    Halting s0 (.binary l) (a0 ++ r) := by
  intro a b n k scopes rest bad h hI
  show Halts (l.parse n _) bad
  cases n with
  | zero => exact Or.inl (level_parse_zero l _)
  | succ n =>
    rw [level_parse_succ]
    exact halting_operand_rest s0 n ha hr iha ihr ca h hI

/-- After the operand of an assignment, at the token of type `TOKEN_ERROR`,
`parse_assignment` returns. -/
theorem bad_assign_tail {s : State} {bad : Token} (hs : s.current_token = bad)
    (hb : bad.type = .TOKEN_ERROR) (n : Nat) :
    Halts (if match_operator s "=".toList = true then
        (Outcome.of (consume_operator s "=".toList)).andThen fun s => parse_assignment n s
      else .ok s) bad := by
  rw [match_operator_bad hs hb, if_neg (by simp)]
  exact Halts.of_current hs

theorem halting_assignment (s0 : State) {a0 : List Token}
    (iha : Halting s0 (.binary .logicalOr) a0) : Halting s0 .assignment a0 := by
  intro a b n k scopes rest bad h hI
  show Halts (parse_assignment n _) bad
  cases n with
  | zero => exact Or.inl rfl
  | succ n =>
    rw [parse_assignment_succ]
    exact (iha a b n k scopes rest bad h hI).chain fun s' hs' => bad_assign_tail hs' hI.2.2.1 n

theorem halting_assign (s0 : State) {eq : Token} {a0 b0 : List Token}
    (ha : Derives (.binary .logicalOr) a0) (heq : is_op eq "=".toList)
    (iha : Halting s0 (.binary .logicalOr) a0) (ihb : Halting s0 .assignment b0)
    (ca : Complete s0 (.binary .logicalOr) a0) : Halting s0 .assignment (a0 ++ eq :: b0) := by
  intro a b n k scopes rest bad h hI
  show Halts (parse_assignment n _) bad
  cases n with
  | zero => exact Or.inl rfl
  | succ n =>
    rw [parse_assignment_succ]
    rcases invalid_nonterminal h hI ha with ⟨b1, h2⟩ | ⟨x, a2, scopes1, _, h2, hs1, hI2, hat1⟩
    · exact (iha a b1 n k scopes rest bad h2 hI).chain
        fun s' hs' => bad_assign_tail hs' hI.2.2.1 n
    · simp only [List.cons_append, List.cons.injEq] at h2
      obtain ⟨rfl, h2⟩ := h2
      have hat2 := hI2.1
      have h2' : eq :: b0 = (eq :: a2) ++ b := by rw [h2]; rfl
      rcases invalid_terminal h2' hI2 (scan_step_operator _ _ _ heq.1) with
        ⟨h', _⟩ | ⟨a3, h3, h4, hI3, hat3⟩
      · cases h'
      cases h3
      have h1 : Returns (parse_logical_or n (after s0 k scopes))
          (fun s' => s' = after s0 (k + a0.length) scopes1) :=
        ca n k eq (a2 ++ bad :: rest) scopes scopes1 hat1 hI.2.1 hs1 (fun h => by
          have := h.2
          rw [heq.2] at this
          revert this
          decide)
      refine h1.then_halts fun s1 hs => ?_
      subst hs
      rw [if_pos ((at_match_operator s0 _ scopes1 eq _ _ hat3).mpr heq),
        at_consume_operator s0 _ scopes1 eq _ _ hat3 heq]
      simp only [Outcome.andThen]
      exact ihb a2 b n _ scopes1 rest bad h4 hI3

theorem halting_expression (s0 : State) {a0 : List Token}
    (iha : Halting s0 .assignment a0) : Halting s0 .expression a0 := by
  intro a b n k scopes rest bad h hI
  show Halts (parse_expression n _) bad
  cases n with
  | zero => exact Or.inl rfl
  | succ n =>
    rw [parse_expression]
    exact iha a b n k scopes rest bad h hI

theorem halting_optExpr_none (s0 : State) : Halting s0 .optExpr [] := by
  intro a b n k scopes rest bad h hI c _
  obtain ⟨rfl, _⟩ := List.append_eq_nil.mp h.symm
  exact (bad_optional (hI.current scopes) hI.2.2.1 n c).to_halts

theorem halting_optExpr_some (s0 : State) (hD : DelimOK s0) {e0 : List Token}
    (he : Derives .expression e0) (ihe : Halting s0 .expression e0) :
    Halting s0 .optExpr e0 := by
  intro a b n k scopes rest bad h hI c hc
  rcases head_or_nil h bad rest with rfl | ⟨x, ts', r', hx, hr⟩
  · exact (bad_optional (hI.current scopes) hI.2.2.1 n c).to_halts
  have hat0 : At s0 k (x :: r') := hr ▸ hI.1
  have hfirst : ExprFirst x := derives_first he x ts' hx
  rw [if_pos (fun h => exprFirst_not_delim hfirst c hc
    ((at_match_delimiter s0 k scopes x _ c hD hat0).mp h))]
  exact ihe a b n k scopes rest bad h hI

/-! ## The first token of type `TOKEN_ERROR`: statements -/

theorem halts_ok_current {s : State} {bad : Token} (h : Halts (.ok s) bad) :
    s.current_token = bad := by
  rcases h with h | h | ⟨s', h, hs⟩
  · cases h
  · cases h
  · cases h; exact hs

theorem halts_error {e : Err} {bad : Token} (h : Halts (.error e) bad) :
    e = .syntax_error bad := by
  rcases h with h | h | ⟨s', h, _⟩
  · cases h
  · cases h; rfl
  · cases h

/-- A procedure that returns where the part read so far ends returns at the
token of type `TOKEN_ERROR`. -/
theorem Returns.halts_at {s0 : State} {r : Outcome} {m : Nat} {scopes' : Scopes}
    {bad : Token} {rest : List Token}
    (h : Returns r (fun s' => s' = after s0 m scopes')) (hat : At s0 m (bad :: rest)) :
    Halts r bad := by
  rcases h with h | ⟨s', h, rfl⟩
  · exact Or.inl h
  · exact Or.inr (Or.inr ⟨_, h, after_current s0 m scopes' bad rest hat⟩)

/-- The condition raised by a consuming step at the token of type
`TOKEN_ERROR`. -/
theorem halts_consume_delimiter {s : State} {bad : Token} (hs : s.current_token = bad)
    (hb : bad.type = .TOKEN_ERROR) (c : Char) (k : State → Outcome) :
    Halts ((Outcome.of (consume_delimiter s c)).andThen k) bad := by
  rw [consume_delimiter_bad hs hb]
  exact Or.inr (Or.inl rfl)

theorem halts_consume_keyword {s : State} {bad : Token} (hs : s.current_token = bad)
    (hb : bad.type = .TOKEN_ERROR) (kw : List Char) (k : State → Outcome) :
    Halts ((Outcome.of (consume_keyword s kw)).andThen k) bad := by
  rw [consume_keyword_bad hs hb]
  exact Or.inr (Or.inl rfl)

theorem halts_consume_last {s : State} {bad : Token} (hs : s.current_token = bad)
    (hb : bad.type = .TOKEN_ERROR) (c : Char) :
    Halts (Outcome.of (consume_delimiter s c)) bad := by
  rw [consume_delimiter_bad hs hb]
  exact Or.inr (Or.inl rfl)

/-- The start of a declaration: either the token of type `TOKEN_ERROR` comes
before the identifier is read, or the identifier is declared and
`parse_declaration` goes on with the initializer. -/
theorem halting_decl_start (s0 : State) {kw id0 : Token} {tail a b rest : List Token}
    {bad : Token} {k : Nat} (n : Nat) {scopes : Scopes} (hkw : is_kw kw "int".toList)
    (hid0 : id0.type = .TOKEN_IDENTIFIER) (h : kw :: id0 :: tail = a ++ b)
    (hI : Invalid s0 k scopes a bad rest) :
    Halts (parse_declaration (n + 1) (after s0 k scopes)) bad ∨
    ∃ a2 scopes2, a = kw :: id0 :: a2 ∧ tail = a2 ++ b ∧
      Invalid s0 (k + 1 + 1) scopes2 a2 bad rest ∧
      parse_declaration (n + 1) (after s0 k scopes) =
        (if match_operator (after s0 (k + 1 + 1) scopes2) "=".toList = true then
            parse_expression n (after s0 (k + 1 + 1 + 1) scopes2)
          else .ok (after s0 (k + 1 + 1) scopes2)).andThen fun s =>
          Outcome.of (consume_delimiter s ';') := by
  obtain ⟨hat, hne, hb, st, hscan⟩ := hI
  cases a with
  | nil =>
    left
    rw [parse_declaration]
    exact halts_consume_keyword (after_current s0 k scopes bad rest hat) hb _ _
  | cons x a1 =>
    simp only [List.cons_append, List.cons.injEq] at h
    obtain ⟨rfl, h1⟩ := h
    have hat0 : At s0 k (kw :: (a1 ++ bad :: rest)) := by simpa using hat
    have hat1 := at_tail _ _ _ _ hat0
    cases a1 with
    | nil =>
      left
      have hcur := after_current s0 (k + 1) scopes bad rest hat1
      rw [parse_declaration, at_consume_keyword s0 k _ kw _ _ hat0 hkw]
      simp only [Outcome.andThen]
      rw [if_pos (by rw [hcur, hb]; simp)]
      exact Or.inr (Or.inl (by simp [syntax_error, hcur]))
    | cons y a2 =>
      simp only [List.cons_append, List.cons.injEq] at h1
      obtain ⟨rfl, h2⟩ := h1
      right
      have hat1' : At s0 (k + 1) (id0 :: (a2 ++ bad :: rest)) := hat1
      have hat2 := at_tail _ _ _ _ hat1'
      have hsc : scan (kw :: id0 :: a2) (scopes, false) = .ok st := hscan
      rw [scan_cons_ok _ _ _ _ (scan_step_int _ _ _ hkw)] at hsc
      obtain ⟨st1, hd1, hscan2⟩ := scan_cons_inv _ _ _ _ hsc
      obtain ⟨top, outer, rfl⟩ := List.exists_cons_of_ne_nil hne
      rw [scan_step_declare _ _ _ hid0] at hd1
      split at hd1
      · cases hd1
      · rename_i hnew
        split at hd1
        · cases hd1
        · rename_i hroom
          cases hd1
          refine ⟨a2, (top ++ [id0.value]) :: outer, rfl, h2, ⟨hat2, by simp, hb, st, hscan2⟩,
            ?_⟩
          have hcur1 := after_current s0 (k + 1) (top :: outer) id0 _ hat1'
          rw [parse_declaration, at_consume_keyword s0 k _ kw _ _ hat0 hkw]
          simp only [Outcome.andThen]
          rw [if_neg (not_not.mpr (by rw [hcur1]; exact hid0)), hcur1,
            after_add s0 (k + 1) top outer id0.value hnew hroom]
          simp only [Outcome.of, Outcome.andThen]
          rw [after_next_token, after_next_token]

/-- The end of a declaration without initializer, from the token after the
identifier. -/
theorem halting_decl (s0 : State) (hD : DelimOK s0) {kw id0 semi : Token}
    (hkw : is_kw kw "int".toList) (hid0 : id0.type = .TOKEN_IDENTIFIER)
    (hsemi : is_delim semi ';') : Halting s0 .decl [kw, id0, semi] := by
  intro a b n k scopes rest bad h hI
  show Halts (parse_declaration n _) bad
  have hb := hI.2.2.1
  cases n with
  | zero => exact Or.inl rfl
  | succ n =>
    rcases halting_decl_start s0 n hkw hid0 h hI with h1 | ⟨a2, scopes2, rfl, h2, hI2, hrun⟩
    · exact h1
    rw [hrun]
    rcases invalid_terminal h2 hI2 (scan_step_delim _ _ _ ';' hsemi (by decide) (by decide))
      with ⟨_, hcur⟩ | ⟨a3, rfl, h3, hI3, hat3⟩
    · rw [match_operator_bad hcur hb, if_neg (by simp)]
      simp only [Outcome.andThen]
      exact halts_consume_last hcur hb ';'
    · obtain ⟨rfl, _⟩ := List.append_eq_nil.mp h3.symm
      rw [if_neg (fun h => by
        have := ((at_match_operator s0 _ scopes2 semi _ _ hat3).mp h).1
        rw [hsemi.1] at this
        cases this)]
      simp only [Outcome.andThen]
      rw [at_consume_delimiter s0 _ scopes2 semi _ ';' hD hat3 hsemi]
      exact Halts.of_current (after_current s0 _ scopes2 bad rest hI3.1)

theorem halting_decl_init (s0 : State) (hD : DelimOK s0) {kw id0 eq semi : Token}
    {e0 : List Token} (hkw : is_kw kw "int".toList) (hid0 : id0.type = .TOKEN_IDENTIFIER)
    (heq : is_op eq "=".toList) (he : Derives .expression e0) (hsemi : is_delim semi ';')
    (ihe : Halting s0 .expression e0) (ce : Complete s0 .expression e0) :
    Halting s0 .decl (kw :: id0 :: eq :: e0 ++ [semi]) := by
  intro a b n k scopes rest bad h hI
  show Halts (parse_declaration n _) bad
  have hb := hI.2.2.1
  have h0 : kw :: id0 :: (eq :: (e0 ++ [semi])) = a ++ b := by simpa using h
  cases n with
  | zero => exact Or.inl rfl
  | succ n =>
    rcases halting_decl_start s0 n hkw hid0 h0 hI with h1 | ⟨a2, scopes2, rfl, h2, hI2, hrun⟩
    · exact h1
    rw [hrun]
    rcases invalid_terminal h2 hI2 (scan_step_operator _ _ _ heq.1)
      with ⟨_, hcur⟩ | ⟨a3, rfl, h3, hI3, hat3⟩
    · rw [match_operator_bad hcur hb, if_neg (by simp)]
      simp only [Outcome.andThen]
      exact halts_consume_last hcur hb ';'
    rw [if_pos ((at_match_operator s0 _ scopes2 eq _ _ hat3).mpr heq)]
    rcases invalid_nonterminal h3 hI3 he with ⟨b1, h4⟩ | ⟨x, a4, scopes3, _, h4, hs3, hI4, hat4⟩
    · exact (ihe a3 b1 n _ scopes2 rest bad h4 hI3).chain
        fun s' hs' => halts_consume_last hs' hb ';'
    · simp only [List.cons_append, List.cons.injEq] at h4
      obtain ⟨rfl, h4⟩ := h4
      obtain ⟨rfl, _⟩ := List.append_eq_nil.mp h4.symm
      have hat5 := hI4.1
      have c1 : Returns (parse_expression n (after s0 (k + 1 + 1 + 1) scopes2))
          (fun s' => s' = after s0 (k + 1 + 1 + 1 + e0.length) scopes3) :=
        ce n _ semi _ _ _ hat4 hI3.2.1 hs3 hsemi.1
      refine c1.then_halts fun s1 hs => ?_
      subst hs
      rw [at_consume_delimiter s0 _ scopes3 semi _ ';' hD hat5 hsemi]
      exact Halts.of_current (after_current s0 _ scopes3 bad rest (at_tail _ _ _ _ hat5))

theorem halting_exprStmt (s0 : State) (hD : DelimOK s0) {semi : Token} {e0 : List Token}
    (he : Derives .optExpr e0) (hsemi : is_delim semi ';')
    (ihe : Halting s0 .optExpr e0) : Halting s0 .exprStmt (e0 ++ [semi]) := by
  intro a b n k scopes rest bad h hI
  show Halts (parse_expression_statement n _) bad
  have hb := hI.2.2.1
  rcases invalid_nonterminal h hI he with ⟨b1, h2⟩ | ⟨x, a2, scopes1, ha, h2, hs1, hI2, hat1⟩
  · have hm : match_delimiter (after s0 k scopes) ';' = false := by
      rcases head_or_nil h2 bad rest with rfl | ⟨y, ts', r', hy, hr⟩
      · exact match_delimiter_bad (hI.current scopes) hb ';'
      · have hat0 : At s0 k (y :: r') := hr ▸ hI.1
        have hfirst : ExprFirst y := derives_first he y ts' hy
        rw [← Bool.not_eq_true]
        exact fun h => exprFirst_not_delim hfirst ';' (by decide)
          ((at_match_delimiter s0 k scopes y _ ';' hD hat0).mp h)
    cases n with
    | zero => exact Or.inl rfl
    | succ n =>
      have hopt := ihe a b1 n k scopes rest bad h2 hI ';' (by decide)
      rw [if_pos (by rw [hm]; simp)] at hopt
      rw [parse_expression_statement, hm, if_neg (by simp)]
      exact hopt.chain fun s' hs' => halts_consume_last hs' hb ';'
  · simp only [List.cons_append, List.cons.injEq] at h2
    obtain ⟨rfl, h2⟩ := h2
    obtain ⟨rfl, rfl⟩ := List.append_eq_nil.mp h2.symm
    subst ha
    obtain ⟨hat, hne, _, st, hscan⟩ := hI
    obtain ⟨scopes', flag⟩ := st
    obtain rfl := derives_flag (Derives.exprStmt he hsemi) _ _ _ hscan
    have c : Returns (parse_expression_statement n (after s0 k scopes))
        (fun s' => s' = after s0 (k + (e0 ++ [semi]).length) scopes') :=
      complete_all s0 hD (Derives.exprStmt he hsemi) n k bad rest scopes scopes' hat hne hscan
        trivial
    exact c.halts_at (at_drop _ _ _ _ hat)

theorem halting_returnStmt (s0 : State) (hD : DelimOK s0) {kw semi : Token}
    {e0 : List Token} (hkw : is_kw kw "return".toList) (he : Derives .optExpr e0)
    (hsemi : is_delim semi ';') (ihe : Halting s0 .optExpr e0)
    (ce : Complete s0 .optExpr e0) :
    Halting s0 .returnStmt (kw :: e0 ++ [semi]) := by
  intro a b n k scopes rest bad h hI
  show Halts (parse_return_statement n _) bad
  have hb := hI.2.2.1
  have h0 : kw :: (e0 ++ [semi]) = a ++ b := by simpa using h
  cases n with
  | zero => exact Or.inl rfl
  | succ n =>
    rw [parse_return_statement]
    rcases invalid_terminal h0 hI (scan_step_keyword _ _ _ _ hkw (by decide)) with
      ⟨_, hcur⟩ | ⟨a1, rfl, h1, hI1, hat0⟩
    · exact halts_consume_keyword hcur hb _ _
    rw [at_consume_keyword s0 k scopes kw _ _ hat0 hkw]
    simp only [Outcome.andThen]
    rcases invalid_nonterminal h1 hI1 he with ⟨b1, h2⟩ | ⟨x, a2, scopes1, _, h2, hs1, hI2, hat1⟩
    · exact (ihe a1 b1 n _ scopes rest bad h2 hI1 ';' (by decide)).chain
        fun s' hs' => halts_consume_last hs' hb ';'
    · simp only [List.cons_append, List.cons.injEq] at h2
      obtain ⟨rfl, h2⟩ := h2
      obtain ⟨rfl, _⟩ := List.append_eq_nil.mp h2.symm
      have hat2 := hI2.1
      refine (ce n _ semi _ scopes scopes1 hat1 hI1.2.1 hs1 trivial ';' (by decide) hsemi).then_halts
        fun s1 hs => ?_
      subst hs
      rw [at_consume_delimiter s0 _ scopes1 semi _ ';' hD hat2 hsemi]
      exact Halts.of_current (after_current s0 _ scopes1 bad rest (at_tail _ _ _ _ hat2))

theorem halting_block (s0 : State) (hD : DelimOK s0) {lb rb : Token} {b0 : List Token}
    (hlb : is_delim lb '{') (hb0 : Derives .stmtList b0) (hrb : is_delim rb '}')
    (ihb : Halting s0 .stmtList b0) (cb : Complete s0 .stmtList b0) :
    Halting s0 .block (lb :: b0 ++ [rb]) := by
  intro a b n k scopes rest bad h hI
  show Halts (parse_compound_statement n _) bad
  have hb := hI.2.2.1
  have h0 : lb :: (b0 ++ [rb]) = a ++ b := by simpa using h
  cases n with
  | zero => exact Or.inl rfl
  | succ n =>
    rw [parse_compound_statement]
    rcases invalid_terminal h0 hI (scan_step_open _ _ _ hlb) with
      ⟨_, hcur⟩ | ⟨a1, rfl, h1, hI1, hat0⟩
    · exact halts_consume_delimiter hcur hb _ _
    rw [at_consume_delimiter s0 k scopes lb _ '{' hD hat0 hlb]
    simp only [Outcome.andThen]
    rw [after_enter]
    rcases invalid_nonterminal h1 hI1 hb0 with ⟨b1, h2⟩ | ⟨x, a2, scopes1, _, h2, hs1, hI2, hat1⟩
    · exact (ihb a1 b1 n _ _ rest bad h2 hI1).chain
        fun s' hs' => halts_consume_last (s := exit_scope s') hs' hb '}'
    · simp only [List.cons_append, List.cons.injEq] at h2
      obtain ⟨rfl, h2⟩ := h2
      obtain ⟨rfl, _⟩ := List.append_eq_nil.mp h2.symm
      obtain ⟨hat2, _, _, st, hscan2⟩ := hI2
      rw [scan_single] at hscan2
      obtain ⟨inner, top, outer, rfl, _⟩ := scan_close_inv hrb hscan2
      have c1 : Returns (parse_statement_list n (after s0 (k + 1) ([] :: scopes)))
          (fun s' => s' = after s0 (k + 1 + b0.length) (inner :: top :: outer)) :=
        cb n _ rb _ _ _ hat1 (by simp) hs1 (Or.inr hrb)
      refine c1.then_halts fun s1 hs => ?_
      subst hs
      rw [after_exit, at_consume_delimiter s0 _ (top :: outer) rb _ '}' hD hat2 hrb]
      exact Halts.of_current (after_current s0 _ _ bad rest (at_tail _ _ _ _ hat2))

theorem halting_whileStmt (s0 : State) (hD : DelimOK s0) {kw lp rp : Token}
    {e0 a0 : List Token} (hkw : is_kw kw "while".toList) (hlp : is_delim lp '(')
    (he : Derives .expression e0) (hrp : is_delim rp ')')
    (ihe : Halting s0 .expression e0) (iha : Halting s0 .statement a0)
    (ce : Complete s0 .expression e0) :
    Halting s0 .whileStmt (kw :: lp :: e0 ++ rp :: a0) := by
  intro a b n k scopes rest bad h hI
  show Halts (parse_while_statement n _) bad
  have hb := hI.2.2.1
  have h0 : kw :: lp :: (e0 ++ rp :: a0) = a ++ b := by simpa using h
  cases n with
  | zero => exact Or.inl rfl
  | succ n =>
    rw [parse_while_statement]
    rcases invalid_terminal h0 hI (scan_step_keyword _ _ _ _ hkw (by decide)) with
      ⟨_, hcur⟩ | ⟨a1, rfl, h1, hI1, hat0⟩
    · exact halts_consume_keyword hcur hb _ _
    rw [at_consume_keyword s0 k scopes kw _ _ hat0 hkw]
    simp only [Outcome.andThen]
    rcases invalid_terminal h1 hI1 (scan_step_delim _ _ _ '(' hlp (by decide) (by decide)) with
      ⟨_, hcur⟩ | ⟨a2, rfl, h2, hI2, hat1⟩
    · exact halts_consume_delimiter hcur hb _ _
    rw [at_consume_delimiter s0 _ scopes lp _ '(' hD hat1 hlp]
    simp only []
    rcases invalid_nonterminal h2 hI2 he with ⟨b1, h3⟩ | ⟨x, a3, scopes1, _, h3, hs1, hI3, hat2⟩
    · exact (ihe a2 b1 n _ scopes rest bad h3 hI2).chain
        fun s' hs' => halts_consume_delimiter hs' hb _ _
    · simp only [List.cons_append, List.cons.injEq] at h3
      obtain ⟨rfl, h3⟩ := h3
      have hat3 : At s0 (k + 1 + 1 + e0.length) (rp :: (a3 ++ bad :: rest)) := hI3.1
      obtain ⟨_, hne3, _, st, hscan3⟩ := hI3
      rw [scan_cons_ok _ _ _ _ (scan_step_delim _ _ _ ')' hrp (by decide) (by decide))]
        at hscan3
      have c1 : Returns (parse_expression n (after s0 (k + 1 + 1) scopes))
          (fun s' => s' = after s0 (k + 1 + 1 + e0.length) scopes1) :=
        ce n _ rp _ _ _ hat2 hI2.2.1 hs1 hrp.1
      refine c1.then_halts fun s1 hs => ?_
      subst hs
      rw [at_consume_delimiter s0 _ scopes1 rp _ ')' hD hat3 hrp]
      simp only [Outcome.andThen]
      exact iha a3 b n _ scopes1 rest bad h3
        ⟨at_tail _ _ _ _ hat3, hne3, hb, st, hscan3⟩

/-! ## The first token of type `TOKEN_ERROR`: statements with a body -/

/-- After the body of an `if`, at the token of type `TOKEN_ERROR`,
`parse_if_statement` returns. -/
theorem bad_else_tail {s : State} {bad : Token} (hs : s.current_token = bad)
    (hb : bad.type = .TOKEN_ERROR) (n : Nat) :
    Halts (if match_keyword s "else".toList = true then
        (Outcome.of (consume_keyword s "else".toList)).andThen fun s => parse_statement n s
      else .ok s) bad := by
  rw [match_keyword_bad hs hb, if_neg (by simp)]
  exact Halts.of_current hs

theorem halting_ifStmt (s0 : State) (hD : DelimOK s0) {kw lp rp : Token}
    {e0 a0 : List Token} (hkw : is_kw kw "if".toList) (hlp : is_delim lp '(')
    (he : Derives .expression e0) (hrp : is_delim rp ')')
    (ihe : Halting s0 .expression e0) (iha : Halting s0 .statement a0)
    (ce : Complete s0 .expression e0) :
    Halting s0 .ifStmt (kw :: lp :: e0 ++ rp :: a0) := by
  intro a b n k scopes rest bad h hI
  show Halts (parse_if_statement n _) bad
  have hb := hI.2.2.1
  have h0 : kw :: lp :: (e0 ++ rp :: a0) = a ++ b := by simpa using h
  cases n with
  | zero => exact Or.inl rfl
  | succ n =>
    rw [parse_if_statement]
    rcases invalid_terminal h0 hI (scan_step_keyword _ _ _ _ hkw (by decide)) with
      ⟨_, hcur⟩ | ⟨a1, rfl, h1, hI1, hat0⟩
    · exact halts_consume_keyword hcur hb _ _
    rw [at_consume_keyword s0 k scopes kw _ _ hat0 hkw]
    simp only [Outcome.andThen]
    rcases invalid_terminal h1 hI1 (scan_step_delim _ _ _ '(' hlp (by decide) (by decide)) with
      ⟨_, hcur⟩ | ⟨a2, rfl, h2, hI2, hat1⟩
    · exact halts_consume_delimiter hcur hb _ _
    rw [at_consume_delimiter s0 _ scopes lp _ '(' hD hat1 hlp]
    simp only []
    rcases invalid_nonterminal h2 hI2 he with ⟨b1, h3⟩ | ⟨x, a3, scopes1, _, h3, hs1, hI3, hat2⟩
    · exact (ihe a2 b1 n _ scopes rest bad h3 hI2).chain
        fun s' hs' => halts_consume_delimiter hs' hb _ _
    · simp only [List.cons_append, List.cons.injEq] at h3
      obtain ⟨rfl, h3⟩ := h3
      have hat3 : At s0 (k + 1 + 1 + e0.length) (rp :: (a3 ++ bad :: rest)) := hI3.1
      obtain ⟨_, hne3, _, st, hscan3⟩ := hI3
      rw [scan_cons_ok _ _ _ _ (scan_step_delim _ _ _ ')' hrp (by decide) (by decide))]
        at hscan3
      have c1 : Returns (parse_expression n (after s0 (k + 1 + 1) scopes))
          (fun s' => s' = after s0 (k + 1 + 1 + e0.length) scopes1) :=
        ce n _ rp _ _ _ hat2 hI2.2.1 hs1 hrp.1
      refine c1.then_halts fun s1 hs => ?_
      subst hs
      rw [at_consume_delimiter s0 _ scopes1 rp _ ')' hD hat3 hrp]
      simp only [Outcome.andThen]
      exact (iha a3 b n _ scopes1 rest bad h3 ⟨at_tail _ _ _ _ hat3, hne3, hb, st, hscan3⟩).chain
        fun s' hs' => bad_else_tail hs' hb n

theorem halting_ifElse (s0 : State) (hD : DelimOK s0) {kw lp rp el : Token}
    {e0 a0 b0 : List Token} (hkw : is_kw kw "if".toList) (hlp : is_delim lp '(')
    (he : Derives .expression e0) (hrp : is_delim rp ')') (ha : Derives .statement a0)
    (hel : is_kw el "else".toList) (ihe : Halting s0 .expression e0)
    (iha : Halting s0 .statement a0) (ihb : Halting s0 .statement b0)
    (ce : Complete s0 .expression e0) (ca : Complete s0 .statement a0) :
    Halting s0 .ifStmt (kw :: lp :: e0 ++ rp :: a0 ++ el :: b0) := by
  intro a b n k scopes rest bad h hI
  show Halts (parse_if_statement n _) bad
  have hb := hI.2.2.1
  have h0 : kw :: lp :: (e0 ++ rp :: (a0 ++ el :: b0)) = a ++ b := by simpa using h
  cases n with
  | zero => exact Or.inl rfl
  | succ n =>
    rw [parse_if_statement]
    rcases invalid_terminal h0 hI (scan_step_keyword _ _ _ _ hkw (by decide)) with
      ⟨_, hcur⟩ | ⟨a1, rfl, h1, hI1, hat0⟩
    · exact halts_consume_keyword hcur hb _ _
    rw [at_consume_keyword s0 k scopes kw _ _ hat0 hkw]
    simp only [Outcome.andThen]
    rcases invalid_terminal h1 hI1 (scan_step_delim _ _ _ '(' hlp (by decide) (by decide)) with
      ⟨_, hcur⟩ | ⟨a2, rfl, h2, hI2, hat1⟩
    · exact halts_consume_delimiter hcur hb _ _
    rw [at_consume_delimiter s0 _ scopes lp _ '(' hD hat1 hlp]
    simp only []
    rcases invalid_nonterminal h2 hI2 he with ⟨b1, h3⟩ | ⟨x, a3, scopes1, _, h3, hs1, hI3, hat2⟩
    · exact (ihe a2 b1 n _ scopes rest bad h3 hI2).chain
        fun s' hs' => halts_consume_delimiter hs' hb _ _
    simp only [List.cons_append, List.cons.injEq] at h3
    obtain ⟨rfl, h3⟩ := h3
    have hat3 : At s0 (k + 1 + 1 + e0.length) (rp :: (a3 ++ bad :: rest)) := hI3.1
    obtain ⟨_, hne3, _, st, hscan3⟩ := hI3
    rw [scan_cons_ok _ _ _ _ (scan_step_delim _ _ _ ')' hrp (by decide) (by decide))]
      at hscan3
    have hI4 : Invalid s0 (k + 1 + 1 + e0.length + 1) scopes1 a3 bad rest :=
      ⟨at_tail _ _ _ _ hat3, hne3, hb, st, hscan3⟩
    have c1 : Returns (parse_expression n (after s0 (k + 1 + 1) scopes))
        (fun s' => s' = after s0 (k + 1 + 1 + e0.length) scopes1) :=
      ce n _ rp _ _ _ hat2 hI2.2.1 hs1 hrp.1
    refine c1.then_halts fun s1 hs => ?_
    subst hs
    rw [at_consume_delimiter s0 _ scopes1 rp _ ')' hD hat3 hrp]
    simp only [Outcome.andThen]
    rcases invalid_nonterminal h3 hI4 ha with ⟨b1, h5⟩ | ⟨y, a5, scopes2, _, h5, hs2, hI5, hat4⟩
    · exact (iha a3 b1 n _ scopes1 rest bad h5 hI4).chain
        fun s' hs' => bad_else_tail hs' hb n
    simp only [List.cons_append, List.cons.injEq] at h5
    obtain ⟨rfl, h5⟩ := h5
    have hat5 : At s0 (k + 1 + 1 + e0.length + 1 + a0.length) (el :: (a5 ++ bad :: rest)) :=
      hI5.1
    obtain ⟨_, hne5, _, st5, hscan5⟩ := hI5
    rw [scan_cons_ok _ _ _ _ (scan_step_keyword _ _ _ _ hel (by decide))] at hscan5
    have hI6 : Invalid s0 (k + 1 + 1 + e0.length + 1 + a0.length + 1) scopes2 a5 bad rest :=
      ⟨at_tail _ _ _ _ hat5, hne5, hb, st5, hscan5⟩
    -- the `else` branch halts at the token, whatever the budget
    have hB : ∀ m, Halts
        (parse_statement m (after s0 (k + 1 + 1 + e0.length + 1 + a0.length + 1) scopes2))
        bad := fun m => ihb a5 b m _ scopes2 rest bad h5 hI6
    have helse : match_keyword (after s0 (k + 1 + 1 + e0.length + 1 + a0.length) scopes2)
        "else".toList = true := (at_match_keyword s0 _ scopes2 el _ _ hat5).mpr hel
    have c2 : Branches (parse_statement n (after s0 (k + 1 + 1 + e0.length + 1) scopes1))
        (after s0 (k + 1 + 1 + e0.length + 1 + a0.length) scopes2) :=
      ca n _ el _ scopes1 scopes2 hat4 hI4.2.1 hs2 trivial
    rcases c2 with c2 | ⟨s5, c2, hch⟩ | ⟨err, c2, herr⟩
    · rw [c2]; exact Or.inl rfl
    · rw [c2]
      show Halts (if _ then _ else _) bad
      cases hch with
      | refl _ =>
        rw [if_pos helse, at_consume_keyword s0 _ scopes2 el _ _ hat5 hel]
        exact hB n
      | step _ s1 _ m _ hrun hch' =>
        rw [after_next_token] at hrun
        have h1 := hB m
        rw [hrun] at h1
        have hs1 := halts_ok_current h1
        obtain rfl := hch'.of_not_else (match_keyword_bad hs1 hb _)
        exact bad_else_tail hs1 hb n
    · rw [c2]
      cases herr with
      | here _ _ m _ hrun =>
        rw [after_next_token] at hrun
        have h1 := hB m
        rw [hrun] at h1
        rw [halts_error h1]
        exact Or.inr (Or.inl rfl)
      | step _ s1 _ m _ hrun herr' =>
        rw [after_next_token] at hrun
        have h1 := hB m
        rw [hrun] at h1
        have hs1 := halts_ok_current h1
        have := herr'.is_else
        rw [match_keyword_bad hs1 hb] at this
        cases this

theorem halting_forStmt (s0 : State) (hD : DelimOK s0) {kw lp s1 s2 rp : Token}
    {e1 e2 e3 a0 : List Token} (hkw : is_kw kw "for".toList) (hlp : is_delim lp '(')
    (he1 : Derives .optExpr e1) (hs1 : is_delim s1 ';') (he2 : Derives .optExpr e2)
    (hs2 : is_delim s2 ';') (he3 : Derives .optExpr e3) (hrp : is_delim rp ')')
    (ih1 : Halting s0 .optExpr e1) (ih2 : Halting s0 .optExpr e2)
    (ih3 : Halting s0 .optExpr e3) (iha : Halting s0 .statement a0)
    (c1 : Complete s0 .optExpr e1) (c2 : Complete s0 .optExpr e2)
    (c3 : Complete s0 .optExpr e3) :
    Halting s0 .forStmt (kw :: lp :: e1 ++ s1 :: e2 ++ s2 :: e3 ++ rp :: a0) := by
  intro a b n k scopes rest bad h hI
  show Halts (parse_for_statement n _) bad
  have hb := hI.2.2.1
  have h0 : kw :: lp :: (e1 ++ s1 :: (e2 ++ s2 :: (e3 ++ rp :: a0))) = a ++ b := by
    simpa using h
  cases n with
  | zero => exact Or.inl rfl
  | succ n =>
    rw [parse_for_statement]
    rcases invalid_terminal h0 hI (scan_step_keyword _ _ _ _ hkw (by decide)) with
      ⟨_, hcur⟩ | ⟨a1, rfl, h1, hI1, hat0⟩
    · exact halts_consume_keyword hcur hb _ _
    rw [at_consume_keyword s0 k scopes kw _ _ hat0 hkw]
    simp only [Outcome.andThen]
    rcases invalid_terminal h1 hI1 (scan_step_delim _ _ _ '(' hlp (by decide) (by decide)) with
      ⟨_, hcur⟩ | ⟨a2, rfl, h2, hI2, hat1⟩
    · exact halts_consume_delimiter hcur hb _ _
    rw [at_consume_delimiter s0 _ scopes lp _ '(' hD hat1 hlp]
    simp only []
    -- the first clause
    rcases invalid_nonterminal h2 hI2 he1 with
      ⟨b1, h3⟩ | ⟨x, a3, scopes1, _, h3, hc1, hI3, hat2⟩
    · exact (ih1 a2 b1 n _ scopes rest bad h3 hI2 ';' (by decide)).chain
        fun s' hs' => halts_consume_delimiter hs' hb _ _
    simp only [List.cons_append, List.cons.injEq] at h3
    obtain ⟨rfl, h3⟩ := h3
    have hat3 : At s0 (k + 1 + 1 + e1.length) (s1 :: (a3 ++ bad :: rest)) := hI3.1
    obtain ⟨_, hne3, _, st3, hscan3⟩ := hI3
    rw [scan_cons_ok _ _ _ _ (scan_step_delim _ _ _ ';' hs1 (by decide) (by decide))]
      at hscan3
    have hI4 : Invalid s0 (k + 1 + 1 + e1.length + 1) scopes1 a3 bad rest :=
      ⟨at_tail _ _ _ _ hat3, hne3, hb, st3, hscan3⟩
    refine (c1 n _ s1 _ scopes scopes1 hat2 hI2.2.1 hc1 trivial ';' (by decide) hs1).then_halts
      fun x hx => ?_
    subst hx
    rw [at_consume_delimiter s0 _ scopes1 s1 _ ';' hD hat3 hs1]
    simp only [Outcome.andThen]
    -- the second clause
    rcases invalid_nonterminal h3 hI4 he2 with
      ⟨b1, h5⟩ | ⟨x, a5, scopes2, _, h5, hc2, hI5, hat4⟩
    · exact (ih2 a3 b1 n _ scopes1 rest bad h5 hI4 ';' (by decide)).chain
        fun s' hs' => halts_consume_delimiter hs' hb _ _
    simp only [List.cons_append, List.cons.injEq] at h5
    obtain ⟨rfl, h5⟩ := h5
    have hat5 : At s0 (k + 1 + 1 + e1.length + 1 + e2.length) (s2 :: (a5 ++ bad :: rest)) :=
      hI5.1
    obtain ⟨_, hne5, _, st5, hscan5⟩ := hI5
    rw [scan_cons_ok _ _ _ _ (scan_step_delim _ _ _ ';' hs2 (by decide) (by decide))]
      at hscan5
    have hI6 : Invalid s0 (k + 1 + 1 + e1.length + 1 + e2.length + 1) scopes2 a5 bad rest :=
      ⟨at_tail _ _ _ _ hat5, hne5, hb, st5, hscan5⟩
    refine (c2 n _ s2 _ scopes1 scopes2 hat4 hI4.2.1 hc2 trivial ';' (by decide) hs2).then_halts
      fun x hx => ?_
    subst hx
    rw [at_consume_delimiter s0 _ scopes2 s2 _ ';' hD hat5 hs2]
    simp only [Outcome.andThen]
    -- the third clause
    rcases invalid_nonterminal h5 hI6 he3 with
      ⟨b1, h7⟩ | ⟨x, a7, scopes3, _, h7, hc3, hI7, hat6⟩
    · exact (ih3 a5 b1 n _ scopes2 rest bad h7 hI6 ')' (by decide)).chain
        fun s' hs' => halts_consume_delimiter hs' hb _ _
    simp only [List.cons_append, List.cons.injEq] at h7
    obtain ⟨rfl, h7⟩ := h7
    have hat7 : At s0 (k + 1 + 1 + e1.length + 1 + e2.length + 1 + e3.length)
        (rp :: (a7 ++ bad :: rest)) := hI7.1
    obtain ⟨_, hne7, _, st7, hscan7⟩ := hI7
    rw [scan_cons_ok _ _ _ _ (scan_step_delim _ _ _ ')' hrp (by decide) (by decide))]
      at hscan7
    refine (c3 n _ rp _ scopes2 scopes3 hat6 hI6.2.1 hc3 trivial ')' (by decide) hrp).then_halts
      fun x hx => ?_
    subst hx
    rw [at_consume_delimiter s0 _ scopes3 rp _ ')' hD hat7 hrp]
    simp only [Outcome.andThen]
    exact iha a7 b n _ scopes3 rest bad h7 ⟨at_tail _ _ _ _ hat7, hne7, hb, st7, hscan7⟩

theorem halting_stmtList_nil (s0 : State) : Halting s0 .stmtList [] := by
  intro a b n k scopes rest bad h hI
  show Halts (parse_statement_list n _) bad
  obtain ⟨rfl, _⟩ := List.append_eq_nil.mp h.symm
  exact (bad_statement_list (hI.current scopes) hI.2.2.1 n).to_halts

theorem halting_stmtList_cons (s0 : State) (hD : DelimOK s0) {a0 b0 : List Token}
    (ha : Derives .statement a0) (hb0 : Derives .stmtList b0)
    (iha : Halting s0 .statement a0) (ihb : Halting s0 .stmtList b0)
    (ca : Complete s0 .statement a0) : Halting s0 .stmtList (a0 ++ b0) := by
  intro a b n k scopes rest bad h hI
  show Halts (parse_statement_list n _) bad
  have hb := hI.2.2.1
  rcases head_or_nil h bad rest with rfl | ⟨x, ts', r', hx, hr⟩
  · exact (bad_statement_list (hI.current scopes) hb n).to_halts
  cases n with
  | zero => exact Or.inl rfl
  | succ n =>
    have hat0 : At s0 k (x :: r') := hr ▸ hI.1
    have hcur := after_current s0 k scopes x _ hat0
    have hfirst : StmtFirst x := by
      obtain ⟨y, a0', rfl⟩ := List.exists_cons_of_ne_nil (derives_nonempty ha rfl)
      simp only [List.cons_append, List.cons.injEq] at hx
      rw [← hx.1]
      exact derives_first ha y a0' rfl
    rw [parse_statement_list_succ, if_pos ⟨by rw [hcur]; exact stmtFirst_ne_eof hfirst,
      fun h => stmtFirst_not_close hfirst ((at_match_delimiter s0 k scopes x _ '}' hD hat0).mp h)⟩]
    rcases invalid_nonterminal h hI ha with ⟨b1, h2⟩ | ⟨y, a2, scopes1, _, h2, hs1, hI2, hat1⟩
    · exact (iha a b1 n k scopes rest bad h2 hI).chain
        fun s' hs' => (bad_statement_list hs' hb n).to_halts
    · have hat2 : At s0 (k + a0.length) (y :: (a2 ++ bad :: rest)) := hI2.1
      have hnelse : match_keyword (after s0 (k + a0.length) scopes1) "else".toList = false := by
        rw [← Bool.not_eq_true]
        exact fun h => stmtFirst_not_else (derives_first hb0 y (a2 ++ b) h2)
          ((at_match_keyword s0 _ scopes1 y _ _ hat2).mp h)
      have c1 : Returns (parse_statement n (after s0 k scopes))
          (fun s' => s' = after s0 (k + a0.length) scopes1) :=
        Branches.returns (ca n k y (a2 ++ bad :: rest) scopes scopes1 hat1 hI.2.1 hs1 trivial)
          hnelse
      refine c1.then_halts fun s1 hs => ?_
      subst hs
      exact ihb (y :: a2) b n _ scopes1 rest bad h2 hI2

theorem halting_statement_kw (s0 : State) (hD : DelimOK s0) {X : NT} {a0 : List Token}
    (kw : List Char) (ha : Derives X a0)
    (hfirst : ∀ t, X.first t → is_kw t kw)
    (hrun : ∀ n s, parse_statement (n + 1) s =
      (if kw = "int".toList then parse_declaration n s
      else if kw = "if".toList then parse_if_statement n s
      else if kw = "while".toList then parse_while_statement n s
      else if kw = "for".toList then parse_for_statement n s
      else if kw = "return".toList then parse_return_statement n s
      else parse_expression_statement n s) → parse_statement (n + 1) s = X.run n s)
    (hpost : ∀ n s bad, HaltPost X n s bad → Halts (X.run n s) bad)
    (iha : Halting s0 X a0) : Halting s0 .statement a0 := by
  intro a b n k scopes rest bad h hI
  show Halts (parse_statement n _) bad
  rcases head_or_nil h bad rest with rfl | ⟨x, ts', r', hx, hr⟩
  · exact (bad_statement (hI.current scopes) hI.2.2.1 n).to_halts
  cases n with
  | zero => exact Or.inl rfl
  | succ n =>
    have hat0 : At s0 k (x :: r') := hr ▸ hI.1
    have hk := hfirst x (derives_first ha x ts' hx)
    rw [hrun n _ (dispatch_keyword s0 hD n k scopes x _ hat0 kw hk)]
    exact hpost n _ bad (iha a b n k scopes rest bad h hI)

theorem halting_statement_block (s0 : State) (hD : DelimOK s0) {a0 : List Token}
    (ha : Derives .block a0) (iha : Halting s0 .block a0) : Halting s0 .statement a0 := by
  intro a b n k scopes rest bad h hI
  show Halts (parse_statement n _) bad
  rcases head_or_nil h bad rest with rfl | ⟨x, ts', r', hx, hr⟩
  · exact (bad_statement (hI.current scopes) hI.2.2.1 n).to_halts
  cases n with
  | zero => exact Or.inl rfl
  | succ n =>
    have hat0 : At s0 k (x :: r') := hr ▸ hI.1
    have hfirst : is_delim x '{' := derives_first ha x ts' hx
    rw [parse_statement,
      if_neg (fun h => not_kw_of_type x _ (by rw [hfirst.1]; simp)
        ((at_match_keyword s0 k scopes x _ _ hat0).mp h)),
      if_pos ((at_match_delimiter s0 k scopes x _ '{' hD hat0).mpr hfirst)]
    exact iha a b n k scopes rest bad h hI

theorem halting_statement_expr (s0 : State) (hD : DelimOK s0) {a0 : List Token}
    (ha : Derives .exprStmt a0) (iha : Halting s0 .exprStmt a0) :
    Halting s0 .statement a0 := by
  intro a b n k scopes rest bad h hI
  show Halts (parse_statement n _) bad
  rcases head_or_nil h bad rest with rfl | ⟨x, ts', r', hx, hr⟩
  · exact (bad_statement (hI.current scopes) hI.2.2.1 n).to_halts
  cases n with
  | zero => exact Or.inl rfl
  | succ n =>
    have hat0 : At s0 k (x :: r') := hr ▸ hI.1
    have hfirst : is_delim x ';' ∨ ExprFirst x := derives_first ha x ts' hx
    have hk : ∀ kw, ¬ match_keyword (after s0 k scopes) kw = true := by
      intro kw h
      have h' := (at_match_keyword s0 k scopes x _ kw hat0).mp h
      rcases hfirst with hx | hx
      · exact not_kw_of_type x _ (by rw [hx.1]; simp) h'
      · exact exprFirst_not_kw hx _ h'
    have hd : ¬ match_delimiter (after s0 k scopes) '{' = true := by
      intro h
      have h' := (at_match_delimiter s0 k scopes x _ '{' hD hat0).mp h
      rcases hfirst with hx | hx
      · exact absurd (is_delim_unique x _ _ hx h') (by decide)
      · exact exprFirst_not_delim hx _ (by decide) h'
    rw [parse_statement, if_neg (hk _), if_neg hd, if_neg (hk _), if_neg (hk _),
      if_neg (hk _), if_neg (hk _)]
    exact iha a b n k scopes rest bad h hI

/-- The check of `parse_program` after the statement list, at the token of
type `TOKEN_ERROR`. -/
theorem bad_program_tail {s : State} {bad : Token} (hs : s.current_token = bad)
    (hb : bad.type = .TOKEN_ERROR) :
    Halts (if s.current_token.type ≠ .TOKEN_EOF then .error (syntax_error s) else .ok s)
      bad := by
  rw [if_pos (by rw [hs, hb]; simp)]
  exact Or.inr (Or.inl (by simp [syntax_error, hs]))

theorem halting_program (s0 : State) {ts : List Token} {eof : Token}
    (hts : Derives .stmtList ts) (heof : eof.type = .TOKEN_EOF)
    (ih : Halting s0 .stmtList ts) : Halting s0 .program (ts ++ [eof]) := by
  intro a b n k scopes rest bad h hI
  show Halts (parse_program n _) bad
  rcases invalid_nonterminal h hI hts with ⟨b1, h2⟩ | ⟨x, a2, scopes1, _, h2, _, hI2, _⟩
  · unfold parse_program
    exact (ih a b1 n k scopes rest bad h2 hI).chain fun s' hs' => bad_program_tail hs' hI.2.2.1
  · simp only [List.cons_append, List.cons.injEq] at h2
    obtain ⟨rfl, h2⟩ := h2
    obtain ⟨rfl, _⟩ := List.append_eq_nil.mp h2.symm
    exact absurd heof (at_not_eof s0 _ eof bad rest hI2.1)

/-- The parser does not get past a token of type `TOKEN_ERROR`: wherever a
part of a sequence derived from a nonterminal stands before the parser,
obeys the scoping rule and is followed by such a token, the procedure of the
nonterminal raises the syntax condition at that token, or returns with it as
the current token, unless the budget is used up first. -/
theorem halting_all (s0 : State) (hD : DelimOK s0) {X : NT} {ts : List Token}
    (h : Derives X ts) : Halting s0 X ts := by
  induction h with
  | program hts heof ih => exact halting_program s0 hts heof ih
  | stmtList_nil => exact halting_stmtList_nil s0
  | stmtList_cons ha hb iha ihb =>
    exact halting_stmtList_cons s0 hD ha hb iha ihb (complete_all s0 hD ha)
  | statement_decl ha ih =>
    exact halting_statement_kw s0 hD "int".toList ha (fun _ h => h)
      (fun n s h => by rw [h]; rfl) (fun _ _ _ h => h) ih
  | statement_block ha ih => exact halting_statement_block s0 hD ha ih
  | statement_if ha ih =>
    exact halting_statement_kw s0 hD "if".toList ha (fun _ h => h)
      (fun n s h => by rw [h]; rfl) (fun _ _ _ h => h) ih
  | statement_while ha ih =>
    exact halting_statement_kw s0 hD "while".toList ha (fun _ h => h)
      (fun n s h => by rw [h]; rfl) (fun _ _ _ h => h) ih
  | statement_for ha ih =>
    exact halting_statement_kw s0 hD "for".toList ha (fun _ h => h)
      (fun n s h => by rw [h]; rfl) (fun _ _ _ h => h) ih
  | statement_return ha ih =>
    exact halting_statement_kw s0 hD "return".toList ha (fun _ h => h)
      (fun n s h => by rw [h]; rfl) (fun _ _ _ h => h) ih
  | statement_expr ha ih => exact halting_statement_expr s0 hD ha ih
  | decl hkw hid hsemi => exact halting_decl s0 hD hkw hid hsemi
  | decl_init hkw hid heq he hsemi ihe =>
    exact halting_decl_init s0 hD hkw hid heq he hsemi ihe (complete_all s0 hD he)
  | block hlb hb hrb ihb => exact halting_block s0 hD hlb hb hrb ihb (complete_all s0 hD hb)
  | ifStmt hkw hlp he hrp _ ihe iha =>
    exact halting_ifStmt s0 hD hkw hlp he hrp ihe iha (complete_all s0 hD he)
  | ifElse hkw hlp he hrp ha hel _ ihe iha ihb =>
    exact halting_ifElse s0 hD hkw hlp he hrp ha hel ihe iha ihb (complete_all s0 hD he)
      (complete_all s0 hD ha)
  | whileStmt hkw hlp he hrp _ ihe iha =>
    exact halting_whileStmt s0 hD hkw hlp he hrp ihe iha (complete_all s0 hD he)
  | forStmt hkw hlp he1 hs1 he2 hs2 he3 hrp _ ih1 ih2 ih3 iha =>
    exact halting_forStmt s0 hD hkw hlp he1 hs1 he2 hs2 he3 hrp ih1 ih2 ih3 iha
      (complete_all s0 hD he1) (complete_all s0 hD he2) (complete_all s0 hD he3)
  | returnStmt hkw he hsemi ihe =>
    exact halting_returnStmt s0 hD hkw he hsemi ihe (complete_all s0 hD he)
  | exprStmt he hsemi ihe => exact halting_exprStmt s0 hD he hsemi ihe
  | optExpr_none => exact halting_optExpr_none s0
  | optExpr_some he ihe => exact halting_optExpr_some s0 hD he ihe
  | expression _ ih => exact halting_expression s0 ih
  | assignment _ ih => exact halting_assignment s0 ih
  | assign ha heq _ iha ihb => exact halting_assign s0 ha heq iha ihb (complete_all s0 hD ha)
  | binary ha hr iha ihr => exact halting_binary s0 ha hr iha ihr (complete_all s0 hD ha)
  | rest_nil => exact halting_rest_nil s0 _
  | rest_cons hop hv ha hr iha ihr =>
    exact halting_rest_cons s0 hop hv ha hr iha ihr (complete_all s0 hD ha)
  | unary_op hop hv _ iha => exact halting_unary_op s0 hop hv iha
  | unary_primary ha iha => exact halting_unary_primary s0 ha iha
  | primary_identifier hid => exact halting_primary_identifier s0 hid
  | primary_number hnum => exact halting_primary_number s0 hnum
  | primary_paren hlp he hrp ihe =>
    exact halting_primary_paren s0 hD hlp he hrp ihe (complete_all s0 hD he)

/-! ## Invalid characters -/

theorem derives_no_error {X : NT} {ts : List Token} (h : Derives X ts) :
    ∀ t ∈ ts, t.type ≠ .TOKEN_ERROR := by
  induction h <;>
    simp_all [List.forall_mem_append, List.forall_mem_cons, is_kw, is_delim, is_op, or_imp,
      forall_and]

theorem parse_program_eof (n : Nat) (s s' : State) (h : parse_program n s = .ok s') :
    s'.current_token.type = .TOKEN_EOF := by
  unfold parse_program at h
  rw [andThen_ok] at h
  obtain ⟨s1, _, h2⟩ := h
  split at h2
  · cases h2
  · rename_i heof
    cases h2
    exact not_not.mp heof

/-- The analysis stops at the first token of type `TOKEN_ERROR`: when the
tokens before it begin a program of the grammar and obey the scoping rule,
the analysis ends with the syntax condition raised at that token. -/
theorem analyse_invalid (input : List Char) (pre rest rest2 : List Token) (bad : Token)
    (st : Scopes × Bool)
    (htokens : token_sequence input = pre ++ bad :: rest)
    (hbad : bad.type = .TOKEN_ERROR)
    (hgrammar : Derives .program (pre ++ rest2))
    (hscan : scan pre ([[]], false) = .ok st) :
    analyse input = .error (.syntax_error bad) := by
  have hI : Invalid (next_token (initial_state input)) 0 [[]] pre bad rest :=
    ⟨⟨[], by rw [pending_initial, htokens]; rfl, rfl⟩, by simp, hbad, st, hscan⟩
  have h := halting_all (next_token (initial_state input)) (delimOK_initial input) hgrammar
    pre rest2 (budget input) 0 [[]] rest bad rfl hI
  have h' : Halts (parse_program (budget input) (after (next_token (initial_state input)) 0
      [[]])) bad := h
  rw [after_zero _ _ (refines_initial input)] at h'
  rcases h' with h' | h' | ⟨s', h', hs'⟩
  · exact absurd h' (analyse_terminates input)
  · exact h'
  · have := parse_program_eof _ _ _ h'
    rw [hs', hbad] at this
    cases this

/-- No input with a token of type `TOKEN_ERROR` is accepted. -/
theorem analyse_rejects_invalid (input : List Char)
    (h : ∃ t ∈ token_sequence input, t.type = .TOKEN_ERROR) : ∃ e, analyse input = .error e := by
  obtain ⟨t, ht, htype⟩ := h
  cases hr : analyse input with
  | ok s' =>
    have hd := (sound_program _ _ s' [[]] (refines_initial input) (delimOK_initial input)
      hr).1
    rw [pending_initial] at hd
    exact absurd htype (derives_no_error hd t ht)
  | error e => exact ⟨e, rfl⟩
  | out_of_fuel => exact absurd hr (analyse_terminates input)

/-- The character that a token of type `TOKEN_ERROR` is made of belongs to no
class, and the lexeme is that character as a C string. -/
theorem error_token_character (s : Source) (ws r : List Char) (c : Char)
    (hin : s.input_file = ws ++ c :: r) (hws : ∀ x ∈ ws, isspace x = true)
    (hc : isspace c = false) (ht : (get_next_token s).1.type = .TOKEN_ERROR) :
    isalpha c = false ∧ isdigit c = false ∧ is_operator c = false ∧
      is_delimiter c = false ∧ (get_next_token s).1.value = one_char c := by
  have hal : isalpha c = false := by
    cases hal : isalpha c
    · rfl
    · exfalso
      have h := get_next_token_word s ws (r.takeWhile isalnum) (r.dropWhile isalnum) c
        (by rw [List.takeWhile_append_dropWhile]; exact hin) hws hal
        (fun x hx => (List.mem_takeWhile_imp hx)) (takeWhile_dropWhile_next isalnum r)
      rw [h] at ht
      simp only [] at ht
      split at ht <;> cases ht
  have hdi : isdigit c = false := by
    cases hdi : isdigit c
    · rfl
    · exfalso
      have h := get_next_token_number s ws (r.takeWhile isdigit) (r.dropWhile isdigit) c
        (by rw [List.takeWhile_append_dropWhile]; exact hin) hws hdi
        (fun x hx => (List.mem_takeWhile_imp hx)) (takeWhile_dropWhile_next isdigit r)
      rw [h] at ht
      cases ht
  have hop : is_operator c = false := by
    cases hop : is_operator c
    · rfl
    · exfalso
      have h := get_next_token_operator s ws r c hws hop hin
      rw [h] at ht
      split at ht <;> cases ht
  have hde : is_delimiter c = false := by
    cases hde : is_delimiter c
    · rfl
    · exfalso
      rw [get_next_token_delim s ws r c hin hws hde] at ht
      cases ht
  refine ⟨hal, hdi, hop, hde, ?_⟩
  rw [get_next_token_invalid s ws r c hin hws hc hal hdi hop hde]

/-- The token for a character of no class. -/
theorem invalid_character_token (s : Source) (ws rest : List Char) (c : Char)
    (hin : s.input_file = ws ++ c :: rest) (hws : ∀ x ∈ ws, isspace x = true)
    (hsp : isspace c = false) (hal : isalpha c = false) (hdi : isdigit c = false)
    (hop : is_operator c = false) (hde : is_delimiter c = false) :
    (get_next_token s).1.type = .TOKEN_ERROR ∧
      (get_next_token s).1.value = one_char c ∧
      (c.toNat ≠ 0 → (get_next_token s).1.value = [c]) ∧
      (c.toNat = 0 → (get_next_token s).1.value = []) ∧
      (get_next_token s).2.input_file = rest := by
  rw [get_next_token_invalid s ws rest c hin hws hsp hal hdi hop hde]
  refine ⟨rfl, rfl, fun h => one_char_of_ne c h, fun h => ?_, ?_⟩
  · show one_char c = []
    unfold one_char
    rw [if_pos h]
  · exact advance_input (ws ++ [c]) s rest (by rw [hin]; simp)

/-- The position of the first token of type `TOKEN_ERROR` is that of a
character of no class. -/
theorem invalid_token_located (input : List Char) (pre rest : List Token) (bad : Token)
    (htokens : token_sequence input = pre ++ bad :: rest) (hbad : bad.type = .TOKEN_ERROR) :
    ∃ consumed ws c after,
      input = consumed ++ ws ++ c :: after ∧ (∀ x ∈ ws, isspace x = true) ∧
      isspace c = false ∧ isalpha c = false ∧ isdigit c = false ∧ is_operator c = false ∧
      is_delimiter c = false ∧ bad.value = one_char c ∧
      bad.line = line_of (consumed ++ ws) ∧ bad.column = column_of (consumed ++ ws) := by
  have ht : (token_sequence input)[pre.length]? = some bad := by
    rw [htokens, List.getElem?_append_right (le_refl _), Nat.sub_self]
    simp
  obtain ⟨consumed, ws, c, after, hin, hsrc, htok, hws, hc, _, hline, hcol⟩ :=
    token_located input pre.length bad ht (by rw [hbad]; simp)
  obtain ⟨hal, hdi, hop, hde, hval⟩ := error_token_character _ ws after c hsrc hws hc
    (by rw [← htok]; exact hbad)
  exact ⟨consumed, ws, c, after, hin, hws, hc, hal, hdi, hop, hde, by rw [htok]; exact hval,
    hline, hcol⟩

/-- C13 (as stated, refuted): the NUL character is no white space, letter,
digit, operator or delimiter, and the token that `get_next_token` returns for
the input that consists of it has type `TOKEN_ERROR` and an empty lexeme, not
a lexeme of one character. -/
theorem invalid_nul_lexeme :
    isspace (Char.ofNat 0) = false ∧ isalpha (Char.ofNat 0) = false ∧
      isdigit (Char.ofNat 0) = false ∧ is_operator (Char.ofNat 0) = false ∧
      is_delimiter (Char.ofNat 0) = false ∧
      (get_next_token ⟨[Char.ofNat 0], 1, 0⟩).1 = ⟨.TOKEN_ERROR, [], 1, 1⟩ := by
  decide

/-- C13 (amended): (1) when the first character of the input that is not
white is no letter, digit, operator character or delimiter character,
`get_next_token` returns a token of type `TOKEN_ERROR` and consumes that one
character after the white space; the lexeme is the character, and it is empty
when the character is NUL; (2) when the tokens of the input before the first
token of type `TOKEN_ERROR` begin a program of the grammar and obey the
scoping rule, the analysis ends with the condition that `syntax_error` raises
at that token (the program has no other condition for it), whose line and
column are those of a character of no class in the input; (3) no input with a
token of type `TOKEN_ERROR` is accepted. -/
theorem invalid_characters :
    (∀ (s : Source) (ws rest : List Char) (c : Char), s.input_file = ws ++ c :: rest →
      (∀ x ∈ ws, isspace x = true) → isspace c = false → isalpha c = false →
      isdigit c = false → is_operator c = false → is_delimiter c = false →
      (get_next_token s).1.type = .TOKEN_ERROR ∧
        (get_next_token s).1.value = one_char c ∧
        (c.toNat ≠ 0 → (get_next_token s).1.value = [c]) ∧
        (c.toNat = 0 → (get_next_token s).1.value = []) ∧
        (get_next_token s).2.input_file = rest) ∧
    (∀ (input : List Char) (pre rest rest2 : List Token) (bad : Token) (st : Scopes × Bool),
      token_sequence input = pre ++ bad :: rest → bad.type = .TOKEN_ERROR →
      Derives .program (pre ++ rest2) → scan pre ([[]], false) = .ok st →
      analyse input = .error (.syntax_error bad) ∧
        ∃ consumed ws c after,
          input = consumed ++ ws ++ c :: after ∧ (∀ x ∈ ws, isspace x = true) ∧
          isspace c = false ∧ isalpha c = false ∧ isdigit c = false ∧
          is_operator c = false ∧ is_delimiter c = false ∧ bad.value = one_char c ∧
          bad.line = line_of (consumed ++ ws) ∧ bad.column = column_of (consumed ++ ws)) ∧
    (∀ input : List Char, (∃ t ∈ token_sequence input, t.type = .TOKEN_ERROR) →
      ∃ e, analyse input = .error e) :=
  ⟨invalid_character_token,
    fun input pre rest rest2 bad st htokens hbad hgrammar hscan =>
      ⟨analyse_invalid input pre rest rest2 bad st htokens hbad hgrammar hscan,
        invalid_token_located input pre rest bad htokens hbad⟩,
    analyse_rejects_invalid⟩

/-- Witness of C13: in `int x @` the declaration of `x` is read and the
analysis ends with the syntax condition at the token of `@`, line 1, column
7. -/
theorem invalid_characters_witness :
    analyse "int x @".toList = .error (.syntax_error ⟨.TOKEN_ERROR, ['@'], 1, 7⟩) :=
  (invalid_characters.2.1 "int x @".toList
    [⟨.TOKEN_KEYWORD, "int".toList, 1, 1⟩, ⟨.TOKEN_IDENTIFIER, ['x'], 1, 5⟩]
    [⟨.TOKEN_EOF, [], 1, 7⟩]
    [⟨.TOKEN_DELIMITER, [';'], 1, 6⟩, ⟨.TOKEN_EOF, [], 1, 6⟩]
    ⟨.TOKEN_ERROR, ['@'], 1, 7⟩ ([[['x']]], false) (by decide) rfl
    ((Derives.program (.stmtList_cons (.statement_decl
      (@Derives.decl ⟨.TOKEN_KEYWORD, "int".toList, 1, 1⟩ ⟨.TOKEN_IDENTIFIER, ['x'], 1, 5⟩
        ⟨.TOKEN_DELIMITER, [';'], 1, 6⟩ ⟨rfl, rfl⟩ rfl ⟨rfl, rfl⟩)) .stmtList_nil)
      (show (⟨.TOKEN_EOF, [], 1, 6⟩ : Token).type = .TOKEN_EOF from rfl)).cast rfl) rfl).1

end Comp
